import Mathlib

/-!
# Prime thermodynamics engine: wheel, sieve and streaming analyzer

A shallow embedding of `src/thermodynamics.cpp` (the number-theoretic core:
`Constants`, `classIndex`, `PrimeSieve`, `v2_of`, `WheelIterator`, the loop
of `Worker::process` with `Worker::stop`, and the slots `onStart` and `onStop` of
`MainWindow`) together with theorems about it.

Conventions of the embedding.

* `uint64_t` values are natural numbers; every operation of the wheel and of
  the analyzer loop that can wrap is written with an explicit `% 2^64`.
* The sieve arithmetic `limit + 1`, `i * i`, `j += i` and `++i` is `uint64_t`
  arithmetic, written with `% 2^64`. Allocation of the `std::vector<bool>` of
  `(limit + 1) % 2^64` flags succeeds; a write to the empty vector faults, and
  `generateBasePrimes` returns `none` then. For `limit = 0` the write
  `sieve[1] = false` falls into the unused bits of the one storage word of the
  vector and changes no flag.
* Counters that are incremented at most once per loop iteration are plain
  natural numbers.
* `long double` running sums of integers are exact integer sums.
* `std::sqrt` on a `double` followed by truncation is the integer square root
  (`floorSqrt`), `std::log10` followed by truncation is the integer base ten
  logarithm (`floorLog10`).
* Divisions that produce a `double` are exact rational divisions.
* The fields that are computed from a natural logarithm (`sumLn2`,
  `kTPrimeTheoretical`, `kTTwinTheoretical`, `kTRatio`), the constant `kTBinary`
  and `boltzmannR2` are not part of the state.
* The atomic flag `m_stopRequested` is a Boolean member of `Worker`; the loop
  guard reads it once per iteration (`Worker.whileLoop`), and `Worker.run` is
  the loop for a given number of iterations with the flag clear.
* The slots of `MainWindow` act on the members they read and write; the text
  of the start field enters as the result of `toULongLong`, `none` when the
  conversion fails.
* Loops are structural recursions; a loop whose bound is not syntactic takes
  a fuel argument, and the callers pass a fuel that is never exhausted. The
  loops of the sieve get `limit + 1` steps, which is enough as long as none of
  their indices wraps.
-/

namespace Constants

def FROZEN_LIMIT : Nat := 500
def TRANSITION_LIMIT : Nat := 10000
def ASYMPTOTIC_LIMIT : Nat := 100000
def PRECISE_LIMIT : Nat := 1000000

def TWIN_CLASSES : List Nat := [11, 17, 29]

def GAP_MIN : List (List Nat) :=
  [[30, 6, 18],
   [24, 30, 12],
   [12, 18, 30]]

def WHEEL_SIZE : Nat := 48

def WHEEL_OFFSETS : List Nat :=
  [1, 11, 13, 17, 19, 23, 29, 31, 37, 41, 43, 47,
   53, 59, 61, 67, 71, 73, 79, 83, 89, 97, 101, 103,
   107, 109, 113, 121, 127, 131, 137, 139, 143, 149, 151, 157,
   163, 167, 169, 173, 179, 181, 187, 191, 193, 197, 199, 209]

end Constants

/-- Two to the power 64, the modulus of `uint64_t` arithmetic. -/
def U64 : Nat := 2 ^ 64

/-- Wrapping `uint64_t` subtraction `a - b`. -/
def subU64 (a b : Nat) : Nat := (a + U64 - b % U64) % U64

/-- Regime of the system (`enum class Regime`). -/
inductive Regime where
  | Frozen
  | Transition
  | Asymptotic
  | Precise
deriving DecidableEq, Repr

/-- Class index mod 30 of a twin lower member (`classIndex`). -/
def classIndex (p : Nat) : Int :=
  let r := p % 30
  if r = 11 then 0
  else if r = 17 then 1
  else if r = 29 then 2
  else -1

/-- Integer square root by binary descent; `fuel` bounds the number of base-4 digits. -/
def floorSqrtAux : Nat → Nat → Nat
  | 0, _ => 0
  | fuel + 1, n =>
    if n = 0 then 0
    else
      let r := 2 * floorSqrtAux fuel (n / 4)
      if (r + 1) * (r + 1) ≤ n then r + 1 else r

/-- The value of `static_cast<uint64_t>(std::sqrt(static_cast<double>(n)))`,
taken as the integer square root of `n`. -/
def floorSqrt (n : Nat) : Nat := floorSqrtAux n n

namespace PrimeSieve

/-- Inner loop of `generateBasePrimes`:
`for (j = ...; j <= limit; j += i) sieve[j] = false;`, with `j += i` in `uint64_t`. -/
def markMultiples (limit i : Nat) : Nat → Nat → List Bool → List Bool
  | 0, _, sieve => sieve
  | fuel + 1, j, sieve =>
    if j ≤ limit then markMultiples limit i fuel ((j + i) % U64) (sieve.set j false)
    else sieve

/-- Outer loop of `generateBasePrimes`:
`for (i = ...; i * i <= limit; ++i) if (sieve[i]) { inner loop from i * i }`,
with `i * i` and `++i` in `uint64_t`. -/
def sieveLoop (limit : Nat) : Nat → Nat → List Bool → List Bool
  | 0, _, sieve => sieve
  | fuel + 1, i, sieve =>
    if i * i % U64 ≤ limit then
      sieveLoop limit fuel ((i + 1) % U64)
        (if sieve.getD i false then markMultiples limit i (limit + 1) (i * i % U64) sieve
         else sieve)
    else sieve

/-- Collection loop of `generateBasePrimes`:
`for (i = ...; i <= limit; ++i) if (sieve[i]) m_basePrimes.push_back(i);`,
with `++i` in `uint64_t`. -/
def collect (limit : Nat) (sieve : List Bool) : Nat → Nat → List Nat → List Nat
  | 0, _, acc => acc
  | fuel + 1, i, acc =>
    if i ≤ limit then
      collect limit sieve fuel ((i + 1) % U64) (if sieve.getD i false then acc ++ [i] else acc)
    else acc

/-- The flags of the boolean sieve after the marking phase of `generateBasePrimes`.
The vector is built with `limit + 1` flags, a size computed in `uint64_t`: for
`limit = 2^64 - 1` the size is 0, the vector owns no storage, and the statement
`sieve[0] = sieve[1] = false` faults; the result is then `none`. -/
def sieveFlags (limit : Nat) : Option (List Bool) :=
  let size := (limit + 1) % U64
  if size = 0 then none
  else
    let sieve := List.replicate size true
    let sieve := (sieve.set 0 false).set 1 false
    some (sieveLoop limit (limit + 1) 2 sieve)

/-- The vector `m_basePrimes` built by `generateBasePrimes(limit)`, `none` when the
call faults. -/
def generateBasePrimes (limit : Nat) : Option (List Nat) :=
  (sieveFlags limit).map fun sieve => collect limit sieve (limit + 1) 11 []

/-- The flag invariant of the outer loop at index `i`: `m` has no proper divisor in `[2, i)`. -/
def NoSmallDivisor (i m : Nat) : Prop :=
  2 ≤ m ∧ ∀ d, 2 ≤ d → d < i → d ∣ m → d = m

/-- The trial division loop of `isPrimeFromWheel` over `m_basePrimes`. -/
def trialLoop (n sqrtN : Nat) : List Nat → Bool
  | [] => true
  | p :: ps =>
    if p > sqrtN then true
    else if n % p = 0 then false
    else trialLoop n sqrtN ps

end PrimeSieve

/-- The class `PrimeSieve`: its only member is `m_basePrimes`. -/
structure PrimeSieve where
  m_basePrimes : List Nat
deriving DecidableEq, Repr

namespace PrimeSieve

/-- The object that the constructor `PrimeSieve(limit)` works on: `m_basePrimes` is
empty when the body starts and `generateBasePrimes(limit)` fills it; when that call
faults nothing has been pushed. -/
def new (limit : Nat) : PrimeSieve := ⟨(generateBasePrimes limit).getD []⟩

/-- The method `isPrimeFromWheel`. -/
def isPrimeFromWheel (s : PrimeSieve) (n : Nat) : Bool :=
  if n < 121 then decide (n > 1)
  else
    let sqrtN := floorSqrt n + 1
    trialLoop n sqrtN s.m_basePrimes

/-- The method `isPrime`. -/
def isPrime (s : PrimeSieve) (n : Nat) : Bool :=
  if n < 2 then false
  else if n = 2 ∨ n = 3 ∨ n = 5 ∨ n = 7 then true
  else if n % 2 = 0 ∨ n % 3 = 0 ∨ n % 5 = 0 ∨ n % 7 = 0 then false
  else s.isPrimeFromWheel n

end PrimeSieve

/-- Count of trailing zero bits of a nonzero `x` (`__builtin_ctzll`), at most `fuel`. -/
def ctz : Nat → Nat → Nat
  | 0, _ => 0
  | fuel + 1, x => if x % 2 = 1 then 0 else 1 + ctz fuel (x / 2)

/-- The function `v2_of` on a 64-bit value. -/
def v2_of (x : Nat) : Nat :=
  if x = 0 then 0 else ctz 64 x

/-- The class `WheelIterator`. -/
structure WheelIterator where
  m_base : Nat
  m_idx : Nat
deriving DecidableEq, Repr

namespace WheelIterator

/-- The search loop of the constructor, walking `WHEEL_OFFSETS` from index `i`:
the first index whose candidate `m_base + WHEEL_OFFSETS[i]` (wrapping) is `>= start`. -/
def findOffset (m_base start : Nat) : List Nat → Nat → Option Nat
  | [], _ => none
  | off :: rest, i =>
    if (m_base + off) % U64 ≥ start then some i
    else findOffset m_base start rest (i + 1)

/-- The constructor `WheelIterator(start)`. -/
def new (start : Nat) : WheelIterator :=
  let m_base := (start / 210) * 210
  match findOffset m_base start Constants.WHEEL_OFFSETS 0 with
  | some i => ⟨m_base, i⟩
  | none => ⟨(m_base + 210) % U64, 0⟩

/-- The method `current`. -/
def current (w : WheelIterator) : Nat :=
  (w.m_base + Constants.WHEEL_OFFSETS.getD w.m_idx 0) % U64

/-- The method `next`. -/
def next (w : WheelIterator) : WheelIterator :=
  if w.m_idx + 1 ≥ Constants.WHEEL_SIZE then ⟨(w.m_base + 210) % U64, 0⟩
  else ⟨w.m_base, w.m_idx + 1⟩

/-- The iterator after `k` calls of `next`. -/
def advance (w : WheelIterator) : Nat → WheelIterator
  | 0 => w
  | k + 1 => (advance w k).next

/-- The position of an iterator in the stream of wheel slots: 48 slots per block. -/
def pos (w : WheelIterator) : Nat := w.m_base / 210 * 48 + w.m_idx

/-- The iterator is in a state that no `uint64_t` wraparound has touched: the
index is in range, the base is a multiple of 210 and its whole block fits. -/
def Aligned (w : WheelIterator) : Prop :=
  w.m_idx < 48 ∧ w.m_base % 210 = 0 ∧ w.m_base + 210 ≤ U64

/-- A sufficient condition for `k` calls of `next` after `WheelIterator(b)` to stay
below `2^64`: the block reached after `k` steps, and the one after it, fit. -/
def NoWrap (b k : Nat) : Prop := b / 210 * 210 + 210 * (k / 48 + 2) ≤ U64

end WheelIterator

/-- Analysis mode (`enum class AnalysisMode`). -/
inductive AnalysisMode where
  | Primes
  | Twins
  | Both
deriving DecidableEq, Repr

/-- Adds `v` to the cell `i` of a counter array. -/
def addAt (l : List Nat) (i v : Nat) : List Nat :=
  l.set i (l.getD i 0 + v)

/-- Adds `v` to the cell `[i][j]` of a two-dimensional counter array. -/
def addAt2 (m : List (List Nat)) (i j v : Nat) : List (List Nat) :=
  m.set i (addAt (m.getD i []) j v)

/-- The struct `TransitionStats`: `count[3][3]` and `sumGap[3][3]`. -/
structure TransitionStats where
  count : List (List Nat)
  sumGap : List (List Nat)
deriving DecidableEq, Repr

/-- The zero-initialised `TransitionStats`. -/
def TransitionStats.zero : TransitionStats :=
  ⟨[[0, 0, 0], [0, 0, 0], [0, 0, 0]], [[0, 0, 0], [0, 0, 0], [0, 0, 0]]⟩

/-- The struct `DecadeStats` (`count` and `sumExcess`; `sumLn2` is a sum of logarithms). -/
structure DecadeStats where
  count : Nat
  sumExcess : Int
deriving DecidableEq, Repr

/-- The value stored in `Stats::corrV2`: the initial `0.0`, or the quotient
`cov / sqrt(varP * varG)` of the three recorded rationals. -/
inductive CorrValue where
  | zero
  | pearson (cov varP varG : ℚ)
deriving DecidableEq, Repr

/-- The struct `Stats` (the fields that do not depend on a logarithm). -/
structure Stats where
  currentN : Nat
  primeCount : Nat
  twinCount : Nat
  regime : Regime
  avgPrimeGap : ℚ
  avgTwinGap : ℚ
  kTPrimeEmpirical : ℚ
  kTTwinEmpirical : ℚ
  kTTwinAsymptotic : ℚ
  asymptoticCount : Nat
  meanV2 : ℚ
  v2Histogram : List Nat
  meanV2Gap : ℚ
  v2GapHistogram : List Nat
  corrV2 : CorrValue
  transitions : TransitionStats
  decades : List DecadeStats
deriving DecidableEq, Repr

/-- The default-initialised `Stats`. -/
def Stats.init : Stats where
  currentN := 0
  primeCount := 0
  twinCount := 0
  regime := Regime.Frozen
  avgPrimeGap := 0
  avgTwinGap := 0
  kTPrimeEmpirical := 0
  kTTwinEmpirical := 0
  kTTwinAsymptotic := 0
  asymptoticCount := 0
  meanV2 := 0
  v2Histogram := List.replicate 8 0
  meanV2Gap := 0
  v2GapHistogram := List.replicate 8 0
  corrV2 := CorrValue.zero
  transitions := TransitionStats.zero
  decades := List.replicate 8 ⟨0, 0⟩

/-- Reinterpretation of a 64-bit pattern as `int64_t`. -/
def toInt64 (x : Nat) : Int :=
  if x % U64 < 2 ^ 63 then (x % U64 : Nat) else ((x % U64 : Nat) : Int) - (U64 : Nat)

/-- Integer base ten logarithm, at most `fuel` digits. -/
def floorLog10Aux : Nat → Nat → Nat
  | 0, _ => 0
  | fuel + 1, n => if n < 10 then 0 else 1 + floorLog10Aux fuel (n / 10)

/-- The value of `static_cast<int>(std::log10(static_cast<double>(p)))` for `p >= 1`,
taken as the integer logarithm. -/
def floorLog10 (p : Nat) : Nat := floorLog10Aux 20 p

/-- The regime chosen for a snapshot at candidate `n`. -/
def regimeOf (n : Nat) : Regime :=
  if n < Constants.FROZEN_LIMIT then Regime.Frozen
  else if n < Constants.TRANSITION_LIMIT then Regime.Transition
  else if n < Constants.PRECISE_LIMIT then Regime.Asymptotic
  else Regime.Precise

/-- The histogram update `if (k >= 1 && k <= 7) h[k - 1]++; else if (k >= 8) h[7]++;`. -/
def bumpHistogram (h : List Nat) (k : Nat) : List Nat :=
  if k ≥ 1 ∧ k ≤ 7 then addAt h (k - 1) 1
  else if k ≥ 8 then addAt h 7 1
  else h

/-- The local variables of `Worker::process` that live across loop iterations. -/
structure LoopState where
  wheel : WheelIterator
  lastPrime : Nat
  primeCount : Nat
  sumPrimeGaps : Nat
  lastTwinP : Nat
  lastTwinClass : Int
  twinCount : Nat
  sumTwinGaps : Nat
  sumTwinExcess : Int
  asymptoticCount : Nat
  sumAsymptoticExcess : Int
  sumV2 : Nat
  countV2 : Nat
  v2Histogram : List Nat
  sumV2Gap : Nat
  countV2Gap : Nat
  v2GapHistogram : List Nat
  sumV2Product : Nat
  sumV2Sq : Nat
  sumV2GapSq : Nat
  transitions : TransitionStats
  decades : List DecadeStats
  stats : Stats
  primesSinceLastUpdate : Nat
deriving DecidableEq, Repr

/-- The class `Worker` (the members the loop reads). -/
structure Worker where
  m_stopRequested : Bool
  m_startN : Nat
  m_mode : AnalysisMode
  m_multiThread : Bool
  m_sieve : PrimeSieve
deriving DecidableEq, Repr

namespace Worker

/-- The constant `progressStep` of `process`. -/
def progressStep : Nat := 5000

/-- The constructor `Worker()`: the sieve limit is ten million. -/
def new : Worker := ⟨false, 3, AnalysisMode.Both, false, PrimeSieve.new 10000000⟩

/-- The method `configure`. -/
def configure (w : Worker) (startN : Nat) (mode : AnalysisMode) (multiThread : Bool) : Worker :=
  { w with m_startN := max startN 3, m_mode := mode, m_multiThread := multiThread }

/-- The state of `process` when the loop is first entered. -/
def initState (w : Worker) : LoopState where
  wheel := WheelIterator.new w.m_startN
  lastPrime := 0
  primeCount := 0
  sumPrimeGaps := 0
  lastTwinP := 0
  lastTwinClass := -1
  twinCount := 0
  sumTwinGaps := 0
  sumTwinExcess := 0
  asymptoticCount := 0
  sumAsymptoticExcess := 0
  sumV2 := 0
  countV2 := 0
  v2Histogram := List.replicate 8 0
  sumV2Gap := 0
  countV2Gap := 0
  v2GapHistogram := List.replicate 8 0
  sumV2Product := 0
  sumV2Sq := 0
  sumV2GapSq := 0
  transitions := TransitionStats.zero
  decades := List.replicate 8 ⟨0, 0⟩
  stats := Stats.init
  primesSinceLastUpdate := 0

/-- The statements from `++primeCount` to the `v2Histogram` update. -/
def recordPrime (s : LoopState) (n : Nat) : LoopState :=
  let k := v2_of ((n + 1) % U64)
  { s with
    primeCount := s.primeCount + 1
    sumV2 := s.sumV2 + k
    countV2 := s.countV2 + 1
    v2Histogram := bumpHistogram s.v2Histogram k }

/-- The decade update of a twin transition. -/
def recordDecade (decades : List DecadeStats) (lastTwinP : Nat) (excess : Int) :
    List DecadeStats :=
  if lastTwinP ≥ 1000 then
    let decIdx : Int := (floorLog10 lastTwinP : Int) - 3
    if decIdx ≥ 0 ∧ decIdx < 8 then
      let d := decades.getD decIdx.toNat ⟨0, 0⟩
      decades.set decIdx.toNat ⟨d.count + 1, d.sumExcess + excess⟩
    else decades
  else decades

/-- The body of `if (lastTwinP != 0 && lastTwinClass >= 0)`: a twin to twin transition. -/
def recordTransition (s : LoopState) (twinP : Nat) (twinClass : Int) : LoopState :=
  let twinGap := subU64 twinP s.lastTwinP
  let gapMin := (Constants.GAP_MIN.getD s.lastTwinClass.toNat []).getD twinClass.toNat 0
  let excess := toInt64 (subU64 twinGap gapMin)
  let v2_gap := v2_of twinGap
  let v2_prev := v2_of ((s.lastTwinP + 1) % U64)
  { s with
    sumTwinGaps := s.sumTwinGaps + twinGap
    sumTwinExcess := s.sumTwinExcess + excess
    sumV2Gap := s.sumV2Gap + v2_gap
    countV2Gap := s.countV2Gap + 1
    v2GapHistogram := bumpHistogram s.v2GapHistogram v2_gap
    sumV2Product := s.sumV2Product + v2_prev * v2_gap
    sumV2Sq := s.sumV2Sq + v2_prev * v2_prev
    sumV2GapSq := s.sumV2GapSq + v2_gap * v2_gap
    decades := recordDecade s.decades s.lastTwinP excess
    asymptoticCount :=
      if s.lastTwinP > Constants.ASYMPTOTIC_LIMIT then s.asymptoticCount + 1
      else s.asymptoticCount
    sumAsymptoticExcess :=
      if s.lastTwinP > Constants.ASYMPTOTIC_LIMIT then s.sumAsymptoticExcess + excess
      else s.sumAsymptoticExcess
    transitions :=
      ⟨addAt2 s.transitions.count s.lastTwinClass.toNat twinClass.toNat 1,
       addAt2 s.transitions.sumGap s.lastTwinClass.toNat twinClass.toNat twinGap⟩ }

/-- The body of `if (gap == 2)`: twin detection with the defensive class check. -/
def recordTwin (s : LoopState) : LoopState :=
  let twinP := s.lastPrime
  let twinClass := classIndex twinP
  if twinClass ≥ 0 then
    let s := { s with twinCount := s.twinCount + 1 }
    let s := if s.lastTwinP ≠ 0 ∧ s.lastTwinClass ≥ 0 then recordTransition s twinP twinClass else s
    { s with lastTwinP := twinP, lastTwinClass := twinClass }
  else s

/-- The body of `if (lastPrime != 0)`: the prime gap and the twin test. -/
def recordGap (s : LoopState) (n : Nat) : LoopState :=
  if s.lastPrime ≠ 0 then
    let gap := subU64 n s.lastPrime
    let s := { s with sumPrimeGaps := s.sumPrimeGaps + gap }
    if gap = 2 then recordTwin s else s
  else s

/-- The Pearson block of the snapshot: the value assigned to `stats.corrV2`. -/
def corrOf (s : LoopState) (old : CorrValue) : CorrValue :=
  if s.countV2Gap > 10 then
    let n : ℚ := s.countV2Gap
    let meanP : ℚ := (s.sumV2 : ℚ) / s.countV2
    let meanG : ℚ := (s.sumV2Gap : ℚ) / s.countV2Gap
    let cov := (s.sumV2Product : ℚ) / n - meanP * meanG
    let varP := (s.sumV2Sq : ℚ) / n - meanP * meanP
    let varG := (s.sumV2GapSq : ℚ) / n - meanG * meanG
    if varP > 0 ∧ varG > 0 then CorrValue.pearson cov varP varG else old
  else old

/-- The body of `if (primesSinceLastUpdate >= progressStep)` up to `emit progress(stats)`:
the new value of `stats`. -/
def updateStats (s : LoopState) (n : Nat) : Stats :=
  let st := s.stats
  let avgPrimeGap : ℚ :=
    if s.primeCount > 1 then (s.sumPrimeGaps : ℚ) / ((s.primeCount - 1 : Nat) : ℚ)
    else st.avgPrimeGap
  { currentN := n
    primeCount := s.primeCount
    twinCount := s.twinCount
    regime := regimeOf n
    avgPrimeGap := avgPrimeGap
    kTPrimeEmpirical := if s.primeCount > 1 then avgPrimeGap - 2 else st.kTPrimeEmpirical
    avgTwinGap :=
      if s.twinCount > 1 then (s.sumTwinGaps : ℚ) / ((s.twinCount - 1 : Nat) : ℚ)
      else st.avgTwinGap
    kTTwinEmpirical :=
      if s.twinCount > 1 then (s.sumTwinExcess : ℚ) / ((s.twinCount - 1 : Nat) : ℚ)
      else st.kTTwinEmpirical
    asymptoticCount := s.asymptoticCount
    kTTwinAsymptotic :=
      if s.asymptoticCount > 10 then (s.sumAsymptoticExcess : ℚ) / (s.asymptoticCount : ℚ)
      else st.kTTwinAsymptotic
    meanV2 := if s.countV2 > 0 then (s.sumV2 : ℚ) / (s.countV2 : ℚ) else st.meanV2
    v2Histogram := if s.countV2 > 0 then s.v2Histogram else st.v2Histogram
    meanV2Gap := if s.countV2Gap > 0 then (s.sumV2Gap : ℚ) / (s.countV2Gap : ℚ) else st.meanV2Gap
    v2GapHistogram := if s.countV2Gap > 0 then s.v2GapHistogram else st.v2GapHistogram
    corrV2 := corrOf s st.corrV2
    transitions := s.transitions
    decades := s.decades }

/-- The end of an iteration that confirmed the prime `n`: from `lastPrime = n` to
the end of the loop body, with the snapshot emitted, if any. -/
def finishPrime (s : LoopState) (n : Nat) : LoopState × Option Stats :=
  let s := { s with lastPrime := n, primesSinceLastUpdate := s.primesSinceLastUpdate + 1 }
  if s.primesSinceLastUpdate ≥ progressStep then
    let s := { s with primesSinceLastUpdate := 0 }
    let st := updateStats s n
    ({ s with stats := st }, some st)
  else (s, none)

/-- One iteration of the `while` loop of `process`; the second component is the
snapshot passed to `emit progress(stats)`, if the iteration emits one. -/
def loopBody (w : Worker) (s : LoopState) : LoopState × Option Stats :=
  let n := s.wheel.current
  let s := { s with wheel := s.wheel.next }
  if w.m_sieve.isPrimeFromWheel n = false then (s, none)
  else finishPrime (recordGap (recordPrime s n) n) n

/-- The loop of `process` run for `k` iterations (the stop flag is first seen set at
the top of iteration `k`): the final state and the snapshots emitted, oldest first. -/
def run (w : Worker) : Nat → LoopState × List Stats
  | 0 => (w.initState, [])
  | k + 1 =>
    let r := w.run k
    let r' := w.loopBody r.1
    (r'.1, r.2 ++ r'.2.toList)

/-- The method `stop`: `m_stopRequested.store(true)`. -/
def stop (w : Worker) : Worker :=
  { w with m_stopRequested := true }

/-- The `while (!m_stopRequested.load())` loop of `process` entered in state `s`, for as
long as no other thread changes the flag; `fuel` bounds the number of times the guard
is evaluated. The result is the state reached, the snapshots emitted, and whether the
guard was found set, so that `emit finished()` is reached. -/
def whileLoop (w : Worker) : Nat → LoopState → LoopState × List Stats × Bool
  | 0, s => (s, [], false)
  | fuel + 1, s =>
    if w.m_stopRequested then (s, [], true)
    else
      let r := w.loopBody s
      let t := whileLoop w fuel r.1
      (t.1, r.2.toList ++ t.2.1, t.2.2)

/-- The candidate drawn from the wheel in iteration `j` (counting from zero). -/
def candidate (w : Worker) (j : Nat) : Nat :=
  ((WheelIterator.new w.m_startN).advance j).current

/-- Whether iteration `j` passes the test `isPrimeFromWheel`, so that its candidate
is counted as a prime. -/
def confirmed (w : Worker) (j : Nat) : Bool :=
  w.m_sieve.isPrimeFromWheel (w.candidate j)

/-- The number of iterations among the first `k` that confirmed a prime. -/
def confirmedCount (w : Worker) : Nat → Nat
  | 0 => 0
  | k + 1 => confirmedCount w k + (if w.confirmed k then 1 else 0)

/-- The iteration started in state `s` reaches the defensive branch of the twin
test: the candidate is confirmed, a previous prime exists, the gap is 2, and
`twinClass >= 0` fails. -/
def defensiveSkip (w : Worker) (s : LoopState) : Prop :=
  w.m_sieve.isPrimeFromWheel s.wheel.current = true ∧ s.lastPrime ≠ 0 ∧
    subU64 s.wheel.current s.lastPrime = 2 ∧ classIndex s.lastPrime < 0

end Worker

/-- The members of `MainWindow` that `onStart` reads or writes: whether `m_workerThread`
and `m_worker` are set, the mode selected in `m_modeCombo`, the two buttons, the lines
of `m_log`, and the number of warning boxes shown. -/
structure MainWindow where
  m_workerThread : Bool
  m_worker : Option Worker
  m_modeCombo : AnalysisMode
  m_startButton : Bool
  m_stopButton : Bool
  m_log : List String
  warnings : Nat

namespace MainWindow

/-- The window after construction: no worker, the start field holds "3". -/
def init : MainWindow := ⟨false, none, AnalysisMode.Both, true, false, [], 0⟩

/-- The slot `onStart`. The text of `m_startEdit` enters as the result of
`toULongLong(&ok)`: `none` when `ok` is false, `some startN` otherwise. -/
def onStart (mw : MainWindow) (parsed : Option Nat) : MainWindow :=
  if mw.m_workerThread then { mw with m_log := mw.m_log ++ ["⚠ Já rodando."] }
  else
    match parsed with
    | none => { mw with warnings := mw.warnings + 1 }
    | some startN =>
      if startN < 2 then { mw with warnings := mw.warnings + 1 }
      else
        { mw with
          m_workerThread := true
          m_worker := some (Worker.new.configure startN mw.m_modeCombo false)
          m_startButton := false
          m_stopButton := true
          m_log := mw.m_log ++ ["▶ Iniciando de n=" ++ toString startN] }

/-- The slot `onStop`: the worker, if any, is asked to stop and the start button is
enabled again; `m_workerThread` stays set, it is cleared only when the thread reports
that it has finished. -/
def onStop (mw : MainWindow) : MainWindow :=
  { mw with
    m_worker := mw.m_worker.map Worker.stop
    m_log := mw.m_log ++ ["⬛ Parando..."]
    m_stopButton := false
    m_startButton := true }

end MainWindow

/-- The value of the wheel slot at position `p`: offset `p mod 48` of block `p / 48`. -/
def slotValue (p : Nat) : Nat :=
  210 * (p / 48) + Constants.WHEEL_OFFSETS.getD (p % 48) 0

/-- Evaluates `f` at `n` after bringing `n` to a numeral. -/
def forceNat {α : Type} (n : Nat) (f : Nat → α) : α :=
  match n with
  | 0 => f 0
  | m + 1 => f (m + 1)

/-- The primes from 11 to 229, the trial divisors for numbers below 230 squared. -/
def smallPrimes : List Nat :=
  [11, 13, 17, 19, 23, 29, 31, 37, 41, 43, 47, 53, 59, 61, 67, 71, 73, 79, 83, 89, 97,
   101, 103, 107, 109, 113, 127, 131, 137, 139, 149, 151, 157, 163, 167, 173, 179, 181,
   191, 193, 197, 199, 211, 223, 227, 229]

/-- The product of `smallPrimes`. -/
def smallPrimorial : Nat :=
  90848889950381881017151865814251227415332569849319105028131032877665238166351947689189239

/-- A primality test for numbers coprime to 210 below 230 squared: no common factor
with the product of the primes from 11 to 229, or one of those primes. -/
def gcdTest (n : Nat) : Bool :=
  forceNat n (fun n =>
    Nat.beq (Nat.gcd n smallPrimorial) 1 || (Nat.ble n 229 && smallPrimes.contains n))

/-- Adds to `acc` the number of wheel slots `1, ..., k` whose value passes `gcdTest`. -/
def countSlotPrimes : Nat → Nat → Nat
  | 0, acc => acc
  | k + 1, acc =>
    forceNat (acc + (bif gcdTest (slotValue (k + 1)) then 1 else 0))
      (fun acc => countSlotPrimes k acc)

/-! ## Predicates on loop states -/

namespace Worker

/-- The iteration entered in state `s` confirms its candidate and finds it two above
the previous prime, whose class is valid: a twin is recorded. -/
def twinAt (w : Worker) (s : LoopState) : Prop :=
  w.m_sieve.isPrimeFromWheel s.wheel.current = true ∧ s.lastPrime ≠ 0 ∧
    subU64 s.wheel.current s.lastPrime = 2 ∧ 0 ≤ classIndex s.lastPrime

/-- The iteration entered in state `s` records a twin and an earlier twin exists: a
twin to twin transition is recorded. -/
def transitionAt (w : Worker) (s : LoopState) : Prop :=
  w.twinAt s ∧ s.lastTwinP ≠ 0 ∧ 0 ≤ s.lastTwinClass

/-- The value of `twinGap` in a transition recorded from state `s`. -/
def twinGapAt (s : LoopState) : Nat := subU64 s.lastPrime s.lastTwinP

/-- The value of `excess` in a transition recorded from state `s`. -/
def excessAt (s : LoopState) : Int :=
  toInt64 (subU64 (twinGapAt s)
    ((Constants.GAP_MIN.getD s.lastTwinClass.toNat []).getD (classIndex s.lastPrime).toNat 0))

end Worker

/-- Every counter and every running sum of unsigned terms of `b` is at least the
one of `a`; arrays are compared cell by cell. -/
structure AccLe (a b : LoopState) : Prop where
  primeCount : a.primeCount ≤ b.primeCount
  twinCount : a.twinCount ≤ b.twinCount
  asymptoticCount : a.asymptoticCount ≤ b.asymptoticCount
  countV2 : a.countV2 ≤ b.countV2
  countV2Gap : a.countV2Gap ≤ b.countV2Gap
  sumPrimeGaps : a.sumPrimeGaps ≤ b.sumPrimeGaps
  sumTwinGaps : a.sumTwinGaps ≤ b.sumTwinGaps
  sumV2 : a.sumV2 ≤ b.sumV2
  sumV2Gap : a.sumV2Gap ≤ b.sumV2Gap
  sumV2Product : a.sumV2Product ≤ b.sumV2Product
  sumV2Sq : a.sumV2Sq ≤ b.sumV2Sq
  sumV2GapSq : a.sumV2GapSq ≤ b.sumV2GapSq
  v2Histogram : ∀ i, a.v2Histogram.getD i 0 ≤ b.v2Histogram.getD i 0
  v2GapHistogram : ∀ i, a.v2GapHistogram.getD i 0 ≤ b.v2GapHistogram.getD i 0
  transitionCount : ∀ i j,
    (a.transitions.count.getD i []).getD j 0 ≤ (b.transitions.count.getD i []).getD j 0
  transitionSumGap : ∀ i j,
    (a.transitions.sumGap.getD i []).getD j 0 ≤ (b.transitions.sumGap.getD i []).getD j 0
  decadeCount : ∀ i, (a.decades.getD i ⟨0, 0⟩).count ≤ (b.decades.getD i ⟨0, 0⟩).count

/-- Every running sum of the signed `excess` of `b` is at least the one of `a`. -/
structure SignedLe (a b : LoopState) : Prop where
  sumTwinExcess : a.sumTwinExcess ≤ b.sumTwinExcess
  sumAsymptoticExcess : a.sumAsymptoticExcess ≤ b.sumAsymptoticExcess
  decadeSumExcess : ∀ i,
    (a.decades.getD i ⟨0, 0⟩).sumExcess ≤ (b.decades.getD i ⟨0, 0⟩).sumExcess

/-! ## The variables of the Pearson block -/

/-- Evaluates `f` at `z` after bringing `z` to a numeral. -/
def forceInt {α : Type} (z : Int) (f : Int → α) : α :=
  match z with
  | Int.ofNat n => forceNat n (fun n => f (Int.ofNat n))
  | Int.negSucc n => forceNat n (fun n => f (Int.negSucc n))

/-- The loop variables of `Worker::process` that the Pearson block reads, with the
three that decide which iterations record a paired sample. -/
structure TwinAcc where
  lastPrime : Nat
  lastTwinP : Nat
  lastTwinClass : Int
  sumV2 : Nat
  countV2 : Nat
  sumV2Gap : Nat
  countV2Gap : Nat
  sumV2Product : Nat
  sumV2Sq : Nat
  sumV2GapSq : Nat
deriving DecidableEq, Repr

namespace TwinAcc

/-- The variables of `TwinAcc` in a loop state. -/
def of (s : LoopState) : TwinAcc :=
  ⟨s.lastPrime, s.lastTwinP, s.lastTwinClass, s.sumV2, s.countV2, s.sumV2Gap, s.countV2Gap,
    s.sumV2Product, s.sumV2Sq, s.sumV2GapSq⟩

/-- The paired sample statements of a twin to twin transition, on `TwinAcc`. -/
def transition (a : TwinAcc) : TwinAcc :=
  let v2_gap := v2_of (subU64 a.lastPrime a.lastTwinP)
  let v2_prev := v2_of ((a.lastTwinP + 1) % U64)
  { a with
    sumV2Gap := a.sumV2Gap + v2_gap
    countV2Gap := a.countV2Gap + 1
    sumV2Product := a.sumV2Product + v2_prev * v2_gap
    sumV2Sq := a.sumV2Sq + v2_prev * v2_prev
    sumV2GapSq := a.sumV2GapSq + v2_gap * v2_gap }

/-- The body of `if (lastPrime != 0)` on `TwinAcc`: the twin test for the candidate `n`. -/
def gap (n : Nat) (a : TwinAcc) : TwinAcc :=
  if a.lastPrime ≠ 0 then
    if subU64 n a.lastPrime = 2 then
      if classIndex a.lastPrime ≥ 0 then
        let a3 := if a.lastTwinP ≠ 0 ∧ a.lastTwinClass ≥ 0 then transition a else a
        { a3 with lastTwinP := a.lastPrime, lastTwinClass := classIndex a.lastPrime }
      else a
    else a
  else a

/-- One loop iteration on `TwinAcc`: `n` is the candidate and `b` the result of
`isPrimeFromWheel(n)`. -/
def step (b : Bool) (n : Nat) (a : TwinAcc) : TwinAcc :=
  match b with
  | false => a
  | true =>
    { gap n { a with sumV2 := a.sumV2 + v2_of ((n + 1) % U64), countV2 := a.countV2 + 1 } with
      lastPrime := n }

/-- Evaluates `f` at `a` after bringing every field of `a` to a numeral. -/
def force {α : Type} (a : TwinAcc) (f : TwinAcc → α) : α :=
  match a with
  | ⟨a1, a2, a3, a4, a5, a6, a7, a8, a9, a10⟩ =>
    forceNat a1 fun a1 => forceNat a2 fun a2 => forceInt a3 fun a3 =>
    forceNat a4 fun a4 => forceNat a5 fun a5 => forceNat a6 fun a6 =>
    forceNat a7 fun a7 => forceNat a8 fun a8 => forceNat a9 fun a9 =>
    forceNat a10 fun a10 => f ⟨a1, a2, a3, a4, a5, a6, a7, a8, a9, a10⟩

/-- Runs `fuel` iterations on `TwinAcc` from iteration `j`, for the run started at 3:
the candidate of iteration `j` is the wheel slot `j + 1`, tested with `gcdTest`. -/
def eval : Nat → Nat → TwinAcc → TwinAcc
  | 0, _, a => a
  | fuel + 1, j, a =>
    forceNat (slotValue (j + 1)) fun n =>
      force (step (gcdTest n) n a) fun a => forceNat (j + 1) fun j => eval fuel j a

end TwinAcc

/-- The covariance of `n` paired samples from their sums, as the specification states
it: `(1/n) * Sum(XY) - ((1/n) * Sum X) * ((1/n) * Sum Y)`. -/
def specCov (n sumX sumY sumXY : ℚ) : ℚ :=
  (1 / n) * sumXY - ((1 / n) * sumX) * ((1 / n) * sumY)

/-- The variance of `n` samples from their sums, as the specification states it:
`(1/n) * Sum(X^2) - ((1/n) * Sum X)^2`. -/
def specVar (n sumX sumXX : ℚ) : ℚ :=
  (1 / n) * sumXX - ((1 / n) * sumX) ^ 2

/-! ## Reference points of a run and modular powers -/

namespace Worker

/-- The first prime confirmed in the first `k` iterations of the run, 0 when there is
none: the value of `lastPrime` right after the iteration that made `primeCount`
positive. -/
def firstPrime (w : Worker) : Nat → Nat
  | 0 => 0
  | k + 1 => if 0 < (w.run k).1.primeCount then firstPrime w k else (w.run (k + 1)).1.lastPrime

/-- The first twin lower member recorded in the first `k` iterations of the run, 0 when
there is none: the value of `lastTwinP` right after the iteration that made `twinCount`
positive. -/
def firstTwin (w : Worker) : Nat → Nat
  | 0 => 0
  | k + 1 => if 0 < (w.run k).1.twinCount then firstTwin w k else (w.run (k + 1)).1.lastTwinP

end Worker

/-- The power `a ^ e` modulo `p` by repeated squaring, for `e` below `2 ^ fuel`. -/
def powMod (a p : Nat) : Nat → Nat → Nat
  | 0, _ => 1 % p
  | fuel + 1, e =>
    if e = 0 then 1 % p
    else
      forceNat (powMod a p fuel (e / 2)) fun h =>
        if e % 2 = 0 then h * h % p else h * h % p * a % p

namespace Worker

/-- The position, in the stream of wheel slots counted without wraparound, of the
first candidate of a run: the slot the constructor of the wheel stops at, or the first
slot of the next block when its search finds none. -/
def slot0 (w : Worker) : Nat :=
  match WheelIterator.findOffset (w.m_startN / 210 * 210) w.m_startN
      Constants.WHEEL_OFFSETS 0 with
  | some i => w.m_startN / 210 * 48 + i
  | none => (w.m_startN / 210 + 1) * 48

/-- The candidate of iteration `j` before its reduction modulo `2^64`. -/
def slot (w : Worker) (j : Nat) : Nat := slotValue (w.slot0 + j)

/-- Iterations `j` and `j + 1` confirm two candidates that are two apart, the lower
one with a valid class: iteration `j + 1` records the twin with lower member
`candidate j`. -/
def TwinShape (w : Worker) (j : Nat) : Prop :=
  w.confirmed j = true ∧ w.confirmed (j + 1) = true ∧
    w.candidate (j + 1) = w.candidate j + 2 ∧ 0 ≤ classIndex (w.candidate j)

end Worker

/-! ## The integer square root -/

theorem floorSqrtAux_spec : ∀ fuel n, n < 4 ^ fuel →
    floorSqrtAux fuel n * floorSqrtAux fuel n ≤ n ∧
      n < (floorSqrtAux fuel n + 1) * (floorSqrtAux fuel n + 1) := by
  intro fuel
  induction fuel with
  | zero =>
    intro n hn
    simp at hn
    subst hn
    simp [floorSqrtAux]
  | succ fuel ih =>
    intro n hn
    unfold floorSqrtAux
    by_cases h0 : n = 0
    · subst h0
      simp
    · have hq : n / 4 < 4 ^ fuel := by
        rw [Nat.div_lt_iff_lt_mul (by norm_num)]
        rw [pow_succ] at hn
        exact hn
      obtain ⟨h1, h2⟩ := ih (n / 4) hq
      generalize floorSqrtAux fuel (n / 4) = r at h1 h2
      have hdiv : n / 4 * 4 ≤ n := Nat.div_mul_le_self n 4
      have hdiv2 : n < (n / 4 + 1) * 4 := by omega
      rw [if_neg h0]
      by_cases hc : (2 * r + 1) * (2 * r + 1) ≤ n
      · rw [if_pos hc]
        refine ⟨hc, ?_⟩
        nlinarith
      · rw [if_neg hc]
        refine ⟨?_, by omega⟩
        nlinarith

theorem floorSqrt_eq_sqrt (n : Nat) : floorSqrt n = Nat.sqrt n := by
  have h := floorSqrtAux_spec n n (Nat.lt_pow_self (by norm_num) n)
  exact Nat.eq_sqrt.mpr h

/-! ## The sieve of Eratosthenes -/

namespace PrimeSieve

theorem getD_set_false (s : List Bool) (j m : Nat) :
    (s.set j false).getD m false = if j = m then false else s.getD m false := by
  simp only [List.getD_eq_getElem?_getD, List.getElem?_set]
  split_ifs <;> simp

/-- With enough fuel the inner loop clears exactly the flags `j, j + i, j + 2 i, ...`
up to `limit`, as long as `j + i` cannot wrap. -/
theorem markMultiples_getD (limit i : Nat) (hi : 0 < i) (hfit : limit + i < U64) :
    ∀ fuel j s m, limit + 1 ≤ j + fuel →
      ((markMultiples limit i fuel j s).getD m false = true ↔
        s.getD m false = true ∧ ¬ (j ≤ m ∧ m ≤ limit ∧ i ∣ m - j)) := by
  intro fuel
  induction fuel with
  | zero =>
    intro j s m hf
    simp only [markMultiples]
    constructor
    · intro h
      exact ⟨h, fun hc => by omega⟩
    · intro h
      exact h.1
  | succ fuel ih =>
    intro j s m hf
    unfold markMultiples
    by_cases hj : j ≤ limit
    · simp only [hj, if_true]
      rw [Nat.mod_eq_of_lt (by omega : j + i < U64),
        ih (j + i) (s.set j false) m (by omega), getD_set_false]
      by_cases hjm : j = m
      · subst hjm
        simp [hj]
      · simp only [hjm, if_false]
        apply and_congr_right
        intro _
        apply not_congr
        constructor
        · rintro ⟨h1, h2, h3⟩
          refine ⟨by omega, h2, ?_⟩
          have : m - j = (m - (j + i)) + i := by omega
          rw [this]
          exact Dvd.dvd.add h3 (dvd_refl i)
        · rintro ⟨h1, h2, h3⟩
          have hpos : 0 < m - j := by omega
          have hle : i ≤ m - j := Nat.le_of_dvd hpos h3
          refine ⟨by omega, h2, ?_⟩
          have : m - (j + i) = (m - j) - i := by omega
          rw [this]
          exact Nat.dvd_sub' h3 (dvd_refl i)
    · simp only [hj, if_false]
      constructor
      · intro h
        exact ⟨h, fun hc => by omega⟩
      · intro h
        exact h.1

/-- The inner loop only clears flags, whatever its indices do. -/
theorem markMultiples_flag (limit i : Nat) :
    ∀ fuel j s m, (markMultiples limit i fuel j s).getD m false = true →
      s.getD m false = true := by
  intro fuel
  induction fuel with
  | zero =>
    intro j s m h
    exact h
  | succ fuel ih =>
    intro j s m h
    unfold markMultiples at h
    by_cases hj : j ≤ limit
    · rw [if_pos hj] at h
      have h2 := ih _ _ _ h
      rw [getD_set_false] at h2
      by_cases hjm : j = m
      · rw [if_pos hjm] at h2
        exact absurd h2 (by decide)
      · rw [if_neg hjm] at h2
        exact h2
    · rw [if_neg hj] at h
      exact h

/-- The outer loop only clears flags, whatever its indices do. -/
theorem sieveLoop_flag (limit : Nat) :
    ∀ fuel i s m, (sieveLoop limit fuel i s).getD m false = true →
      s.getD m false = true := by
  intro fuel
  induction fuel with
  | zero =>
    intro i s m h
    exact h
  | succ fuel ih =>
    intro i s m h
    unfold sieveLoop at h
    by_cases hc : i * i % U64 ≤ limit
    · rw [if_pos hc] at h
      have h2 := ih _ _ _ h
      by_cases hflag : s.getD i false = true
      · rw [if_pos hflag] at h2
        exact markMultiples_flag _ _ _ _ _ _ h2
      · rw [if_neg hflag] at h2
        exact h2
    · rw [if_neg hc] at h
      exact h

theorem noSmallDivisor_iff_prime (limit i m : Nat) (hi : limit < i * i) (hm : m ≤ limit) :
    NoSmallDivisor i m ↔ Nat.Prime m := by
  constructor
  · rintro ⟨h2, hd⟩
    by_contra hnp
    have hsq := Nat.minFac_sq_le_self (by omega : 0 < m) hnp
    have hpr : Nat.Prime m.minFac := Nat.minFac_prime (by omega)
    have hlt : m.minFac < i := by
      by_contra hge
      push_neg at hge
      have : i * i ≤ m.minFac ^ 2 := by
        rw [sq]
        exact Nat.mul_le_mul hge hge
      omega
    have := hd m.minFac hpr.two_le hlt (Nat.minFac_dvd m)
    rw [this] at hpr
    exact hnp hpr
  · intro hp
    refine ⟨hp.two_le, fun d hd2 _ hdvd => ?_⟩
    rcases (Nat.dvd_prime hp).mp hdvd with h | h
    · omega
    · exact h

theorem noSmallDivisor_step_marked (i m : Nat) (hi : 2 ≤ i) :
    (NoSmallDivisor i m ∧ ¬ (i * i ≤ m ∧ i ∣ m - i * i)) ↔ NoSmallDivisor (i + 1) m := by
  constructor
  · rintro ⟨⟨h2, hd⟩, hnm⟩
    refine ⟨h2, fun d hd2 hdi hdvd => ?_⟩
    by_cases hlt : d < i
    · exact hd d hd2 hlt hdvd
    · have hdi' : d = i := by omega
      subst hdi'
      obtain ⟨k, hk⟩ := hdvd
      by_cases hk1 : k = 1
      · subst hk1
        omega
      · exfalso
        have hk0 : k ≠ 0 := by
          rintro rfl
          omega
        by_cases hkd : k < d
        · have hkm : k = m := hd k (by omega) hkd ⟨d, by rw [hk, Nat.mul_comm]⟩
          rw [hkm] at hk
          have : m * 2 ≤ d * m := Nat.mul_comm d m ▸ Nat.mul_le_mul_left m hd2
          omega
        · push_neg at hkd
          apply hnm
          have hle : d * d ≤ m := by
            rw [hk]
            exact Nat.mul_le_mul_left d hkd
          refine ⟨hle, ?_⟩
          rw [hk, ← Nat.mul_sub]
          exact Dvd.intro _ rfl
  · rintro ⟨h2, hd⟩
    refine ⟨⟨h2, fun d hd2 hdi hdvd => hd d hd2 (by omega) hdvd⟩, ?_⟩
    rintro ⟨hle, hdvd⟩
    have hdm : i ∣ m := by
      have : m = (m - i * i) + i * i := by omega
      rw [this]
      exact Dvd.dvd.add hdvd (Dvd.intro _ rfl)
    have him : i = m := hd i hi (by omega) hdm
    rw [← him] at hle
    have : i * 2 ≤ i * i := Nat.mul_le_mul_left i hi
    omega

theorem noSmallDivisor_step_unmarked (i m : Nat) (hni : ¬ NoSmallDivisor i i) (hi : 2 ≤ i) :
    NoSmallDivisor i m ↔ NoSmallDivisor (i + 1) m := by
  constructor
  · rintro ⟨h2, hd⟩
    refine ⟨h2, fun d hd2 hdi hdvd => ?_⟩
    by_cases hlt : d < i
    · exact hd d hd2 hlt hdvd
    · have hdi' : d = i := by omega
      subst hdi'
      exfalso
      apply hni
      refine ⟨hi, fun e he2 hei hedvd => ?_⟩
      have hem : e = m := hd e he2 hei (Dvd.dvd.trans hedvd hdvd)
      rw [hem] at hei
      have := Nat.le_of_dvd (by omega) hdvd
      omega
  · rintro ⟨h2, hd⟩
    exact ⟨h2, fun d hd2 hdi hdvd => hd d hd2 (by omega) hdvd⟩

/-- The outer loop turns the flag invariant at `i` into the primality flags,
provided the fuel lasts until `i * i > limit` and `i * i` cannot wrap. -/
theorem sieveLoop_spec (limit : Nat) (hfit : limit < (2 ^ 32 - 1) ^ 2) :
    ∀ fuel i s, 2 ≤ i → i ≤ 2 ^ 32 - 1 → limit + 1 ≤ i + fuel →
      (∀ m, m ≤ limit → (s.getD m false = true ↔ NoSmallDivisor i m)) →
      ∀ m, m ≤ limit → ((sieveLoop limit fuel i s).getD m false = true ↔ Nat.Prime m) := by
  have hfit2 : limit < 18446744065119617025 := by
    norm_num at hfit
    exact hfit
  intro fuel
  induction fuel with
  | zero =>
    intro i s hi _ hf hinv m hm
    simp only [sieveLoop]
    rw [hinv m hm]
    have : limit < i * i := by nlinarith
    exact noSmallDivisor_iff_prime limit i m this hm
  | succ fuel ih =>
    intro i s hi hi32 hf hinv m hm
    have hi32b : i ≤ 4294967295 := by
      norm_num at hi32
      exact hi32
    have hii : i * i < U64 := by
      unfold U64
      nlinarith
    unfold sieveLoop
    rw [Nat.mod_eq_of_lt hii]
    by_cases hc : i * i ≤ limit
    · simp only [hc, if_true]
      have hlt : i < 4294967295 := by
        by_contra hge
        have : i = 4294967295 := by omega
        subst this
        omega
      have hU : U64 = 18446744073709551616 := by
        unfold U64
        norm_num
      rw [Nat.mod_eq_of_lt (by omega : i + 1 < U64)]
      apply ih (i + 1) _ (by omega) (by norm_num; omega) (by omega) _ m hm
      intro m' hm'
      have hil : i ≤ limit := by nlinarith
      by_cases hflag : s.getD i false = true
      · rw [if_pos hflag]
        rw [markMultiples_getD limit i (by omega) (by omega) (limit + 1) (i * i) s m' (by omega),
          hinv m' hm', ← noSmallDivisor_step_marked i m' hi]
        apply and_congr_right
        intro _
        apply not_congr
        constructor
        · rintro ⟨h1, _, h3⟩
          exact ⟨h1, h3⟩
        · rintro ⟨h1, h3⟩
          exact ⟨h1, hm', h3⟩
      · rw [if_neg hflag]
        rw [hinv m' hm']
        have hni : ¬ NoSmallDivisor i i := fun h => hflag ((hinv i hil).mpr h)
        exact noSmallDivisor_step_unmarked i m' hni hi
    · simp only [hc, if_false]
      rw [hinv m hm]
      exact noSmallDivisor_iff_prime limit i m (by omega) hm

theorem initial_flags (limit m : Nat) (hm : m ≤ limit) :
    (((List.replicate (limit + 1) true).set 0 false).set 1 false).getD m false = true ↔
      NoSmallDivisor 2 m := by
  rw [getD_set_false, getD_set_false]
  have hrep : (List.replicate (limit + 1) true).getD m false = true := by
    have hlt : m < limit + 1 := by omega
    simp [List.getD_eq_getElem?_getD, List.getElem?_replicate, hlt]
  constructor
  · intro h
    refine ⟨?_, fun d hd2 hd _ => by omega⟩
    by_contra hlt
    have : m = 0 ∨ m = 1 := by omega
    rcases this with rfl | rfl <;> simp at h
  · rintro ⟨h2, _⟩
    have h0 : ¬ (0 = m) := by omega
    have h1 : ¬ (1 = m) := by omega
    rw [if_neg h1, if_neg h0]
    exact hrep

/-- The sieve limits for which no index of `generateBasePrimes` wraps lie below `2^64`. -/
theorem fits_lt (limit : Nat) (hfit : limit < (2 ^ 32 - 1) ^ 2) : limit + 1 < U64 := by
  unfold U64
  norm_num at hfit ⊢
  omega

/-- Below the wrapping range the marking phase returns, with all `limit + 1` flags. -/
theorem sieveFlags_eq (limit : Nat) (hfit : limit < (2 ^ 32 - 1) ^ 2) :
    sieveFlags limit =
      some (sieveLoop limit (limit + 1) 2
        (((List.replicate (limit + 1) true).set 0 false).set 1 false)) := by
  have h := fits_lt limit hfit
  unfold sieveFlags
  simp only [Nat.mod_eq_of_lt h]
  rw [if_neg (by omega)]

/-- After the marking phase, flag `m` is set exactly when `m` is prime. -/
theorem sieveFlags_spec (limit m : Nat) (hfit : limit < (2 ^ 32 - 1) ^ 2) (hm : m ≤ limit) :
    ∃ s, sieveFlags limit = some s ∧ (s.getD m false = true ↔ Nat.Prime m) :=
  ⟨_, sieveFlags_eq limit hfit,
    sieveLoop_spec limit hfit (limit + 1) 2 _ (le_refl 2) (by norm_num) (by omega)
      (fun m' hm' => initial_flags limit m' hm') m hm⟩

theorem collect_eq (limit : Nat) (sieve : List Bool) (hfit : limit + 1 < U64) :
    ∀ fuel i acc, limit + 1 ≤ i + fuel →
      collect limit sieve fuel i acc =
        acc ++ (List.range' i (limit + 1 - i)).filter (fun m => sieve.getD m false) := by
  intro fuel
  induction fuel with
  | zero =>
    intro i acc hf
    have : limit + 1 - i = 0 := by omega
    simp [collect, this]
  | succ fuel ih =>
    intro i acc hf
    unfold collect
    by_cases hc : i ≤ limit
    · simp only [hc, if_true]
      rw [Nat.mod_eq_of_lt (by omega : i + 1 < U64), ih (i + 1) _ (by omega)]
      have : limit + 1 - i = (limit + 1 - (i + 1)) + 1 := by omega
      rw [this, List.range'_succ]
      by_cases hflag : sieve.getD i false = true
      · rw [if_pos hflag, List.filter_cons_of_pos (p := fun m => sieve.getD m false) hflag]
        simp
      · rw [if_neg hflag, List.filter_cons_of_neg (p := fun m => sieve.getD m false) hflag]
    · have : limit + 1 - i = 0 := by omega
      simp [hc, this]

/-- Whatever the indices do, the collection loop pushes only flagged indices up to `limit`. -/
theorem collect_mem (limit : Nat) (sieve : List Bool) :
    ∀ fuel i acc p, p ∈ collect limit sieve fuel i acc →
      p ∈ acc ∨ (p ≤ limit ∧ sieve.getD p false = true) := by
  intro fuel
  induction fuel with
  | zero =>
    intro i acc p h
    exact Or.inl h
  | succ fuel ih =>
    intro i acc p h
    unfold collect at h
    by_cases hc : i ≤ limit
    · rw [if_pos hc] at h
      rcases ih _ _ _ h with h2 | h2
      · by_cases hflag : sieve.getD i false = true
        · rw [if_pos hflag] at h2
          rcases List.mem_append.mp h2 with h3 | h3
          · exact Or.inl h3
          · have : p = i := by simpa using h3
            subst this
            exact Or.inr ⟨hc, hflag⟩
        · rw [if_neg hflag] at h2
          exact Or.inl h2
      · exact Or.inr h2
    · rw [if_neg hc] at h
      exact Or.inl h

/-- Below the wrapping range `generateBasePrimes` returns, and its vector is the
filter of the flags over `[11, limit]`. -/
theorem generateBasePrimes_eq (limit : Nat) (hfit : limit < (2 ^ 32 - 1) ^ 2) :
    ∃ s, sieveFlags limit = some s ∧
      generateBasePrimes limit =
        some ((List.range' 11 (limit + 1 - 11)).filter (fun m => s.getD m false)) := by
  refine ⟨_, sieveFlags_eq limit hfit, ?_⟩
  unfold generateBasePrimes
  rw [sieveFlags_eq limit hfit, Option.map_some']
  rw [collect_eq limit _ (fits_lt limit hfit) (limit + 1) 11 [] (by omega)]
  simp

theorem mem_generateBasePrimes (limit p : Nat) (hfit : limit < (2 ^ 32 - 1) ^ 2) :
    p ∈ (generateBasePrimes limit).getD [] ↔ 11 ≤ p ∧ p ≤ limit ∧ Nat.Prime p := by
  obtain ⟨s, hs, hg⟩ := generateBasePrimes_eq limit hfit
  have hspec : ∀ m, m ≤ limit → (s.getD m false = true ↔ Nat.Prime m) := by
    intro m hm
    obtain ⟨s2, hs2, h⟩ := sieveFlags_spec limit m hfit hm
    rw [hs] at hs2
    rw [Option.some.inj hs2]
    exact h
  rw [hg, Option.getD_some, List.mem_filter, List.mem_range'_1]
  constructor
  · rintro ⟨⟨h1, h2⟩, h3⟩
    have hle : p ≤ limit := by omega
    exact ⟨h1, hle, (hspec p hle).mp h3⟩
  · rintro ⟨h1, h2, h3⟩
    exact ⟨⟨h1, by omega⟩, (hspec p h2).mpr h3⟩

theorem sorted_generateBasePrimes (limit : Nat) (hfit : limit < (2 ^ 32 - 1) ^ 2) :
    List.Sorted (fun a b => a < b) ((generateBasePrimes limit).getD []) := by
  obtain ⟨s, _, hg⟩ := generateBasePrimes_eq limit hfit
  rw [hg, Option.getD_some]
  exact List.Pairwise.filter _ (List.pairwise_lt_range' 11 _)

/-- For every limit, every value in `m_basePrimes` is at least 2 and at most the limit. -/
theorem basePrimes_bounds (limit p : Nat) (hp : p ∈ (generateBasePrimes limit).getD []) :
    2 ≤ p ∧ p ≤ limit := by
  unfold generateBasePrimes at hp
  cases hs : sieveFlags limit with
  | none =>
    rw [hs] at hp
    simp at hp
  | some s =>
    rw [hs, Option.map_some', Option.getD_some] at hp
    rcases collect_mem limit s _ _ _ p hp with h | ⟨hle, hflag⟩
    · simp at h
    · refine ⟨?_, hle⟩
      unfold sieveFlags at hs
      by_cases hz : (limit + 1) % U64 = 0
      · simp [hz] at hs
      · simp only [hz, if_false] at hs
        have hs2 := Option.some.inj hs
        rw [← hs2] at hflag
        have h0 := sieveLoop_flag _ _ _ _ _ hflag
        rw [getD_set_false, getD_set_false] at h0
        by_contra hlt
        have : p = 0 ∨ p = 1 := by omega
        rcases this with rfl | rfl <;> simp at h0

end PrimeSieve

/-! ## Coprimality to 210 -/

theorem coprime_210_mod (n : Nat) : Nat.Coprime n 210 ↔ Nat.Coprime (n % 210) 210 := by
  unfold Nat.Coprime
  rw [Nat.gcd_comm n 210, Nat.gcd_rec 210 n]

set_option maxRecDepth 100000 in
theorem coprime_210_table :
    ∀ r, r < 210 → (Nat.Coprime r 210 ↔ r % 2 ≠ 0 ∧ r % 3 ≠ 0 ∧ r % 5 ≠ 0 ∧ r % 7 ≠ 0) := by
  unfold Nat.Coprime
  decide

theorem coprime_210_iff (n : Nat) :
    Nat.Coprime n 210 ↔ n % 2 ≠ 0 ∧ n % 3 ≠ 0 ∧ n % 5 ≠ 0 ∧ n % 7 ≠ 0 := by
  rw [coprime_210_mod, coprime_210_table (n % 210) (Nat.mod_lt n (by norm_num))]
  have h2 : n % 210 % 2 = n % 2 := Nat.mod_mod_of_dvd n (by norm_num)
  have h3 : n % 210 % 3 = n % 3 := Nat.mod_mod_of_dvd n (by norm_num)
  have h5 : n % 210 % 5 = n % 5 := Nat.mod_mod_of_dvd n (by norm_num)
  have h7 : n % 210 % 7 = n % 7 := Nat.mod_mod_of_dvd n (by norm_num)
  rw [h2, h3, h5, h7]

/-- A number coprime to 210 has no prime factor below 11. -/
theorem minFac_ge_11 (n : Nat) (hc : Nat.Coprime n 210) (hn : 2 ≤ n) : 11 ≤ n.minFac := by
  have hp : Nat.Prime n.minFac := Nat.minFac_prime (by omega)
  have hd : n.minFac ∣ n := Nat.minFac_dvd n
  obtain ⟨h2, h3, h5, h7⟩ := (coprime_210_iff n).mp hc
  by_contra hlt
  push_neg at hlt
  have h2le := hp.two_le
  generalize n.minFac = q at hp hd hlt h2le
  have hq2 : ¬ (2 ∣ q) ∨ q = 2 := by
    by_cases h : 2 ∣ q
    · right
      exact ((Nat.prime_dvd_prime_iff_eq Nat.prime_two hp).mp h).symm
    · left
      exact h
  interval_cases q
  · exact h2 (Nat.mod_eq_zero_of_dvd hd)
  · exact h3 (Nat.mod_eq_zero_of_dvd hd)
  · exact h2 (Nat.mod_eq_zero_of_dvd (Dvd.dvd.trans (by norm_num) hd))
  · exact h5 (Nat.mod_eq_zero_of_dvd hd)
  · exact h2 (Nat.mod_eq_zero_of_dvd (Dvd.dvd.trans (by norm_num) hd))
  · exact h7 (Nat.mod_eq_zero_of_dvd hd)
  · exact h2 (Nat.mod_eq_zero_of_dvd (Dvd.dvd.trans (by norm_num) hd))
  · exact h3 (Nat.mod_eq_zero_of_dvd (Dvd.dvd.trans (by norm_num) hd))
  · exact h2 (Nat.mod_eq_zero_of_dvd (Dvd.dvd.trans (by norm_num) hd))

/-! ## The primality oracle -/

namespace PrimeSieve

/-- On an increasing list the trial loop answers true exactly when no listed
divisor up to the bound divides `n`. -/
theorem trialLoop_spec (n B : Nat) :
    ∀ ps : List Nat, List.Sorted (fun a b => a < b) ps →
      (trialLoop n B ps = true ↔ ∀ p, p ∈ ps → p ≤ B → ¬ p ∣ n) := by
  intro ps
  induction ps with
  | nil =>
    intro _
    simp [trialLoop]
  | cons p ps ih =>
    intro hs
    have hs' := List.sorted_cons.mp hs
    unfold trialLoop
    by_cases hgt : p > B
    · rw [if_pos hgt]
      simp only [true_iff]
      intro q hq hqB
      rcases List.mem_cons.mp hq with rfl | hq'
      · omega
      · have := hs'.1 q hq'
        omega
    · rw [if_neg hgt]
      by_cases hdiv : n % p = 0
      · rw [if_pos hdiv]
        simp only [Bool.false_eq_true, false_iff]
        intro hall
        exact hall p (List.mem_cons_self p ps) (by omega) (Nat.dvd_of_mod_eq_zero hdiv)
      · rw [if_neg hdiv, ih hs'.2]
        constructor
        · intro hall q hq hqB
          rcases List.mem_cons.mp hq with rfl | hq'
          · exact fun hd => hdiv (Nat.mod_eq_zero_of_dvd hd)
          · exact hall q hq' hqB
        · intro hall q hq hqB
          exact hall q (List.mem_cons_of_mem p hq) hqB

/-- On any list the trial loop answers true when no listed value divides `n`. -/
theorem trialLoop_of_forall (n B : Nat) :
    ∀ ps : List Nat, (∀ p, p ∈ ps → ¬ p ∣ n) → trialLoop n B ps = true := by
  intro ps
  induction ps with
  | nil =>
    intro _
    rfl
  | cons p ps ih =>
    intro h
    unfold trialLoop
    by_cases hgt : p > B
    · rw [if_pos hgt]
    · rw [if_neg hgt]
      have hnd : ¬ n % p = 0 := fun h0 =>
        h p (List.mem_cons_self p ps) (Nat.dvd_of_mod_eq_zero h0)
      rw [if_neg hnd]
      exact ih fun q hq => h q (List.mem_cons_of_mem p hq)

/-- The wheel test is exact on numbers coprime to 210 whose integer square root
does not exceed the sieve limit, for a limit below the wrapping range. -/
theorem isPrimeFromWheel_iff (L n : Nat) (hc : Nat.Coprime n 210) (hL : Nat.sqrt n ≤ L)
    (hfit : L < (2 ^ 32 - 1) ^ 2) :
    (PrimeSieve.new L).isPrimeFromWheel n = true ↔ Nat.Prime n := by
  unfold isPrimeFromWheel
  by_cases hsmall : n < 121
  · rw [if_pos hsmall]
    simp only [decide_eq_true_eq]
    constructor
    · intro h1
      by_contra hnp
      have hsq := Nat.minFac_sq_le_self (by omega : 0 < n) hnp
      have h11 := minFac_ge_11 n hc (by omega)
      have : 11 * 11 ≤ n.minFac ^ 2 := by
        rw [sq]
        exact Nat.mul_le_mul h11 h11
      omega
    · intro hp
      exact hp.one_lt
  · rw [if_neg hsmall]
    simp only [PrimeSieve.new]
    rw [trialLoop_spec n _ _ (sorted_generateBasePrimes L hfit), floorSqrt_eq_sqrt]
    constructor
    · intro hall
      by_contra hnp
      have hsq := Nat.minFac_sq_le_self (by omega : 0 < n) hnp
      have h11 := minFac_ge_11 n hc (by omega)
      have hpr : Nat.Prime n.minFac := Nat.minFac_prime (by omega)
      have hle : n.minFac ≤ Nat.sqrt n := by
        rw [Nat.le_sqrt, ← sq]
        exact hsq
      exact hall n.minFac ((mem_generateBasePrimes L _ hfit).mpr ⟨h11, by omega, hpr⟩)
        (by omega) (Nat.minFac_dvd n)
    · intro hp q hq hqB hdvd
      have hq11 := ((mem_generateBasePrimes L q hfit).mp hq).1
      rcases (Nat.dvd_prime hp).mp hdvd with h | h
      · omega
      · subst h
        have hs : Nat.sqrt q < q - 1 := by
          rw [Nat.sqrt_lt']
          have : 121 ≤ q := by omega
          obtain ⟨k, rfl⟩ : ∃ k, q = k + 121 := ⟨q - 121, by omega⟩
          have : k + 121 - 1 = k + 120 := by omega
          rw [this]
          nlinarith
        omega

/-- The general test `isPrime` is exact up to the square of the sieve limit, for a
limit below the wrapping range. -/
theorem isPrime_iff (L n : Nat) (h2 : 2 ≤ n) (hL : Nat.sqrt n ≤ L)
    (hfit : L < (2 ^ 32 - 1) ^ 2) :
    (PrimeSieve.new L).isPrime n = true ↔ Nat.Prime n := by
  unfold PrimeSieve.isPrime
  rw [if_neg (by omega)]
  by_cases hsm : n = 2 ∨ n = 3 ∨ n = 5 ∨ n = 7
  · rw [if_pos hsm]
    simp only [true_iff]
    rcases hsm with rfl | rfl | rfl | rfl <;> norm_num
  · rw [if_neg hsm]
    push_neg at hsm
    by_cases hdiv : n % 2 = 0 ∨ n % 3 = 0 ∨ n % 5 = 0 ∨ n % 7 = 0
    · rw [if_pos hdiv]
      simp only [Bool.false_eq_true, false_iff]
      intro hp
      rcases hdiv with h | h | h | h
      · have := (Nat.prime_dvd_prime_iff_eq Nat.prime_two hp).mp (Nat.dvd_of_mod_eq_zero h)
        omega
      · have := (Nat.prime_dvd_prime_iff_eq Nat.prime_three hp).mp (Nat.dvd_of_mod_eq_zero h)
        omega
      · have := (Nat.prime_dvd_prime_iff_eq Nat.prime_five hp).mp (Nat.dvd_of_mod_eq_zero h)
        omega
      · have := (Nat.prime_dvd_prime_iff_eq (by norm_num : Nat.Prime 7) hp).mp
          (Nat.dvd_of_mod_eq_zero h)
        omega
    · rw [if_neg hdiv]
      push_neg at hdiv
      have hc : Nat.Coprime n 210 := (coprime_210_iff n).mpr hdiv
      exact PrimeSieve.isPrimeFromWheel_iff L n hc hL hfit

/-- The call `generateBasePrimes(2^64 - 1)` faults: the vector has no flag. -/
theorem generateBasePrimes_max : generateBasePrimes (2 ^ 64 - 1) = none := by
  decide

end PrimeSieve

/-- C6, the claim as stated fails at the largest limit: `L = 2^64 - 1` is a limit
`>= 1`, but `limit + 1` wraps to 0, the vector of flags is empty and
`generateBasePrimes(L)` faults at its first write, so no list of primes is built
(the prime 11 of the range is in no list). -/
theorem generateBasePrimes_counterexample :
    1 ≤ 2 ^ 64 - 1 ∧ PrimeSieve.generateBasePrimes (2 ^ 64 - 1) = none ∧
      ¬ ∃ ps, PrimeSieve.generateBasePrimes (2 ^ 64 - 1) = some ps ∧ 11 ∈ ps := by
  refine ⟨by norm_num, PrimeSieve.generateBasePrimes_max, ?_⟩
  rintro ⟨ps, h, _⟩
  rw [PrimeSieve.generateBasePrimes_max] at h
  exact Option.noConfusion h

/-- C6, amended. For every limit `L` with `1 <= L < (2^32 - 1)^2`, the range in which
no `uint64_t` operation of the sieve wraps, `generateBasePrimes(L)` returns, and
the list `m_basePrimes` it builds is strictly increasing and contains exactly the
primes `p` with `11 <= p <= L`; it is empty when `L < 11`. -/
theorem generateBasePrimes_correct (L : Nat) (hL : 1 ≤ L) (hfit : L < (2 ^ 32 - 1) ^ 2) :
    ∃ ps, PrimeSieve.generateBasePrimes L = some ps ∧
      (PrimeSieve.new L).m_basePrimes = ps ∧
      List.Sorted (fun a b => a < b) ps ∧
      (∀ p, p ∈ ps ↔ 11 ≤ p ∧ p ≤ L ∧ Nat.Prime p) ∧
      (L < 11 → ps = []) := by
  obtain ⟨s, _, hg⟩ := PrimeSieve.generateBasePrimes_eq L hfit
  have hget : (PrimeSieve.generateBasePrimes L).getD [] =
      (List.range' 11 (L + 1 - 11)).filter (fun m => s.getD m false) := by
    rw [hg, Option.getD_some]
  have hmem := fun p => PrimeSieve.mem_generateBasePrimes L p hfit
  have hsorted := PrimeSieve.sorted_generateBasePrimes L hfit
  rw [hget] at hmem hsorted
  refine ⟨_, hg, ?_, hsorted, hmem, ?_⟩
  · simp only [PrimeSieve.new]
    exact hget
  · intro hlt
    apply List.eq_nil_iff_forall_not_mem.mpr
    intro p hp
    have := (hmem p).mp hp
    omega

theorem generateBasePrimes_correct_witness :
    1 ≤ 30 ∧ 30 < (2 ^ 32 - 1) ^ 2 ∧
      ∃ ps, PrimeSieve.generateBasePrimes 30 = some ps ∧
        (PrimeSieve.new 30).m_basePrimes = ps ∧
        List.Sorted (fun a b => a < b) ps ∧
        (∀ p, p ∈ ps ↔ 11 ≤ p ∧ p ≤ 30 ∧ Nat.Prime p) ∧
        (30 < 11 → ps = []) :=
  ⟨by decide, by norm_num, generateBasePrimes_correct 30 (by decide) (by norm_num)⟩

/-- C2, the claim as stated fails at the largest limit: 169 is coprime to 210 and
its square root 13 is below `L = 2^64 - 1`, but `PrimeSieve(L)` cannot be built,
`generateBasePrimes(L)` faults, and what it leaves is a sieve without base
primes: there is no sieve to answer for 169, and none that holds the divisor 13. -/
theorem isPrimeFromWheel_counterexample :
    Nat.Coprime 169 210 ∧ Nat.sqrt 169 < 2 ^ 64 - 1 ∧
      PrimeSieve.generateBasePrimes (2 ^ 64 - 1) = none ∧
      (PrimeSieve.new (2 ^ 64 - 1)).m_basePrimes = [] := by
  have hnew : (PrimeSieve.new (2 ^ 64 - 1)).m_basePrimes = [] := by
    simp only [PrimeSieve.new, PrimeSieve.generateBasePrimes_max, Option.getD_none]
  refine ⟨by decide, ?_, PrimeSieve.generateBasePrimes_max, hnew⟩
  rw [← floorSqrt_eq_sqrt]
  decide

/-- C2, amended. For every sieve limit `L < (2^32 - 1)^2`, the range in which no
`uint64_t` operation of the sieve wraps, and every `n` coprime to 2, 3, 5 and 7
whose integer square root is below `L`, the sieve is built and `isPrimeFromWheel(n)`
returns true if and only if `n` is prime; in particular it returns false on 1 and
is exact below 121. -/
theorem isPrimeFromWheel_correct (L n : Nat) (hc : Nat.Coprime n 210)
    (hL : Nat.sqrt n < L) (hfit : L < (2 ^ 32 - 1) ^ 2) :
    (∃ ps, PrimeSieve.generateBasePrimes L = some ps ∧ PrimeSieve.new L = ⟨ps⟩) ∧
      ((PrimeSieve.new L).isPrimeFromWheel n = true ↔ Nat.Prime n) ∧
      (n = 1 → (PrimeSieve.new L).isPrimeFromWheel n = false) := by
  have h := PrimeSieve.isPrimeFromWheel_iff L n hc (by omega) hfit
  refine ⟨?_, h, ?_⟩
  · obtain ⟨s, _, hg⟩ := PrimeSieve.generateBasePrimes_eq L hfit
    refine ⟨_, hg, ?_⟩
    simp only [PrimeSieve.new]
    rw [hg, Option.getD_some]
  · rintro rfl
    simp [PrimeSieve.isPrimeFromWheel]

theorem isPrimeFromWheel_correct_witness :
    Nat.Coprime 169 210 ∧ Nat.sqrt 169 < 14 ∧ 14 < (2 ^ 32 - 1) ^ 2 ∧
      ((∃ ps, PrimeSieve.generateBasePrimes 14 = some ps ∧ PrimeSieve.new 14 = ⟨ps⟩) ∧
        ((PrimeSieve.new 14).isPrimeFromWheel 169 = true ↔ Nat.Prime 169) ∧
        (169 = 1 → (PrimeSieve.new 14).isPrimeFromWheel 169 = false)) :=
  ⟨by decide, by rw [← floorSqrt_eq_sqrt]; decide, by norm_num,
    isPrimeFromWheel_correct 14 169 (by decide) (by rw [← floorSqrt_eq_sqrt]; decide)
      (by norm_num)⟩

/-- C1, the claim as stated fails at the largest limit: `L = 2^64 - 1` is a limit
`>= 1000` and 169 lies in `[2, 10^6]`, but `PrimeSieve(L)` cannot be built,
`generateBasePrimes(L)` faults, and what it leaves is a sieve without base
primes: there is no sieve on which `isPrime` could be called. -/
theorem isPrime_counterexample :
    1000 ≤ 2 ^ 64 - 1 ∧ 2 ≤ 169 ∧ 169 ≤ 10 ^ 6 ∧
      PrimeSieve.generateBasePrimes (2 ^ 64 - 1) = none ∧
      (PrimeSieve.new (2 ^ 64 - 1)).m_basePrimes = [] := by
  have hnew : (PrimeSieve.new (2 ^ 64 - 1)).m_basePrimes = [] := by
    simp only [PrimeSieve.new, PrimeSieve.generateBasePrimes_max, Option.getD_none]
  exact ⟨by norm_num, by norm_num, by norm_num, PrimeSieve.generateBasePrimes_max, hnew⟩

/-- C1, amended. For every sieve limit `L` with `1000 <= L < (2^32 - 1)^2`, the range
in which no `uint64_t` operation of the sieve wraps, the sieve is built, and for
every `n` with `2 <= n <= 10^6`, `isPrime(n)` returns true exactly when `n` is
prime. -/
theorem isPrime_correct (L n : Nat) (hL : 1000 ≤ L) (hfit : L < (2 ^ 32 - 1) ^ 2)
    (h2 : 2 ≤ n) (hn : n ≤ 10 ^ 6) :
    (∃ ps, PrimeSieve.generateBasePrimes L = some ps ∧ PrimeSieve.new L = ⟨ps⟩) ∧
      ((PrimeSieve.new L).isPrime n = true ↔ Nat.Prime n) := by
  refine ⟨?_, ?_⟩
  · obtain ⟨s, _, hg⟩ := PrimeSieve.generateBasePrimes_eq L hfit
    refine ⟨_, hg, ?_⟩
    simp only [PrimeSieve.new]
    rw [hg, Option.getD_some]
  · have hs : Nat.sqrt n ≤ 1000 := by
      have h1 : Nat.sqrt n ≤ Nat.sqrt (10 ^ 6) := Nat.sqrt_le_sqrt hn
      have h3 : Nat.sqrt (10 ^ 6) = 1000 := by
        rw [← floorSqrt_eq_sqrt]
        decide
      omega
    exact PrimeSieve.isPrime_iff L n h2 (by omega) hfit

theorem isPrime_correct_witness :
    1000 ≤ 1000 ∧ 1000 < (2 ^ 32 - 1) ^ 2 ∧ 2 ≤ 999983 ∧ 999983 ≤ 10 ^ 6 ∧
      ((∃ ps, PrimeSieve.generateBasePrimes 1000 = some ps ∧ PrimeSieve.new 1000 = ⟨ps⟩) ∧
        ((PrimeSieve.new 1000).isPrime 999983 = true ↔ Nat.Prime 999983)) :=
  ⟨by decide, by norm_num, by decide, by decide,
    isPrime_correct 1000 999983 (by decide) (by norm_num) (by decide) (by decide)⟩

/-! ## The wheel -/

namespace WheelIterator

open Constants

set_option maxRecDepth 100000 in
theorem offsets_strictMono :
    ∀ j, j < 48 → ∀ k, k < 48 → j < k → WHEEL_OFFSETS.getD j 0 < WHEEL_OFFSETS.getD k 0 := by
  decide

set_option maxRecDepth 100000 in
theorem offsets_coprime : ∀ j, j < 48 → Nat.Coprime (WHEEL_OFFSETS.getD j 0) 210 := by
  unfold Nat.Coprime
  decide

set_option maxRecDepth 100000 in
theorem offsets_bounds :
    ∀ j, j < 48 → 1 ≤ WHEEL_OFFSETS.getD j 0 ∧ WHEEL_OFFSETS.getD j 0 ≤ 209 := by
  decide

set_option maxRecDepth 100000 in
theorem offsets_complete :
    ∀ s, s < 210 → Nat.Coprime s 210 → ∃ j, j < 48 ∧ WHEEL_OFFSETS.getD j 0 = s := by
  unfold Nat.Coprime
  decide

theorem offsets_mono (j k : Nat) (hj : j < 48) (hk : k < 48) (hjk : j ≤ k) :
    WHEEL_OFFSETS.getD j 0 ≤ WHEEL_OFFSETS.getD k 0 := by
  rcases Nat.eq_or_lt_of_le hjk with rfl | h
  · exact le_refl _
  · exact Nat.le_of_lt (offsets_strictMono j hj k hk h)

/-- What the search loop of the constructor returns: the first index whose
candidate passes the test, or nothing when every candidate fails it. -/
theorem findOffset_spec (m_base start : Nat) :
    ∀ (offs : List Nat) (i0 : Nat),
      (∃ k, k < offs.length ∧ findOffset m_base start offs i0 = some (i0 + k) ∧
          start ≤ (m_base + offs.getD k 0) % U64 ∧
          ∀ j, j < k → (m_base + offs.getD j 0) % U64 < start) ∨
      (findOffset m_base start offs i0 = none ∧
          ∀ j, j < offs.length → (m_base + offs.getD j 0) % U64 < start) := by
  intro offs
  induction offs with
  | nil =>
    intro i0
    right
    simp [findOffset]
  | cons off rest ih =>
    intro i0
    unfold findOffset
    by_cases h : (m_base + off) % U64 ≥ start
    · left
      refine ⟨0, by simp, by simp [h], by simpa using h, fun j hj => by omega⟩
    · rw [if_neg h]
      rcases ih (i0 + 1) with ⟨k, hk, hf, hge, hlt⟩ | ⟨hf, hlt⟩
      · left
        refine ⟨k + 1, by simp [hk], ?_, by simpa using hge, ?_⟩
        · rw [hf]
          congr 1
          omega
        · intro j hj
          cases j with
          | zero =>
            simp only [List.getD_cons_zero]
            omega
          | succ j =>
            simp only [List.getD_cons_succ]
            exact hlt j (by omega)
      · right
        refine ⟨hf, ?_⟩
        intro j hj
        cases j with
        | zero =>
          simp only [List.getD_cons_zero]
          omega
        | succ j =>
          simp only [List.getD_cons_succ]
          exact hlt j (by simpa using hj)

/-- The constructor always leaves the index inside the table. -/
theorem new_idx_lt (b : Nat) : (new b).m_idx < 48 := by
  unfold new
  rcases findOffset_spec (b / 210 * 210) b WHEEL_OFFSETS 0 with ⟨k, hk, hf, _, _⟩ | ⟨hf, _⟩
  · simp only [hf]
    have : WHEEL_OFFSETS.length = 48 := rfl
    omega
  · simp only [hf]
    norm_num

/-- When some number coprime to 210 in `[b, 2^64)` exists, the constructor stops at
the first offset of the block of `b` that reaches `b`, and nothing wraps. -/
theorem new_spec (b : Nat) (hfit : ∃ c, c < U64 ∧ b ≤ c ∧ Nat.Coprime c 210) :
    ∃ k, k < 48 ∧ new b = ⟨b / 210 * 210, k⟩ ∧
      b / 210 * 210 + WHEEL_OFFSETS.getD k 0 < U64 ∧
      b ≤ b / 210 * 210 + WHEEL_OFFSETS.getD k 0 ∧
      ∀ j, j < k → b / 210 * 210 + WHEEL_OFFSETS.getD j 0 < b := by
  obtain ⟨c, hc64, hbc, hcop⟩ := hfit
  have hlen : WHEEL_OFFSETS.length = 48 := rfl
  -- an index whose candidate reaches `b` without wrapping
  have hgood : ∃ j, j < 48 ∧ b / 210 * 210 + WHEEL_OFFSETS.getD j 0 < U64 ∧
      b ≤ b / 210 * 210 + WHEEL_OFFSETS.getD j 0 := by
    by_cases hq : c / 210 = b / 210
    · obtain ⟨j, hj, hjs⟩ := offsets_complete (c % 210) (Nat.mod_lt c (by norm_num))
        ((coprime_210_mod c).mp hcop)
      refine ⟨j, hj, ?_, ?_⟩ <;> rw [hjs] <;> omega
    · have h47 : WHEEL_OFFSETS.getD 47 0 = 209 := rfl
      refine ⟨47, by norm_num, ?_, ?_⟩ <;> rw [h47] <;> omega
  obtain ⟨j, hj, hj64, hjb⟩ := hgood
  rcases findOffset_spec (b / 210 * 210) b WHEEL_OFFSETS 0 with ⟨k, hk, hf, hge, hlt⟩ | ⟨hf, hlt⟩
  · have hkj : k ≤ j := by
      by_contra hcon
      push_neg at hcon
      have := hlt j hcon
      rw [Nat.mod_eq_of_lt hj64] at this
      omega
    have hk48 : k < 48 := by omega
    have hmono := offsets_mono k j hk48 hj hkj
    have hk64 : b / 210 * 210 + WHEEL_OFFSETS.getD k 0 < U64 := by omega
    rw [Nat.mod_eq_of_lt hk64] at hge
    refine ⟨k, hk48, ?_, hk64, hge, ?_⟩
    · unfold new
      simp only [hf, Nat.zero_add]
    · intro i hi
      have hi64 : b / 210 * 210 + WHEEL_OFFSETS.getD i 0 < U64 := by
        have := offsets_mono i k (by omega) hk48 (by omega)
        omega
      have := hlt i hi
      rw [Nat.mod_eq_of_lt hi64] at this
      exact this
  · exfalso
    have := hlt j (by omega)
    rw [Nat.mod_eq_of_lt hj64] at this
    omega

theorem current_of_aligned (w : WheelIterator) (h : Aligned w) :
    w.current = w.m_base + WHEEL_OFFSETS.getD w.m_idx 0 ∧ w.current < U64 ∧
      Nat.Coprime w.current 210 := by
  obtain ⟨hidx, hmod, hfit⟩ := h
  have hb := offsets_bounds w.m_idx hidx
  have hlt : w.m_base + WHEEL_OFFSETS.getD w.m_idx 0 < U64 := by omega
  have hcur : w.current = w.m_base + WHEEL_OFFSETS.getD w.m_idx 0 := by
    unfold current
    exact Nat.mod_eq_of_lt hlt
  refine ⟨hcur, by omega, ?_⟩
  rw [hcur]
  obtain ⟨t, ht⟩ := Nat.dvd_of_mod_eq_zero hmod
  rw [ht]
  exact (Nat.coprime_mul_left_add_left _ 210 t).mpr (offsets_coprime w.m_idx hidx)

/-- One call of `next` on an aligned iterator whose following block fits: the
result is aligned and one slot further. -/
theorem next_aligned (w : WheelIterator) (h : Aligned w)
    (hroom : w.m_idx = 47 → w.m_base + 420 ≤ U64) :
    Aligned w.next ∧ w.next.pos = w.pos + 1 := by
  obtain ⟨hidx, hmod, hfit⟩ := h
  unfold next WHEEL_SIZE
  by_cases hlast : w.m_idx + 1 ≥ 48
  · rw [if_pos hlast]
    have h47 : w.m_idx = 47 := by omega
    have hr := hroom h47
    have hlt : w.m_base + 210 < U64 := by omega
    simp only [Aligned, pos, Nat.mod_eq_of_lt hlt]
    refine ⟨⟨by norm_num, by omega, by omega⟩, by omega⟩
  · rw [if_neg hlast]
    simp only [Aligned, pos]
    refine ⟨⟨by omega, hmod, hfit⟩, by omega⟩

/-- Aligned iterators are ordered by their position. -/
theorem current_lt_of_pos_lt (w1 w2 : WheelIterator) (h1 : Aligned w1) (h2 : Aligned w2)
    (hpos : w1.pos < w2.pos) : w1.current < w2.current := by
  rw [(current_of_aligned w1 h1).1, (current_of_aligned w2 h2).1]
  obtain ⟨hi1, hm1, _⟩ := h1
  obtain ⟨hi2, hm2, _⟩ := h2
  have hb1 := offsets_bounds w1.m_idx hi1
  have hb2 := offsets_bounds w2.m_idx hi2
  unfold pos at hpos
  by_cases hbase : w1.m_base = w2.m_base
  · have hidx : w1.m_idx < w2.m_idx := by
      rw [hbase] at hpos
      omega
    have := offsets_strictMono w1.m_idx hi1 w2.m_idx hi2 hidx
    omega
  · omega

/-- Under `NoWrap b k` the iterator after `k` steps is aligned, `k` slots after
the constructed one, and the constructor kept the block of `b`. -/
theorem advance_aligned (b : Nat) :
    ∀ k, NoWrap b k →
      Aligned ((new b).advance k) ∧ ((new b).advance k).pos = (new b).pos + k ∧
        (new b).m_base = b / 210 * 210 := by
  have hnew : ∀ k, NoWrap b k → ∃ i, i < 48 ∧ new b = ⟨b / 210 * 210, i⟩ := by
    intro k hk
    unfold NoWrap at hk
    have hfit : ∃ c, c < U64 ∧ b ≤ c ∧ Nat.Coprime c 210 := by
      refine ⟨b / 210 * 210 + 210 + 1, by omega, by omega, ?_⟩
      have : b / 210 * 210 + 210 + 1 = 210 * (b / 210 + 1) + 1 := by ring
      rw [this]
      exact (Nat.coprime_mul_left_add_left 1 210 _).mpr (by decide)
    obtain ⟨i, hi, hnewb, _⟩ := new_spec b hfit
    exact ⟨i, hi, hnewb⟩
  intro k
  induction k with
  | zero =>
    intro hk
    obtain ⟨i, hi, hnewb⟩ := hnew 0 hk
    unfold NoWrap at hk
    simp only [advance, hnewb, Aligned, pos]
    refine ⟨⟨hi, by omega, by omega⟩, by omega, trivial⟩
  | succ k ih =>
    intro hk
    have hk' : NoWrap b k := by
      unfold NoWrap at hk ⊢
      omega
    obtain ⟨hal, hpos, hbase⟩ := ih hk'
    obtain ⟨i, hi, hnewb⟩ := hnew k hk'
    have hroom : ((new b).advance k).m_idx = 47 → ((new b).advance k).m_base + 420 ≤ U64 := by
      intro h47
      unfold NoWrap at hk
      obtain ⟨_, hm, _⟩ := hal
      have hp0 : (new b).pos = b / 210 * 48 + i := by
        rw [hnewb]
        simp only [pos]
        omega
      rw [hp0] at hpos
      unfold pos at hpos
      omega
    obtain ⟨hal', hpos'⟩ := next_aligned _ hal hroom
    simp only [advance]
    refine ⟨hal', by omega, hbase⟩

end WheelIterator

/-- C3. Ignoring 64-bit wraparound (some number coprime to 210 lies in `[b, 2^64)`),
the first value returned by `current()` of `WheelIterator(b)` is the smallest
integer `>= b` that is coprime to 210. -/
theorem wheel_first_is_least (b : Nat)
    (hfit : ∃ c, c < 2 ^ 64 ∧ b ≤ c ∧ Nat.Coprime c 210) :
    b ≤ (WheelIterator.new b).current ∧ Nat.Coprime (WheelIterator.new b).current 210 ∧
      ∀ m, b ≤ m → Nat.Coprime m 210 → (WheelIterator.new b).current ≤ m := by
  obtain ⟨k, hk, hnew, h64, hge, hlt⟩ := WheelIterator.new_spec b hfit
  have hcur : (WheelIterator.new b).current =
      b / 210 * 210 + Constants.WHEEL_OFFSETS.getD k 0 := by
    rw [hnew]
    unfold WheelIterator.current
    exact Nat.mod_eq_of_lt h64
  rw [hcur]
  refine ⟨hge, ?_, ?_⟩
  · rw [Nat.mul_comm]
    exact (Nat.coprime_mul_left_add_left _ 210 _).mpr (WheelIterator.offsets_coprime k hk)
  · intro m hm hcop
    have hbk := WheelIterator.offsets_bounds k hk
    by_cases hq : m / 210 = b / 210
    · obtain ⟨j, hj, hjs⟩ := WheelIterator.offsets_complete (m % 210)
        (Nat.mod_lt m (by norm_num)) ((coprime_210_mod m).mp hcop)
      have hkj : k ≤ j := by
        by_contra hcon
        push_neg at hcon
        have := hlt j hcon
        omega
      have := WheelIterator.offsets_mono k j hk hj hkj
      omega
    · omega

theorem wheel_first_is_least_witness :
    (∃ c, c < 2 ^ 64 ∧ 200 ≤ c ∧ Nat.Coprime c 210) ∧
      200 ≤ (WheelIterator.new 200).current ∧
      Nat.Coprime (WheelIterator.new 200).current 210 ∧
      ∀ m, 200 ≤ m → Nat.Coprime m 210 → (WheelIterator.new 200).current ≤ m :=
  ⟨⟨209, by decide, by decide, by decide⟩,
    wheel_first_is_least 200 ⟨209, by decide, by decide, by decide⟩⟩

/-- C4 as stated fails under 64-bit wraparound: `WheelIterator(2^64 - 1)` finds no
offset in its block, rolls its base over to 194, and `current()` is 195 = 3 * 5 * 13. -/
theorem wheel_coprime_counterexample :
    2 ^ 64 - 1 < 2 ^ 64 ∧
      ((WheelIterator.new (2 ^ 64 - 1)).advance 0).current = 195 ∧
      ¬ Nat.Coprime ((WheelIterator.new (2 ^ 64 - 1)).advance 0).current 210 := by
  decide

/-- C4, amended. For every starting bound `b` and every number `k` of `next()` calls
that stay clear of 64-bit wraparound (`floor(b/210)*210 + 210*(floor(k/48)+2) <= 2^64`),
the value `current()` is coprime to 210. -/
theorem wheel_coprime (b k : Nat)
    (h : b / 210 * 210 + 210 * (k / 48 + 2) ≤ 2 ^ 64) :
    Nat.Coprime ((WheelIterator.new b).advance k).current 210 :=
  (WheelIterator.current_of_aligned _ (WheelIterator.advance_aligned b k h).1).2.2

theorem wheel_coprime_witness :
    3 / 210 * 210 + 210 * (100 / 48 + 2) ≤ 2 ^ 64 ∧
      Nat.Coprime ((WheelIterator.new 3).advance 100).current 210 :=
  ⟨by decide, wheel_coprime 3 100 (by decide)⟩

/-- C5. Ignoring 64-bit wraparound, for the state reached from `WheelIterator(b)` by
`k` calls of `next()` the value of `current()` after one more `next()` is strictly
greater than before it, and strictly greater than every value produced earlier:
the sequence is strictly increasing and never revisits a value. -/
theorem wheel_strictly_increasing (b k : Nat)
    (h : b / 210 * 210 + 210 * ((k + 1) / 48 + 2) ≤ 2 ^ 64) :
    ((WheelIterator.new b).advance k).current < ((WheelIterator.new b).advance k).next.current ∧
      ∀ i, i ≤ k →
        ((WheelIterator.new b).advance i).current <
          ((WheelIterator.new b).advance k).next.current := by
  have hstep : ∀ i, i ≤ k → ((WheelIterator.new b).advance i).current <
      ((WheelIterator.new b).advance k).next.current := by
    intro i hi
    have hi' : WheelIterator.NoWrap b i := by
      unfold WheelIterator.NoWrap U64
      omega
    obtain ⟨hal1, hpos1, _⟩ := WheelIterator.advance_aligned b i hi'
    obtain ⟨hal2, hpos2, _⟩ := WheelIterator.advance_aligned b (k + 1) h
    have hlt : ((WheelIterator.new b).advance i).pos <
        ((WheelIterator.new b).advance (k + 1)).pos := by
      rw [hpos1, hpos2]
      omega
    exact WheelIterator.current_lt_of_pos_lt _ _ hal1 hal2 hlt
  exact ⟨hstep k (le_refl k), hstep⟩

theorem wheel_strictly_increasing_witness :
    3 / 210 * 210 + 210 * ((47 + 1) / 48 + 2) ≤ 2 ^ 64 ∧
      (((WheelIterator.new 3).advance 47).current <
          ((WheelIterator.new 3).advance 47).next.current ∧
        ∀ i, i ≤ 47 →
          ((WheelIterator.new 3).advance i).current <
            ((WheelIterator.new 3).advance 47).next.current) :=
  ⟨by decide, wheel_strictly_increasing 3 47 (by decide)⟩

/-! ## The analyzer loop -/

namespace Worker

theorem recordGap_frame (s : LoopState) (n : Nat) :
    (recordGap s n).primeCount = s.primeCount ∧
      (recordGap s n).primesSinceLastUpdate = s.primesSinceLastUpdate ∧
      (recordGap s n).wheel = s.wheel ∧ (recordGap s n).stats = s.stats := by
  simp only [recordGap, recordTwin, recordTransition]
  split_ifs <;> exact ⟨rfl, rfl, rfl, rfl⟩

theorem finishPrime_effect (s : LoopState) (n : Nat) :
    (finishPrime s n).1.wheel = s.wheel ∧
    (finishPrime s n).1.primeCount = s.primeCount ∧
    (finishPrime s n).1.primesSinceLastUpdate =
      (if s.primesSinceLastUpdate + 1 ≥ progressStep then 0 else s.primesSinceLastUpdate + 1) ∧
    (finishPrime s n).1.lastPrime = n ∧
    ((finishPrime s n).2.isSome ↔ s.primesSinceLastUpdate + 1 ≥ progressStep) ∧
    (∀ st, (finishPrime s n).2 = some st →
      st.currentN = n ∧ st.primeCount = s.primeCount ∧ st.regime = regimeOf n) := by
  unfold finishPrime
  by_cases hstep : s.primesSinceLastUpdate + 1 ≥ progressStep
  · simp only [hstep, if_true, Option.isSome_some, Option.some.injEq, true_and]
    intro st hst
    subst hst
    exact ⟨rfl, rfl, rfl⟩
  · simp only [hstep, if_false, Option.isSome_none, Bool.false_eq_true, true_and]
    intro st hst
    simp at hst

theorem loopBody_of_rejected (w : Worker) (s : LoopState)
    (h : w.m_sieve.isPrimeFromWheel s.wheel.current = false) :
    w.loopBody s = ({ s with wheel := s.wheel.next }, none) := by
  unfold loopBody
  simp only [h, if_true]

theorem loopBody_of_confirmed (w : Worker) (s : LoopState)
    (h : w.m_sieve.isPrimeFromWheel s.wheel.current = true) :
    w.loopBody s =
      finishPrime (recordGap (recordPrime { s with wheel := s.wheel.next } s.wheel.current)
        s.wheel.current) s.wheel.current := by
  unfold loopBody
  simp [h]

theorem recordPrime_frame (s : LoopState) (n : Nat) :
    (recordPrime s n).primeCount = s.primeCount + 1 ∧
      (recordPrime s n).primesSinceLastUpdate = s.primesSinceLastUpdate ∧
      (recordPrime s n).wheel = s.wheel ∧ (recordPrime s n).stats = s.stats ∧
      (recordPrime s n).lastPrime = s.lastPrime :=
  ⟨rfl, rfl, rfl, rfl, rfl⟩

/-- The effect of one iteration on the wheel, the prime counter, the snapshot
counter and `lastPrime`, and the snapshot it emits. -/
theorem loopBody_effect (w : Worker) (s : LoopState) :
    (w.loopBody s).1.wheel = s.wheel.next ∧
    (w.loopBody s).1.primeCount =
      s.primeCount + (if w.m_sieve.isPrimeFromWheel s.wheel.current then 1 else 0) ∧
    (w.loopBody s).1.primesSinceLastUpdate =
      (if w.m_sieve.isPrimeFromWheel s.wheel.current then
        (if s.primesSinceLastUpdate + 1 ≥ progressStep then 0 else s.primesSinceLastUpdate + 1)
       else s.primesSinceLastUpdate) ∧
    (w.loopBody s).1.lastPrime =
      (if w.m_sieve.isPrimeFromWheel s.wheel.current then s.wheel.current else s.lastPrime) ∧
    ((w.loopBody s).2.isSome ↔
      (w.m_sieve.isPrimeFromWheel s.wheel.current = true ∧
        s.primesSinceLastUpdate + 1 ≥ progressStep)) ∧
    (∀ st, (w.loopBody s).2 = some st →
      st.currentN = s.wheel.current ∧ st.primeCount = s.primeCount + 1 ∧
        st.regime = regimeOf s.wheel.current) := by
  by_cases hp : w.m_sieve.isPrimeFromWheel s.wheel.current = true
  · obtain ⟨g1, g2, g3, g4⟩ := recordGap_frame
      (recordPrime { s with wheel := s.wheel.next } s.wheel.current) s.wheel.current
    obtain ⟨f1, f2, f3, f4, f5, f6⟩ := finishPrime_effect
      (recordGap (recordPrime { s with wheel := s.wheel.next } s.wheel.current)
        s.wheel.current) s.wheel.current
    rw [loopBody_of_confirmed w s hp]
    rw [g1] at f2 f6
    rw [g2] at f3 f5
    rw [g3] at f1
    simp only [hp, if_true, true_and]
    exact ⟨f1, f2, f3, f4, f5, f6⟩
  · have hp' : w.m_sieve.isPrimeFromWheel s.wheel.current = false := by simpa using hp
    rw [loopBody_of_rejected w s hp']
    simp [hp']

end Worker

namespace Worker

theorem run_succ (w : Worker) (k : Nat) :
    w.run (k + 1) =
      ((w.loopBody (w.run k).1).1, (w.run k).2 ++ (w.loopBody (w.run k).1).2.toList) := rfl

theorem run_wheel (w : Worker) (k : Nat) :
    (w.run k).1.wheel = (WheelIterator.new w.m_startN).advance k := by
  induction k with
  | zero => rfl
  | succ k ih =>
    rw [run_succ]
    simp only [(loopBody_effect w (w.run k).1).1, ih, WheelIterator.advance]

theorem run_current (w : Worker) (k : Nat) : (w.run k).1.wheel.current = w.candidate k := by
  rw [run_wheel]
  rfl

theorem run_primeCount (w : Worker) (k : Nat) :
    (w.run k).1.primeCount = w.confirmedCount k := by
  induction k with
  | zero => rfl
  | succ k ih =>
    rw [run_succ]
    simp only [(loopBody_effect w (w.run k).1).2.1, ih, run_current, confirmedCount, confirmed]

theorem run_since (w : Worker) (k : Nat) :
    (w.run k).1.primesSinceLastUpdate = w.confirmedCount k % 5000 := by
  induction k with
  | zero => rfl
  | succ k ih =>
    rw [run_succ]
    simp only [(loopBody_effect w (w.run k).1).2.2.1, ih, run_current, confirmedCount, confirmed,
      progressStep]
    by_cases hc : w.m_sieve.isPrimeFromWheel (w.candidate k) = true
    · simp only [hc, if_true]
      split_ifs <;> omega
    · simp only [hc]
      simp

/-- An iteration emits a snapshot exactly when it confirms a prime that brings the
count to a multiple of 5000. -/
theorem emits_iff (w : Worker) (k : Nat) :
    (w.loopBody (w.run k).1).2.isSome ↔
      (w.confirmed k = true ∧ (w.confirmedCount k + 1) % 5000 = 0) := by
  rw [(loopBody_effect w (w.run k).1).2.2.2.2.1, run_current, run_since]
  unfold confirmed progressStep
  apply and_congr_right
  intro _
  omega

/-- The snapshots emitted so far number one per 5000 confirmed primes, and the
snapshot at list index `i` carries `primeCount = 5000 * (i + 1)`. -/
theorem run_snapshots (w : Worker) (k : Nat) :
    (w.run k).2.length = w.confirmedCount k / 5000 ∧
      ∀ i st, (w.run k).2[i]? = some st → st.primeCount = 5000 * (i + 1) := by
  induction k with
  | zero =>
    refine ⟨by simp [run, confirmedCount], ?_⟩
    intro i st h
    simp [run] at h
  | succ k ih =>
    obtain ⟨hlen, hall⟩ := ih
    have hem := emits_iff w k
    have heff := (loopBody_effect w (w.run k).1).2.2.2.2.2
    rw [run_primeCount] at heff
    rw [run_succ]
    simp only [confirmedCount]
    cases hout : (w.loopBody (w.run k).1).2 with
    | none =>
      rw [hout] at hem
      simp only [Option.isSome_none, Bool.false_eq_true, false_iff, not_and] at hem
      simp only [Option.toList_none, List.append_nil]
      refine ⟨?_, hall⟩
      rw [hlen]
      by_cases hc : w.confirmed k = true
      · have := hem hc
        simp only [hc, if_true]
        omega
      · simp only [hc]
        simp
    | some st =>
      rw [hout] at hem
      simp only [Option.isSome_some, true_iff] at hem
      obtain ⟨hc, hmod⟩ := hem
      have hst := (heff st hout).2.1
      simp only [Option.toList_some, List.length_append, List.length_singleton, hc, if_true]
      refine ⟨by omega, ?_⟩
      intro i st' hi
      by_cases hlt : i < (w.run k).2.length
      · rw [List.getElem?_append_left hlt] at hi
        exact hall i st' hi
      · push_neg at hlt
        rw [List.getElem?_append_right hlt] at hi
        have hi0 : i - (w.run k).2.length = 0 := by
          by_contra hne
          have : [st][i - (w.run k).2.length]? = none := by
            apply List.getElem?_eq_none
            simp only [List.length_singleton]
            omega
          rw [this] at hi
          simp at hi
        rw [hi0] at hi
        simp only [List.getElem?_cons_zero, Option.some.injEq] at hi
        subst hi
        rw [hst]
        omega

/-- The previous prime is either absent or one of the earlier candidates. -/
theorem run_lastPrime (w : Worker) (k : Nat) :
    (w.run k).1.lastPrime = 0 ∨ ∃ j, j < k ∧ (w.run k).1.lastPrime = w.candidate j := by
  induction k with
  | zero =>
    left
    rfl
  | succ k ih =>
    rw [run_succ]
    simp only [(loopBody_effect w (w.run k).1).2.2.2.1, run_current]
    by_cases hc : w.m_sieve.isPrimeFromWheel (w.candidate k) = true
    · right
      exact ⟨k, by omega, by simp [hc]⟩
    · simp only [hc]
      rcases ih with h | ⟨j, hj, h⟩
      · left
        simpa using h
      · right
        exact ⟨j, by omega, by simpa using h⟩

end Worker

/-- C8. In every run of `Worker::process` the iteration `k` emits a snapshot exactly
when the number of confirmed primes grows in that iteration to a positive multiple
of 5000; the emitted snapshot carries the candidate confirmed in that iteration as
`currentN` and the new count as `primeCount`; and the snapshot at position `i`
(counting from zero) of the emitted sequence has `primeCount = 5000 * (i + 1)`. -/
theorem snapshot_cadence (w : Worker) (k : Nat) :
    ((w.loopBody (w.run k).1).2.isSome ↔
        ((w.run k).1.primeCount < (w.run (k + 1)).1.primeCount ∧
          0 < (w.run (k + 1)).1.primeCount ∧ (w.run (k + 1)).1.primeCount % 5000 = 0)) ∧
      (∀ st, (w.loopBody (w.run k).1).2 = some st →
        st.currentN = (w.run k).1.wheel.current ∧
          w.m_sieve.isPrimeFromWheel st.currentN = true ∧
          st.primeCount = (w.run (k + 1)).1.primeCount) ∧
      (w.run (k + 1)).2 = (w.run k).2 ++ (w.loopBody (w.run k).1).2.toList ∧
      (∀ i st, (w.run k).2[i]? = some st → st.primeCount = 5000 * (i + 1)) := by
  have hem := Worker.emits_iff w k
  refine ⟨?_, ?_, rfl, (Worker.run_snapshots w k).2⟩
  · rw [hem, Worker.run_primeCount, Worker.run_primeCount]
    simp only [Worker.confirmedCount]
    by_cases hc : w.confirmed k = true
    · simp only [hc, if_true, true_and]
      constructor
      · intro h
        exact ⟨by omega, by omega, h⟩
      · intro h
        exact h.2.2
    · simp only [hc]
      simp
  · intro st hst
    have heff := (Worker.loopBody_effect w (w.run k).1).2.2.2.2.2 st hst
    have hsome : (w.loopBody (w.run k).1).2.isSome = true := by
      rw [hst]
      rfl
    have hc := (hem.mp hsome).1
    refine ⟨heff.1, ?_, ?_⟩
    · rw [heff.1, Worker.run_current]
      exact hc
    · rw [heff.2.1, Worker.run_primeCount, Worker.run_primeCount]
      simp only [Worker.confirmedCount, hc, if_true]

/-- C9. The regime stored in an emitted snapshot is the function `regimeOf` of the
snapshot's candidate value, and that function is Frozen iff `n < 500`, Transition
iff `500 <= n < 10000`, Asymptotic iff `10000 <= n < 1000000`, Precise iff
`n >= 1000000`, with the six boundary values as listed. -/
theorem snapshot_regime (w : Worker) (s : LoopState)
    (h : (w.loopBody s).2.isSome = true) :
    ((w.loopBody s).2.get h).regime = regimeOf ((w.loopBody s).2.get h).currentN ∧
      (∀ n, (regimeOf n = Regime.Frozen ↔ n < 500) ∧
        (regimeOf n = Regime.Transition ↔ 500 ≤ n ∧ n < 10000) ∧
        (regimeOf n = Regime.Asymptotic ↔ 10000 ≤ n ∧ n < 1000000) ∧
        (regimeOf n = Regime.Precise ↔ 1000000 ≤ n)) ∧
      regimeOf 499 = Regime.Frozen ∧ regimeOf 500 = Regime.Transition ∧
      regimeOf 9999 = Regime.Transition ∧ regimeOf 10000 = Regime.Asymptotic ∧
      regimeOf 999999 = Regime.Asymptotic ∧ regimeOf 1000000 = Regime.Precise := by
  refine ⟨?_, ?_, by decide, by decide, by decide, by decide, by decide, by decide⟩
  · have heff := (Worker.loopBody_effect w s).2.2.2.2.2 ((w.loopBody s).2.get h)
      (Option.some_get h).symm
    rw [heff.2.2, heff.1]
  · intro n
    unfold regimeOf Constants.FROZEN_LIMIT Constants.TRANSITION_LIMIT Constants.PRECISE_LIMIT
    split_ifs <;> simp <;> omega

theorem snapshot_regime_witness :
    ∃ h : ((⟨false, 3, AnalysisMode.Both, false, ⟨[]⟩⟩ : Worker).loopBody
        { (⟨false, 3, AnalysisMode.Both, false, ⟨[]⟩⟩ : Worker).initState with
          primesSinceLastUpdate := 4999 }).2.isSome = true,
      (((⟨false, 3, AnalysisMode.Both, false, ⟨[]⟩⟩ : Worker).loopBody
        { (⟨false, 3, AnalysisMode.Both, false, ⟨[]⟩⟩ : Worker).initState with
          primesSinceLastUpdate := 4999 }).2.get h).regime = Regime.Frozen :=
  ⟨by decide,
    ((snapshot_regime ⟨false, 3, AnalysisMode.Both, false, ⟨[]⟩⟩
      { (⟨false, 3, AnalysisMode.Both, false, ⟨[]⟩⟩ : Worker).initState with
        primesSinceLastUpdate := 4999 } (by decide)).1).trans (by decide)⟩

/-! ## Twin classes -/

theorem twin_residue (a : Nat) (h1 : Nat.Coprime a 210) (h2 : Nat.Coprime (a + 2) 210) :
    a % 30 = 11 ∨ a % 30 = 17 ∨ a % 30 = 29 := by
  obtain ⟨a2, a3, a5, _⟩ := (coprime_210_iff a).mp h1
  obtain ⟨_, b3, b5, _⟩ := (coprime_210_iff (a + 2)).mp h2
  have e2 : a % 30 % 2 = a % 2 := Nat.mod_mod_of_dvd a (by norm_num)
  have e3 : a % 30 % 3 = a % 3 := Nat.mod_mod_of_dvd a (by norm_num)
  have e5 : a % 30 % 5 = a % 5 := Nat.mod_mod_of_dvd a (by norm_num)
  have hlt : a % 30 < 30 := Nat.mod_lt a (by norm_num)
  generalize a % 30 = r at e2 e3 e5 hlt ⊢
  interval_cases r <;> omega

theorem classIndex_of_residue (a : Nat) (h : a % 30 = 11 ∨ a % 30 = 17 ∨ a % 30 = 29) :
    classIndex a = 0 ∨ classIndex a = 1 ∨ classIndex a = 2 := by
  unfold classIndex
  rcases h with h | h | h <;> simp [h]

theorem PrimeSieve.isPrimeFromWheel_of_no_divisor (L n : Nat)
    (hfit : L < (2 ^ 32 - 1) ^ 2) (h121 : 121 ≤ n)
    (h : ∀ p, 11 ≤ p → p ≤ Nat.sqrt n + 1 → ¬ p ∣ n) :
    (PrimeSieve.new L).isPrimeFromWheel n = true := by
  unfold PrimeSieve.isPrimeFromWheel
  rw [if_neg (by omega)]
  simp only [PrimeSieve.new]
  rw [PrimeSieve.trialLoop_spec n _ _ (PrimeSieve.sorted_generateBasePrimes L hfit),
    floorSqrt_eq_sqrt]
  intro p hp hle
  exact h p ((PrimeSieve.mem_generateBasePrimes L p hfit).mp hp).1 hle

/-- Before the wheel wraps, an iteration never reaches the defensive branch. -/
theorem Worker.no_defensiveSkip (w : Worker) (k : Nat)
    (hk : WheelIterator.NoWrap w.m_startN k) : ¬ w.defensiveSkip (w.run k).1 := by
  rintro ⟨_, hlp, hgap, hcls⟩
  rw [Worker.run_current] at hgap
  have hcand : ∀ j, j ≤ k → Nat.Coprime (w.candidate j) 210 ∧ w.candidate j < U64 := by
    intro j hj
    have hj' : WheelIterator.NoWrap w.m_startN j := by
      unfold WheelIterator.NoWrap at hk ⊢
      omega
    have := WheelIterator.current_of_aligned _ (WheelIterator.advance_aligned _ j hj').1
    exact ⟨this.2.2, this.2.1⟩
  rcases Worker.run_lastPrime w k with h0 | ⟨j, hj, hlast⟩
  · exact hlp h0
  · obtain ⟨hc1, hlt1⟩ := hcand j (by omega)
    obtain ⟨hc2, hlt2⟩ := hcand k (le_refl k)
    rw [hlast] at hgap hcls
    generalize w.candidate j = a at hc1 hlt1 hgap hcls
    generalize w.candidate k = n at hc2 hlt2 hgap
    unfold subU64 at hgap
    rw [Nat.mod_eq_of_lt hlt1] at hgap
    have hn : n = a + 2 := by
      by_cases hle : a ≤ n
      · have : n + U64 - a = (n - a) + U64 := by omega
        rw [this, Nat.add_mod_right, Nat.mod_eq_of_lt (by omega)] at hgap
        omega
      · exfalso
        push_neg at hle
        rw [Nat.mod_eq_of_lt (by omega)] at hgap
        have ha : a = U64 - 1 := by
          have hn1 : 1 ≤ n := by
            rcases Nat.eq_zero_or_pos n with h0 | hpos
            · subst h0
              exact absurd hc2 (by decide)
            · exact hpos
          omega
        subst ha
        exact absurd hc1 (by decide)
    subst hn
    rcases classIndex_of_residue a (twin_residue a hc1 hc2) with h | h | h <;>
      rw [h] at hcls <;> exact absurd hcls (by decide)

/-- Started at `2^64 - 1` with any sieve limit, the third iteration takes the
defensive branch: the wheel wraps and yields 195, 205, 207. -/
theorem Worker.defensiveSkip_at_wrap (w : Worker) (L : Nat) (hstart : w.m_startN = 2 ^ 64 - 1)
    (hsieve : w.m_sieve = PrimeSieve.new L)
    (hfit : L < (2 ^ 32 - 1) ^ 2) : w.defensiveSkip (w.run 2).1 := by
  have hs205 : Nat.sqrt 205 = 14 := by
    rw [← floorSqrt_eq_sqrt]
    decide
  have hs207 : Nat.sqrt 207 = 14 := by
    rw [← floorSqrt_eq_sqrt]
    decide
  have p205 : w.m_sieve.isPrimeFromWheel 205 = true := by
    rw [hsieve]
    apply PrimeSieve.isPrimeFromWheel_of_no_divisor _ _ hfit (by decide)
    intro p h11 hle
    rw [hs205] at hle
    interval_cases p <;> decide
  have p207 : w.m_sieve.isPrimeFromWheel 207 = true := by
    rw [hsieve]
    apply PrimeSieve.isPrimeFromWheel_of_no_divisor _ _ hfit (by decide)
    intro p h11 hle
    rw [hs207] at hle
    interval_cases p <;> decide
  have c1 : w.candidate 1 = 205 := by
    unfold Worker.candidate
    rw [hstart]
    decide
  have c2 : w.candidate 2 = 207 := by
    unfold Worker.candidate
    rw [hstart]
    decide
  have hlast : (w.run 2).1.lastPrime = 205 := by
    rw [Worker.run_succ]
    simp only [(Worker.loopBody_effect _ _).2.2.2.1, Worker.run_current, c1]
    rw [if_pos p205]
  unfold Worker.defensiveSkip
  rw [Worker.run_current, c2, hlast]
  exact ⟨p207, by decide, by decide, by decide⟩

/-- C10 as stated fails under 64-bit wraparound: started at `2^64 - 1` the wheel
yields 195, 205, 207; the tests confirm 205 and 207, their gap is 2, and
`classIndex(205)` is -1, so the third iteration takes the defensive branch. -/
theorem defensive_branch_counterexample :
    2 ≤ 2 ^ 64 - 1 ∧ 2 ^ 64 - 1 < 2 ^ 64 ∧
      Worker.defensiveSkip (Worker.new.configure (2 ^ 64 - 1) AnalysisMode.Both false)
        ((Worker.new.configure (2 ^ 64 - 1) AnalysisMode.Both false).run 2).1 :=
  ⟨by decide, by decide,
    Worker.defensiveSkip_at_wrap _ 10000000 (by decide) rfl (by norm_num)⟩

/-- C10, amended. For every pair `a`, `a + 2` of integers both coprime to 210,
`classIndex(a)` is 0, 1 or 2, that is `a mod 30` is 11, 17 or 29; therefore the
defensive branch `twinClass < 0` is not taken in any iteration of `Worker::process`
that the wheel reaches without 64-bit wraparound. -/
theorem twin_class_valid (a : Nat) (h1 : Nat.Coprime a 210) (h2 : Nat.Coprime (a + 2) 210)
    (w : Worker) (k : Nat) (hk : w.m_startN / 210 * 210 + 210 * (k / 48 + 2) ≤ 2 ^ 64) :
    (classIndex a = 0 ∨ classIndex a = 1 ∨ classIndex a = 2) ∧
      (a % 30 = 11 ∨ a % 30 = 17 ∨ a % 30 = 29) ∧
      ¬ w.defensiveSkip (w.run k).1 :=
  ⟨classIndex_of_residue a (twin_residue a h1 h2), twin_residue a h1 h2,
    Worker.no_defensiveSkip w k hk⟩

theorem twin_class_valid_witness :
    Nat.Coprime 1019 210 ∧ Nat.Coprime (1019 + 2) 210 ∧
      (Worker.new.configure 3 AnalysisMode.Both false).m_startN / 210 * 210 +
        210 * (20 / 48 + 2) ≤ 2 ^ 64 ∧
      ((classIndex 1019 = 0 ∨ classIndex 1019 = 1 ∨ classIndex 1019 = 2) ∧
        (1019 % 30 = 11 ∨ 1019 % 30 = 17 ∨ 1019 % 30 = 29) ∧
        ¬ (Worker.new.configure 3 AnalysisMode.Both false).defensiveSkip
          ((Worker.new.configure 3 AnalysisMode.Both false).run 20).1) :=
  ⟨by decide, by decide, by decide,
    twin_class_valid 1019 (by decide) (by decide)
      (Worker.new.configure 3 AnalysisMode.Both false) 20 (by decide)⟩

/-! ## The first snapshot of a run started at 3 -/

theorem forceNat_eq {α : Type} (n : Nat) (f : Nat → α) : forceNat n f = f n := by
  cases n <;> rfl

theorem slotValue_of_aligned (w : WheelIterator) (h : WheelIterator.Aligned w) :
    w.current = slotValue w.pos := by
  rw [(WheelIterator.current_of_aligned w h).1]
  obtain ⟨hidx, hmod, _⟩ := h
  unfold slotValue WheelIterator.pos
  have h1 : (w.m_base / 210 * 48 + w.m_idx) / 48 = w.m_base / 210 := by omega
  have h2 : (w.m_base / 210 * 48 + w.m_idx) % 48 = w.m_idx := by omega
  rw [h1, h2]
  omega

theorem slotValue_strictMono (p q : Nat) (h : p < q) : slotValue p < slotValue q := by
  unfold slotValue
  have hp := WheelIterator.offsets_bounds (p % 48) (Nat.mod_lt p (by norm_num))
  have hq := WheelIterator.offsets_bounds (q % 48) (Nat.mod_lt q (by norm_num))
  by_cases hb : p / 48 = q / 48
  · have hlt : p % 48 < q % 48 := by omega
    have := WheelIterator.offsets_strictMono (p % 48) (Nat.mod_lt p (by norm_num)) (q % 48)
      (Nat.mod_lt q (by norm_num)) hlt
    omega
  · have : p / 48 < q / 48 := by omega
    omega

theorem slotValue_coprime (p : Nat) : Nat.Coprime (slotValue p) 210 := by
  unfold slotValue
  exact (Nat.coprime_mul_left_add_left _ 210 _).mpr
    (WheelIterator.offsets_coprime (p % 48) (Nat.mod_lt p (by norm_num)))

theorem slotValue_surjective (m : Nat) (hc : Nat.Coprime m 210) : ∃ p, slotValue p = m := by
  obtain ⟨i, hi, his⟩ := WheelIterator.offsets_complete (m % 210) (Nat.mod_lt m (by norm_num))
    ((coprime_210_mod m).mp hc)
  refine ⟨48 * (m / 210) + i, ?_⟩
  unfold slotValue
  have h1 : (48 * (m / 210) + i) / 48 = m / 210 := by omega
  have h2 : (48 * (m / 210) + i) % 48 = i := by omega
  rw [h1, h2, his]
  omega

set_option maxRecDepth 100000 in
theorem smallPrimes_eq : PrimeSieve.generateBasePrimes 230 = some smallPrimes := by
  decide

theorem smallPrimorial_eq : smallPrimorial = smallPrimes.prod := by
  decide

theorem mem_smallPrimes (p : Nat) : p ∈ smallPrimes ↔ 11 ≤ p ∧ p ≤ 230 ∧ Nat.Prime p := by
  have h := PrimeSieve.mem_generateBasePrimes 230 p (by norm_num)
  rw [smallPrimes_eq, Option.getD_some] at h
  exact h

/-- The gcd test is exact on numbers coprime to 210 below 230 squared. -/
theorem gcdTest_iff (n : Nat) (hc : Nat.Coprime n 210) (h2 : 2 ≤ n) (hn : n < 230 * 230) :
    gcdTest n = true ↔ Nat.Prime n := by
  unfold gcdTest
  rw [forceNat_eq]
  simp only [Bool.or_eq_true, Bool.and_eq_true, Nat.beq_eq, Nat.ble_eq, List.contains,
    List.elem_iff]
  constructor
  · rintro (hg | ⟨_, hmem⟩)
    · by_contra hnp
      have hsq := Nat.minFac_sq_le_self (by omega : 0 < n) hnp
      have h11 := minFac_ge_11 n hc h2
      have hpr : Nat.Prime n.minFac := Nat.minFac_prime (by omega)
      have hlt : n.minFac ≤ 230 := by
        by_contra hgt
        push_neg at hgt
        have : 230 * 230 ≤ n.minFac ^ 2 := by
          rw [sq]
          exact Nat.mul_le_mul (by omega) (by omega)
        omega
      have hmem : n.minFac ∈ smallPrimes := (mem_smallPrimes _).mpr ⟨h11, hlt, hpr⟩
      have hd1 : n.minFac ∣ smallPrimorial := by
        rw [smallPrimorial_eq]
        exact List.dvd_prod hmem
      have hd : n.minFac ∣ Nat.gcd n smallPrimorial := Nat.dvd_gcd (Nat.minFac_dvd n) hd1
      rw [hg] at hd
      have := Nat.le_of_dvd (by norm_num) hd
      omega
    · exact ((mem_smallPrimes n).mp hmem).2.2
  · intro hp
    have h11 : 11 ≤ n := by
      have := minFac_ge_11 n hc h2
      rwa [hp.minFac_eq] at this
    by_cases hle : n ≤ 229
    · right
      exact ⟨hle, (mem_smallPrimes n).mpr ⟨h11, by omega, hp⟩⟩
    · left
      rw [smallPrimorial_eq]
      apply Nat.Coprime.gcd_eq_one
      apply (Nat.coprime_list_prod_right_iff).mpr
      intro q hq
      have hq' := (mem_smallPrimes q).mp hq
      have hne : n ≠ q := by
        intro h
        rw [h] at hle
        have hq230 : q ≠ 230 := by
          rintro rfl
          exact absurd hq'.2.2 (by norm_num)
        omega
      exact (Nat.coprime_primes hp hq'.2.2).mpr hne

namespace Worker

theorem confirmedCount_mono (w : Worker) (j k : Nat) (h : j ≤ k) :
    w.confirmedCount j ≤ w.confirmedCount k := by
  induction k with
  | zero =>
    have : j = 0 := by omega
    subst this
    exact le_refl _
  | succ k ih =>
    rcases Nat.eq_or_lt_of_le h with rfl | hlt
    · exact le_refl _
    · have := ih (by omega)
      simp only [confirmedCount]
      omega

/-- Before the wheel wraps, the candidate of iteration `j` is the wheel slot `j`
positions after the one the constructor chose. -/
theorem candidate_eq_slotValue (w : Worker) (j : Nat)
    (h : WheelIterator.NoWrap w.m_startN j) :
    w.candidate j = slotValue ((WheelIterator.new w.m_startN).pos + j) := by
  obtain ⟨hal, hpos, _⟩ := WheelIterator.advance_aligned w.m_startN j h
  unfold candidate
  rw [slotValue_of_aligned _ hal, hpos]

/-- Started at 3 with a sieve limit of at least 230, each of the first 11119
iterations confirms its candidate exactly when the wheel slot it draws is prime. -/
theorem confirmed_from_three (w : Worker) (L : Nat) (hstart : w.m_startN = 3)
    (hsieve : w.m_sieve = PrimeSieve.new L)
    (hfit : L < (2 ^ 32 - 1) ^ 2) (hL : 230 ≤ L) (j : Nat) (hj : j ≤ 11118) :
    w.candidate j = slotValue (j + 1) ∧
      (w.confirmed j = true ↔ Nat.Prime (slotValue (j + 1))) ∧
      (w.confirmed j = gcdTest (slotValue (j + 1))) := by
  have hnw : WheelIterator.NoWrap w.m_startN j := by
    rw [hstart]
    unfold WheelIterator.NoWrap U64
    omega
  have hpos : (WheelIterator.new 3).pos = 1 := by decide
  have hcand : w.candidate j = slotValue (j + 1) := by
    rw [candidate_eq_slotValue w j hnw, hstart, hpos, Nat.add_comm]
  have hcop := slotValue_coprime (j + 1)
  have hlt : slotValue (j + 1) < 230 * 230 := by
    have hb := WheelIterator.offsets_bounds ((j + 1) % 48) (Nat.mod_lt _ (by norm_num))
    unfold slotValue
    omega
  have h2 : 2 ≤ slotValue (j + 1) := by
    have := slotValue_strictMono 0 (j + 1) (by omega)
    have h0 : slotValue 0 = 1 := by decide
    omega
  have hsqrt : Nat.sqrt (slotValue (j + 1)) ≤ L := by
    have : Nat.sqrt (slotValue (j + 1)) < 230 := Nat.sqrt_lt.mpr hlt
    omega
  have hprime : w.confirmed j = true ↔ Nat.Prime (slotValue (j + 1)) := by
    unfold confirmed
    rw [hcand, hsieve]
    exact PrimeSieve.isPrimeFromWheel_iff L _ hcop hsqrt hfit
  refine ⟨hcand, hprime, ?_⟩
  have hg := gcdTest_iff _ hcop h2 hlt
  cases hc : w.confirmed j <;> cases hgt : gcdTest (slotValue (j + 1)) <;> simp_all

theorem countSlotPrimes_eq (w : Worker) (L : Nat) (hstart : w.m_startN = 3)
    (hsieve : w.m_sieve = PrimeSieve.new L)
    (hfit : L < (2 ^ 32 - 1) ^ 2) (hL : 230 ≤ L) :
    ∀ k acc, k ≤ 11119 → countSlotPrimes k acc = acc + w.confirmedCount k := by
  intro k
  induction k with
  | zero =>
    intro acc _
    rfl
  | succ k ih =>
    intro acc hk
    simp only [countSlotPrimes, forceNat_eq, confirmedCount]
    rw [ih _ (by omega), ← (confirmed_from_three w L hstart hsieve hfit hL k (by omega)).2.2]
    cases w.confirmed k
    · simp
    · simp
      omega

/-- The number of primes among the wheel slots `1, ..., k`, as a set count. -/
theorem confirmedCount_eq_card (w : Worker) (L : Nat) (hstart : w.m_startN = 3)
    (hsieve : w.m_sieve = PrimeSieve.new L)
    (hfit : L < (2 ^ 32 - 1) ^ 2) (hL : 230 ≤ L) :
    ∀ k, k ≤ 11119 →
      w.confirmedCount k =
        ((Finset.range k).filter (fun j => Nat.Prime (slotValue (j + 1)))).card := by
  intro k
  induction k with
  | zero =>
    intro _
    rfl
  | succ k ih =>
    intro hk
    have hc := (confirmed_from_three w L hstart hsieve hfit hL k (by omega)).2.1
    simp only [confirmedCount]
    rw [ih (by omega), Finset.range_succ, Finset.filter_insert]
    by_cases hp : Nat.Prime (slotValue (k + 1))
    · rw [if_pos hp, Finset.card_insert_of_not_mem (by simp), if_pos (hc.mpr hp)]
    · rw [if_neg hp]
      have : w.confirmed k = false := by
        cases h : w.confirmed k
        · rfl
        · exact absurd (hc.mp h) hp
      rw [this]
      simp

end Worker

/-- The primes from 11 up to the value of slot `K` correspond one to one to the
prime-valued slots among `1, ..., K`. -/
theorem card_primes_upto_slot (K : Nat) :
    ((Finset.Icc 11 (slotValue K)).filter Nat.Prime).card =
      ((Finset.range K).filter (fun j => Nat.Prime (slotValue (j + 1)))).card := by
  symm
  apply Finset.card_bij (fun j _ => slotValue (j + 1))
  · intro j hj
    simp only [Finset.mem_filter, Finset.mem_range] at hj
    simp only [Finset.mem_filter, Finset.mem_Icc]
    refine ⟨⟨?_, ?_⟩, hj.2⟩
    · have := minFac_ge_11 _ (slotValue_coprime (j + 1)) hj.2.two_le
      rwa [hj.2.minFac_eq] at this
    · rcases Nat.eq_or_lt_of_le (by omega : j + 1 ≤ K) with h | h
      · rw [h]
      · exact Nat.le_of_lt (slotValue_strictMono _ _ h)
  · intro i _ j _ hij
    by_contra hne
    rcases Nat.lt_or_gt_of_ne hne with h | h
    · have := slotValue_strictMono (i + 1) (j + 1) (by omega)
      omega
    · have := slotValue_strictMono (j + 1) (i + 1) (by omega)
      omega
  · intro m hm
    simp only [Finset.mem_filter, Finset.mem_Icc] at hm
    obtain ⟨⟨h11, hle⟩, hp⟩ := hm
    have hcop : Nat.Coprime m 210 := by
      apply (coprime_210_iff m).mpr
      refine ⟨?_, ?_, ?_, ?_⟩ <;> intro h0
      · have := (Nat.prime_dvd_prime_iff_eq Nat.prime_two hp).mp (Nat.dvd_of_mod_eq_zero h0)
        omega
      · have := (Nat.prime_dvd_prime_iff_eq Nat.prime_three hp).mp (Nat.dvd_of_mod_eq_zero h0)
        omega
      · have := (Nat.prime_dvd_prime_iff_eq Nat.prime_five hp).mp (Nat.dvd_of_mod_eq_zero h0)
        omega
      · have := (Nat.prime_dvd_prime_iff_eq (by norm_num : Nat.Prime 7) hp).mp
          (Nat.dvd_of_mod_eq_zero h0)
        omega
    obtain ⟨p, hpv⟩ := slotValue_surjective m hcop
    have hp0 : p ≠ 0 := by
      rintro rfl
      have h0 : slotValue 0 = 1 := by decide
      omega
    have hpK : p ≤ K := by
      by_contra hgt
      push_neg at hgt
      have := slotValue_strictMono K p hgt
      omega
    refine ⟨p - 1, ?_, ?_⟩
    · simp only [Finset.mem_filter, Finset.mem_range]
      have : p - 1 + 1 = p := by omega
      rw [this, hpv]
      exact ⟨by omega, hp⟩
    · have : p - 1 + 1 = p := by omega
      simp only [this, hpv]

set_option maxRecDepth 1000000 in
theorem countSlotPrimes_value : countSlotPrimes 11118 0 = 4999 := by
  decide!

set_option maxRecDepth 100000 in
theorem slot_11119 : slotValue 11119 = 48649 ∧ gcdTest (slotValue 11119) = true := by
  decide

/-- The run started at 3 with the sieve of the worker: no snapshot during the first
11118 iterations, and iteration 11119 emits the first one, at the prime 48649, which
is the 5000th prime from 11 on. -/
theorem Worker.first_snapshot (w : Worker) (L : Nat) (hstart : w.m_startN = 3)
    (hsieve : w.m_sieve = PrimeSieve.new L)
    (hfit : L < (2 ^ 32 - 1) ^ 2) (hL : 230 ≤ L) :
    (∀ k, k ≤ 11118 → (w.run k).2 = []) ∧
      (∃ st, (w.run 11119).2 = [st] ∧ st.currentN = 48649 ∧ st.primeCount = 5000) ∧
      Nat.Prime 48649 ∧ ((Finset.Icc 11 48649).filter Nat.Prime).card = 5000 := by
  have hcount : w.confirmedCount 11118 = 4999 := by
    have := Worker.countSlotPrimes_eq w L hstart hsieve hfit hL 11118 0 (by norm_num)
    rw [countSlotPrimes_value] at this
    omega
  obtain ⟨hcand, hprime, hgcd⟩ :=
    Worker.confirmed_from_three w L hstart hsieve hfit hL 11118 (le_refl _)
  rw [slot_11119.1] at hcand hprime
  rw [slot_11119.2] at hgcd
  have hcount' : w.confirmedCount 11119 = 5000 := by
    show w.confirmedCount 11118 + (if w.confirmed 11118 = true then 1 else 0) = 5000
    rw [hcount, hgcd]
    rfl
  have hempty : ∀ k, k ≤ 11118 → (w.run k).2 = [] := by
    intro k hk
    have hlen := (Worker.run_snapshots w k).1
    have := Worker.confirmedCount_mono w k 11118 hk
    apply List.eq_nil_of_length_eq_zero
    rw [hlen]
    omega
  have hpr : Nat.Prime 48649 := hprime.mp hgcd
  refine ⟨hempty, ?_, hpr, ?_⟩
  · have hsome : (w.loopBody (w.run 11118).1).2.isSome = true := by
      rw [Worker.emits_iff, hcount]
      exact ⟨hgcd, by norm_num⟩
    obtain ⟨st, hst⟩ := Option.isSome_iff_exists.mp hsome
    have heff := (Worker.loopBody_effect w (w.run 11118).1).2.2.2.2.2 st hst
    refine ⟨st, ?_, ?_, ?_⟩
    · rw [Worker.run_succ, hempty 11118 (le_refl _), hst]
      rfl
    · rw [heff.1, Worker.run_current, hcand]
    · rw [heff.2.1, Worker.run_primeCount, hcount]
  · have h := card_primes_upto_slot 11119
    rw [slot_11119.1] at h
    rw [h, ← Worker.confirmedCount_eq_card w L hstart hsieve hfit hL 11119 (le_refl _), hcount']

/-- C7 as stated fails: started at 3, the first snapshot is emitted by iteration
11119 and its `currentN` is not the 5000th prime counted from 3, because the primes
in `[3, currentN]` do not number 5000 (the wheel never yields 3, 5 and 7). -/
theorem first_snapshot_counterexample :
    (∀ k, k ≤ 11118 → ((Worker.new.configure 3 AnalysisMode.Both false).run k).2 = []) ∧
      ∃ st, ((Worker.new.configure 3 AnalysisMode.Both false).run 11119).2 = [st] ∧
        ((Finset.Icc 3 st.currentN).filter Nat.Prime).card ≠ 5000 := by
  obtain ⟨hempty, ⟨st, hst, hcur, _⟩, _, hcard⟩ :=
    Worker.first_snapshot (Worker.new.configure 3 AnalysisMode.Both false) 10000000
      (by decide) rfl (by norm_num) (by norm_num)
  refine ⟨hempty, st, hst, ?_⟩
  rw [hcur]
  have hsub : insert 3 ((Finset.Icc 11 48649).filter Nat.Prime) ⊆
      (Finset.Icc 3 48649).filter Nat.Prime := by
    intro x hx
    simp only [Finset.mem_insert, Finset.mem_filter, Finset.mem_Icc] at hx ⊢
    rcases hx with rfl | ⟨⟨h1, h2⟩, h3⟩
    · exact ⟨⟨by norm_num, by norm_num⟩, Nat.prime_three⟩
    · exact ⟨⟨by omega, h2⟩, h3⟩
  have hnot : 3 ∉ (Finset.Icc 11 48649).filter Nat.Prime := by
    simp
  have hle := Finset.card_le_card hsub
  rw [Finset.card_insert_of_not_mem hnot, hcard] at hle
  omega

/-- C7, amended. When the worker is configured with `startValue = 3` and run until the
first snapshot is emitted (iteration 11119), that snapshot has `primeCount = 5000` and
its `currentN` is 48649, the 5000th prime that is `>= 11` (counting 11 as the first):
the wheel yields no multiple of 2, 3, 5 or 7, so 3, 5 and 7 are never counted. -/
theorem first_snapshot_value (mode : AnalysisMode) (multiThread : Bool) :
    (∀ k, k ≤ 11118 → ((Worker.new.configure 3 mode multiThread).run k).2 = []) ∧
      (∃ st, ((Worker.new.configure 3 mode multiThread).run 11119).2 = [st] ∧
        st.currentN = 48649 ∧ st.primeCount = 5000) ∧
      Nat.Prime 48649 ∧ ((Finset.Icc 11 48649).filter Nat.Prime).card = 5000 :=
  Worker.first_snapshot (Worker.new.configure 3 mode multiThread) 10000000
    rfl rfl (by norm_num) (by norm_num)


/-! ## The gap table and the decade buckets -/

theorem floorLog10Aux_spec : ∀ fuel p, 0 < p → p < 10 ^ fuel →
    10 ^ floorLog10Aux fuel p ≤ p ∧ p < 10 ^ (floorLog10Aux fuel p + 1) := by
  intro fuel
  induction fuel with
  | zero =>
    intro p hp hlt
    simp at hlt
    omega
  | succ fuel ih =>
    intro p hp hlt
    unfold floorLog10Aux
    by_cases h10 : p < 10
    · rw [if_pos h10]
      simp
      omega
    · rw [if_neg h10]
      have hq : p / 10 < 10 ^ fuel := by
        rw [Nat.div_lt_iff_lt_mul (by norm_num)]
        rw [pow_succ] at hlt
        exact hlt
      obtain ⟨h1, h2⟩ := ih (p / 10) (by omega) hq
      generalize floorLog10Aux fuel (p / 10) = d at h1 h2
      have e1 : 10 ^ (1 + d) = 10 * 10 ^ d := by rw [pow_add]; norm_num
      have e2 : 10 ^ (1 + d + 1) = 10 * 10 ^ (d + 1) := by
        rw [show 1 + d + 1 = 1 + (d + 1) by omega, pow_add]
        norm_num
      rw [e1, e2]
      constructor <;> omega

theorem floorLog10Aux_cap : ∀ fuel p, 10 ^ fuel ≤ p → floorLog10Aux fuel p = fuel := by
  intro fuel
  induction fuel with
  | zero =>
    intro p _
    rfl
  | succ fuel ih =>
    intro p hp
    unfold floorLog10Aux
    have h10 : ¬ p < 10 := by
      have : 10 ^ 1 ≤ 10 ^ (fuel + 1) := Nat.pow_le_pow_right (by norm_num) (by omega)
      omega
    rw [if_neg h10, ih (p / 10)]
    · omega
    · rw [Nat.le_div_iff_mul_le (by norm_num)]
      rw [pow_succ] at hp
      exact hp

/-- The integer logarithm used for the decade index: `10^L <= p < 10^(L+1)`, or 20
for the values of 21 digits and more. -/
theorem floorLog10_spec (p : Nat) (hp : 0 < p) :
    (p < 10 ^ 20 → 10 ^ floorLog10 p ≤ p ∧ p < 10 ^ (floorLog10 p + 1)) ∧
      (10 ^ 20 ≤ p → floorLog10 p = 20) :=
  ⟨fun h => floorLog10Aux_spec 20 p hp h, fun h => floorLog10Aux_cap 20 p h⟩

theorem floorLog10_eq_of_bounds (p d : Nat) (h1 : 10 ^ d ≤ p) (h2 : p < 10 ^ (d + 1))
    (hd : d < 20) : floorLog10 p = d := by
  have hp : 0 < p := lt_of_lt_of_le (by positivity) h1
  have hlt : p < 10 ^ 20 := lt_of_lt_of_le h2 (Nat.pow_le_pow_right (by norm_num) (by omega))
  obtain ⟨g1, g2⟩ := (floorLog10_spec p hp).1 hlt
  have a : floorLog10 p < d + 1 := (Nat.pow_lt_pow_iff_right (by norm_num)).mp
    (lt_of_le_of_lt g1 h2)
  have b : d < floorLog10 p + 1 := (Nat.pow_lt_pow_iff_right (by norm_num)).mp
    (lt_of_le_of_lt h1 g2)
  omega

/-- C11. For all class indices `i, j` in `{0, 1, 2}`, `GAP_MIN[i][j]` is the least
positive `d` with `(TWIN_CLASSES[i] + d) mod 30 = TWIN_CLASSES[j]`; the table is
30 on the diagonal and 6, 18, 24, 12, 12, 18 off it. -/
theorem gap_min_is_least (i j : Nat) (hi : i < 3) (hj : j < 3) :
    0 < (Constants.GAP_MIN.getD i []).getD j 0 ∧
      (Constants.TWIN_CLASSES.getD i 0 + (Constants.GAP_MIN.getD i []).getD j 0) % 30 =
        Constants.TWIN_CLASSES.getD j 0 ∧
      (∀ d, 0 < d →
        (Constants.TWIN_CLASSES.getD i 0 + d) % 30 = Constants.TWIN_CLASSES.getD j 0 →
        (Constants.GAP_MIN.getD i []).getD j 0 ≤ d) ∧
      Constants.GAP_MIN = [[30, 6, 18], [24, 30, 12], [12, 18, 30]] := by
  refine ⟨?_, ?_, ?_, rfl⟩
  · interval_cases i <;> interval_cases j <;> decide
  · interval_cases i <;> interval_cases j <;> decide
  · intro d hd hmod
    interval_cases i <;> interval_cases j <;>
      simp only [Constants.GAP_MIN, Constants.TWIN_CLASSES, List.getD_cons_zero,
        List.getD_cons_succ] at hmod ⊢ <;> omega

theorem gap_min_is_least_witness :
    0 < 3 ∧ 1 < 3 ∧
      (0 < (Constants.GAP_MIN.getD 0 []).getD 1 0 ∧
        (Constants.TWIN_CLASSES.getD 0 0 + (Constants.GAP_MIN.getD 0 []).getD 1 0) % 30 =
          Constants.TWIN_CLASSES.getD 1 0 ∧
        (∀ d, 0 < d →
          (Constants.TWIN_CLASSES.getD 0 0 + d) % 30 = Constants.TWIN_CLASSES.getD 1 0 →
          (Constants.GAP_MIN.getD 0 []).getD 1 0 ≤ d) ∧
        Constants.GAP_MIN = [[30, 6, 18], [24, 30, 12], [12, 18, 30]]) :=
  ⟨by decide, by decide, gap_min_is_least 0 1 (by decide) (by decide)⟩

theorem recordDecade_of_bounds (ds : List DecadeStats) (p : Nat) (e : Int) (i : Nat)
    (hi : i < 8) (h1 : 10 ^ (i + 3) ≤ p) (h2 : p < 10 ^ (i + 4)) :
    Worker.recordDecade ds p e =
      ds.set i ⟨(ds.getD i ⟨0, 0⟩).count + 1, (ds.getD i ⟨0, 0⟩).sumExcess + e⟩ := by
  have hL : floorLog10 p = i + 3 := floorLog10_eq_of_bounds p (i + 3) h1 h2 (by omega)
  have hp : p ≥ 1000 := by
    have : 10 ^ 3 ≤ 10 ^ (i + 3) := Nat.pow_le_pow_right (by norm_num) (by omega)
    omega
  unfold Worker.recordDecade
  rw [if_pos hp]
  simp only [hL]
  have hidx : ((↑(i + 3) : Int) - 3) = (i : Int) := by push_cast; ring
  rw [hidx]
  have hc : (i : Int) ≥ 0 ∧ (i : Int) < 8 := ⟨by omega, by omega⟩
  rw [if_pos hc]
  simp

/-- C12. For `1000 <= p < 10^11` the decade update touches exactly the bucket `i` in
`0..7` with `10^(i+3) <= p < 10^(i+4)`, which is the integer `log10(p) - 3`; for
`p < 1000` and for `p >= 10^11` no bucket changes; 999999 goes to bucket 2 and
1000000 to bucket 3; a twin transition applies this update to `lastTwinP`. -/
theorem decade_bucket (ds : List DecadeStats) (p : Nat) (e : Int) :
    (1000 ≤ p → p < 10 ^ 11 →
      ∃ i, i < 8 ∧ 10 ^ (i + 3) ≤ p ∧ p < 10 ^ (i + 4) ∧ i + 3 = floorLog10 p ∧
        (∀ i', 10 ^ (i' + 3) ≤ p → p < 10 ^ (i' + 4) → i' = i) ∧
        Worker.recordDecade ds p e =
          ds.set i ⟨(ds.getD i ⟨0, 0⟩).count + 1, (ds.getD i ⟨0, 0⟩).sumExcess + e⟩) ∧
      (p < 1000 ∨ 10 ^ 11 ≤ p → Worker.recordDecade ds p e = ds) ∧
      Worker.recordDecade ds 999999 e =
        ds.set 2 ⟨(ds.getD 2 ⟨0, 0⟩).count + 1, (ds.getD 2 ⟨0, 0⟩).sumExcess + e⟩ ∧
      Worker.recordDecade ds 1000000 e =
        ds.set 3 ⟨(ds.getD 3 ⟨0, 0⟩).count + 1, (ds.getD 3 ⟨0, 0⟩).sumExcess + e⟩ ∧
      (∀ (s : LoopState) (twinP : Nat) (c : Int),
        (Worker.recordTransition s twinP c).decades =
          Worker.recordDecade s.decades s.lastTwinP
            (toInt64 (subU64 (subU64 twinP s.lastTwinP)
              ((Constants.GAP_MIN.getD s.lastTwinClass.toNat []).getD c.toNat 0)))) := by
  refine ⟨?_, ?_, ?_, ?_, fun _ _ _ => rfl⟩
  · intro h1 h2
    have hp : 0 < p := by omega
    have hlt : p < 10 ^ 20 := by
      have : (10 : Nat) ^ 11 ≤ 10 ^ 20 := by norm_num
      omega
    obtain ⟨g1, g2⟩ := (floorLog10_spec p hp).1 hlt
    have a : 3 ≤ floorLog10 p := by
      have : 10 ^ 3 < 10 ^ (floorLog10 p + 1) := lt_of_le_of_lt (by norm_num; exact h1) g2
      have := (Nat.pow_lt_pow_iff_right (by norm_num)).mp this
      omega
    have b : floorLog10 p < 11 :=
      (Nat.pow_lt_pow_iff_right (by norm_num)).mp (lt_of_le_of_lt g1 h2)
    refine ⟨floorLog10 p - 3, by omega, ?_, ?_, by omega, ?_, ?_⟩
    · rw [show floorLog10 p - 3 + 3 = floorLog10 p by omega]
      exact g1
    · rw [show floorLog10 p - 3 + 4 = floorLog10 p + 1 by omega]
      exact g2
    · intro i' k1 k2
      have c1 : i' + 3 < floorLog10 p + 1 :=
        (Nat.pow_lt_pow_iff_right (by norm_num)).mp (lt_of_le_of_lt k1 g2)
      have c2 : floorLog10 p < i' + 4 :=
        (Nat.pow_lt_pow_iff_right (by norm_num)).mp (lt_of_le_of_lt g1 k2)
      omega
    · apply recordDecade_of_bounds ds p e _ (by omega)
      · rw [show floorLog10 p - 3 + 3 = floorLog10 p by omega]
        exact g1
      · rw [show floorLog10 p - 3 + 4 = floorLog10 p + 1 by omega]
        exact g2
  · intro h
    unfold Worker.recordDecade
    rcases h with h | h
    · rw [if_neg (by omega)]
    · have hp : p ≥ 1000 := by
        have : (1000 : Nat) ≤ 10 ^ 11 := by norm_num
        omega
      rw [if_pos hp]
      have hL : 11 ≤ floorLog10 p := by
        by_cases hlt : p < 10 ^ 20
        · obtain ⟨_, g2⟩ := (floorLog10_spec p (by omega)).1 hlt
          have := (Nat.pow_lt_pow_iff_right (by norm_num)).mp (lt_of_le_of_lt h g2)
          omega
        · rw [(floorLog10_spec p (by omega)).2 (by omega)]
          norm_num
      have hc : ¬ (((floorLog10 p : Int) - 3) ≥ 0 ∧ ((floorLog10 p : Int) - 3) < 8) := by
        omega
      simp only [hc, if_false]
  · exact recordDecade_of_bounds ds 999999 e 2 (by norm_num) (by norm_num) (by norm_num)
  · exact recordDecade_of_bounds ds 1000000 e 3 (by norm_num) (by norm_num) (by norm_num)

/-! ## A sieve limit that is too small -/

/-- C16. For every sieve limit `L` and every composite `n >= 121` coprime to 210
whose smallest prime factor exceeds `L`, `isPrimeFromWheel(n)` returns true: a false
positive, since `n` is not prime, on a value that the wheel yields; the function has
no other outcome than its Boolean result. With `L = 11` the composite 169 = 13 * 13
is reported prime. -/
theorem small_sieve_false_positive (L n : Nat) (h121 : 121 ≤ n) (hcomp : ¬ Nat.Prime n)
    (hc : Nat.Coprime n 210) (hfac : L < n.minFac) :
    ((PrimeSieve.new L).isPrimeFromWheel n = true ∧ ¬ Nat.Prime n ∧
        ∃ p, slotValue p = n) ∧
      ((PrimeSieve.new 11).isPrimeFromWheel 169 = true ∧ 169 = 13 * 13) := by
  refine ⟨⟨?_, hcomp, slotValue_surjective n hc⟩, by decide, by norm_num⟩
  unfold PrimeSieve.isPrimeFromWheel
  rw [if_neg (by omega)]
  simp only [PrimeSieve.new]
  apply PrimeSieve.trialLoop_of_forall
  intro p hp hdvd
  obtain ⟨h2, hle⟩ := PrimeSieve.basePrimes_bounds L p hp
  have := Nat.minFac_le_of_dvd h2 hdvd
  omega

theorem small_sieve_false_positive_witness :
    121 ≤ 169 ∧ ¬ Nat.Prime 169 ∧ Nat.Coprime 169 210 ∧ 11 < Nat.minFac 169 ∧
      (((PrimeSieve.new 11).isPrimeFromWheel 169 = true ∧ ¬ Nat.Prime 169 ∧
          ∃ p, slotValue p = 169) ∧
        ((PrimeSieve.new 11).isPrimeFromWheel 169 = true ∧ 169 = 13 * 13)) :=
  ⟨by decide, by norm_num, by decide, by norm_num,
    small_sieve_false_positive 11 169 (by decide) (by norm_num) (by decide) (by norm_num)⟩

/-! ## Stop and start requests -/

/-- C19. `stop` is idempotent: a second call leaves the worker as the first call
left it, with the flag set and every other member unchanged; and with the flag set
the loop of `process` performs no iteration and emits no snapshot before it reaches
`emit finished()`, whatever the state at the loop head. -/
theorem stop_idempotent (w : Worker) (s : LoopState) (fuel : Nat) :
    w.stop.stop = w.stop ∧ w.stop.m_stopRequested = true ∧
      w.stop.m_startN = w.m_startN ∧ w.stop.m_mode = w.m_mode ∧
      w.stop.m_multiThread = w.m_multiThread ∧ w.stop.m_sieve = w.m_sieve ∧
      w.stop.whileLoop (fuel + 1) s = (s, [], true) ∧
      w.stop.stop.whileLoop (fuel + 1) s = (s, [], true) :=
  ⟨rfl, rfl, rfl, rfl, rfl, rfl, by simp [Worker.whileLoop, Worker.stop],
    by simp [Worker.whileLoop, Worker.stop]⟩

/-- C20 as stated fails: after a first accepted request for 3 and a click on Stop the
start button is enabled again while the worker thread still exists; a start request
with the numeric value 5 made then is not accepted: the worker keeps the lower bound 3
and only an "already running" line is logged. -/
theorem start_request_counterexample :
    2 ≤ 5 ∧
      (MainWindow.init.onStart (some 3)).onStop.m_startButton = true ∧
      (MainWindow.init.onStart (some 3)).onStop.m_workerThread = true ∧
      (((MainWindow.init.onStart (some 3)).onStop.onStart (some 5)).m_worker.map
        (fun w => w.m_startN)) = some 3 ∧
      (((MainWindow.init.onStart (some 3)).onStop.onStart (some 5)).m_worker.map
        (fun w => w.m_startN)) ≠ some (max 5 3) ∧
      ((MainWindow.init.onStart (some 3)).onStop.onStart (some 5)).m_log =
        ["▶ Iniciando de n=3", "⬛ Parando...", "⚠ Já rodando."] := by
  refine ⟨by decide, rfl, rfl, ?_, ?_, ?_⟩
  · rfl
  · simp [MainWindow.onStart, MainWindow.onStop, MainWindow.init, Worker.configure, Worker.new,
      Worker.stop]
  · rfl

/-- C20, amended. A start request whose value is non-numeric or below 2 creates no
worker and starts no thread: the window changes only by one warning, or by the
"already running" log line when a worker thread exists. A start request with a
numeric value `>= 2` made while no worker thread exists is accepted, and the
worker's lower bound is `max(value, 3)`. While a worker thread exists, a start
request with any value, numeric or not, is not accepted: the window changes only by
the "already running" log line, and the worker, if any, keeps its lower bound;
`onStop` leaves `m_workerThread` as it is. -/
theorem start_request (mw : MainWindow) (parsed : Option Nat) (v : Nat)
    (hbad : parsed = none ∨ (parsed = some v ∧ v < 2)) :
    (mw.onStart parsed = { mw with warnings := mw.warnings + 1 } ∨
        mw.onStart parsed = { mw with m_log := mw.m_log ++ ["⚠ Já rodando."] }) ∧
      (mw.onStart parsed).m_worker = mw.m_worker ∧
      (mw.onStart parsed).m_workerThread = mw.m_workerThread ∧
      (∀ u, 2 ≤ u → mw.m_workerThread = false →
        (mw.onStart (some u)).m_workerThread = true ∧
          ∃ w, (mw.onStart (some u)).m_worker = some w ∧ w.m_startN = max u 3 ∧
            w.m_stopRequested = false ∧ w = Worker.new.configure u mw.m_modeCombo false) ∧
      (∀ request : Option Nat, mw.m_workerThread = true →
        mw.onStart request = { mw with m_log := mw.m_log ++ ["⚠ Já rodando."] } ∧
          (mw.onStart request).m_worker = mw.m_worker ∧
          (mw.onStart request).m_workerThread = true) ∧
      mw.onStop.m_workerThread = mw.m_workerThread := by
  refine ⟨?_, ?_, ?_, ?_, ?_, rfl⟩
  · unfold MainWindow.onStart
    by_cases hr : mw.m_workerThread = true
    · right
      simp [hr]
    · left
      rcases hbad with rfl | ⟨rfl, hv⟩
      · simp [hr]
      · simp [hr, hv]
  · unfold MainWindow.onStart
    by_cases hr : mw.m_workerThread = true
    · simp [hr]
    · rcases hbad with rfl | ⟨rfl, hv⟩
      · simp [hr]
      · simp [hr, hv]
  · unfold MainWindow.onStart
    by_cases hr : mw.m_workerThread = true
    · simp [hr]
    · rcases hbad with rfl | ⟨rfl, hv⟩
      · simp [hr]
      · simp [hr, hv]
  · intro u hu hr
    unfold MainWindow.onStart
    have hu' : ¬ u < 2 := by omega
    simp only [hr, Bool.false_eq_true, if_false, hu']
    exact ⟨trivial, _, rfl, rfl, rfl, rfl⟩
  · intro request hr
    have h : mw.onStart request = { mw with m_log := mw.m_log ++ ["⚠ Já rodando."] } := by
      unfold MainWindow.onStart
      rw [if_pos hr]
    rw [h]
    exact ⟨rfl, rfl, hr⟩

theorem start_request_witness :
    ((some 1 : Option Nat) = none ∨ ((some 1 : Option Nat) = some 1 ∧ 1 < 2)) ∧
      (MainWindow.init.onStart (some 1)).m_worker = MainWindow.init.m_worker ∧
      (MainWindow.init.onStart (some 1)).m_workerThread = MainWindow.init.m_workerThread ∧
      (MainWindow.init.onStart (some 3)).onStop.m_workerThread = true ∧
      ((MainWindow.init.onStart (some 3)).onStop.onStart (some 5)).m_worker =
        (MainWindow.init.onStart (some 3)).onStop.m_worker :=
  ⟨Or.inr ⟨rfl, by decide⟩,
    (start_request MainWindow.init (some 1) 1 (Or.inr ⟨rfl, by decide⟩)).2.1,
    (start_request MainWindow.init (some 1) 1 (Or.inr ⟨rfl, by decide⟩)).2.2.1,
    rfl,
    ((start_request (MainWindow.init.onStart (some 3)).onStop (some 1) 1
      (Or.inr ⟨rfl, by decide⟩)).2.2.2.2.1 (some 5) rfl).2.1⟩

/-! ## Case equations of the loop body -/

namespace Worker

theorem finishPrime_fst (s : LoopState) (n : Nat) :
    (finishPrime s n).1 =
      { s with
        lastPrime := n
        primesSinceLastUpdate :=
          if s.primesSinceLastUpdate + 1 ≥ progressStep then 0 else s.primesSinceLastUpdate + 1
        stats :=
          if s.primesSinceLastUpdate + 1 ≥ progressStep then
            updateStats { s with lastPrime := n, primesSinceLastUpdate := 0 } n
          else s.stats } := by
  unfold finishPrime
  by_cases h : s.primesSinceLastUpdate + 1 ≥ progressStep
  · simp only [h, if_true]
  · simp only [h, if_false]

theorem finishPrime_snd (s : LoopState) (n : Nat) :
    (finishPrime s n).2 =
      if s.primesSinceLastUpdate + 1 ≥ progressStep then
        some (updateStats { s with lastPrime := n, primesSinceLastUpdate := 0 } n)
      else none := by
  unfold finishPrime
  by_cases h : s.primesSinceLastUpdate + 1 ≥ progressStep
  · simp only [h, if_true]
  · simp only [h, if_false]

theorem recordTwin_of_invalid (s : LoopState) (h : ¬ 0 ≤ classIndex s.lastPrime) :
    recordTwin s = s := by
  unfold recordTwin
  dsimp only
  rw [if_neg h]

theorem recordTwin_of_first (s : LoopState) (h : 0 ≤ classIndex s.lastPrime)
    (h2 : ¬ (s.lastTwinP ≠ 0 ∧ 0 ≤ s.lastTwinClass)) :
    recordTwin s =
      { s with
        twinCount := s.twinCount + 1
        lastTwinP := s.lastPrime
        lastTwinClass := classIndex s.lastPrime } := by
  unfold recordTwin
  dsimp only
  rw [if_pos h, if_neg h2]

theorem recordTwin_of_transition (s : LoopState) (h : 0 ≤ classIndex s.lastPrime)
    (h2 : s.lastTwinP ≠ 0 ∧ 0 ≤ s.lastTwinClass) :
    recordTwin s =
      { recordTransition { s with twinCount := s.twinCount + 1 } s.lastPrime
          (classIndex s.lastPrime) with
        lastTwinP := s.lastPrime
        lastTwinClass := classIndex s.lastPrime } := by
  unfold recordTwin
  dsimp only
  rw [if_pos h, if_pos h2]

theorem recordGap_of_no_prev (s : LoopState) (n : Nat) (h : s.lastPrime = 0) :
    recordGap s n = s := by
  unfold recordGap
  rw [if_neg (by simpa using h)]

theorem recordGap_of_gap_ne (s : LoopState) (n : Nat) (h : s.lastPrime ≠ 0)
    (hg : subU64 n s.lastPrime ≠ 2) :
    recordGap s n = { s with sumPrimeGaps := s.sumPrimeGaps + subU64 n s.lastPrime } := by
  unfold recordGap
  dsimp only
  rw [if_pos h, if_neg hg]

theorem recordGap_of_gap (s : LoopState) (n : Nat) (h : s.lastPrime ≠ 0)
    (hg : subU64 n s.lastPrime = 2) :
    recordGap s n =
      recordTwin { s with sumPrimeGaps := s.sumPrimeGaps + subU64 n s.lastPrime } := by
  unfold recordGap
  dsimp only
  rw [if_pos h, if_pos hg]

end Worker

/-! ## Monotone accumulators -/

theorem getD_addAt_le (l : List Nat) (i v j : Nat) :
    l.getD j 0 ≤ (addAt l i v).getD j 0 := by
  unfold addAt
  simp only [List.getD_eq_getElem?_getD, List.getElem?_set]
  by_cases hij : i = j
  · subst hij
    by_cases hlt : i < l.length
    · simp [hlt]
    · have : l[i]? = none := List.getElem?_eq_none (by omega)
      simp [hlt, this]
  · simp [hij]

theorem getD_bumpHistogram_le (h : List Nat) (k j : Nat) :
    h.getD j 0 ≤ (bumpHistogram h k).getD j 0 := by
  unfold bumpHistogram
  split_ifs
  · exact getD_addAt_le _ _ _ _
  · exact getD_addAt_le _ _ _ _
  · exact le_refl _

theorem getD_addAt2_le (m : List (List Nat)) (i j v a b : Nat) :
    (m.getD a []).getD b 0 ≤ ((addAt2 m i j v).getD a []).getD b 0 := by
  unfold addAt2
  by_cases hia : i = a
  · subst hia
    by_cases hlt : i < m.length
    · have : (m.set i (addAt (m.getD i []) j v)).getD i [] = addAt (m.getD i []) j v := by
        simp [List.getD_eq_getElem?_getD, List.getElem?_set, hlt]
      rw [this]
      exact getD_addAt_le _ _ _ _
    · have : m.set i (addAt (m.getD i []) j v) = m := by
        apply List.set_eq_of_length_le
        omega
      rw [this]
  · have : (m.set i (addAt (m.getD i []) j v)).getD a [] = m.getD a [] := by
      simp [List.getD_eq_getElem?_getD, List.getElem?_set, hia]
    rw [this]

theorem getD_set_decade (ds : List DecadeStats) (i j : Nat) (d : DecadeStats) :
    (ds.set i d).getD j ⟨0, 0⟩ = if i = j ∧ i < ds.length then d else ds.getD j ⟨0, 0⟩ := by
  simp only [List.getD_eq_getElem?_getD, List.getElem?_set]
  by_cases hij : i = j
  · subst hij
    by_cases hlt : i < ds.length
    · simp [hlt]
    · have : ds[i]? = none := List.getElem?_eq_none (by omega)
      simp [hlt, this]
  · simp [hij]

theorem recordDecade_count_le (ds : List DecadeStats) (p : Nat) (e : Int) (j : Nat) :
    (ds.getD j ⟨0, 0⟩).count ≤ ((Worker.recordDecade ds p e).getD j ⟨0, 0⟩).count := by
  unfold Worker.recordDecade
  dsimp only
  split_ifs with h1 h2
  · rw [getD_set_decade]
    split_ifs with h3
    · rw [← h3.1]
      exact Nat.le_succ _
    · exact le_refl _
  · exact le_refl _
  · exact le_refl _

theorem recordDecade_sumExcess_le (ds : List DecadeStats) (p : Nat) (e : Int) (he : 0 ≤ e)
    (j : Nat) :
    (ds.getD j ⟨0, 0⟩).sumExcess ≤ ((Worker.recordDecade ds p e).getD j ⟨0, 0⟩).sumExcess := by
  unfold Worker.recordDecade
  dsimp only
  split_ifs with h1 h2
  · rw [getD_set_decade]
    split_ifs with h3
    · rw [← h3.1]
      dsimp only
      omega
    · exact le_refl _
  · exact le_refl _
  · exact le_refl _

theorem accLe_refl (a : LoopState) : AccLe a a :=
  ⟨le_refl _, le_refl _, le_refl _, le_refl _, le_refl _, le_refl _, le_refl _, le_refl _,
    le_refl _, le_refl _, le_refl _, le_refl _, fun _ => le_refl _, fun _ => le_refl _,
    fun _ _ => le_refl _, fun _ _ => le_refl _, fun _ => le_refl _⟩

theorem accLe_trans {a b c : LoopState} (h1 : AccLe a b) (h2 : AccLe b c) : AccLe a c :=
  ⟨le_trans h1.1 h2.1, le_trans h1.2 h2.2, le_trans h1.3 h2.3, le_trans h1.4 h2.4,
    le_trans h1.5 h2.5, le_trans h1.6 h2.6, le_trans h1.7 h2.7, le_trans h1.8 h2.8,
    le_trans h1.9 h2.9, le_trans h1.10 h2.10, le_trans h1.11 h2.11, le_trans h1.12 h2.12,
    fun i => le_trans (h1.13 i) (h2.13 i), fun i => le_trans (h1.14 i) (h2.14 i),
    fun i j => le_trans (h1.15 i j) (h2.15 i j), fun i j => le_trans (h1.16 i j) (h2.16 i j),
    fun i => le_trans (h1.17 i) (h2.17 i)⟩

theorem signedLe_refl (a : LoopState) : SignedLe a a :=
  ⟨le_refl _, le_refl _, fun _ => le_refl _⟩

namespace Worker

theorem accLe_recordPrime (s : LoopState) (n : Nat) : AccLe s (recordPrime s n) := by
  unfold recordPrime
  exact ⟨Nat.le_succ _, le_refl _, le_refl _, Nat.le_succ _, le_refl _, le_refl _, le_refl _,
    Nat.le_add_right _ _, le_refl _, le_refl _, le_refl _, le_refl _,
    fun i => getD_bumpHistogram_le _ _ i, fun _ => le_refl _,
    fun _ _ => le_refl _, fun _ _ => le_refl _, fun _ => le_refl _⟩

theorem accLe_recordTransition (s : LoopState) (p : Nat) (c : Int) :
    AccLe s (recordTransition s p c) := by
  unfold recordTransition
  refine ⟨le_refl _, le_refl _, ?_, le_refl _, Nat.le_succ _, le_refl _,
    Nat.le_add_right _ _, le_refl _, Nat.le_add_right _ _, Nat.le_add_right _ _,
    Nat.le_add_right _ _, Nat.le_add_right _ _,
    fun _ => le_refl _, fun i => getD_bumpHistogram_le _ _ i,
    fun i j => getD_addAt2_le _ _ _ _ i j, fun i j => getD_addAt2_le _ _ _ _ i j,
    fun i => recordDecade_count_le _ _ _ i⟩
  dsimp only
  split_ifs
  · exact Nat.le_succ _
  · exact le_refl _

theorem accLe_recordTwin (s : LoopState) : AccLe s (recordTwin s) := by
  by_cases h : 0 ≤ classIndex s.lastPrime
  · by_cases h2 : s.lastTwinP ≠ 0 ∧ 0 ≤ s.lastTwinClass
    · rw [recordTwin_of_transition s h h2]
      have h3 := accLe_recordTransition { s with twinCount := s.twinCount + 1 } s.lastPrime
        (classIndex s.lastPrime)
      exact ⟨h3.1, le_trans (Nat.le_succ _) h3.2, h3.3, h3.4, h3.5, h3.6, h3.7, h3.8, h3.9,
        h3.10, h3.11, h3.12, h3.13, h3.14, h3.15, h3.16, h3.17⟩
    · rw [recordTwin_of_first s h h2]
      exact ⟨le_refl _, Nat.le_succ _, le_refl _, le_refl _, le_refl _, le_refl _, le_refl _,
        le_refl _, le_refl _, le_refl _, le_refl _, le_refl _, fun _ => le_refl _,
        fun _ => le_refl _, fun _ _ => le_refl _, fun _ _ => le_refl _, fun _ => le_refl _⟩
  · rw [recordTwin_of_invalid s h]
    exact accLe_refl s

theorem accLe_recordGap (s : LoopState) (n : Nat) : AccLe s (recordGap s n) := by
  by_cases h : s.lastPrime = 0
  · rw [recordGap_of_no_prev s n h]
    exact accLe_refl s
  · have hsum : AccLe s { s with sumPrimeGaps := s.sumPrimeGaps + subU64 n s.lastPrime } :=
      ⟨le_refl _, le_refl _, le_refl _, le_refl _, le_refl _, Nat.le_add_right _ _, le_refl _,
        le_refl _, le_refl _, le_refl _, le_refl _, le_refl _, fun _ => le_refl _,
        fun _ => le_refl _, fun _ _ => le_refl _, fun _ _ => le_refl _, fun _ => le_refl _⟩
    by_cases hg : subU64 n s.lastPrime = 2
    · rw [recordGap_of_gap s n h hg]
      exact accLe_trans hsum (accLe_recordTwin _)
    · rw [recordGap_of_gap_ne s n h hg]
      exact hsum

theorem accLe_finishPrime (s : LoopState) (n : Nat) : AccLe s (finishPrime s n).1 := by
  rw [finishPrime_fst]
  exact ⟨le_refl _, le_refl _, le_refl _, le_refl _, le_refl _, le_refl _, le_refl _,
    le_refl _, le_refl _, le_refl _, le_refl _, le_refl _, fun _ => le_refl _,
    fun _ => le_refl _, fun _ _ => le_refl _, fun _ _ => le_refl _, fun _ => le_refl _⟩

theorem accLe_wheel (s : LoopState) (wh : WheelIterator) : AccLe s { s with wheel := wh } :=
  ⟨le_refl _, le_refl _, le_refl _, le_refl _, le_refl _, le_refl _, le_refl _,
    le_refl _, le_refl _, le_refl _, le_refl _, le_refl _, fun _ => le_refl _,
    fun _ => le_refl _, fun _ _ => le_refl _, fun _ _ => le_refl _, fun _ => le_refl _⟩

/-- One iteration never lowers a counter or a running sum of unsigned terms,
whatever the state it starts from. -/
theorem accLe_loopBody (w : Worker) (s : LoopState) : AccLe s (w.loopBody s).1 := by
  by_cases hp : w.m_sieve.isPrimeFromWheel s.wheel.current = true
  · rw [loopBody_of_confirmed w s hp]
    have h0 : AccLe s { s with wheel := s.wheel.next } := accLe_wheel s _
    exact accLe_trans h0 (accLe_trans (accLe_recordPrime _ _)
      (accLe_trans (accLe_recordGap _ _) (accLe_finishPrime _ _)))
  · have hp' : w.m_sieve.isPrimeFromWheel s.wheel.current = false := by simpa using hp
    rw [loopBody_of_rejected w s hp']
    exact accLe_wheel s _

end Worker

/-! ## Twin detection -/

namespace Worker

/-- The twin bookkeeping of `recordTwin`. -/
theorem recordTwin_twin (s : LoopState) :
    (0 ≤ classIndex s.lastPrime →
      (recordTwin s).twinCount = s.twinCount + 1 ∧ (recordTwin s).lastTwinP = s.lastPrime ∧
      (recordTwin s).lastTwinClass = classIndex s.lastPrime) ∧
    (¬ 0 ≤ classIndex s.lastPrime → recordTwin s = s) := by
  constructor
  · intro hc
    by_cases h2 : s.lastTwinP ≠ 0 ∧ 0 ≤ s.lastTwinClass
    · rw [recordTwin_of_transition s hc h2]
      exact ⟨rfl, rfl, rfl⟩
    · rw [recordTwin_of_first s hc h2]
      exact ⟨rfl, rfl, rfl⟩
  · exact recordTwin_of_invalid s

/-- The twin bookkeeping of `recordGap`: the three twin variables change exactly when
a previous prime exists, the gap is 2 and the class of the previous prime is valid. -/
theorem recordGap_twin (s : LoopState) (n : Nat) :
    ((s.lastPrime ≠ 0 ∧ subU64 n s.lastPrime = 2 ∧ 0 ≤ classIndex s.lastPrime) →
      (recordGap s n).twinCount = s.twinCount + 1 ∧
      (recordGap s n).lastTwinP = s.lastPrime ∧
      (recordGap s n).lastTwinClass = classIndex s.lastPrime) ∧
    (¬ (s.lastPrime ≠ 0 ∧ subU64 n s.lastPrime = 2 ∧ 0 ≤ classIndex s.lastPrime) →
      (recordGap s n).twinCount = s.twinCount ∧
      (recordGap s n).lastTwinP = s.lastTwinP ∧
      (recordGap s n).lastTwinClass = s.lastTwinClass) := by
  have ht := recordTwin_twin { s with sumPrimeGaps := s.sumPrimeGaps + subU64 n s.lastPrime }
  constructor
  · rintro ⟨h0, hg, hc⟩
    rw [recordGap_of_gap s n h0 hg]
    exact ht.1 hc
  · intro h
    by_cases h0 : s.lastPrime = 0
    · rw [recordGap_of_no_prev s n h0]
      exact ⟨rfl, rfl, rfl⟩
    · by_cases hg : subU64 n s.lastPrime = 2
      · have hc : ¬ 0 ≤ classIndex s.lastPrime := fun hc => h ⟨h0, hg, hc⟩
        rw [recordGap_of_gap s n h0 hg, ht.2 hc]
        exact ⟨rfl, rfl, rfl⟩
      · rw [recordGap_of_gap_ne s n h0 hg]
        exact ⟨rfl, rfl, rfl⟩

/-- The twin bookkeeping of one iteration. -/
theorem loopBody_twin (w : Worker) (s : LoopState) :
    (w.twinAt s →
      (w.loopBody s).1.twinCount = s.twinCount + 1 ∧
      (w.loopBody s).1.lastTwinP = s.lastPrime ∧
      (w.loopBody s).1.lastTwinClass = classIndex s.lastPrime) ∧
    (¬ w.twinAt s →
      (w.loopBody s).1.twinCount = s.twinCount ∧
      (w.loopBody s).1.lastTwinP = s.lastTwinP ∧
      (w.loopBody s).1.lastTwinClass = s.lastTwinClass) := by
  by_cases hp : w.m_sieve.isPrimeFromWheel s.wheel.current = true
  · rw [loopBody_of_confirmed w s hp, finishPrime_fst]
    obtain ⟨g1, g2⟩ := recordGap_twin
      (recordPrime { s with wheel := s.wheel.next } s.wheel.current) s.wheel.current
    constructor
    · rintro ⟨_, h0, hg, hc⟩
      exact g1 ⟨h0, hg, hc⟩
    · intro h
      exact g2 (fun ⟨h0, hg, hc⟩ => h ⟨hp, h0, hg, hc⟩)
  · have hp' : w.m_sieve.isPrimeFromWheel s.wheel.current = false := by simpa using hp
    rw [loopBody_of_rejected w s hp']
    constructor
    · rintro ⟨h, _⟩
      exact absurd h hp
    · intro _
      exact ⟨rfl, rfl, rfl⟩

/-- Started at 1019 with a sieve limit of at least 31, the first two iterations
confirm 1019 and 1021, and the second one records the twin with its lower member. -/
theorem twin_1019 (w : Worker) (L : Nat) (hstart : w.m_startN = 1019)
    (hsieve : w.m_sieve = PrimeSieve.new L)
    (hfit : L < (2 ^ 32 - 1) ^ 2) (hL : 31 ≤ L) :
    (w.run 1).1.lastPrime = 1019 ∧ (w.run 1).1.wheel.current = 1021 ∧
      w.twinAt (w.run 1).1 ∧ (w.run 1).1.twinCount = 0 ∧
      (w.run 2).1.twinCount = 1 ∧ (w.run 2).1.lastTwinP = 1019 ∧
      (w.run 2).1.lastTwinClass = 2 := by
  have hc0 : w.candidate 0 = 1019 := by
    unfold candidate
    rw [hstart]
    decide
  have hc1 : w.candidate 1 = 1021 := by
    unfold candidate
    rw [hstart]
    decide
  have hs : ∀ n, n < 1024 → Nat.sqrt n ≤ L := by
    intro n hn
    have : Nat.sqrt n < 32 := Nat.sqrt_lt.mpr (by omega)
    omega
  have hp0 : w.m_sieve.isPrimeFromWheel 1019 = true := by
    rw [hsieve]
    exact (PrimeSieve.isPrimeFromWheel_iff L 1019 (by decide) (hs _ (by norm_num)) hfit).mpr
      (by norm_num)
  have hp1 : w.m_sieve.isPrimeFromWheel 1021 = true := by
    rw [hsieve]
    exact (PrimeSieve.isPrimeFromWheel_iff L 1021 (by decide) (hs _ (by norm_num)) hfit).mpr
      (by norm_num)
  have h0cur : (w.run 0).1.wheel.current = 1019 := by rw [run_current, hc0]
  have h1cur : (w.run 1).1.wheel.current = 1021 := by rw [run_current, hc1]
  have h1last : (w.run 1).1.lastPrime = 1019 := by
    rw [run_succ]
    simp only [(loopBody_effect w (w.run 0).1).2.2.2.1, h0cur, hp0, if_true]
  have hno : ¬ w.twinAt (w.run 0).1 := fun h => h.2.1 rfl
  have h1tc : (w.run 1).1.twinCount = 0 := by
    rw [run_succ]
    exact ((loopBody_twin w (w.run 0).1).2 hno).1
  have htw : w.twinAt (w.run 1).1 := by
    refine ⟨by rw [h1cur]; exact hp1, by rw [h1last]; decide, ?_, ?_⟩
    · rw [h1cur, h1last]
      decide
    · rw [h1last]
      decide
  obtain ⟨t1, t2, t3⟩ := (loopBody_twin w (w.run 1).1).1 htw
  refine ⟨h1last, h1cur, htw, h1tc, ?_, ?_, ?_⟩
  · rw [run_succ]
    simp only [t1, h1tc]
  · rw [run_succ]
    simp only [t2, h1last]
  · rw [run_succ]
    simp only [t3, h1last]
    decide

end Worker

/-- C17. In one loop step of `Worker::process`, entered in any state `s`: if the step
confirms its candidate `n`, a previous prime `lastPrime` exists, `n - lastPrime == 2`
and `classIndex(lastPrime) >= 0` (the condition `twinAt`), then `twinCount` grows by
exactly one and the twin is recorded with value `lastPrime` and class
`classIndex(lastPrime)`; in every other step `twinCount`, `lastTwinP` and
`lastTwinClass` are unchanged; so `twinCount` grows by one exactly in the steps with
`twinAt`. For the primes 1019, 1021: the worker configured with start 1019 confirms
1019 and then 1021, and its second step records the value 1019 with class index 2,
the class of residue 29, while 1021 itself has residue 1 and no class. -/
theorem twin_detection (w : Worker) (s : LoopState) (mode : AnalysisMode)
    (multiThread : Bool) :
    (w.twinAt s ↔
      (w.m_sieve.isPrimeFromWheel s.wheel.current = true ∧ s.lastPrime ≠ 0 ∧
        subU64 s.wheel.current s.lastPrime = 2 ∧ 0 ≤ classIndex s.lastPrime)) ∧
    (w.twinAt s →
      (w.loopBody s).1.twinCount = s.twinCount + 1 ∧
      (w.loopBody s).1.lastTwinP = s.lastPrime ∧
      (w.loopBody s).1.lastTwinClass = classIndex s.lastPrime) ∧
    (¬ w.twinAt s →
      (w.loopBody s).1.twinCount = s.twinCount ∧
      (w.loopBody s).1.lastTwinP = s.lastTwinP ∧
      (w.loopBody s).1.lastTwinClass = s.lastTwinClass) ∧
    ((w.loopBody s).1.twinCount = s.twinCount + 1 ↔ w.twinAt s) ∧
    (((Worker.new.configure 1019 mode multiThread).run 1).1.lastPrime = 1019 ∧
      ((Worker.new.configure 1019 mode multiThread).run 1).1.wheel.current = 1021 ∧
      (Worker.new.configure 1019 mode multiThread).twinAt
        ((Worker.new.configure 1019 mode multiThread).run 1).1 ∧
      ((Worker.new.configure 1019 mode multiThread).run 1).1.twinCount = 0 ∧
      ((Worker.new.configure 1019 mode multiThread).run 2).1.twinCount = 1 ∧
      ((Worker.new.configure 1019 mode multiThread).run 2).1.lastTwinP = 1019 ∧
      ((Worker.new.configure 1019 mode multiThread).run 2).1.lastTwinClass = 2) ∧
    (1019 % 30 = 29 ∧ classIndex 1019 = 2 ∧ 1021 % 30 = 1 ∧ classIndex 1021 = -1) := by
  obtain ⟨a, b⟩ := Worker.loopBody_twin w s
  refine ⟨Iff.rfl, a, b, ⟨?_, fun h => (a h).1⟩,
    Worker.twin_1019 (Worker.new.configure 1019 mode multiThread) 10000000 rfl rfl
      (by norm_num) (by norm_num),
    by decide⟩
  intro h
  by_contra hn
  have := (b hn).1
  omega

/-! ## Guarded statistics -/

namespace Worker

/-- The snapshot of an iteration is computed from the state the iteration ends in,
with the previous snapshot still in `stats`, and is then stored in `stats`. -/
theorem loopBody_snapshot (w : Worker) (s : LoopState) (st : Stats)
    (h : (w.loopBody s).2 = some st) :
    st = updateStats { (w.loopBody s).1 with stats := s.stats } s.wheel.current ∧
      (w.loopBody s).1.stats = st := by
  by_cases hp : w.m_sieve.isPrimeFromWheel s.wheel.current = true
  · rw [loopBody_of_confirmed w s hp] at h ⊢
    have hgs : (recordGap (recordPrime { s with wheel := s.wheel.next } s.wheel.current)
        s.wheel.current).stats = s.stats :=
      (recordGap_frame _ _).2.2.2
    generalize recordGap (recordPrime { s with wheel := s.wheel.next } s.wheel.current)
      s.wheel.current = g at h hgs ⊢
    rw [finishPrime_snd] at h
    rw [finishPrime_fst]
    by_cases hstep : g.primesSinceLastUpdate + 1 ≥ progressStep
    · rw [if_pos hstep] at h
      simp only [if_pos hstep]
      have hst := (Option.some.inj h).symm
      refine ⟨?_, hst.symm⟩
      rw [hst, ← hgs]
    · rw [if_neg hstep] at h
      exact absurd h (by simp)
  · have hp' : w.m_sieve.isPrimeFromWheel s.wheel.current = false := by simpa using hp
    rw [loopBody_of_rejected w s hp'] at h
    exact absurd h (by simp)

/-- An iteration that emits no snapshot leaves `stats` as it was. -/
theorem loopBody_no_snapshot (w : Worker) (s : LoopState) (h : (w.loopBody s).2 = none) :
    (w.loopBody s).1.stats = s.stats := by
  by_cases hp : w.m_sieve.isPrimeFromWheel s.wheel.current = true
  · rw [loopBody_of_confirmed w s hp] at h ⊢
    have hgs : (recordGap (recordPrime { s with wheel := s.wheel.next } s.wheel.current)
        s.wheel.current).stats = s.stats :=
      (recordGap_frame _ _).2.2.2
    generalize recordGap (recordPrime { s with wheel := s.wheel.next } s.wheel.current)
      s.wheel.current = g at h hgs ⊢
    rw [finishPrime_snd] at h
    rw [finishPrime_fst]
    by_cases hstep : g.primesSinceLastUpdate + 1 ≥ progressStep
    · rw [if_pos hstep] at h
      exact absurd h (by simp)
    · simp only [if_neg hstep]
      exact hgs
  · have hp' : w.m_sieve.isPrimeFromWheel s.wheel.current = false := by simpa using hp
    rw [loopBody_of_rejected w s hp']

/-- The guarded fields of a snapshot keep the value of the previous snapshot while the
guard fails. -/
theorem updateStats_guarded (t : LoopState) (n : Nat) :
    (updateStats t n).twinCount = t.twinCount ∧
    (t.twinCount ≤ 1 →
      (updateStats t n).kTTwinEmpirical = t.stats.kTTwinEmpirical ∧
      (updateStats t n).avgTwinGap = t.stats.avgTwinGap) ∧
    (t.countV2Gap ≤ 10 → (updateStats t n).corrV2 = t.stats.corrV2) := by
  refine ⟨rfl, ?_, ?_⟩
  · intro h
    have h1 : ¬ t.twinCount > 1 := by omega
    unfold updateStats
    dsimp only
    rw [if_neg h1, if_neg h1]
    exact ⟨rfl, rfl⟩
  · intro h
    have h1 : ¬ t.countV2Gap > 10 := by omega
    unfold updateStats corrOf
    dsimp only
    rw [if_neg h1]

/-- While at most one twin has been recorded, the stored snapshot has `kTTwinEmpirical`
and `avgTwinGap` at their initial value 0. -/
theorem run_twin_guard (w : Worker) (k : Nat) (h : (w.run k).1.twinCount ≤ 1) :
    (w.run k).1.stats.kTTwinEmpirical = 0 ∧ (w.run k).1.stats.avgTwinGap = 0 := by
  induction k with
  | zero => exact ⟨rfl, rfl⟩
  | succ k ih =>
    rw [run_succ] at h ⊢
    have h : (w.loopBody (w.run k).1).1.twinCount ≤ 1 := h
    have hmono := (accLe_loopBody w (w.run k).1).twinCount
    have ih' := ih (by omega)
    cases hout : (w.loopBody (w.run k).1).2 with
    | none =>
      show (w.loopBody (w.run k).1).1.stats.kTTwinEmpirical = 0 ∧
        (w.loopBody (w.run k).1).1.stats.avgTwinGap = 0
      rw [loopBody_no_snapshot w _ hout]
      exact ih'
    | some st =>
      obtain ⟨e1, e2⟩ := loopBody_snapshot w _ st hout
      show (w.loopBody (w.run k).1).1.stats.kTTwinEmpirical = 0 ∧
        (w.loopBody (w.run k).1).1.stats.avgTwinGap = 0
      rw [e2, e1]
      obtain ⟨g1, g2⟩ := (updateStats_guarded
        { (w.loopBody (w.run k).1).1 with stats := (w.run k).1.stats }
        (w.run k).1.wheel.current).2.1 h
      rw [g1, g2]
      exact ih'

/-- While at most ten paired samples have been recorded, the stored snapshot has
`corrV2` at its initial value 0. -/
theorem run_corr_guard (w : Worker) (k : Nat) (h : (w.run k).1.countV2Gap ≤ 10) :
    (w.run k).1.stats.corrV2 = CorrValue.zero := by
  induction k with
  | zero => rfl
  | succ k ih =>
    rw [run_succ] at h ⊢
    have h : (w.loopBody (w.run k).1).1.countV2Gap ≤ 10 := h
    have hmono := (accLe_loopBody w (w.run k).1).countV2Gap
    have ih' := ih (by omega)
    cases hout : (w.loopBody (w.run k).1).2 with
    | none =>
      show (w.loopBody (w.run k).1).1.stats.corrV2 = CorrValue.zero
      rw [loopBody_no_snapshot w _ hout]
      exact ih'
    | some st =>
      obtain ⟨e1, e2⟩ := loopBody_snapshot w _ st hout
      show (w.loopBody (w.run k).1).1.stats.corrV2 = CorrValue.zero
      rw [e2, e1]
      rw [(updateStats_guarded
        { (w.loopBody (w.run k).1).1 with stats := (w.run k).1.stats }
        (w.run k).1.wheel.current).2.2 h]
      exact ih'

/-- The snapshot emitted by iteration `k` is the stored snapshot of the state after it,
and carries the twin count of that state. -/
theorem snapshot_of_run (w : Worker) (k : Nat) (st : Stats)
    (h : (w.loopBody (w.run k).1).2 = some st) :
    (w.run (k + 1)).1.stats = st ∧ st.twinCount = (w.run (k + 1)).1.twinCount := by
  obtain ⟨e1, e2⟩ := loopBody_snapshot w _ st h
  refine ⟨e2, ?_⟩
  rw [e1]
  rfl

end Worker

/-! ## A run without twins -/

namespace Worker

/-- After the constructor has wrapped from `2^64 - 1`, the wheel walks the blocks
`194 + 210 * q`. -/
theorem wrapped_wheel (k : Nat) (hk : k ≤ 5000) :
    (WheelIterator.new (2 ^ 64 - 1)).advance k = ⟨194 + 210 * (k / 48), k % 48⟩ := by
  induction k with
  | zero => decide
  | succ k ih =>
    rw [WheelIterator.advance, ih (by omega)]
    unfold WheelIterator.next Constants.WHEEL_SIZE
    dsimp only
    by_cases h : k % 48 + 1 ≥ 48
    · rw [if_pos h, WheelIterator.mk.injEq]
      have hlt : 194 + 210 * (k / 48) + 210 < U64 := by
        unfold U64
        omega
      rw [Nat.mod_eq_of_lt hlt]
      omega
    · rw [if_neg h, WheelIterator.mk.injEq]
      omega

set_option maxRecDepth 100000 in
theorem wrapped_offsets :
    ∀ j, j < 48 → (194 + Constants.WHEEL_OFFSETS.getD j 0) % 3 ≠ 2 := by
  decide

/-- The candidates of the run started at `2^64 - 1`: each is at least 195 and leaves
a remainder other than 2 modulo 3, so none of them has a twin class. -/
theorem wrapped_candidate (w : Worker) (hstart : w.m_startN = 2 ^ 64 - 1) (k : Nat)
    (hk : k ≤ 5000) :
    195 ≤ w.candidate k ∧ classIndex (w.candidate k) = -1 := by
  have hj : k % 48 < 48 := Nat.mod_lt _ (by norm_num)
  have hb := WheelIterator.offsets_bounds (k % 48) hj
  have h3 := wrapped_offsets (k % 48) hj
  have hval : w.candidate k = 194 + 210 * (k / 48) + Constants.WHEEL_OFFSETS.getD (k % 48) 0 := by
    unfold candidate
    rw [hstart, wrapped_wheel k hk]
    unfold WheelIterator.current
    dsimp only
    apply Nat.mod_eq_of_lt
    unfold U64
    omega
  rw [hval]
  refine ⟨by omega, ?_⟩
  generalize Constants.WHEEL_OFFSETS.getD (k % 48) 0 = o at hb h3
  have hm3 : (194 + 210 * (k / 48) + o) % 3 ≠ 2 := by omega
  generalize 194 + 210 * (k / 48) + o = v at hm3
  have h30 : v % 30 % 3 = v % 3 := Nat.mod_mod_of_dvd v (by norm_num)
  unfold classIndex
  have a1 : v % 30 ≠ 11 := by omega
  have a2 : v % 30 ≠ 17 := by omega
  have a3 : v % 30 ≠ 29 := by omega
  simp [a1, a2, a3]

/-- With an empty list of base primes every candidate from 121 on passes the test. -/
theorem confirmed_of_empty (w : Worker) (hsieve : w.m_sieve.m_basePrimes = []) (n : Nat)
    (hn : 121 ≤ n) : w.m_sieve.isPrimeFromWheel n = true := by
  unfold PrimeSieve.isPrimeFromWheel
  rw [if_neg (by omega), hsieve]
  rfl

/-- Without a twin `recordGap` leaves the paired sample count as it was. -/
theorem recordGap_countV2Gap (s : LoopState) (n : Nat)
    (h : ¬ (s.lastPrime ≠ 0 ∧ subU64 n s.lastPrime = 2 ∧ 0 ≤ classIndex s.lastPrime)) :
    (recordGap s n).countV2Gap = s.countV2Gap := by
  by_cases h0 : s.lastPrime = 0
  · rw [recordGap_of_no_prev s n h0]
  · by_cases hg : subU64 n s.lastPrime = 2
    · have hc : ¬ 0 ≤ classIndex s.lastPrime := fun hc => h ⟨h0, hg, hc⟩
      have ht := (recordTwin_twin
        { s with sumPrimeGaps := s.sumPrimeGaps + subU64 n s.lastPrime }).2 hc
      rw [recordGap_of_gap s n h0 hg, ht]
    · rw [recordGap_of_gap_ne s n h0 hg]

/-- An iteration that records no twin leaves the paired sample count as it was. -/
theorem loopBody_countV2Gap (w : Worker) (s : LoopState) (h : ¬ w.twinAt s) :
    (w.loopBody s).1.countV2Gap = s.countV2Gap := by
  by_cases hp : w.m_sieve.isPrimeFromWheel s.wheel.current = true
  · rw [loopBody_of_confirmed w s hp, finishPrime_fst]
    exact recordGap_countV2Gap
      (recordPrime { s with wheel := s.wheel.next } s.wheel.current) s.wheel.current
      (fun ⟨h0, hg, hc⟩ => h ⟨hp, h0, hg, hc⟩)
  · have hp' : w.m_sieve.isPrimeFromWheel s.wheel.current = false := by simpa using hp
    rw [loopBody_of_rejected w s hp']

/-- The run started at `2^64 - 1` with an empty list of base primes confirms every
candidate, records no twin and no paired sample in its first 5000 iterations, and
emits its first snapshot in iteration 4999. -/
theorem wrapped_run (w : Worker) (hstart : w.m_startN = 2 ^ 64 - 1)
    (hsieve : w.m_sieve.m_basePrimes = []) :
    (∀ k, k ≤ 5000 → (w.run k).1.twinCount = 0 ∧ (w.run k).1.countV2Gap = 0) ∧
      ∃ st, (w.loopBody (w.run 4999).1).2 = some st := by
  have hconf : ∀ k, k ≤ 5000 → w.confirmed k = true := by
    intro k hk
    unfold confirmed
    exact confirmed_of_empty w hsieve _ (by have := (wrapped_candidate w hstart k hk).1; omega)
  have hlast : ∀ k, k ≤ 5000 → ¬ 0 ≤ classIndex (w.run k).1.lastPrime := by
    intro k hk
    rcases run_lastPrime w k with h | ⟨j, hj, h⟩
    · rw [h]
      decide
    · rw [h, (wrapped_candidate w hstart j (by omega)).2]
      decide
  have hno : ∀ k, k ≤ 5000 → ¬ w.twinAt (w.run k).1 := fun k hk h => hlast k hk h.2.2.2
  have hcount : ∀ k, k ≤ 5000 → w.confirmedCount k = k := by
    intro k
    induction k with
    | zero => intro _; rfl
    | succ k ih =>
      intro hk
      rw [confirmedCount, ih (by omega), hconf k (by omega)]
      rfl
  constructor
  · intro k
    induction k with
    | zero => intro _; exact ⟨rfl, rfl⟩
    | succ k ih =>
      intro hk
      obtain ⟨i1, i2⟩ := ih (by omega)
      rw [run_succ]
      exact ⟨by rw [← i1]; exact ((loopBody_twin w _).2 (hno k (by omega))).1,
        by rw [← i2]; exact loopBody_countV2Gap w _ (hno k (by omega))⟩
  · have hem := (emits_iff w 4999).mpr ⟨hconf 4999 (by norm_num), by
      rw [hcount 4999 (by norm_num)]⟩
    exact Option.isSome_iff_exists.mp hem

end Worker

/-- C13. In every run of `Worker::process`, a snapshot emitted (by any iteration `k`)
with `twinCount <= 1` has `kTTwinEmpirical` and `avgTwinGap` exactly 0. -/
theorem twin_stats_guarded (w : Worker) (k : Nat) (st : Stats)
    (hst : (w.loopBody (w.run k).1).2 = some st) (hle : st.twinCount ≤ 1) :
    st.kTTwinEmpirical = 0 ∧ st.avgTwinGap = 0 := by
  obtain ⟨e1, e2⟩ := Worker.snapshot_of_run w k st hst
  rw [← e1]
  exact Worker.run_twin_guard w (k + 1) (by rw [← e2]; exact hle)

theorem twin_stats_guarded_witness :
    ∃ st, ((⟨false, 2 ^ 64 - 1, AnalysisMode.Both, false, PrimeSieve.new 10⟩ : Worker).loopBody
        ((⟨false, 2 ^ 64 - 1, AnalysisMode.Both, false, PrimeSieve.new 10⟩ : Worker).run
          4999).1).2 = some st ∧
      st.twinCount ≤ 1 ∧ (st.kTTwinEmpirical = 0 ∧ st.avgTwinGap = 0) := by
  obtain ⟨h1, st, hst⟩ := Worker.wrapped_run
    (⟨false, 2 ^ 64 - 1, AnalysisMode.Both, false, PrimeSieve.new 10⟩ : Worker) rfl (by decide)
  have hle : st.twinCount ≤ 1 := by
    rw [(Worker.snapshot_of_run _ 4999 st hst).2, (h1 5000 (le_refl _)).1]
    exact Nat.zero_le 1
  exact ⟨st, hst, hle, twin_stats_guarded _ 4999 st hst hle⟩

/-- C14. In every run of `Worker::process`, a snapshot emitted (by any iteration `k`)
while the number of paired twin transition samples `countV2Gap` is at most 10 has
`corrV2` exactly 0: the field still holds its initial value. -/
theorem corr_guarded (w : Worker) (k : Nat) (st : Stats)
    (hst : (w.loopBody (w.run k).1).2 = some st)
    (hle : (w.run (k + 1)).1.countV2Gap ≤ 10) :
    st.corrV2 = CorrValue.zero := by
  rw [← (Worker.snapshot_of_run w k st hst).1]
  exact Worker.run_corr_guard w (k + 1) hle

theorem corr_guarded_witness :
    ∃ st, ((⟨false, 2 ^ 64 - 1, AnalysisMode.Both, false, PrimeSieve.new 10⟩ : Worker).loopBody
        ((⟨false, 2 ^ 64 - 1, AnalysisMode.Both, false, PrimeSieve.new 10⟩ : Worker).run
          4999).1).2 = some st ∧
      ((⟨false, 2 ^ 64 - 1, AnalysisMode.Both, false, PrimeSieve.new 10⟩ : Worker).run
          (4999 + 1)).1.countV2Gap ≤ 10 ∧ st.corrV2 = CorrValue.zero := by
  obtain ⟨h1, st, hst⟩ := Worker.wrapped_run
    (⟨false, 2 ^ 64 - 1, AnalysisMode.Both, false, PrimeSieve.new 10⟩ : Worker) rfl (by decide)
  have hle : ((⟨false, 2 ^ 64 - 1, AnalysisMode.Both, false, PrimeSieve.new 10⟩ : Worker).run
      (4999 + 1)).1.countV2Gap ≤ 10 := by
    rw [(h1 5000 (le_refl _)).2]
    exact Nat.zero_le 10
  exact ⟨st, hst, hle, corr_guarded _ 4999 st hst hle⟩

/-! ## The signed excess -/

theorem subU64_of_le (a b : Nat) (h : b ≤ a) (ha : a < U64) : subU64 a b = a - b := by
  unfold subU64
  have hb : b % U64 = b := Nat.mod_eq_of_lt (by omega)
  rw [hb]
  have : a + U64 - b = (a - b) + U64 := by omega
  rw [this, Nat.add_mod_right]
  exact Nat.mod_eq_of_lt (by omega)

theorem toInt64_nonneg (x : Nat) (h : x < 2 ^ 63) : 0 ≤ toInt64 x := by
  unfold toInt64
  have hx : x % U64 = x := Nat.mod_eq_of_lt (by unfold U64; omega)
  rw [hx, if_pos h]
  exact Int.natCast_nonneg x

theorem classIndex_cases (a : Nat) (h : 0 ≤ classIndex a) :
    (a % 30 = 11 ∧ classIndex a = 0) ∨ (a % 30 = 17 ∧ classIndex a = 1) ∨
      (a % 30 = 29 ∧ classIndex a = 2) := by
  unfold classIndex at h ⊢
  dsimp only at h ⊢
  by_cases h1 : a % 30 = 11
  · left
    exact ⟨h1, by rw [if_pos h1]⟩
  · by_cases h2 : a % 30 = 17
    · right
      left
      exact ⟨h2, by rw [if_neg h1, if_pos h2]⟩
    · by_cases h3 : a % 30 = 29
      · right
        right
        exact ⟨h3, by rw [if_neg h1, if_neg h2, if_pos h3]⟩
      · rw [if_neg h1, if_neg h2, if_neg h3] at h
        exact absurd h (by decide)

/-- The excess of a transition between two twins `a < b` below `2^63` whose classes
are the recorded ones is not negative: the gap is at least the table entry. -/
theorem excess_nonneg (a b : Nat) (hab : a < b) (hb : b < 2 ^ 63)
    (ha0 : 0 ≤ classIndex a) (hb0 : 0 ≤ classIndex b) :
    0 ≤ toInt64 (subU64 (subU64 b a)
      ((Constants.GAP_MIN.getD (classIndex a).toNat []).getD (classIndex b).toNat 0)) := by
  have hbU : b < U64 := by
    unfold U64
    omega
  rw [subU64_of_le b a (by omega) hbU]
  have hd : b - a < U64 := by omega
  have key : ∀ g, g ≤ b - a → 0 ≤ toInt64 (subU64 (b - a) g) := by
    intro g hg
    rw [subU64_of_le (b - a) g hg hd]
    exact toInt64_nonneg _ (by omega)
  rcases classIndex_cases a ha0 with ⟨ra, ca⟩ | ⟨ra, ca⟩ | ⟨ra, ca⟩ <;>
    rcases classIndex_cases b hb0 with ⟨rb, cb⟩ | ⟨rb, cb⟩ | ⟨rb, cb⟩ <;>
    rw [ca, cb] <;> apply key <;>
    simp [Constants.GAP_MIN] <;> omega

theorem signedLe_trans {a b c : LoopState} (h1 : SignedLe a b) (h2 : SignedLe b c) :
    SignedLe a c :=
  ⟨le_trans h1.1 h2.1, le_trans h1.2 h2.2, fun i => le_trans (h1.3 i) (h2.3 i)⟩

namespace Worker

theorem signedLe_recordTransition (s : LoopState) (p : Nat) (c : Int)
    (he : 0 ≤ toInt64 (subU64 (subU64 p s.lastTwinP)
      ((Constants.GAP_MIN.getD s.lastTwinClass.toNat []).getD c.toNat 0))) :
    SignedLe s (recordTransition s p c) := by
  unfold recordTransition
  refine ⟨?_, ?_, fun i => recordDecade_sumExcess_le _ _ _ he i⟩
  · dsimp only
    omega
  · dsimp only
    split_ifs
    · omega
    · exact le_refl _

theorem signedLe_recordTwin (s : LoopState)
    (he : 0 ≤ classIndex s.lastPrime → s.lastTwinP ≠ 0 ∧ 0 ≤ s.lastTwinClass →
      0 ≤ excessAt s) :
    SignedLe s (recordTwin s) := by
  by_cases h : 0 ≤ classIndex s.lastPrime
  · by_cases h2 : s.lastTwinP ≠ 0 ∧ 0 ≤ s.lastTwinClass
    · rw [recordTwin_of_transition s h h2]
      have h3 := signedLe_recordTransition { s with twinCount := s.twinCount + 1 } s.lastPrime
        (classIndex s.lastPrime) (he h h2)
      exact ⟨h3.1, h3.2, h3.3⟩
    · rw [recordTwin_of_first s h h2]
      exact ⟨le_refl _, le_refl _, fun _ => le_refl _⟩
  · rw [recordTwin_of_invalid s h]
    exact signedLe_refl s

theorem signedLe_recordGap (s : LoopState) (n : Nat)
    (he : s.lastPrime ≠ 0 → subU64 n s.lastPrime = 2 → 0 ≤ classIndex s.lastPrime →
      s.lastTwinP ≠ 0 ∧ 0 ≤ s.lastTwinClass → 0 ≤ excessAt s) :
    SignedLe s (recordGap s n) := by
  by_cases h : s.lastPrime = 0
  · rw [recordGap_of_no_prev s n h]
    exact signedLe_refl s
  · have hsum : SignedLe s { s with sumPrimeGaps := s.sumPrimeGaps + subU64 n s.lastPrime } :=
      ⟨le_refl _, le_refl _, fun _ => le_refl _⟩
    by_cases hg : subU64 n s.lastPrime = 2
    · rw [recordGap_of_gap s n h hg]
      exact signedLe_trans hsum (signedLe_recordTwin _ (he h hg))
    · rw [recordGap_of_gap_ne s n h hg]
      exact hsum

/-- One iteration does not lower a running sum of the signed `excess`, provided the
excess it adds, if it records a transition, is not negative. -/
theorem signedLe_loopBody (w : Worker) (s : LoopState)
    (he : w.transitionAt s → 0 ≤ excessAt s) : SignedLe s (w.loopBody s).1 := by
  by_cases hp : w.m_sieve.isPrimeFromWheel s.wheel.current = true
  · rw [loopBody_of_confirmed w s hp, finishPrime_fst]
    have h1 := signedLe_recordGap
      (recordPrime { s with wheel := s.wheel.next } s.wheel.current) s.wheel.current
      (fun h0 hg hc h2 => he ⟨⟨hp, h0, hg, hc⟩, h2⟩)
    exact ⟨h1.1, h1.2, h1.3⟩
  · have hp' : w.m_sieve.isPrimeFromWheel s.wheel.current = false := by simpa using hp
    rw [loopBody_of_rejected w s hp']
    exact ⟨le_refl _, le_refl _, fun _ => le_refl _⟩

/-- While the blocks of the wheel stay below `2^63`, the candidates are positive,
below `2^63`, and strictly increasing. -/
theorem candidate_bounds (w : Worker) (k : Nat)
    (hk : w.m_startN / 210 * 210 + 210 * (k / 48 + 2) ≤ 2 ^ 63) :
    1 ≤ w.candidate k ∧ w.candidate k < 2 ^ 63 ∧ ∀ j, j < k → w.candidate j < w.candidate k := by
  have hnw : ∀ j, j ≤ k → WheelIterator.NoWrap w.m_startN j := by
    intro j hj
    unfold WheelIterator.NoWrap U64
    omega
  obtain ⟨hal, _, hbase⟩ := WheelIterator.advance_aligned w.m_startN 0 (hnw 0 (Nat.zero_le k))
  have hidx : (WheelIterator.new w.m_startN).m_idx < 48 := hal.1
  have hpos : (WheelIterator.new w.m_startN).pos =
      w.m_startN / 210 * 48 + (WheelIterator.new w.m_startN).m_idx := by
    unfold WheelIterator.pos
    rw [hbase]
    omega
  have hval := candidate_eq_slotValue w k (hnw k (le_refl k))
  have hoff := WheelIterator.offsets_bounds (((WheelIterator.new w.m_startN).pos + k) % 48)
    (Nat.mod_lt _ (by norm_num))
  refine ⟨?_, ?_, ?_⟩
  · rw [hval]
    unfold slotValue
    omega
  · rw [hval]
    unfold slotValue
    rw [hpos] at hoff ⊢
    omega
  · intro j hj
    rw [hval, candidate_eq_slotValue w j (hnw j (by omega))]
    exact slotValue_strictMono _ _ (by omega)

/-- While the blocks of the wheel stay below `2^63`: the previous prime is below the
candidate, and the previous twin, if any, is below the previous prime and carries its
own valid class. -/
theorem run_twin_inv (w : Worker) (k : Nat)
    (hk : w.m_startN / 210 * 210 + 210 * (k / 48 + 2) ≤ 2 ^ 63) :
    (w.run k).1.lastPrime < w.candidate k ∧
      ((w.run k).1.lastTwinP = 0 ∨
        ((w.run k).1.lastTwinP < (w.run k).1.lastPrime ∧
          (w.run k).1.lastTwinClass = classIndex (w.run k).1.lastTwinP ∧
          0 ≤ (w.run k).1.lastTwinClass)) := by
  induction k with
  | zero =>
    exact ⟨(candidate_bounds w 0 hk).1, Or.inl rfl⟩
  | succ k ih =>
    have hk' : w.m_startN / 210 * 210 + 210 * (k / 48 + 2) ≤ 2 ^ 63 := by omega
    obtain ⟨hlt, hinv⟩ := ih hk'
    obtain ⟨_, _, hinc⟩ := candidate_bounds w (k + 1) hk
    have hlast := (loopBody_effect w (w.run k).1).2.2.2.1
    rw [run_current] at hlast
    have hle : (w.run k).1.lastPrime ≤ (w.loopBody (w.run k).1).1.lastPrime ∧
        (w.loopBody (w.run k).1).1.lastPrime ≤ w.candidate k := by
      rw [hlast]
      split_ifs <;> omega
    rw [run_succ]
    refine ⟨lt_of_le_of_lt hle.2 (hinc k (by omega)), ?_⟩
    show (w.loopBody (w.run k).1).1.lastTwinP = 0 ∨
      ((w.loopBody (w.run k).1).1.lastTwinP < (w.loopBody (w.run k).1).1.lastPrime ∧
        (w.loopBody (w.run k).1).1.lastTwinClass =
          classIndex (w.loopBody (w.run k).1).1.lastTwinP ∧
        0 ≤ (w.loopBody (w.run k).1).1.lastTwinClass)
    by_cases ht : w.twinAt (w.run k).1
    · obtain ⟨_, t2, t3⟩ := (loopBody_twin w _).1 ht
      right
      have hconf : w.m_sieve.isPrimeFromWheel (w.candidate k) = true := by
        rw [← run_current]
        exact ht.1
      rw [t2, t3, hlast, if_pos hconf]
      exact ⟨hlt, rfl, ht.2.2.2⟩
    · obtain ⟨_, t2, t3⟩ := (loopBody_twin w _).2 ht
      rw [t2, t3]
      rcases hinv with h0 | ⟨i1, i2, i3⟩
      · exact Or.inl h0
      · exact Or.inr ⟨lt_of_lt_of_le i1 hle.1, i2, i3⟩

/-- While the blocks of the wheel stay below `2^63`, a recorded transition adds an
excess that is not negative. -/
theorem run_excess_nonneg (w : Worker) (k : Nat)
    (hk : w.m_startN / 210 * 210 + 210 * (k / 48 + 2) ≤ 2 ^ 63)
    (ht : w.transitionAt (w.run k).1) : 0 ≤ excessAt (w.run k).1 := by
  obtain ⟨hlt, hinv⟩ := run_twin_inv w k hk
  obtain ⟨⟨_, _, _, hc⟩, hne, _⟩ := ht
  rcases hinv with h0 | ⟨i1, i2, i3⟩
  · exact absurd h0 hne
  · have hb : (w.run k).1.lastPrime < 2 ^ 63 := by
      have := (candidate_bounds w k hk).2.1
      omega
    unfold excessAt twinGapAt
    rw [i2] at i3 ⊢
    exact excess_nonneg _ _ i1 hb i3 hc

end Worker

/-! ## Evaluation of the Pearson accumulators -/

theorem forceInt_eq {α : Type} (z : Int) (f : Int → α) : forceInt z f = f z := by
  cases z <;> simp only [forceInt, forceNat_eq]

namespace TwinAcc

theorem force_eq {α : Type} (a : TwinAcc) (f : TwinAcc → α) : force a f = f a := by
  cases a
  simp only [force, forceNat_eq, forceInt_eq]

theorem of_recordGap (g : LoopState) (n : Nat) : of (Worker.recordGap g n) = gap n (of g) := by
  by_cases h0 : g.lastPrime = 0
  · rw [Worker.recordGap_of_no_prev g n h0]
    unfold gap of
    dsimp only
    rw [if_neg (not_not.mpr h0)]
  · by_cases hg : subU64 n g.lastPrime = 2
    · rw [Worker.recordGap_of_gap g n h0 hg]
      by_cases hc : 0 ≤ classIndex g.lastPrime
      · by_cases h2 : g.lastTwinP ≠ 0 ∧ 0 ≤ g.lastTwinClass
        · rw [Worker.recordTwin_of_transition
            { g with sumPrimeGaps := g.sumPrimeGaps + subU64 n g.lastPrime } hc h2]
          unfold gap of
          dsimp only
          rw [if_pos h0, if_pos hg, if_pos hc, if_pos h2]
          rfl
        · rw [Worker.recordTwin_of_first
            { g with sumPrimeGaps := g.sumPrimeGaps + subU64 n g.lastPrime } hc h2]
          unfold gap of
          dsimp only
          rw [if_pos h0, if_pos hg, if_pos hc, if_neg h2]
      · rw [Worker.recordTwin_of_invalid
          { g with sumPrimeGaps := g.sumPrimeGaps + subU64 n g.lastPrime } hc]
        unfold gap of
        dsimp only
        rw [if_pos h0, if_pos hg, if_neg hc]
    · rw [Worker.recordGap_of_gap_ne g n h0 hg]
      unfold gap of
      dsimp only
      rw [if_pos h0, if_neg hg]

/-- One iteration of the loop acts on the variables of `TwinAcc` as `step` does. -/
theorem of_loopBody (w : Worker) (s : LoopState) :
    of (w.loopBody s).1 =
      step (w.m_sieve.isPrimeFromWheel s.wheel.current) s.wheel.current (of s) := by
  by_cases hp : w.m_sieve.isPrimeFromWheel s.wheel.current = true
  · rw [Worker.loopBody_of_confirmed w s hp, Worker.finishPrime_fst, hp]
    have h := of_recordGap
      (Worker.recordPrime { s with wheel := s.wheel.next } s.wheel.current) s.wheel.current
    show ({ of (Worker.recordGap
      (Worker.recordPrime { s with wheel := s.wheel.next } s.wheel.current) s.wheel.current)
        with lastPrime := s.wheel.current } : TwinAcc) = _
    rw [h]
    rfl
  · have hp' : w.m_sieve.isPrimeFromWheel s.wheel.current = false := by simpa using hp
    rw [Worker.loopBody_of_rejected w s hp', hp']
    rfl

/-- For the run started at 3, `eval` computes the variables of `TwinAcc`. -/
theorem eval_eq (w : Worker) (L : Nat) (hstart : w.m_startN = 3)
    (hsieve : w.m_sieve = PrimeSieve.new L)
    (hfit : L < (2 ^ 32 - 1) ^ 2) (hL : 230 ≤ L) :
    ∀ fuel j, j + fuel ≤ 11119 →
      eval fuel j (of (w.run j).1) = of (w.run (j + fuel)).1 := by
  intro fuel
  induction fuel with
  | zero =>
    intro j _
    rfl
  | succ fuel ih =>
    intro j hj
    obtain ⟨hcand, _, hgcd⟩ := Worker.confirmed_from_three w L hstart hsieve hfit hL j (by omega)
    simp only [eval, forceNat_eq, force_eq]
    have hstep : step (gcdTest (slotValue (j + 1))) (slotValue (j + 1)) (of (w.run j).1) =
        of (w.run (j + 1)).1 := by
      have hconf : w.confirmed j = w.m_sieve.isPrimeFromWheel (slotValue (j + 1)) := by
        unfold Worker.confirmed
        rw [hcand]
      rw [Worker.run_succ, of_loopBody, Worker.run_current, hcand, ← hconf, hgcd]
    rw [hstep, ih (j + 1) (by omega)]
    congr 3
    omega

end TwinAcc

/-- The value the Pearson block assigns when both guards pass. -/
theorem Worker.corrOf_of_guard (s : LoopState) (old : CorrValue) (hn : s.countV2Gap > 10)
    (hv : (s.sumV2Sq : ℚ) / s.countV2Gap - (s.sumV2 : ℚ) / s.countV2 * ((s.sumV2 : ℚ) / s.countV2) > 0 ∧
      (s.sumV2GapSq : ℚ) / s.countV2Gap -
        (s.sumV2Gap : ℚ) / s.countV2Gap * ((s.sumV2Gap : ℚ) / s.countV2Gap) > 0) :
    Worker.corrOf s old =
      CorrValue.pearson
        ((s.sumV2Product : ℚ) / s.countV2Gap -
          (s.sumV2 : ℚ) / s.countV2 * ((s.sumV2Gap : ℚ) / s.countV2Gap))
        ((s.sumV2Sq : ℚ) / s.countV2Gap - (s.sumV2 : ℚ) / s.countV2 * ((s.sumV2 : ℚ) / s.countV2))
        ((s.sumV2GapSq : ℚ) / s.countV2Gap -
          (s.sumV2Gap : ℚ) / s.countV2Gap * ((s.sumV2Gap : ℚ) / s.countV2Gap)) := by
  unfold Worker.corrOf
  rw [if_pos hn]
  dsimp only
  rw [if_pos hv]

set_option maxRecDepth 1000000 in
theorem twinAcc_value :
    TwinAcc.eval 11119 0 ⟨0, 0, -1, 0, 0, 0, 0, 0, 0, 0⟩ =
      ⟨48649, 48647, 1, 10001, 5000, 1213, 678, 2342, 3876, 2857⟩ := by
  decide!

/-! ## The Pearson block at the first snapshot -/

/-- The accumulators of the Pearson block after iteration 11119 of the run started
at 3, the iteration that emits the first snapshot. -/
theorem Worker.first_snapshot_sums (w : Worker) (L : Nat) (hstart : w.m_startN = 3)
    (hsieve : w.m_sieve = PrimeSieve.new L)
    (hfit : L < (2 ^ 32 - 1) ^ 2) (hL : 230 ≤ L) :
    TwinAcc.of (w.run 11119).1 =
      ⟨48649, 48647, 1, 10001, 5000, 1213, 678, 2342, 3876, 2857⟩ := by
  have h := TwinAcc.eval_eq w L hstart hsieve hfit hL 11119 0 (by norm_num)
  rw [Nat.zero_add] at h
  rw [← h]
  exact twinAcc_value

/-- With the accumulators of the first snapshot, both guards of the Pearson block
pass and the block assigns the quotient built from `sumV2 / countV2`. -/
theorem Worker.corrOf_values (t : LoopState) (old : CorrValue)
    (h : TwinAcc.of t = ⟨48649, 48647, 1, 10001, 5000, 1213, 678, 2342, 3876, 2857⟩) :
    Worker.corrOf t old =
      CorrValue.pearson (2342 / 678 - 10001 / 5000 * (1213 / 678))
        (3876 / 678 - 10001 / 5000 * (10001 / 5000))
        (2857 / 678 - 1213 / 678 * (1213 / 678)) := by
  have e1 : t.sumV2 = 10001 := congrArg TwinAcc.sumV2 h
  have e2 : t.countV2 = 5000 := congrArg TwinAcc.countV2 h
  have e3 : t.sumV2Gap = 1213 := congrArg TwinAcc.sumV2Gap h
  have e4 : t.countV2Gap = 678 := congrArg TwinAcc.countV2Gap h
  have e5 : t.sumV2Product = 2342 := congrArg TwinAcc.sumV2Product h
  have e6 : t.sumV2Sq = 3876 := congrArg TwinAcc.sumV2Sq h
  have e7 : t.sumV2GapSq = 2857 := congrArg TwinAcc.sumV2GapSq h
  rw [Worker.corrOf_of_guard t old (by rw [e4]; norm_num)
    (by rw [e1, e2, e3, e4, e6, e7]; norm_num)]
  rw [e1, e2, e3, e4, e5, e6, e7]
  norm_num

/-- No natural number `m` has `m / 678 = 10001 / 5000`. -/
theorem no_paired_mean (m : ℕ) : (1 / 678 : ℚ) * m ≠ 10001 / 5000 := by
  intro h
  have h2 : (m : ℚ) * 5000 = 10001 * 678 := by
    field_simp at h
    linarith
  have h3 : m * 5000 = 10001 * 678 := by exact_mod_cast h2
  omega

/-- The `corrV2` of an emitted snapshot is the value of the Pearson block on the state
after the iteration, with the previous `corrV2` as the value kept. -/
theorem Worker.snapshot_corr (w : Worker) (k : Nat) (st : Stats)
    (hout : (w.loopBody (w.run k).1).2 = some st) :
    st.corrV2 = Worker.corrOf (w.run (k + 1)).1 (w.run k).1.stats.corrV2 := by
  rw [(Worker.loopBody_snapshot w _ st hout).1]
  rfl

/-- The first snapshot of the run started at 3 and its `corrV2`. -/
theorem Worker.first_snapshot_corr (w : Worker) (L : Nat) (hstart : w.m_startN = 3)
    (hsieve : w.m_sieve = PrimeSieve.new L)
    (hfit : L < (2 ^ 32 - 1) ^ 2) (hL : 230 ≤ L) :
    ∃ st, (w.run 11119).2 = [st] ∧ st.primeCount = 5000 ∧
      st.corrV2 =
        CorrValue.pearson (2342 / 678 - 10001 / 5000 * (1213 / 678))
          (3876 / 678 - 10001 / 5000 * (10001 / 5000))
          (2857 / 678 - 1213 / 678 * (1213 / 678)) := by
  have hsum := Worker.first_snapshot_sums w L hstart hsieve hfit hL
  obtain ⟨hempty, ⟨st, hst, _, hpc⟩, _, _⟩ := Worker.first_snapshot w L hstart hsieve hfit hL
  have hout : (w.loopBody (w.run 11118).1).2 = some st := by
    have h := hst
    rw [Worker.run_succ, hempty 11118 (le_refl _)] at h
    cases hx : (w.loopBody (w.run 11118).1).2 with
    | none =>
      rw [hx] at h
      exact absurd h (by simp)
    | some y =>
      rw [hx] at h
      simp only [List.nil_append, Option.toList_some, List.cons.injEq, and_true] at h
      rw [h]
  refine ⟨st, hst, hpc, ?_⟩
  rw [Worker.snapshot_corr w 11118 st hout]
  exact Worker.corrOf_values _ _ hsum

/-- The accumulators of the Pearson block at the first snapshot, one by one. -/
theorem TwinAcc.fields_of (t : LoopState)
    (h : TwinAcc.of t = ⟨48649, 48647, 1, 10001, 5000, 1213, 678, 2342, 3876, 2857⟩) :
    t.countV2Gap = 678 ∧ t.sumV2Gap = 1213 ∧ t.sumV2Product = 2342 ∧ t.sumV2Sq = 3876 ∧
      t.sumV2GapSq = 2857 ∧ t.sumV2 = 10001 ∧ t.countV2 = 5000 :=
  ⟨congrArg TwinAcc.countV2Gap h, congrArg TwinAcc.sumV2Gap h,
    congrArg TwinAcc.sumV2Product h, congrArg TwinAcc.sumV2Sq h,
    congrArg TwinAcc.sumV2GapSq h, congrArg TwinAcc.sumV2 h, congrArg TwinAcc.countV2 h⟩

/-- C15, the divergence. The worker configured with start 3 emits its first snapshot
in iteration 11119. At that point `countV2Gap = 678 > 10` paired samples exist, with
`sumV2Gap = 1213`, `sumV2Product = 2342`, `sumV2Sq = 3876`, `sumV2GapSq = 2857`, while
`sumV2 = 10001` and `countV2 = 5000` range over all 5000 confirmed primes. The
snapshot's `corrV2` is built from the covariance `2342/678 - (10001/5000)(1213/678)`
and the variance `3876/678 - (10001/5000)^2`: the mean of X is `sumV2 / countV2`. For
no value `m` of the sum of X over the 678 paired samples do the covariance and the
variance of the specification (`specCov`, `specVar`, all sums over the same 678
samples) equal the ones the code uses, so `corrV2` is not the Pearson correlation of
the paired samples; the variance of Y is the one of the specification. -/
theorem pearson_mean_mismatch (mode : AnalysisMode) (multiThread : Bool) :
    ∃ st, ((Worker.new.configure 3 mode multiThread).run 11119).2 = [st] ∧
      (((Worker.new.configure 3 mode multiThread).run 11119).1.countV2Gap = 678 ∧
        ((Worker.new.configure 3 mode multiThread).run 11119).1.sumV2Gap = 1213 ∧
        ((Worker.new.configure 3 mode multiThread).run 11119).1.sumV2Product = 2342 ∧
        ((Worker.new.configure 3 mode multiThread).run 11119).1.sumV2Sq = 3876 ∧
        ((Worker.new.configure 3 mode multiThread).run 11119).1.sumV2GapSq = 2857 ∧
        ((Worker.new.configure 3 mode multiThread).run 11119).1.sumV2 = 10001 ∧
        ((Worker.new.configure 3 mode multiThread).run 11119).1.countV2 = 5000 ∧
        st.primeCount = 5000) ∧
      st.corrV2 =
        CorrValue.pearson (2342 / 678 - 10001 / 5000 * (1213 / 678))
          (3876 / 678 - 10001 / 5000 * (10001 / 5000))
          (2857 / 678 - 1213 / 678 * (1213 / 678)) ∧
      specVar 678 1213 2857 = 2857 / 678 - 1213 / 678 * (1213 / 678) ∧
      ∀ m : ℕ,
        specCov 678 m 1213 2342 ≠ 2342 / 678 - 10001 / 5000 * (1213 / 678) ∧
        specVar 678 m 3876 ≠ 3876 / 678 - 10001 / 5000 * (10001 / 5000) ∧
        st.corrV2 ≠
          CorrValue.pearson (specCov 678 m 1213 2342) (specVar 678 m 3876)
            (specVar 678 1213 2857) := by
  obtain ⟨f1, f2, f3, f4, f5, f6, f7⟩ := TwinAcc.fields_of _
    (Worker.first_snapshot_sums (Worker.new.configure 3 mode multiThread) 10000000
      rfl rfl (by norm_num) (by norm_num))
  obtain ⟨st, hst, hpc, hcorr⟩ :=
    Worker.first_snapshot_corr (Worker.new.configure 3 mode multiThread) 10000000
      rfl rfl (by norm_num) (by norm_num)
  have hcov : ∀ m : ℕ,
      specCov 678 m 1213 2342 ≠ 2342 / 678 - 10001 / 5000 * (1213 / 678) := by
    intro m h
    apply no_paired_mean m
    unfold specCov at h
    have h1 : ((1 / 678 : ℚ) * m) * (1 / 678 * 1213) = 10001 / 5000 * (1 / 678 * 1213) := by
      linarith
    exact mul_right_cancel₀ (by norm_num) h1
  have hvar : ∀ m : ℕ,
      specVar 678 m 3876 ≠ 3876 / 678 - 10001 / 5000 * (10001 / 5000) := by
    intro m h
    apply no_paired_mean m
    unfold specVar at h
    have h1 : ((1 / 678 : ℚ) * m) ^ 2 = (10001 / 5000) ^ 2 := by
      linarith
    have h6 : (0 : ℚ) ≤ 1 / 678 := by norm_num
    have h0 : (0 : ℚ) ≤ 1 / 678 * m := mul_nonneg h6 (Nat.cast_nonneg m)
    have h5 : (0 : ℚ) ≤ 10001 / 5000 := by norm_num
    exact (sq_eq_sq₀ h0 h5).mp h1
  refine ⟨st, hst, ⟨f1, f2, f3, f4, f5, f6, f7, hpc⟩, hcorr, ?_, ?_⟩
  · unfold specVar
    norm_num
  · intro m
    refine ⟨hcov m, hvar m, ?_⟩
    rw [hcorr]
    intro h
    rw [CorrValue.pearson.injEq] at h
    exact hcov m h.1.symm

/-! ## The 2-adic valuation -/

theorem ctz_spec : ∀ fuel x, 0 < x → x < 2 ^ fuel →
    2 ^ ctz fuel x ∣ x ∧ ¬ 2 ^ (ctz fuel x + 1) ∣ x := by
  intro fuel
  induction fuel with
  | zero =>
    intro x hx hlt
    simp at hlt
    omega
  | succ fuel ih =>
    intro x hx hlt
    unfold ctz
    by_cases hodd : x % 2 = 1
    · rw [if_pos hodd]
      refine ⟨by simp, ?_⟩
      intro hd
      have : 2 ∣ x := by simpa using hd
      omega
    · rw [if_neg hodd]
      have hx2 : x = 2 * (x / 2) := by omega
      have hpos : 0 < x / 2 := by omega
      have hlt2 : x / 2 < 2 ^ fuel := by
        rw [pow_succ] at hlt
        omega
      obtain ⟨h1, h2⟩ := ih (x / 2) hpos hlt2
      constructor
      · rw [Nat.add_comm, pow_succ, Nat.mul_comm]
        conv_rhs => rw [hx2]
        exact Nat.mul_dvd_mul_left 2 h1
      · intro hd
        apply h2
        have hd' : 2 * 2 ^ (ctz fuel (x / 2) + 1) ∣ 2 * (x / 2) := by
          rw [← hx2]
          have e : 2 ^ (1 + ctz fuel (x / 2) + 1) = 2 * 2 ^ (ctz fuel (x / 2) + 1) := by
            rw [show 1 + ctz fuel (x / 2) + 1 = (ctz fuel (x / 2) + 1) + 1 by omega, pow_succ,
              Nat.mul_comm]
          rw [← e]
          exact hd
        exact (Nat.mul_dvd_mul_iff_left (by norm_num)).mp hd'

/-- An even nonzero 64-bit value has at least one trailing zero bit. -/
theorem v2_of_pos (x : Nat) (hx : 0 < x) (heven : x % 2 = 0) : 1 ≤ v2_of x := by
  unfold v2_of
  rw [if_neg (by omega)]
  show 1 ≤ ctz (63 + 1) x
  unfold ctz
  rw [if_neg (by omega)]
  omega

/-- C21. `v2_of(0) == 0`, and for every 64-bit `x > 0` the result `k = v2_of(x)` is the
2-adic valuation of `x`: `2^k` divides `x` and `2^(k+1)` does not. -/
theorem v2_of_valuation (x : Nat) (hx : 0 < x) (h64 : x < 2 ^ 64) :
    v2_of 0 = 0 ∧ 2 ^ v2_of x ∣ x ∧ ¬ 2 ^ (v2_of x + 1) ∣ x ∧ v2_of x = padicValNat 2 x := by
  have hs := ctz_spec 64 x hx h64
  have hv : v2_of x = ctz 64 x := by
    unfold v2_of
    rw [if_neg (by omega)]
  rw [hv]
  refine ⟨rfl, hs.1, hs.2, ?_⟩
  have hle : ctz 64 x ≤ padicValNat 2 x :=
    (padicValNat_dvd_iff_le (by omega)).mp hs.1
  have hge : ¬ ctz 64 x + 1 ≤ padicValNat 2 x := fun h =>
    hs.2 ((padicValNat_dvd_iff_le (by omega)).mpr h)
  omega

theorem v2_of_valuation_witness :
    0 < 12 ∧ 12 < 2 ^ 64 ∧
      (v2_of 0 = 0 ∧ 2 ^ v2_of 12 ∣ 12 ∧ ¬ 2 ^ (v2_of 12 + 1) ∣ 12 ∧
        v2_of 12 = padicValNat 2 12) :=
  ⟨by decide, by decide, v2_of_valuation 12 (by decide) (by decide)⟩

/-! ## Sums of counter arrays -/

theorem length_addAt (l : List Nat) (i v : Nat) : (addAt l i v).length = l.length := by
  unfold addAt
  exact List.length_set _ _ _

theorem length_bumpHistogram (h : List Nat) (k : Nat) :
    (bumpHistogram h k).length = h.length := by
  unfold bumpHistogram
  split_ifs
  · exact length_addAt _ _ _
  · exact length_addAt _ _ _
  · rfl

theorem getD_addAt (l : List Nat) (i v j : Nat) (hi : i < l.length) :
    (addAt l i v).getD j 0 = l.getD j 0 + (if j = i then v else 0) := by
  unfold addAt
  simp only [List.getD_eq_getElem?_getD, List.getElem?_set]
  by_cases hij : i = j
  · subst hij
    simp [hi]
  · have hji : ¬ j = i := fun h => hij h.symm
    simp [hij, hji]

theorem sum_set_add (v : Nat) : ∀ (l : List Nat) (i : Nat), i < l.length →
    (l.set i (l.getD i 0 + v)).sum = l.sum + v := by
  intro l
  induction l with
  | nil =>
    intro i hi
    simp at hi
  | cons a t ih =>
    intro i hi
    cases i with
    | zero =>
      simp only [List.set_cons_zero, List.getD_cons_zero, List.sum_cons]
      omega
    | succ i =>
      simp only [List.set_cons_succ, List.getD_cons_succ, List.sum_cons]
      rw [ih i (by simpa using hi)]
      omega

theorem sum_addAt (l : List Nat) (i v : Nat) (hi : i < l.length) :
    (addAt l i v).sum = l.sum + v :=
  sum_set_add v l i hi

/-- The histogram update in terms of buckets: bucket `k - 1` for `1 <= k <= 7`,
bucket 7 for `k >= 8`, none for `k = 0`. -/
theorem getD_bumpHistogram (h : List Nat) (k i : Nat) (hlen : h.length = 8) :
    (bumpHistogram h k).getD i 0 =
      h.getD i 0 + (if (1 ≤ k ∧ k ≤ 7 ∧ i = k - 1) ∨ (8 ≤ k ∧ i = 7) then 1 else 0) := by
  unfold bumpHistogram
  by_cases h1 : k ≥ 1 ∧ k ≤ 7
  · rw [if_pos h1, getD_addAt _ _ _ _ (by omega)]
    by_cases hi : i = k - 1
    · rw [if_pos hi, if_pos (Or.inl ⟨h1.1, h1.2, hi⟩)]
    · rw [if_neg hi, if_neg]
      rintro (⟨_, _, h⟩ | ⟨h, _⟩)
      · exact hi h
      · omega
  · rw [if_neg h1]
    by_cases h8 : k ≥ 8
    · rw [if_pos h8, getD_addAt _ _ _ _ (by omega)]
      by_cases hi : i = 7
      · rw [if_pos hi, if_pos (Or.inr ⟨h8, hi⟩)]
      · rw [if_neg hi, if_neg]
        rintro (⟨_, h, _⟩ | ⟨_, h⟩)
        · omega
        · exact hi h
    · rw [if_neg h8, if_neg]
      · rfl
      · rintro (⟨_, _, _⟩ | ⟨h, _⟩) <;> omega

theorem sum_bumpHistogram (h : List Nat) (k : Nat) (hlen : h.length = 8) (hk : 1 ≤ k) :
    (bumpHistogram h k).sum = h.sum + 1 := by
  unfold bumpHistogram
  by_cases h1 : k ≥ 1 ∧ k ≤ 7
  · rw [if_pos h1]
    exact sum_addAt _ _ _ (by omega)
  · rw [if_neg h1, if_pos (by omega)]
    exact sum_addAt _ _ _ (by omega)

/-! ## The valuation statistics of a confirmed prime -/

namespace Worker

theorem recordGap_prime_frame (s : LoopState) (n : Nat) :
    (recordGap s n).sumV2 = s.sumV2 ∧ (recordGap s n).countV2 = s.countV2 ∧
      (recordGap s n).v2Histogram = s.v2Histogram := by
  simp only [recordGap, recordTwin, recordTransition]
  split_ifs <;> exact ⟨rfl, rfl, rfl⟩

/-- The effect of one iteration on `sumV2`, `countV2` and `v2Histogram`. -/
theorem loopBody_v2 (w : Worker) (s : LoopState) :
    (w.m_sieve.isPrimeFromWheel s.wheel.current = true →
      (w.loopBody s).1.sumV2 = s.sumV2 + v2_of ((s.wheel.current + 1) % U64) ∧
      (w.loopBody s).1.countV2 = s.countV2 + 1 ∧
      (w.loopBody s).1.v2Histogram =
        bumpHistogram s.v2Histogram (v2_of ((s.wheel.current + 1) % U64))) ∧
    (w.m_sieve.isPrimeFromWheel s.wheel.current = false →
      (w.loopBody s).1.sumV2 = s.sumV2 ∧ (w.loopBody s).1.countV2 = s.countV2 ∧
      (w.loopBody s).1.v2Histogram = s.v2Histogram) := by
  constructor
  · intro hp
    rw [loopBody_of_confirmed w s hp, finishPrime_fst]
    obtain ⟨g1, g2, g3⟩ := recordGap_prime_frame
      (recordPrime { s with wheel := s.wheel.next } s.wheel.current) s.wheel.current
    exact ⟨g1, g2, g3⟩
  · intro hp
    rw [loopBody_of_rejected w s hp]
    exact ⟨rfl, rfl, rfl⟩

/-- The histogram of `v2(p + 1)` always has its eight buckets. -/
theorem run_v2Histogram_length (w : Worker) (k : Nat) :
    (w.run k).1.v2Histogram.length = 8 := by
  induction k with
  | zero => rfl
  | succ k ih =>
    rw [run_succ]
    show (w.loopBody (w.run k).1).1.v2Histogram.length = 8
    cases hp : w.m_sieve.isPrimeFromWheel (w.run k).1.wheel.current with
    | true =>
      rw [((loopBody_v2 w _).1 hp).2.2, length_bumpHistogram]
      exact ih
    | false =>
      rw [((loopBody_v2 w _).2 hp).2.2]
      exact ih

end Worker

/-- C22. In a run of `Worker::process`, the iteration `j` that confirms its candidate
`n`, with `k = v2_of(n + 1)` (the sum taken in 64 bits), adds `k` to `sumV2`, adds one
to `countV2`, and adds one to exactly one bucket of `v2Histogram`: bucket `k - 1` when
`1 <= k <= 7`, bucket 7 when `k >= 8`; every other bucket is unchanged, and the
histogram keeps its eight buckets. -/
theorem v2_accumulation (w : Worker) (j : Nat) (hconf : w.confirmed j = true) :
    (w.run (j + 1)).1.sumV2 = (w.run j).1.sumV2 + v2_of ((w.candidate j + 1) % U64) ∧
      (w.run (j + 1)).1.countV2 = (w.run j).1.countV2 + 1 ∧
      (w.run j).1.v2Histogram.length = 8 ∧ (w.run (j + 1)).1.v2Histogram.length = 8 ∧
      (∀ i, (w.run (j + 1)).1.v2Histogram.getD i 0 =
        (w.run j).1.v2Histogram.getD i 0 +
          (if (1 ≤ v2_of ((w.candidate j + 1) % U64) ∧
                v2_of ((w.candidate j + 1) % U64) ≤ 7 ∧
                i = v2_of ((w.candidate j + 1) % U64) - 1) ∨
              (8 ≤ v2_of ((w.candidate j + 1) % U64) ∧ i = 7) then 1 else 0)) ∧
      (w.candidate j + 1 < U64 →
        v2_of ((w.candidate j + 1) % U64) = v2_of (w.candidate j + 1)) := by
  have hp : w.m_sieve.isPrimeFromWheel (w.run j).1.wheel.current = true := by
    rw [Worker.run_current]
    exact hconf
  obtain ⟨h1, h2, h3⟩ := (Worker.loopBody_v2 w (w.run j).1).1 hp
  rw [Worker.run_current] at h1 h3
  have hlen := Worker.run_v2Histogram_length w j
  refine ⟨h1, h2, hlen, Worker.run_v2Histogram_length w (j + 1), ?_, ?_⟩
  · intro i
    rw [Worker.run_succ]
    show (w.loopBody (w.run j).1).1.v2Histogram.getD i 0 = _
    rw [h3]
    exact getD_bumpHistogram _ _ i hlen
  · intro hlt
    rw [Nat.mod_eq_of_lt hlt]

theorem v2_accumulation_witness :
    (Worker.new.configure 3 AnalysisMode.Both false).confirmed 0 = true ∧
      ((Worker.new.configure 3 AnalysisMode.Both false).run (0 + 1)).1.sumV2 =
        ((Worker.new.configure 3 AnalysisMode.Both false).run 0).1.sumV2 +
          v2_of (((Worker.new.configure 3 AnalysisMode.Both false).candidate 0 + 1) % U64) ∧
      ((Worker.new.configure 3 AnalysisMode.Both false).run (0 + 1)).1.countV2 =
        ((Worker.new.configure 3 AnalysisMode.Both false).run 0).1.countV2 + 1 :=
  ⟨by decide,
    (v2_accumulation (Worker.new.configure 3 AnalysisMode.Both false) 0 (by decide)).1,
    (v2_accumulation (Worker.new.configure 3 AnalysisMode.Both false) 0 (by decide)).2.1⟩

/-! ## The wheel: states, the constructor search, and completeness -/

namespace WheelIterator

theorem advance_idx_lt (b : Nat) : ∀ k, ((new b).advance k).m_idx < 48 := by
  intro k
  induction k with
  | zero => exact new_idx_lt b
  | succ k ih =>
    simp only [advance]
    unfold next Constants.WHEEL_SIZE
    split_ifs with h
    · show 0 < 48
      norm_num
    · show ((new b).advance k).m_idx + 1 < 48
      omega

/-- When `start` is at most `2^64 - 3` the search loop of the constructor finds an
offset, without wrapping. -/
theorem findOffset_some (start : Nat) (h : start + 3 ≤ 2 ^ 64) :
    ∃ i, i < 48 ∧ findOffset (start / 210 * 210) start Constants.WHEEL_OFFSETS 0 = some i ∧
      new start = ⟨start / 210 * 210, i⟩ ∧
      start ≤ start / 210 * 210 + Constants.WHEEL_OFFSETS.getD i 0 ∧
      start / 210 * 210 + Constants.WHEEL_OFFSETS.getD i 0 < U64 ∧
      ∀ j, j < i → start / 210 * 210 + Constants.WHEEL_OFFSETS.getD j 0 < start := by
  have hfit : ∃ c, c < U64 ∧ start ≤ c ∧ Nat.Coprime c 210 :=
    ⟨2 ^ 64 - 3, by decide, by omega, by decide⟩
  obtain ⟨k, hk, hnew, h64, hge, hlt⟩ := new_spec start hfit
  refine ⟨k, hk, ?_, hnew, hge, h64, hlt⟩
  rcases findOffset_spec (start / 210 * 210) start Constants.WHEEL_OFFSETS 0 with
    ⟨i, hi, hsome, _, _⟩ | ⟨hnone, hall⟩
  · have hn : new start = ⟨start / 210 * 210, 0 + i⟩ := by
      unfold new
      simp only [hsome]
    rw [hnew] at hn
    have hki : k = 0 + i := congrArg WheelIterator.m_idx hn
    rw [hsome, hki]
  · exfalso
    have := hall k (by simpa using hk)
    rw [Nat.mod_eq_of_lt h64] at this
    omega

end WheelIterator

namespace Worker

/-- Under `NoWrap b k` the value after `k` calls of `next` is the wheel slot `k`
positions after the slot of the constructed iterator. -/
theorem current_eq_slotValue (b k : Nat) (h : WheelIterator.NoWrap b k) :
    ((WheelIterator.new b).advance k).current = slotValue ((WheelIterator.new b).pos + k) := by
  obtain ⟨hal, hpos, _⟩ := WheelIterator.advance_aligned b k h
  rw [slotValue_of_aligned _ hal, hpos]

/-- The slot of the constructed iterator is the first slot whose value reaches the
starting bound. -/
theorem new_pos_le (b q : Nat) (hq : b ≤ slotValue q)
    (hfit : slotValue q < U64) : (WheelIterator.new b).pos ≤ q := by
  obtain ⟨k, hk, hnew, _, _, hlt⟩ := WheelIterator.new_spec b
    ⟨slotValue q, hfit, hq, slotValue_coprime q⟩
  have hpos : (WheelIterator.new b).pos = b / 210 * 48 + k := by
    rw [hnew]
    unfold WheelIterator.pos
    show b / 210 * 210 / 210 * 48 + k = b / 210 * 48 + k
    omega
  rw [hpos]
  by_contra hcon
  push_neg at hcon
  have hoff := WheelIterator.offsets_bounds (q % 48) (Nat.mod_lt q (by norm_num))
  unfold slotValue at hq
  by_cases hb : q / 48 = b / 210
  · have hj : q % 48 < k := by omega
    have := hlt (q % 48) hj
    rw [hb] at hq
    omega
  · have hb' : q / 48 < b / 210 := by omega
    omega

end Worker

/-- C29 as stated fails under 64-bit wraparound: the state constructed by
`WheelIterator(2^64 - 1)` has `m_base = 194`, which is not a multiple of 210. -/
theorem wheel_base_counterexample :
    2 ^ 64 - 1 < 2 ^ 64 ∧ ((WheelIterator.new (2 ^ 64 - 1)).advance 0).m_base = 194 ∧
      ¬ ((WheelIterator.new (2 ^ 64 - 1)).advance 0).m_base % 210 = 0 := by
  decide

/-- C29, amended. Every state reached from `WheelIterator(b)` by `k` calls of `next()`
has `0 <= m_idx < 48`, so the access `WHEEL_OFFSETS[m_idx]` of `current()` is in bounds
of the 48 entries, for every `b` and `k`; and `m_base mod 210 == 0` holds in every such
state that stays clear of 64-bit wraparound
(`floor(b/210)*210 + 210*(floor(k/48)+2) <= 2^64`). -/
theorem wheel_state_invariant (b k : Nat) :
    ((WheelIterator.new b).advance k).m_idx < 48 ∧
      ((WheelIterator.new b).advance k).m_idx < Constants.WHEEL_OFFSETS.length ∧
      Constants.WHEEL_SIZE = 48 ∧
      (WheelIterator.NoWrap b k → ((WheelIterator.new b).advance k).m_base % 210 = 0) :=
  ⟨WheelIterator.advance_idx_lt b k, WheelIterator.advance_idx_lt b k, rfl,
    fun h => (WheelIterator.advance_aligned b k h).1.2.1⟩

/-- C30 as stated fails under 64-bit wraparound: for `start = 2^64 - 1` no offset
qualifies, offset 209 included (`m_base + 209` wraps to 193), the search loop ends
without a result, and the fallback sets `m_base` to 194, not `floor(start/210)*210`. -/
theorem constructor_fallback_counterexample :
    2 ^ 64 - 1 < 2 ^ 64 ∧
      WheelIterator.findOffset ((2 ^ 64 - 1) / 210 * 210) (2 ^ 64 - 1)
        Constants.WHEEL_OFFSETS 0 = none ∧
      ((2 ^ 64 - 1) / 210 * 210 + 209) % U64 = 193 ∧
      (WheelIterator.new (2 ^ 64 - 1)).m_base = 194 ∧
      (WheelIterator.new (2 ^ 64 - 1)).m_base ≠ (2 ^ 64 - 1) / 210 * 210 := by
  decide

/-- C30, amended. For every start value up to `2^64 - 3` the search loop of the
constructor finds a qualifying offset: some `i < 48` has
`floor(start/210)*210 + WHEEL_OFFSETS[i] >= start` without wrapping, the loop returns
the first such `i`, the fallback is not reached, and after construction `m_base` is
`floor(start/210)*210`. For the two remaining start values `2^64 - 2` and `2^64 - 1`
the fallback is reached. -/
theorem constructor_finds_offset (start : Nat) (h : start + 3 ≤ 2 ^ 64) :
    (∃ i, i < 48 ∧
      WheelIterator.findOffset (start / 210 * 210) start Constants.WHEEL_OFFSETS 0 = some i ∧
      start ≤ start / 210 * 210 + Constants.WHEEL_OFFSETS.getD i 0 ∧
      start / 210 * 210 + Constants.WHEEL_OFFSETS.getD i 0 < 2 ^ 64 ∧
      (∀ j, j < i → start / 210 * 210 + Constants.WHEEL_OFFSETS.getD j 0 < start) ∧
      (WheelIterator.new start).m_idx = i) ∧
    (WheelIterator.new start).m_base = start / 210 * 210 ∧
    WheelIterator.findOffset ((2 ^ 64 - 2) / 210 * 210) (2 ^ 64 - 2)
      Constants.WHEEL_OFFSETS 0 = none := by
  obtain ⟨i, hi, hsome, hnew, hge, h64, hlt⟩ := WheelIterator.findOffset_some start h
  refine ⟨⟨i, hi, hsome, hge, h64, hlt, ?_⟩, ?_, by decide⟩
  · rw [hnew]
  · rw [hnew]

theorem constructor_finds_offset_witness :
    3 + 3 ≤ 2 ^ 64 ∧ (WheelIterator.new 3).m_base = 3 / 210 * 210 :=
  ⟨by decide, (constructor_finds_offset 3 (by decide)).2.1⟩

/-- C24 as stated fails under 64-bit wraparound: `WheelIterator(2^64 - 3)` has
`current() = 2^64 - 3`, and after `next()` the value of `current()` is 1, which is not
greater than the value before. -/
theorem wheel_next_counterexample :
    2 ^ 64 - 3 < 2 ^ 64 ∧
      ((WheelIterator.new (2 ^ 64 - 3)).advance 0).current = 2 ^ 64 - 3 ∧
      ((WheelIterator.new (2 ^ 64 - 3)).advance 0).next.current = 1 ∧
      ¬ ((WheelIterator.new (2 ^ 64 - 3)).advance 0).current <
        ((WheelIterator.new (2 ^ 64 - 3)).advance 0).next.current := by
  decide

/-- C24, amended. For the state reached from `WheelIterator(b)` by `k` calls of
`next()`, clear of 64-bit wraparound, with current value `c`: the value of `current()`
after `next()` is the smallest integer greater than `c` that is coprime to 210. Hence
every integer `m >= b` coprime to 210 with `m + 420 <= 2^64`, and so every such prime
`m >= max(b, 11)`, is the value of `current()` after some number of `next()` calls. -/
theorem wheel_skips_none (b k : Nat)
    (h : b / 210 * 210 + 210 * ((k + 1) / 48 + 2) ≤ 2 ^ 64) :
    (((WheelIterator.new b).advance k).current <
        ((WheelIterator.new b).advance k).next.current ∧
      Nat.Coprime ((WheelIterator.new b).advance k).next.current 210 ∧
      ∀ m, ((WheelIterator.new b).advance k).current < m → Nat.Coprime m 210 →
        ((WheelIterator.new b).advance k).next.current ≤ m) ∧
    (∀ m, b ≤ m → Nat.Coprime m 210 → m + 420 ≤ 2 ^ 64 →
      ∃ j, b / 210 * 210 + 210 * (j / 48 + 2) ≤ 2 ^ 64 ∧
        ((WheelIterator.new b).advance j).current = m) ∧
    (∀ p, Nat.Prime p → max b 11 ≤ p → p + 420 ≤ 2 ^ 64 →
      ∃ j, b / 210 * 210 + 210 * (j / 48 + 2) ≤ 2 ^ 64 ∧
        ((WheelIterator.new b).advance j).current = p) := by
  have h : WheelIterator.NoWrap b (k + 1) := h
  have hk : WheelIterator.NoWrap b k := by
    unfold WheelIterator.NoWrap at h ⊢
    omega
  have hc := Worker.current_eq_slotValue b k hk
  have hn : ((WheelIterator.new b).advance k).next.current =
      slotValue ((WheelIterator.new b).pos + (k + 1)) :=
    Worker.current_eq_slotValue b (k + 1) h
  have happear : ∀ m, b ≤ m → Nat.Coprime m 210 → m + 420 ≤ 2 ^ 64 →
      ∃ j, b / 210 * 210 + 210 * (j / 48 + 2) ≤ 2 ^ 64 ∧
        ((WheelIterator.new b).advance j).current = m := by
    intro m hm hcop hfit
    obtain ⟨q, hq⟩ := slotValue_surjective m hcop
    have h0 : WheelIterator.NoWrap b 0 := by
      unfold WheelIterator.NoWrap U64
      have : b / 210 * 210 ≤ b := Nat.div_mul_le_self b 210
      omega
    have hle : (WheelIterator.new b).pos ≤ q :=
      Worker.new_pos_le b q (by rw [hq]; exact hm) (by rw [hq]; unfold U64; omega)
    obtain ⟨hal, _, hbase⟩ := WheelIterator.advance_aligned b 0 h0
    have hpos : (WheelIterator.new b).pos = b / 210 * 48 + (WheelIterator.new b).m_idx := by
      unfold WheelIterator.pos
      rw [hbase]
      omega
    have hj : WheelIterator.NoWrap b (q - (WheelIterator.new b).pos) := by
      unfold WheelIterator.NoWrap U64
      have hsv : 210 * (q / 48) ≤ m := by
        rw [← hq]
        unfold slotValue
        omega
      rw [hpos] at hle ⊢
      omega
    refine ⟨q - (WheelIterator.new b).pos, hj, ?_⟩
    rw [Worker.current_eq_slotValue b _ hj, ← hq]
    congr 1
    omega
  refine ⟨⟨?_, ?_, ?_⟩, happear, ?_⟩
  · rw [hc, hn]
    exact slotValue_strictMono _ _ (by omega)
  · rw [hn]
    exact slotValue_coprime _
  · intro m hm hcop
    obtain ⟨q, hq⟩ := slotValue_surjective m hcop
    rw [hn, ← hq]
    rw [hc, ← hq] at hm
    have hlt : (WheelIterator.new b).pos + k < q := by
      by_contra hcon
      push_neg at hcon
      rcases Nat.eq_or_lt_of_le hcon with e | l
      · rw [e] at hm
        omega
      · have := slotValue_strictMono _ _ l
        omega
    rcases Nat.eq_or_lt_of_le (by omega : (WheelIterator.new b).pos + (k + 1) ≤ q) with e | l
    · rw [e]
    · exact Nat.le_of_lt (slotValue_strictMono _ _ l)
  · intro p hp hge hfit
    have h11 : 11 ≤ p := le_trans (le_max_right b 11) hge
    have hcop : Nat.Coprime p 210 := by
      apply (coprime_210_iff p).mpr
      refine ⟨?_, ?_, ?_, ?_⟩ <;> intro h0
      · have := (Nat.prime_dvd_prime_iff_eq Nat.prime_two hp).mp (Nat.dvd_of_mod_eq_zero h0)
        omega
      · have := (Nat.prime_dvd_prime_iff_eq Nat.prime_three hp).mp (Nat.dvd_of_mod_eq_zero h0)
        omega
      · have := (Nat.prime_dvd_prime_iff_eq Nat.prime_five hp).mp (Nat.dvd_of_mod_eq_zero h0)
        omega
      · have := (Nat.prime_dvd_prime_iff_eq (by norm_num : Nat.Prime 7) hp).mp
          (Nat.dvd_of_mod_eq_zero h0)
        omega
    exact happear p (le_trans (le_max_left b 11) hge) hcop hfit

theorem wheel_skips_none_witness :
    3 / 210 * 210 + 210 * ((0 + 1) / 48 + 2) ≤ 2 ^ 64 ∧
      ((WheelIterator.new 3).advance 0).current <
        ((WheelIterator.new 3).advance 0).next.current ∧
      Nat.Coprime ((WheelIterator.new 3).advance 0).next.current 210 :=
  ⟨by decide, (wheel_skips_none 3 0 (by decide)).1.1, (wheel_skips_none 3 0 (by decide)).1.2.1⟩

/-! ## The order of candidates before the wheel wraps -/

namespace Worker

/-- Before the wheel wraps the candidates are positive, fit 64 bits and increase. -/
theorem candidate_order (w : Worker) (k : Nat) (hk : WheelIterator.NoWrap w.m_startN k) :
    1 ≤ w.candidate k ∧ w.candidate k < U64 ∧ Nat.Coprime (w.candidate k) 210 ∧
      ∀ j, j < k → w.candidate j < w.candidate k := by
  have hnw : ∀ j, j ≤ k → WheelIterator.NoWrap w.m_startN j := by
    intro j hj
    unfold WheelIterator.NoWrap at hk ⊢
    omega
  have hval := candidate_eq_slotValue w k hk
  have hcur := WheelIterator.current_of_aligned _
    (WheelIterator.advance_aligned w.m_startN k hk).1
  have hoff := WheelIterator.offsets_bounds (((WheelIterator.new w.m_startN).pos + k) % 48)
    (Nat.mod_lt _ (by norm_num))
  refine ⟨?_, hcur.2.1, hcur.2.2, ?_⟩
  · rw [hval]
    unfold slotValue
    omega
  · intro j hj
    rw [hval, candidate_eq_slotValue w j (hnw j (by omega))]
    exact slotValue_strictMono _ _ (by omega)

/-- Before the wheel wraps: the previous prime is below the candidate, and the
previous twin, if any, is below the previous prime and carries its own valid class. -/
theorem run_twin_order (w : Worker) (k : Nat) (hk : WheelIterator.NoWrap w.m_startN k) :
    (w.run k).1.lastPrime < w.candidate k ∧
      ((w.run k).1.lastTwinP = 0 ∨
        ((w.run k).1.lastTwinP < (w.run k).1.lastPrime ∧
          (w.run k).1.lastTwinClass = classIndex (w.run k).1.lastTwinP ∧
          0 ≤ (w.run k).1.lastTwinClass)) := by
  induction k with
  | zero =>
    exact ⟨(candidate_order w 0 hk).1, Or.inl rfl⟩
  | succ k ih =>
    have hk' : WheelIterator.NoWrap w.m_startN k := by
      unfold WheelIterator.NoWrap at hk ⊢
      omega
    obtain ⟨hlt, hinv⟩ := ih hk'
    obtain ⟨_, _, _, hinc⟩ := candidate_order w (k + 1) hk
    have hlast := (loopBody_effect w (w.run k).1).2.2.2.1
    rw [run_current] at hlast
    have hle : (w.run k).1.lastPrime ≤ (w.loopBody (w.run k).1).1.lastPrime ∧
        (w.loopBody (w.run k).1).1.lastPrime ≤ w.candidate k := by
      rw [hlast]
      split_ifs <;> omega
    rw [run_succ]
    refine ⟨lt_of_le_of_lt hle.2 (hinc k (by omega)), ?_⟩
    show (w.loopBody (w.run k).1).1.lastTwinP = 0 ∨
      ((w.loopBody (w.run k).1).1.lastTwinP < (w.loopBody (w.run k).1).1.lastPrime ∧
        (w.loopBody (w.run k).1).1.lastTwinClass =
          classIndex (w.loopBody (w.run k).1).1.lastTwinP ∧
        0 ≤ (w.loopBody (w.run k).1).1.lastTwinClass)
    by_cases ht : w.twinAt (w.run k).1
    · obtain ⟨_, t2, t3⟩ := (loopBody_twin w _).1 ht
      right
      have hconf : w.m_sieve.isPrimeFromWheel (w.candidate k) = true := by
        rw [← run_current]
        exact ht.1
      rw [t2, t3, hlast, if_pos hconf]
      exact ⟨hlt, rfl, ht.2.2.2⟩
    · obtain ⟨_, t2, t3⟩ := (loopBody_twin w _).2 ht
      rw [t2, t3]
      rcases hinv with h0 | ⟨i1, i2, i3⟩
      · exact Or.inl h0
      · exact Or.inr ⟨lt_of_lt_of_le i1 hle.1, i2, i3⟩

/-- The twin to twin part of `recordGap`: the paired sample count, the sum of twin
gaps, the gap histogram and the transition matrices change exactly when a twin is
recorded and an earlier twin exists. -/
theorem recordGap_transition (g : LoopState) (n : Nat) :
    ((g.lastPrime ≠ 0 ∧ subU64 n g.lastPrime = 2 ∧ 0 ≤ classIndex g.lastPrime ∧
        g.lastTwinP ≠ 0 ∧ 0 ≤ g.lastTwinClass) →
      (recordGap g n).countV2Gap = g.countV2Gap + 1 ∧
      (recordGap g n).sumTwinGaps = g.sumTwinGaps + subU64 g.lastPrime g.lastTwinP ∧
      (recordGap g n).v2GapHistogram =
        bumpHistogram g.v2GapHistogram (v2_of (subU64 g.lastPrime g.lastTwinP)) ∧
      (recordGap g n).transitions =
        ⟨addAt2 g.transitions.count g.lastTwinClass.toNat (classIndex g.lastPrime).toNat 1,
          addAt2 g.transitions.sumGap g.lastTwinClass.toNat (classIndex g.lastPrime).toNat
            (subU64 g.lastPrime g.lastTwinP)⟩) ∧
    (¬ (g.lastPrime ≠ 0 ∧ subU64 n g.lastPrime = 2 ∧ 0 ≤ classIndex g.lastPrime ∧
        g.lastTwinP ≠ 0 ∧ 0 ≤ g.lastTwinClass) →
      (recordGap g n).countV2Gap = g.countV2Gap ∧
      (recordGap g n).sumTwinGaps = g.sumTwinGaps ∧
      (recordGap g n).v2GapHistogram = g.v2GapHistogram ∧
      (recordGap g n).transitions = g.transitions) := by
  constructor
  · rintro ⟨h0, hg, hc, h2⟩
    rw [recordGap_of_gap g n h0 hg, recordTwin_of_transition
      { g with sumPrimeGaps := g.sumPrimeGaps + subU64 n g.lastPrime } hc h2]
    exact ⟨rfl, rfl, rfl, rfl⟩
  · intro h
    by_cases h0 : g.lastPrime = 0
    · rw [recordGap_of_no_prev g n h0]
      exact ⟨rfl, rfl, rfl, rfl⟩
    · by_cases hg : subU64 n g.lastPrime = 2
      · rw [recordGap_of_gap g n h0 hg]
        by_cases hc : 0 ≤ classIndex g.lastPrime
        · have h2 : ¬ (g.lastTwinP ≠ 0 ∧ 0 ≤ g.lastTwinClass) :=
            fun h2 => h ⟨h0, hg, hc, h2⟩
          rw [recordTwin_of_first
            { g with sumPrimeGaps := g.sumPrimeGaps + subU64 n g.lastPrime } hc h2]
          exact ⟨rfl, rfl, rfl, rfl⟩
        · rw [recordTwin_of_invalid
            { g with sumPrimeGaps := g.sumPrimeGaps + subU64 n g.lastPrime } hc]
          exact ⟨rfl, rfl, rfl, rfl⟩
      · rw [recordGap_of_gap_ne g n h0 hg]
        exact ⟨rfl, rfl, rfl, rfl⟩

/-- The twin to twin part of one iteration. -/
theorem loopBody_transition (w : Worker) (s : LoopState) :
    (w.transitionAt s →
      (w.loopBody s).1.countV2Gap = s.countV2Gap + 1 ∧
      (w.loopBody s).1.sumTwinGaps = s.sumTwinGaps + twinGapAt s ∧
      (w.loopBody s).1.v2GapHistogram =
        bumpHistogram s.v2GapHistogram (v2_of (twinGapAt s)) ∧
      (w.loopBody s).1.transitions =
        ⟨addAt2 s.transitions.count s.lastTwinClass.toNat (classIndex s.lastPrime).toNat 1,
          addAt2 s.transitions.sumGap s.lastTwinClass.toNat (classIndex s.lastPrime).toNat
            (twinGapAt s)⟩) ∧
    (¬ w.transitionAt s →
      (w.loopBody s).1.countV2Gap = s.countV2Gap ∧
      (w.loopBody s).1.sumTwinGaps = s.sumTwinGaps ∧
      (w.loopBody s).1.v2GapHistogram = s.v2GapHistogram ∧
      (w.loopBody s).1.transitions = s.transitions) := by
  by_cases hp : w.m_sieve.isPrimeFromWheel s.wheel.current = true
  · rw [loopBody_of_confirmed w s hp, finishPrime_fst]
    obtain ⟨g1, g2⟩ := recordGap_transition
      (recordPrime { s with wheel := s.wheel.next } s.wheel.current) s.wheel.current
    constructor
    · rintro ⟨⟨_, h0, hg, hc⟩, h2⟩
      exact g1 ⟨h0, hg, hc, h2⟩
    · intro h
      exact g2 (fun ⟨h0, hg, hc, h2⟩ => h ⟨⟨hp, h0, hg, hc⟩, h2⟩)
  · have hp' : w.m_sieve.isPrimeFromWheel s.wheel.current = false := by simpa using hp
    rw [loopBody_of_rejected w s hp']
    constructor
    · rintro ⟨⟨h, _⟩, _⟩
      exact absurd h hp
    · intro _
      exact ⟨rfl, rfl, rfl, rfl⟩

end Worker

/-! ## The transition matrices -/

theorem map_length_set_addAt (j v : Nat) : ∀ (m : List (List Nat)) (i : Nat),
    (m.set i (addAt (m.getD i []) j v)).map List.length = m.map List.length := by
  intro m
  induction m with
  | nil =>
    intro i
    rfl
  | cons a t ih =>
    intro i
    cases i with
    | zero =>
      simp only [List.set_cons_zero, List.getD_cons_zero, List.map_cons, length_addAt]
    | succ i =>
      simp only [List.set_cons_succ, List.getD_cons_succ, List.map_cons, ih i]

theorem map_length_addAt2 (m : List (List Nat)) (i j v : Nat) :
    (addAt2 m i j v).map List.length = m.map List.length :=
  map_length_set_addAt j v m i

theorem total_set_addAt (j v : Nat) : ∀ (m : List (List Nat)) (i : Nat),
    i < m.length → j < (m.getD i []).length →
    ((m.set i (addAt (m.getD i []) j v)).map List.sum).sum = (m.map List.sum).sum + v := by
  intro m
  induction m with
  | nil =>
    intro i hi
    simp at hi
  | cons a t ih =>
    intro i hi hj
    cases i with
    | zero =>
      simp only [List.getD_cons_zero] at hj
      simp only [List.set_cons_zero, List.getD_cons_zero, List.map_cons, List.sum_cons,
        sum_addAt a j v hj]
      omega
    | succ i =>
      simp only [List.getD_cons_succ] at hj
      simp only [List.set_cons_succ, List.getD_cons_succ, List.map_cons, List.sum_cons]
      rw [ih i (by simpa using hi) hj]
      omega

/-- Adding `v` to one cell of a 3 by 3 matrix adds `v` to the total of its cells. -/
theorem total_addAt2 (m : List (List Nat)) (i j v : Nat)
    (hm : m.map List.length = [3, 3, 3]) (hi : i < 3) (hj : j < 3) :
    ((addAt2 m i j v).map List.sum).sum = (m.map List.sum).sum + v := by
  have hlen : m.length = 3 := by
    have := congrArg List.length hm
    simpa using this
  have hrow : (m.getD i []).length = 3 := by
    have h1 : (m.map List.length).getD i 0 = 3 := by
      rw [hm]
      interval_cases i <;> rfl
    rw [List.getD_eq_getElem?_getD, List.getElem?_map] at h1
    rw [List.getD_eq_getElem?_getD]
    cases hx : m[i]? with
    | none =>
      rw [hx] at h1
      simp at h1
    | some r =>
      rw [hx] at h1
      simpa using h1
  exact total_set_addAt j v m i (by omega) (by omega)

/-- The total of a 3 by 3 matrix, cell by cell. -/
theorem total_cells (m : List (List Nat)) (hm : m.map List.length = [3, 3, 3]) :
    (m.getD 0 []).getD 0 0 + (m.getD 0 []).getD 1 0 + (m.getD 0 []).getD 2 0 +
      ((m.getD 1 []).getD 0 0 + (m.getD 1 []).getD 1 0 + (m.getD 1 []).getD 2 0) +
      ((m.getD 2 []).getD 0 0 + (m.getD 2 []).getD 1 0 + (m.getD 2 []).getD 2 0) =
      (m.map List.sum).sum := by
  have row : ∀ r : List Nat, r.length = 3 →
      r.getD 0 0 + r.getD 1 0 + r.getD 2 0 = r.sum := by
    intro r hr
    rcases r with _ | ⟨a, _ | ⟨b, _ | ⟨c, _ | ⟨d, t⟩⟩⟩⟩ <;> simp at hr
    simp
    omega
  rcases m with _ | ⟨r0, _ | ⟨r1, _ | ⟨r2, _ | ⟨r3, t⟩⟩⟩⟩ <;> simp at hm
  obtain ⟨h0, h1, h2⟩ := hm
  simp only [List.getD_cons_zero, List.getD_cons_succ, List.map_cons, List.map_nil,
    List.sum_cons, List.sum_nil, row r0 h0, row r1 h1, row r2 h2]
  omega

theorem classIndex_range (p : Nat) : -1 ≤ classIndex p ∧ classIndex p ≤ 2 := by
  unfold classIndex
  dsimp only
  split_ifs <;> omega

namespace Worker

/-- The invariant of the twin to twin bookkeeping: the two matrices keep their
shape, their totals are the paired sample count and the sum of twin gaps, and the
paired sample count is one less than the twin count once a twin exists. -/
theorem run_transitions (w : Worker) (k : Nat) :
    ((w.run k).1.transitions.count.map List.length = [3, 3, 3] ∧
      (w.run k).1.transitions.sumGap.map List.length = [3, 3, 3]) ∧
    (((w.run k).1.transitions.count.map List.sum).sum = (w.run k).1.countV2Gap ∧
      ((w.run k).1.transitions.sumGap.map List.sum).sum = (w.run k).1.sumTwinGaps) ∧
    (((w.run k).1.twinCount = 0 ∧ (w.run k).1.countV2Gap = 0 ∧
        (w.run k).1.lastTwinClass = -1) ∨
      (1 ≤ (w.run k).1.twinCount ∧ (w.run k).1.countV2Gap + 1 = (w.run k).1.twinCount ∧
        (w.run k).1.lastTwinP ≠ 0 ∧ 0 ≤ (w.run k).1.lastTwinClass)) ∧
    (w.run k).1.lastTwinClass ≤ 2 := by
  induction k with
  | zero =>
    exact ⟨⟨rfl, rfl⟩, ⟨rfl, rfl⟩, Or.inl ⟨rfl, rfl, rfl⟩, (by decide : (-1 : Int) ≤ 2)⟩
  | succ k ih =>
    obtain ⟨⟨s1, s2⟩, ⟨t1, t2⟩, hcase, hr⟩ := ih
    rw [run_succ]
    generalize (w.run k).1 = s at s1 s2 t1 t2 hcase hr
    show ((w.loopBody s).1.transitions.count.map List.length = [3, 3, 3] ∧
        (w.loopBody s).1.transitions.sumGap.map List.length = [3, 3, 3]) ∧
      (((w.loopBody s).1.transitions.count.map List.sum).sum = (w.loopBody s).1.countV2Gap ∧
        ((w.loopBody s).1.transitions.sumGap.map List.sum).sum =
          (w.loopBody s).1.sumTwinGaps) ∧
      (((w.loopBody s).1.twinCount = 0 ∧ (w.loopBody s).1.countV2Gap = 0 ∧
          (w.loopBody s).1.lastTwinClass = -1) ∨
        (1 ≤ (w.loopBody s).1.twinCount ∧
          (w.loopBody s).1.countV2Gap + 1 = (w.loopBody s).1.twinCount ∧
          (w.loopBody s).1.lastTwinP ≠ 0 ∧ 0 ≤ (w.loopBody s).1.lastTwinClass)) ∧
      (w.loopBody s).1.lastTwinClass ≤ 2
    by_cases ht : w.twinAt s
    · obtain ⟨a1, a2, a3⟩ := (loopBody_twin w s).1 ht
      have hc2 := (classIndex_range s.lastPrime).2
      by_cases h2 : s.lastTwinP ≠ 0 ∧ 0 ≤ s.lastTwinClass
      · obtain ⟨b1, b2, _, b4⟩ := (loopBody_transition w s).1 ⟨ht, h2⟩
        have hi : s.lastTwinClass.toNat < 3 := by omega
        have hj : (classIndex s.lastPrime).toNat < 3 := by omega
        rw [a1, a2, a3, b1, b2, b4]
        refine ⟨⟨?_, ?_⟩, ⟨?_, ?_⟩, Or.inr ⟨by omega, ?_, ht.2.1, ht.2.2.2⟩, hc2⟩
        · rw [map_length_addAt2]
          exact s1
        · rw [map_length_addAt2]
          exact s2
        · rw [total_addAt2 _ _ _ _ s1 hi hj, t1]
        · rw [total_addAt2 _ _ _ _ s2 hi hj, t2]
        · rcases hcase with ⟨_, _, c3⟩ | ⟨_, c2, _, _⟩
          · omega
          · omega
      · have hnt : ¬ w.transitionAt s := fun h => h2 h.2
        obtain ⟨b1, b2, _, b4⟩ := (loopBody_transition w s).2 hnt
        rw [a1, a2, a3, b1, b2, b4]
        refine ⟨⟨s1, s2⟩, ⟨t1, t2⟩, Or.inr ⟨by omega, ?_, ht.2.1, ht.2.2.2⟩, hc2⟩
        rcases hcase with ⟨c1, c2, _⟩ | ⟨_, _, c3, c4⟩
        · omega
        · exact absurd ⟨c3, c4⟩ h2
    · obtain ⟨a1, a2, a3⟩ := (loopBody_twin w s).2 ht
      have hnt : ¬ w.transitionAt s := fun h => ht h.1
      obtain ⟨b1, b2, _, b4⟩ := (loopBody_transition w s).2 hnt
      rw [a1, a2, a3, b1, b2, b4]
      exact ⟨⟨s1, s2⟩, ⟨t1, t2⟩, hcase, hr⟩

end Worker

/-- C27. After any number `k` of loop steps of `Worker::process`, the total of the nine
transition counts equals `countV2Gap`, which equals `twinCount - 1` when
`twinCount >= 1` and 0 when `twinCount == 0`; and the total of the nine transition
`sumGap` cells equals `sumTwinGaps`. Both matrices are 3 by 3. -/
theorem transition_totals (w : Worker) (k : Nat) :
    ((w.run k).1.transitions.count.getD 0 []).getD 0 0 +
        ((w.run k).1.transitions.count.getD 0 []).getD 1 0 +
        ((w.run k).1.transitions.count.getD 0 []).getD 2 0 +
      (((w.run k).1.transitions.count.getD 1 []).getD 0 0 +
        ((w.run k).1.transitions.count.getD 1 []).getD 1 0 +
        ((w.run k).1.transitions.count.getD 1 []).getD 2 0) +
      (((w.run k).1.transitions.count.getD 2 []).getD 0 0 +
        ((w.run k).1.transitions.count.getD 2 []).getD 1 0 +
        ((w.run k).1.transitions.count.getD 2 []).getD 2 0) = (w.run k).1.countV2Gap ∧
    (1 ≤ (w.run k).1.twinCount → (w.run k).1.countV2Gap = (w.run k).1.twinCount - 1) ∧
    ((w.run k).1.twinCount = 0 → (w.run k).1.countV2Gap = 0) ∧
    ((w.run k).1.transitions.sumGap.getD 0 []).getD 0 0 +
        ((w.run k).1.transitions.sumGap.getD 0 []).getD 1 0 +
        ((w.run k).1.transitions.sumGap.getD 0 []).getD 2 0 +
      (((w.run k).1.transitions.sumGap.getD 1 []).getD 0 0 +
        ((w.run k).1.transitions.sumGap.getD 1 []).getD 1 0 +
        ((w.run k).1.transitions.sumGap.getD 1 []).getD 2 0) +
      (((w.run k).1.transitions.sumGap.getD 2 []).getD 0 0 +
        ((w.run k).1.transitions.sumGap.getD 2 []).getD 1 0 +
        ((w.run k).1.transitions.sumGap.getD 2 []).getD 2 0) = (w.run k).1.sumTwinGaps ∧
    (w.run k).1.transitions.count.map List.length = [3, 3, 3] ∧
    (w.run k).1.transitions.sumGap.map List.length = [3, 3, 3] := by
  obtain ⟨⟨s1, s2⟩, ⟨t1, t2⟩, hcase, _⟩ := Worker.run_transitions w k
  refine ⟨?_, ?_, ?_, ?_, s1, s2⟩
  · rw [total_cells _ s1, t1]
  · intro h
    rcases hcase with ⟨c1, _, _⟩ | ⟨_, c2, _, _⟩ <;> omega
  · intro h
    rcases hcase with ⟨_, c2, _⟩ | ⟨c1, _, _, _⟩ <;> omega
  · rw [total_cells _ s2, t2]

/-! ## The histograms lose no sample -/

namespace WheelIterator

set_option maxRecDepth 100000 in
theorem offsets_odd : ∀ j, j < 48 → Constants.WHEEL_OFFSETS.getD j 0 % 2 = 1 := by
  decide

theorem new_base_even (b : Nat) : (new b).m_base % 2 = 0 := by
  unfold new
  dsimp only
  cases findOffset (b / 210 * 210) b Constants.WHEEL_OFFSETS 0 with
  | none =>
    show (b / 210 * 210 + 210) % U64 % 2 = 0
    unfold U64
    omega
  | some i =>
    show b / 210 * 210 % 2 = 0
    omega

theorem advance_base_even (b : Nat) : ∀ k, ((new b).advance k).m_base % 2 = 0 := by
  intro k
  induction k with
  | zero => exact new_base_even b
  | succ k ih =>
    simp only [advance]
    unfold next
    split_ifs with h
    · show (((new b).advance k).m_base + 210) % U64 % 2 = 0
      unfold U64
      omega
    · exact ih

/-- Every value of `current()` is odd and fits 64 bits, wrapped or not. -/
theorem current_odd (b k : Nat) :
    ((new b).advance k).current % 2 = 1 ∧ ((new b).advance k).current < U64 := by
  have h1 := advance_base_even b k
  have h2 := offsets_odd _ (advance_idx_lt b k)
  unfold current
  constructor
  · unfold U64
    omega
  · exact Nat.mod_lt _ (by unfold U64; norm_num)

end WheelIterator

/-- With a sieve limit of at least 17 the value `2^64 - 1` does not pass the test:
17 divides it. -/
theorem PrimeSieve.rejects_max (L : Nat) (hL : 17 ≤ L) (hfit : L < (2 ^ 32 - 1) ^ 2) :
    (PrimeSieve.new L).isPrimeFromWheel (2 ^ 64 - 1) = false := by
  have h17 : 17 ∈ (PrimeSieve.generateBasePrimes L).getD [] :=
    (PrimeSieve.mem_generateBasePrimes L 17 hfit).mpr ⟨by norm_num, hL, by norm_num⟩
  cases hx : (PrimeSieve.new L).isPrimeFromWheel (2 ^ 64 - 1) with
  | false => rfl
  | true =>
    exfalso
    unfold PrimeSieve.isPrimeFromWheel at hx
    rw [if_neg (by norm_num)] at hx
    simp only [PrimeSieve.new] at hx
    rw [PrimeSieve.trialLoop_spec _ _ _ (PrimeSieve.sorted_generateBasePrimes L hfit),
      floorSqrt_eq_sqrt] at hx
    have hs : 17 ≤ Nat.sqrt (2 ^ 64 - 1) + 1 := by
      have : 16 ≤ Nat.sqrt (2 ^ 64 - 1) := Nat.le_sqrt.mpr (by norm_num)
      omega
    exact hx 17 h17 hs (by norm_num)

namespace Worker

/-- In every run of a worker whose sieve rejects `2^64 - 1`, the buckets of
`v2Histogram` add up to the number of confirmed primes: every confirmed candidate is
odd and not `2^64 - 1`, so `v2_of(n + 1) >= 1`. -/
theorem run_v2Histogram_sum (w : Worker)
    (hmax : w.m_sieve.isPrimeFromWheel (2 ^ 64 - 1) = false) (k : Nat) :
    (w.run k).1.v2Histogram.sum = (w.run k).1.primeCount ∧
      (w.run k).1.countV2 = (w.run k).1.primeCount := by
  induction k with
  | zero => exact ⟨rfl, rfl⟩
  | succ k ih =>
    have hlen := run_v2Histogram_length w k
    have hpc := (loopBody_effect w (w.run k).1).2.1
    rw [run_succ]
    show (w.loopBody (w.run k).1).1.v2Histogram.sum = (w.loopBody (w.run k).1).1.primeCount ∧
      (w.loopBody (w.run k).1).1.countV2 = (w.loopBody (w.run k).1).1.primeCount
    cases hp : w.m_sieve.isPrimeFromWheel (w.run k).1.wheel.current with
    | true =>
      obtain ⟨_, h2, h3⟩ := (loopBody_v2 w _).1 hp
      rw [hpc, hp, h2, h3]
      have hodd := WheelIterator.current_odd w.m_startN k
      rw [← run_wheel] at hodd
      have hne : (w.run k).1.wheel.current ≠ 2 ^ 64 - 1 := by
        intro he
        rw [he, hmax] at hp
        exact absurd hp (by simp)
      have hlt : (w.run k).1.wheel.current + 1 < U64 := by
        have := hodd.2
        unfold U64 at this ⊢
        omega
      have hk1 : 1 ≤ v2_of (((w.run k).1.wheel.current + 1) % U64) := by
        rw [Nat.mod_eq_of_lt hlt]
        exact v2_of_pos _ (by omega) (by omega)
      rw [sum_bumpHistogram _ _ hlen hk1, ih.1, ih.2]
      simp
    | false =>
      obtain ⟨_, h2, h3⟩ := (loopBody_v2 w _).2 hp
      rw [hpc, hp, h2, h3, ih.1, ih.2]
      simp

/-- The gap histogram always has its eight buckets; and before the wheel wraps its
buckets add up to the paired sample count: a twin to twin gap is positive and even. -/
theorem run_v2GapHistogram (w : Worker) (k : Nat) :
    (w.run k).1.v2GapHistogram.length = 8 ∧
      (WheelIterator.NoWrap w.m_startN k →
        (w.run k).1.v2GapHistogram.sum = (w.run k).1.countV2Gap) := by
  induction k with
  | zero => exact ⟨rfl, fun _ => rfl⟩
  | succ k ih =>
    obtain ⟨hlen, hsum⟩ := ih
    rw [run_succ]
    show (w.loopBody (w.run k).1).1.v2GapHistogram.length = 8 ∧
      (WheelIterator.NoWrap w.m_startN (k + 1) →
        (w.loopBody (w.run k).1).1.v2GapHistogram.sum =
          (w.loopBody (w.run k).1).1.countV2Gap)
    by_cases ht : w.transitionAt (w.run k).1
    · obtain ⟨b1, _, b3, _⟩ := (loopBody_transition w _).1 ht
      rw [b1, b3, length_bumpHistogram]
      refine ⟨hlen, ?_⟩
      intro hk
      have hk' : WheelIterator.NoWrap w.m_startN k := by
        unfold WheelIterator.NoWrap at hk ⊢
        omega
      obtain ⟨hlt, hinv⟩ := run_twin_order w k hk'
      have hcand := (candidate_order w k hk').2.1
      obtain ⟨⟨_, _, _, hc⟩, hne, _⟩ := ht
      rcases hinv with h0 | ⟨i1, i2, i3⟩
      · exact absurd h0 hne
      · rw [i2] at i3
        have hgap : twinGapAt (w.run k).1 =
            (w.run k).1.lastPrime - (w.run k).1.lastTwinP := by
          unfold twinGapAt
          exact subU64_of_le _ _ (by omega) (by omega)
        have hodd1 : (w.run k).1.lastTwinP % 2 = 1 := by
          have h30 : (w.run k).1.lastTwinP % 30 % 2 = (w.run k).1.lastTwinP % 2 :=
            Nat.mod_mod_of_dvd _ (by norm_num)
          rcases classIndex_cases _ i3 with ⟨r, _⟩ | ⟨r, _⟩ | ⟨r, _⟩ <;> omega
        have hodd2 : (w.run k).1.lastPrime % 2 = 1 := by
          have h30 : (w.run k).1.lastPrime % 30 % 2 = (w.run k).1.lastPrime % 2 :=
            Nat.mod_mod_of_dvd _ (by norm_num)
          rcases classIndex_cases _ hc with ⟨r, _⟩ | ⟨r, _⟩ | ⟨r, _⟩ <;> omega
        have hk1 : 1 ≤ v2_of (twinGapAt (w.run k).1) := by
          rw [hgap]
          exact v2_of_pos _ (by omega) (by omega)
        rw [sum_bumpHistogram _ _ hlen hk1, hsum hk']
    · obtain ⟨b1, _, b3, _⟩ := (loopBody_transition w _).2 ht
      rw [b1, b3]
      refine ⟨hlen, ?_⟩
      intro hk
      exact hsum (by
        unfold WheelIterator.NoWrap at hk ⊢
        omega)

end Worker

/-! ## The excess of a twin to twin gap -/

/-- The table entry for two valid classes, against the gap of two numbers that carry
them. -/
theorem gapMin_le_gap (a b : Nat) (hab : a < b) (ha : 0 ≤ classIndex a)
    (hb : 0 ≤ classIndex b) :
    (Constants.GAP_MIN.getD (classIndex a).toNat []).getD (classIndex b).toNat 0 ≤ b - a ∧
      (b - a - (Constants.GAP_MIN.getD (classIndex a).toNat []).getD
        (classIndex b).toNat 0) % 30 = 0 := by
  rcases classIndex_cases a ha with ⟨ra, ca⟩ | ⟨ra, ca⟩ | ⟨ra, ca⟩ <;>
    rcases classIndex_cases b hb with ⟨rb, cb⟩ | ⟨rb, cb⟩ | ⟨rb, cb⟩ <;>
    rw [ca, cb] <;> simp [Constants.GAP_MIN] <;> omega

theorem toInt64_of_lt (x : Nat) (h : x < 2 ^ 63) : toInt64 x = (x : Int) := by
  unfold toInt64
  have hx : x % U64 = x := Nat.mod_eq_of_lt (by unfold U64; omega)
  rw [hx, if_pos h]

theorem toInt64_of_ge (x : Nat) (h : 2 ^ 63 ≤ x) (h64 : x < 2 ^ 64) : toInt64 x < 0 := by
  unfold toInt64
  have hx : x % U64 = x := Nat.mod_eq_of_lt (by unfold U64; omega)
  rw [hx, if_neg (by omega)]
  unfold U64
  push_cast
  omega

/-- C25 as stated fails for 64-bit values: 11 and `2^64 - 5` both have class 0 and
`11 < 2^64 - 5`, the gap `2^64 - 16` exceeds `GAP_MIN[0][0] = 30` by a multiple of 30,
but `twinGap - gapMin = 2^64 - 46` does not fit `int64_t`: the signed `excess` is -46. -/
theorem excess_negative_counterexample :
    11 < 2 ^ 64 - 5 ∧ 2 ^ 64 - 5 < 2 ^ 64 ∧ classIndex 11 = 0 ∧ classIndex (2 ^ 64 - 5) = 0 ∧
      (Constants.GAP_MIN.getD (classIndex 11).toNat []).getD
        (classIndex (2 ^ 64 - 5)).toNat 0 = 30 ∧
      subU64 (2 ^ 64 - 5) 11 = 2 ^ 64 - 16 ∧
      toInt64 (subU64 (subU64 (2 ^ 64 - 5) 11)
        ((Constants.GAP_MIN.getD (classIndex 11).toNat []).getD
          (classIndex (2 ^ 64 - 5)).toNat 0)) = -46 := by
  decide

/-! ## The prime counter -/

theorem coprime_210_of_prime (p : Nat) (hp : Nat.Prime p) (h11 : 11 ≤ p) :
    Nat.Coprime p 210 := by
  apply (coprime_210_iff p).mpr
  refine ⟨?_, ?_, ?_, ?_⟩ <;> intro h0
  · have := (Nat.prime_dvd_prime_iff_eq Nat.prime_two hp).mp (Nat.dvd_of_mod_eq_zero h0)
    omega
  · have := (Nat.prime_dvd_prime_iff_eq Nat.prime_three hp).mp (Nat.dvd_of_mod_eq_zero h0)
    omega
  · have := (Nat.prime_dvd_prime_iff_eq Nat.prime_five hp).mp (Nat.dvd_of_mod_eq_zero h0)
    omega
  · have := (Nat.prime_dvd_prime_iff_eq (by norm_num : Nat.Prime 7) hp).mp
      (Nat.dvd_of_mod_eq_zero h0)
    omega

namespace Worker

/-- Before the wheel wraps, the first candidate is at least the starting bound. -/
theorem start_le_candidate (w : Worker) (h0 : WheelIterator.NoWrap w.m_startN 0) :
    w.m_startN ≤ w.candidate 0 := by
  have h3 : w.m_startN + 3 ≤ 2 ^ 64 := by
    unfold WheelIterator.NoWrap U64 at h0
    have : w.m_startN < w.m_startN / 210 * 210 + 210 := by omega
    omega
  obtain ⟨i, _, _, hnew, hge, h64, _⟩ := WheelIterator.findOffset_some w.m_startN h3
  unfold candidate
  show w.m_startN ≤ (WheelIterator.new w.m_startN).current
  rw [hnew]
  unfold WheelIterator.current
  rw [Nat.mod_eq_of_lt h64]
  exact hge

/-- A candidate that passes the test before the wheel wraps is at least 11. -/
theorem confirmed_ge_11 (w : Worker) (j : Nat) (hj : WheelIterator.NoWrap w.m_startN j)
    (hc : w.confirmed j = true) : 11 ≤ w.candidate j := by
  have hcop := (candidate_order w j hj).2.2.1
  unfold confirmed PrimeSieve.isPrimeFromWheel at hc
  by_contra hlt
  push_neg at hlt
  rw [if_pos (by omega)] at hc
  have h1 : w.candidate j > 1 := by simpa using hc
  have h210 := (coprime_210_iff (w.candidate j)).mp hcop
  generalize w.candidate j = n at hlt h1 h210
  interval_cases n <;> omega

/-- With candidates up to the square of the sieve limit, the number of confirmed
iterations is the number of prime-valued slots. -/
theorem confirmedCount_eq_card_from (w : Worker) (L n : Nat)
    (hsieve : w.m_sieve = PrimeSieve.new L)
    (hfit : L < (2 ^ 32 - 1) ^ 2) (hL : n ≤ L ^ 2) :
    ∀ k, WheelIterator.NoWrap w.m_startN k → (∀ j, j < k → w.candidate j ≤ n) →
      w.confirmedCount k =
        ((Finset.range k).filter
          (fun j => Nat.Prime (slotValue ((WheelIterator.new w.m_startN).pos + j)))).card := by
  intro k
  induction k with
  | zero =>
    intro _ _
    rfl
  | succ k ih =>
    intro hk hlow
    have hk' : WheelIterator.NoWrap w.m_startN k := by
      unfold WheelIterator.NoWrap at hk ⊢
      omega
    have hval := candidate_eq_slotValue w k hk'
    have hcop := (candidate_order w k hk').2.2.1
    have hsq : Nat.sqrt (w.candidate k) ≤ L := by
      have h1 : Nat.sqrt (w.candidate k) ≤ Nat.sqrt (L ^ 2) :=
        Nat.sqrt_le_sqrt (le_trans (hlow k (by omega)) hL)
      rw [Nat.sqrt_eq' L] at h1
      exact h1
    have hc : w.confirmed k = true ↔ Nat.Prime (w.candidate k) := by
      unfold confirmed
      rw [hsieve]
      exact PrimeSieve.isPrimeFromWheel_iff L _ hcop hsq hfit
    rw [hval] at hc
    simp only [confirmedCount]
    rw [ih hk' (fun j hj => hlow j (by omega)), Finset.range_succ, Finset.filter_insert]
    by_cases hp : Nat.Prime (slotValue ((WheelIterator.new w.m_startN).pos + k))
    · rw [if_pos hp, Finset.card_insert_of_not_mem (by simp), if_pos (hc.mpr hp)]
    · rw [if_neg hp]
      have : w.confirmed k = false := by
        cases h : w.confirmed k
        · rfl
        · exact absurd (hc.mp h) hp
      rw [this]
      simp

/-- The primes from `max(start, 11)` up to `n` correspond one to one to the
prime-valued slots among the first `k`, when the first `k` candidates are the ones up
to `n`. -/
theorem card_primes_from (w : Worker) (k n : Nat) (hk : WheelIterator.NoWrap w.m_startN k)
    (hlow : ∀ j, j < k → w.candidate j ≤ n) (hhigh : n < w.candidate k) :
    ((Finset.Icc (max w.m_startN 11) n).filter Nat.Prime).card =
      ((Finset.range k).filter
        (fun j => Nat.Prime (slotValue ((WheelIterator.new w.m_startN).pos + j)))).card := by
  have hnw : ∀ j, j ≤ k → WheelIterator.NoWrap w.m_startN j := by
    intro j hj
    unfold WheelIterator.NoWrap at hk ⊢
    omega
  have hstart := start_le_candidate w (hnw 0 (Nat.zero_le k))
  rw [candidate_eq_slotValue w 0 (hnw 0 (Nat.zero_le k))] at hstart
  symm
  apply Finset.card_bij (fun j _ => slotValue ((WheelIterator.new w.m_startN).pos + j))
  · intro j hj
    simp only [Finset.mem_filter, Finset.mem_range] at hj
    simp only [Finset.mem_filter, Finset.mem_Icc]
    have h11 : 11 ≤ slotValue ((WheelIterator.new w.m_startN).pos + j) := by
      have := minFac_ge_11 _ (slotValue_coprime _) hj.2.two_le
      rwa [hj.2.minFac_eq] at this
    have hge : slotValue ((WheelIterator.new w.m_startN).pos + 0) ≤
        slotValue ((WheelIterator.new w.m_startN).pos + j) := by
      rcases Nat.eq_zero_or_pos j with h | h
      · rw [h]
      · exact Nat.le_of_lt (slotValue_strictMono _ _ (by omega))
    have hle := hlow j hj.1
    rw [candidate_eq_slotValue w j (hnw j (by omega))] at hle
    exact ⟨⟨max_le (le_trans hstart hge) h11, hle⟩, hj.2⟩
  · intro i _ j _ hij
    by_contra hne
    rcases Nat.lt_or_gt_of_ne hne with h | h
    · have := slotValue_strictMono ((WheelIterator.new w.m_startN).pos + i)
        ((WheelIterator.new w.m_startN).pos + j) (by omega)
      omega
    · have := slotValue_strictMono ((WheelIterator.new w.m_startN).pos + j)
        ((WheelIterator.new w.m_startN).pos + i) (by omega)
      omega
  · intro m hm
    simp only [Finset.mem_filter, Finset.mem_Icc] at hm
    obtain ⟨⟨hge, hle⟩, hp⟩ := hm
    have h11 : 11 ≤ m := le_trans (le_max_right _ _) hge
    have hs : w.m_startN ≤ m := le_trans (le_max_left _ _) hge
    obtain ⟨q, hq⟩ := slotValue_surjective m (coprime_210_of_prime m hp h11)
    have hck := candidate_eq_slotValue w k hk
    have hcU := (candidate_order w k hk).2.1
    have hpos : (WheelIterator.new w.m_startN).pos ≤ q :=
      new_pos_le w.m_startN q (by rw [hq]; exact hs) (by rw [hq]; omega)
    have hlt : q < (WheelIterator.new w.m_startN).pos + k := by
      by_contra hcon
      push_neg at hcon
      have : slotValue ((WheelIterator.new w.m_startN).pos + k) ≤ slotValue q := by
        rcases Nat.eq_or_lt_of_le hcon with e | l
        · rw [e]
        · exact Nat.le_of_lt (slotValue_strictMono _ _ l)
      omega
    refine ⟨q - (WheelIterator.new w.m_startN).pos, ?_, ?_⟩
    · simp only [Finset.mem_filter, Finset.mem_range]
      have e : (WheelIterator.new w.m_startN).pos + (q - (WheelIterator.new w.m_startN).pos)
          = q := by omega
      rw [e, hq]
      exact ⟨by omega, hp⟩
    · have e : (WheelIterator.new w.m_startN).pos + (q - (WheelIterator.new w.m_startN).pos)
          = q := by omega
      rw [e, hq]

/-- Started at `2^64 - 3` the wheel wraps after two candidates and yields 1 and 3;
the third iteration confirms 3. -/
theorem confirms_three_at_wrap (w : Worker) (hstart : w.m_startN = 2 ^ 64 - 3) :
    w.candidate 2 = 3 ∧ w.confirmed 2 = true ∧ (w.run 3).1.lastPrime = 3 ∧
      1 ≤ (w.run 3).1.primeCount := by
  have c2 : w.candidate 2 = 3 := by
    unfold candidate
    rw [hstart]
    decide
  have hconf : w.confirmed 2 = true := by
    unfold confirmed PrimeSieve.isPrimeFromWheel
    rw [c2]
    rfl
  refine ⟨c2, hconf, ?_, ?_⟩
  · rw [run_succ]
    simp only [(loopBody_effect _ _).2.2.2.1, run_current]
    unfold confirmed at hconf
    rw [if_pos hconf, c2]
  · rw [run_primeCount]
    show 1 ≤ w.confirmedCount 2 + (if w.confirmed 2 = true then 1 else 0)
    rw [if_pos hconf]
    omega

end Worker

/-- C23 as stated fails under 64-bit wraparound: the worker configured with start
value `2^64 - 3` draws the candidates `2^64 - 3`, 1 and 3, and its third iteration
counts the prime 3. -/
theorem small_prime_counted_counterexample :
    2 ^ 64 - 3 < 2 ^ 64 ∧
      (Worker.new.configure (2 ^ 64 - 3) AnalysisMode.Both false).candidate 2 = 3 ∧
      (Worker.new.configure (2 ^ 64 - 3) AnalysisMode.Both false).confirmed 2 = true ∧
      ((Worker.new.configure (2 ^ 64 - 3) AnalysisMode.Both false).run 3).1.lastPrime = 3 ∧
      1 ≤ ((Worker.new.configure (2 ^ 64 - 3) AnalysisMode.Both false).run 3).1.primeCount :=
  ⟨by decide,
    Worker.confirms_three_at_wrap (Worker.new.configure (2 ^ 64 - 3) AnalysisMode.Both false)
      (by decide)⟩

/-- C23, amended. In a run of `Worker::process` with sieve limit `L` (below
`(2^32 - 1)^2`, where the sieve is built without wraparound, as the program's `10^7`
is) and effective start `s` (`m_startN`, which `configure` sets to
`max(startValue, 3)`), clear of 64-bit wraparound: once the loop has processed every wheel candidate up to and including `n`
(the first `k` candidates are at most `n`, the next one is above `n`), with `n <= L^2`,
`primeCount` equals the number of primes `p` with `max(s, 11) <= p <= n`. Every
candidate counted in these iterations is at least 11, so 2, 3, 5 and 7 are not counted. -/
theorem primeCount_counts_primes (w : Worker) (L k n : Nat)
    (hsieve : w.m_sieve = PrimeSieve.new L)
    (hfit : L < (2 ^ 32 - 1) ^ 2) (hL : n ≤ L ^ 2)
    (hk : w.m_startN / 210 * 210 + 210 * (k / 48 + 2) ≤ 2 ^ 64)
    (hlow : ∀ j, j < k → w.candidate j ≤ n) (hhigh : n < w.candidate k) :
    (w.run k).1.primeCount = ((Finset.Icc (max w.m_startN 11) n).filter Nat.Prime).card ∧
      (∀ j, j < k → w.confirmed j = true → 11 ≤ w.candidate j) ∧
      (∀ (startValue : Nat) (mode : AnalysisMode) (multiThread : Bool),
        (Worker.new.configure startValue mode multiThread).m_startN = max startValue 3 ∧
        (Worker.new.configure startValue mode multiThread).m_sieve =
          PrimeSieve.new 10000000) := by
  have hk : WheelIterator.NoWrap w.m_startN k := hk
  refine ⟨?_, ?_, fun _ _ _ => ⟨rfl, rfl⟩⟩
  · rw [Worker.run_primeCount, Worker.confirmedCount_eq_card_from w L n hsieve hfit hL k hk hlow,
      Worker.card_primes_from w k n hk hlow hhigh]
  · intro j hj hc
    exact Worker.confirmed_ge_11 w j (by
      unfold WheelIterator.NoWrap at hk ⊢
      omega) hc

theorem primeCount_counts_primes_witness :
    10000000 < (2 ^ 32 - 1) ^ 2 ∧ 12 ≤ 10000000 ^ 2 ∧
      (∀ j, j < 1 → (Worker.new.configure 3 AnalysisMode.Both false).candidate j ≤ 12) ∧
      12 < (Worker.new.configure 3 AnalysisMode.Both false).candidate 1 ∧
      ((Worker.new.configure 3 AnalysisMode.Both false).run 1).1.primeCount =
        ((Finset.Icc (max (Worker.new.configure 3 AnalysisMode.Both false).m_startN 11)
          12).filter Nat.Prime).card :=
  ⟨by norm_num, by norm_num, by decide, by decide,
    (primeCount_counts_primes (Worker.new.configure 3 AnalysisMode.Both false) 10000000 1 12
      rfl (by norm_num) (by norm_num) (by decide) (by decide) (by decide)).1⟩

/-! ## A prime just below the wraparound -/

theorem powMod_spec (a p : Nat) : ∀ fuel e, e < 2 ^ fuel → powMod a p fuel e = a ^ e % p := by
  intro fuel
  induction fuel with
  | zero =>
    intro e he
    have : e = 0 := by
      simp at he
      exact he
    subst this
    simp [powMod]
  | succ fuel ih =>
    intro e he
    unfold powMod
    by_cases h0 : e = 0
    · subst h0
      simp
    · rw [if_neg h0, forceNat_eq, ih (e / 2) (by rw [pow_succ] at he; omega)]
      have hsq : a ^ (e / 2) % p * (a ^ (e / 2) % p) % p = a ^ (2 * (e / 2)) % p := by
        rw [← Nat.mul_mod, ← pow_add]
        congr 2
        omega
      by_cases hev : e % 2 = 0
      · rw [if_pos hev, hsq]
        congr 2
        omega
      · rw [if_neg hev, hsq, Nat.mod_mul_mod, ← pow_succ]
        congr 2
        omega

/-- The number `2^64 - 1023` is prime: 5 has order `p - 1` modulo `p`, and
`p - 1 = 2^10 * 3^4 * 7 * 19 * 73 * 87211 * 262657`. -/
theorem prime_below_wrap : Nat.Prime 18446744073709550593 := by
  have hpow : ∀ e, e < 2 ^ 64 →
      ((5 : ZMod 18446744073709550593) ^ e = 1 ↔ powMod 5 18446744073709550593 64 e = 1) := by
    intro e he
    rw [powMod_spec 5 _ 64 e he]
    have h5 : (5 : ZMod 18446744073709550593) = ((5 : ℕ) : ZMod 18446744073709550593) := by
      norm_cast
    rw [h5, ← Nat.cast_pow, ← Nat.cast_one, ZMod.natCast_eq_natCast_iff']
  have hfac : (18446744073709550593 - 1 : ℕ) =
      2 ^ 10 * 3 ^ 4 * 7 * 19 * 73 * 87211 * 262657 := by norm_num
  apply lucas_primality _ (5 : ZMod 18446744073709550593)
  · rw [hpow _ (by norm_num)]
    decide
  · intro q hq hdvd
    have hq' : q = 2 ∨ q = 3 ∨ q = 7 ∨ q = 19 ∨ q = 73 ∨ q = 87211 ∨ q = 262657 := by
      rw [hfac] at hdvd
      have p87211 : Nat.Prime 87211 := by norm_num
      have p262657 : Nat.Prime 262657 := by norm_num
      rcases (Nat.Prime.dvd_mul hq).mp hdvd with h | h
      · rcases (Nat.Prime.dvd_mul hq).mp h with h | h
        · rcases (Nat.Prime.dvd_mul hq).mp h with h | h
          · rcases (Nat.Prime.dvd_mul hq).mp h with h | h
            · rcases (Nat.Prime.dvd_mul hq).mp h with h | h
              · rcases (Nat.Prime.dvd_mul hq).mp h with h | h
                · left
                  exact (Nat.prime_dvd_prime_iff_eq hq Nat.prime_two).mp
                    (hq.dvd_of_dvd_pow h)
                · right; left
                  exact (Nat.prime_dvd_prime_iff_eq hq Nat.prime_three).mp
                    (hq.dvd_of_dvd_pow h)
              · right; right; left
                exact (Nat.prime_dvd_prime_iff_eq hq (by norm_num)).mp h
            · right; right; right; left
              exact (Nat.prime_dvd_prime_iff_eq hq (by norm_num)).mp h
          · right; right; right; right; left
            exact (Nat.prime_dvd_prime_iff_eq hq (by norm_num)).mp h
        · right; right; right; right; right; left
          exact (Nat.prime_dvd_prime_iff_eq hq p87211).mp h
      · right; right; right; right; right; right
        exact (Nat.prime_dvd_prime_iff_eq hq p262657).mp h
    rcases hq' with rfl | rfl | rfl | rfl | rfl | rfl | rfl
    · rw [Ne, hpow _ (by norm_num)]
      decide
    · rw [Ne, hpow _ (by norm_num)]
      decide
    · rw [Ne, hpow _ (by norm_num)]
      decide
    · rw [Ne, hpow _ (by norm_num)]
      decide
    · rw [Ne, hpow _ (by norm_num)]
      decide
    · rw [Ne, hpow _ (by norm_num)]
      decide
    · rw [Ne, hpow _ (by norm_num)]
      decide

/-! ## Telescoping gap sums -/

namespace Worker

theorem recordGap_sumPrimeGaps (g : LoopState) (n : Nat) :
    (recordGap g n).sumPrimeGaps =
      if g.lastPrime ≠ 0 then g.sumPrimeGaps + subU64 n g.lastPrime else g.sumPrimeGaps := by
  simp only [recordGap, recordTwin, recordTransition]
  split_ifs <;> rfl

/-- The effect of one iteration on `sumPrimeGaps`. -/
theorem loopBody_sumPrimeGaps (w : Worker) (s : LoopState) :
    (w.loopBody s).1.sumPrimeGaps =
      if w.m_sieve.isPrimeFromWheel s.wheel.current = true ∧ s.lastPrime ≠ 0 then
        s.sumPrimeGaps + subU64 s.wheel.current s.lastPrime
      else s.sumPrimeGaps := by
  by_cases hp : w.m_sieve.isPrimeFromWheel s.wheel.current = true
  · rw [loopBody_of_confirmed w s hp, finishPrime_fst]
    have h : (recordGap (recordPrime { s with wheel := s.wheel.next } s.wheel.current)
        s.wheel.current).sumPrimeGaps =
        if s.lastPrime ≠ 0 then s.sumPrimeGaps + subU64 s.wheel.current s.lastPrime
        else s.sumPrimeGaps :=
      recordGap_sumPrimeGaps
        (recordPrime { s with wheel := s.wheel.next } s.wheel.current) s.wheel.current
    show (recordGap (recordPrime { s with wheel := s.wheel.next } s.wheel.current)
      s.wheel.current).sumPrimeGaps = _
    rw [h]
    by_cases h0 : s.lastPrime ≠ 0
    · have hc : w.m_sieve.isPrimeFromWheel s.wheel.current = true ∧ s.lastPrime ≠ 0 := ⟨hp, h0⟩
      rw [if_pos hc, if_pos h0]
    · have hc : ¬ (w.m_sieve.isPrimeFromWheel s.wheel.current = true ∧ s.lastPrime ≠ 0) :=
        fun h => h0 h.2
      rw [if_neg hc, if_neg h0]
  · have hp' : w.m_sieve.isPrimeFromWheel s.wheel.current = false := by simpa using hp
    have hc : ¬ (w.m_sieve.isPrimeFromWheel s.wheel.current = true ∧ s.lastPrime ≠ 0) :=
      fun h => hp h.1
    rw [loopBody_of_rejected w s hp', if_neg hc]

/-- Before the wheel wraps the prime gaps telescope: with no prime yet the sum, the
previous prime and the first prime are 0; afterwards the sum is the distance from the
first prime to the previous prime. -/
theorem run_prime_telescope (w : Worker) (k : Nat) (hk : WheelIterator.NoWrap w.m_startN k) :
    ((w.run k).1.primeCount = 0 → (w.run k).1.sumPrimeGaps = 0 ∧
        (w.run k).1.lastPrime = 0 ∧ w.firstPrime k = 0) ∧
      (1 ≤ (w.run k).1.primeCount → (w.run k).1.lastPrime ≠ 0 ∧
        (w.run k).1.sumPrimeGaps + w.firstPrime k = (w.run k).1.lastPrime) := by
  induction k with
  | zero =>
    refine ⟨fun _ => ⟨rfl, rfl, rfl⟩, fun h => ?_⟩
    exact absurd h (show ¬ 1 ≤ 0 by decide)
  | succ k ih =>
    have hk' : WheelIterator.NoWrap w.m_startN k := by
      unfold WheelIterator.NoWrap at hk ⊢
      omega
    obtain ⟨i0, i1⟩ := ih hk'
    have hlt := (run_twin_order w k hk').1
    obtain ⟨hpos, hU, _, _⟩ := candidate_order w k hk'
    have hpc := (loopBody_effect w (w.run k).1).2.1
    have hlast := (loopBody_effect w (w.run k).1).2.2.2.1
    have hsum := loopBody_sumPrimeGaps w (w.run k).1
    rw [run_current] at hpc hlast hsum
    have hfirst : w.firstPrime (k + 1) =
        if 0 < (w.run k).1.primeCount then w.firstPrime k
        else (w.loopBody (w.run k).1).1.lastPrime := rfl
    rw [run_succ]
    show ((w.loopBody (w.run k).1).1.primeCount = 0 →
        (w.loopBody (w.run k).1).1.sumPrimeGaps = 0 ∧
        (w.loopBody (w.run k).1).1.lastPrime = 0 ∧ w.firstPrime (k + 1) = 0) ∧
      (1 ≤ (w.loopBody (w.run k).1).1.primeCount →
        (w.loopBody (w.run k).1).1.lastPrime ≠ 0 ∧
        (w.loopBody (w.run k).1).1.sumPrimeGaps + w.firstPrime (k + 1) =
          (w.loopBody (w.run k).1).1.lastPrime)
    by_cases hp : w.m_sieve.isPrimeFromWheel (w.candidate k) = true
    · rw [if_pos hp] at hpc hlast
      rw [hlast] at hfirst
      rw [hpc, hlast]
      refine ⟨fun h => absurd h (by omega), fun _ => ⟨by omega, ?_⟩⟩
      rcases Nat.eq_zero_or_pos (w.run k).1.primeCount with hz | hz
      · obtain ⟨a1, a2, _⟩ := i0 hz
        have hc : ¬ (w.m_sieve.isPrimeFromWheel (w.candidate k) = true ∧
            (w.run k).1.lastPrime ≠ 0) := fun h => h.2 a2
        have hz' : ¬ 0 < (w.run k).1.primeCount := by omega
        rw [if_neg hc] at hsum
        rw [if_neg hz'] at hfirst
        rw [hsum, hfirst, a1]
        omega
      · obtain ⟨a1, a2⟩ := i1 hz
        have hc : w.m_sieve.isPrimeFromWheel (w.candidate k) = true ∧
            (w.run k).1.lastPrime ≠ 0 := ⟨hp, a1⟩
        rw [if_pos hc, subU64_of_le _ _ (by omega) hU] at hsum
        rw [if_pos hz] at hfirst
        rw [hsum, hfirst]
        omega
    · have hc : ¬ (w.m_sieve.isPrimeFromWheel (w.candidate k) = true ∧
          (w.run k).1.lastPrime ≠ 0) := fun h => hp h.1
      rw [if_neg hp] at hlast
      rw [if_neg hp, Nat.add_zero] at hpc
      rw [if_neg hc] at hsum
      rw [hlast] at hfirst
      rw [hpc, hlast, hsum]
      refine ⟨fun h => ?_, fun h => ?_⟩
      · obtain ⟨a1, a2, a3⟩ := i0 h
        have hz' : ¬ 0 < (w.run k).1.primeCount := by omega
        rw [if_neg hz'] at hfirst
        rw [hfirst]
        exact ⟨a1, a2, a2⟩
      · obtain ⟨a1, a2⟩ := i1 h
        have hz' : 0 < (w.run k).1.primeCount := by omega
        rw [if_pos hz'] at hfirst
        rw [hfirst]
        exact ⟨a1, a2⟩

/-- Before the wheel wraps the twin gaps telescope. -/
theorem run_twin_telescope (w : Worker) (k : Nat) (hk : WheelIterator.NoWrap w.m_startN k) :
    ((w.run k).1.twinCount = 0 → (w.run k).1.sumTwinGaps = 0 ∧
        (w.run k).1.lastTwinP = 0 ∧ w.firstTwin k = 0) ∧
      (1 ≤ (w.run k).1.twinCount →
        (w.run k).1.sumTwinGaps + w.firstTwin k = (w.run k).1.lastTwinP) := by
  induction k with
  | zero =>
    refine ⟨fun _ => ⟨rfl, rfl, rfl⟩, fun h => ?_⟩
    exact absurd h (show ¬ 1 ≤ 0 by decide)
  | succ k ih =>
    have hk' : WheelIterator.NoWrap w.m_startN k := by
      unfold WheelIterator.NoWrap at hk ⊢
      omega
    obtain ⟨i0, i1⟩ := ih hk'
    obtain ⟨hlt, hord⟩ := run_twin_order w k hk'
    obtain ⟨_, hU, _, _⟩ := candidate_order w k hk'
    obtain ⟨_, _, hcase, _⟩ := run_transitions w k
    have hfirst : w.firstTwin (k + 1) =
        if 0 < (w.run k).1.twinCount then w.firstTwin k
        else (w.loopBody (w.run k).1).1.lastTwinP := rfl
    rw [run_succ]
    show ((w.loopBody (w.run k).1).1.twinCount = 0 →
        (w.loopBody (w.run k).1).1.sumTwinGaps = 0 ∧
        (w.loopBody (w.run k).1).1.lastTwinP = 0 ∧ w.firstTwin (k + 1) = 0) ∧
      (1 ≤ (w.loopBody (w.run k).1).1.twinCount →
        (w.loopBody (w.run k).1).1.sumTwinGaps + w.firstTwin (k + 1) =
          (w.loopBody (w.run k).1).1.lastTwinP)
    by_cases ht : w.twinAt (w.run k).1
    · obtain ⟨a1, a2, _⟩ := (loopBody_twin w _).1 ht
      rw [a2] at hfirst
      rw [a1, a2]
      refine ⟨fun h => absurd h (by omega), fun _ => ?_⟩
      rcases Nat.eq_zero_or_pos (w.run k).1.twinCount with hz | hz
      · have hnt : ¬ w.transitionAt (w.run k).1 := by
          rintro ⟨_, _, hc⟩
          rcases hcase with ⟨_, _, c3⟩ | ⟨c1, _, _, _⟩
          · rw [c3] at hc
            exact absurd hc (by decide)
          · omega
        obtain ⟨_, b2, _, _⟩ := (loopBody_transition w _).2 hnt
        have hz' : ¬ 0 < (w.run k).1.twinCount := by omega
        rw [if_neg hz'] at hfirst
        rw [b2, (i0 hz).1, hfirst]
        omega
      · have htr : w.transitionAt (w.run k).1 := by
          rcases hcase with ⟨c1, _, _⟩ | ⟨_, _, c3, c4⟩
          · omega
          · exact ⟨ht, c3, c4⟩
        obtain ⟨_, b2, _, _⟩ := (loopBody_transition w _).1 htr
        have hne := htr.2.1
        have hlt2 : (w.run k).1.lastTwinP < (w.run k).1.lastPrime := by
          rcases hord with h0 | ⟨h1, _, _⟩
          · exact absurd h0 hne
          · exact h1
        have hgap : twinGapAt (w.run k).1 =
            (w.run k).1.lastPrime - (w.run k).1.lastTwinP := by
          unfold twinGapAt
          exact subU64_of_le _ _ (by omega) (by omega)
        have := i1 hz
        rw [if_pos hz] at hfirst
        rw [b2, hfirst, hgap]
        omega
    · obtain ⟨a1, a2, _⟩ := (loopBody_twin w _).2 ht
      have hnt : ¬ w.transitionAt (w.run k).1 := fun h => ht h.1
      obtain ⟨_, b2, _, _⟩ := (loopBody_transition w _).2 hnt
      rw [a2] at hfirst
      rw [a1, a2, b2]
      refine ⟨fun h => ?_, fun h => ?_⟩
      · obtain ⟨c1, c2, _⟩ := i0 h
        have hz' : ¬ 0 < (w.run k).1.twinCount := by omega
        rw [if_neg hz'] at hfirst
        rw [hfirst]
        exact ⟨c1, c2, c2⟩
      · have hz' : 0 < (w.run k).1.twinCount := by omega
        rw [if_pos hz'] at hfirst
        rw [hfirst]
        exact i1 h

/-- Once a prime is confirmed, the first prime of the run stays the same. -/
theorem firstPrime_stable (w : Worker) (j : Nat) (hj : 1 ≤ (w.run j).1.primeCount) :
    ∀ k, j ≤ k → w.firstPrime k = w.firstPrime j := by
  intro k hk
  induction k with
  | zero =>
    have : j = 0 := by omega
    rw [this]
  | succ k ih =>
    rcases Nat.eq_or_lt_of_le hk with e | l
    · rw [e]
    · have hjk : j ≤ k := by omega
      have hmono : (w.run j).1.primeCount ≤ (w.run k).1.primeCount := by
        rw [run_primeCount, run_primeCount]
        exact confirmedCount_mono w j k hjk
      show (if 0 < (w.run k).1.primeCount then w.firstPrime k
        else (w.run (k + 1)).1.lastPrime) = w.firstPrime j
      rw [if_pos (by omega)]
      exact ih hjk

set_option maxRecDepth 100000 in
theorem wrap_candidates :
    ((WheelIterator.new 18446744073709550593).advance 0).current = 18446744073709550593 ∧
      ((WheelIterator.new 18446744073709550593).advance 234).current = 3 := by
  decide

/-- Started at the prime `2^64 - 1023` with the sieve of limit `L`: the first iteration
confirms that prime, the wheel wraps, and iteration 235 confirms 3; the previous prime
is then below the first prime of the run. -/
theorem telescope_breaks_at_wrap (w : Worker) (L : Nat)
    (hstart : w.m_startN = 18446744073709550593) (hsieve : w.m_sieve = PrimeSieve.new L)
    (hfit : L < (2 ^ 32 - 1) ^ 2) :
    1 ≤ (w.run 235).1.primeCount ∧ w.firstPrime 235 = 18446744073709550593 ∧
      (w.run 235).1.lastPrime = 3 := by
  have c0 : w.candidate 0 = 18446744073709550593 := by
    unfold candidate
    rw [hstart]
    exact wrap_candidates.1
  have c234 : w.candidate 234 = 3 := by
    unfold candidate
    rw [hstart]
    exact wrap_candidates.2
  have hp0 : w.m_sieve.isPrimeFromWheel 18446744073709550593 = true := by
    rw [hsieve]
    apply PrimeSieve.isPrimeFromWheel_of_no_divisor _ _ hfit (by norm_num)
    intro p h11 hle hdvd
    have hlt : Nat.sqrt 18446744073709550593 < 18446744073709550593 :=
      Nat.sqrt_lt_self (by norm_num)
    have h4 : Nat.sqrt 18446744073709550593 < 2 ^ 33 := Nat.sqrt_lt'.mpr (by norm_num)
    rcases (Nat.dvd_prime prime_below_wrap).mp hdvd with h | h
    · omega
    · rw [h] at hle
      have : (2 : ℕ) ^ 33 = 8589934592 := by norm_num
      omega
  have hp234 : w.m_sieve.isPrimeFromWheel 3 = true := by
    unfold PrimeSieve.isPrimeFromWheel
    rfl
  have hlast1 : (w.run 1).1.lastPrime = 18446744073709550593 := by
    rw [run_succ]
    simp only [(loopBody_effect _ _).2.2.2.1, run_current, c0]
    rw [if_pos hp0]
  have hpc1 : 1 ≤ (w.run 1).1.primeCount := by
    rw [run_primeCount]
    show 1 ≤ w.confirmedCount 0 + (if w.confirmed 0 = true then 1 else 0)
    have : w.confirmed 0 = true := by
      unfold confirmed
      rw [c0]
      exact hp0
    rw [if_pos this]
    omega
  have hf1 : w.firstPrime 1 = 18446744073709550593 := by
    show (if 0 < (w.run 0).1.primeCount then w.firstPrime 0 else (w.run (0 + 1)).1.lastPrime) = _
    rw [if_neg (by show ¬ 0 < 0; omega)]
    exact hlast1
  refine ⟨?_, ?_, ?_⟩
  · have : (w.run 1).1.primeCount ≤ (w.run 235).1.primeCount := by
      rw [run_primeCount, run_primeCount]
      exact confirmedCount_mono w 1 235 (by norm_num)
    omega
  · rw [firstPrime_stable w 1 hpc1 235 (by norm_num), hf1]
  · rw [run_succ]
    simp only [(loopBody_effect _ _).2.2.2.1, run_current, c234]
    rw [if_pos hp234]

end Worker

/-- C26 as stated fails under 64-bit wraparound: the worker configured with the prime
`2^64 - 1023` as start value confirms it in its first iteration; 235 iterations later
the wheel has wrapped and the previous prime is 3, so `lastPrime` minus the first prime
confirmed is negative and is not the sum of the prime gaps. -/
theorem telescope_counterexample :
    18446744073709550593 = 2 ^ 64 - 1023 ∧
      1 ≤ ((Worker.new.configure 18446744073709550593 AnalysisMode.Both false).run
        235).1.primeCount ∧
      (Worker.new.configure 18446744073709550593 AnalysisMode.Both false).firstPrime 235 =
        18446744073709550593 ∧
      ((Worker.new.configure 18446744073709550593 AnalysisMode.Both false).run
        235).1.lastPrime = 3 ∧
      (((Worker.new.configure 18446744073709550593 AnalysisMode.Both false).run
        235).1.sumPrimeGaps : Int) ≠
        (((Worker.new.configure 18446744073709550593 AnalysisMode.Both false).run
          235).1.lastPrime : Int) -
        ((Worker.new.configure 18446744073709550593 AnalysisMode.Both false).firstPrime
          235 : Int) := by
  obtain ⟨h1, h2, h3⟩ := Worker.telescope_breaks_at_wrap
    (Worker.new.configure 18446744073709550593 AnalysisMode.Both false) 10000000
    (by decide) rfl (by norm_num)
  refine ⟨by norm_num, h1, h2, h3, ?_⟩
  rw [h2, h3]
  have := Int.natCast_nonneg ((Worker.new.configure 18446744073709550593
    AnalysisMode.Both false).run 235).1.sumPrimeGaps
  intro h
  rw [h] at this
  norm_num at this

namespace Worker

/-- The value `firstPrime` is the candidate of the first confirmed iteration. -/
theorem firstPrime_spec (w : Worker) (k : Nat) :
    ((w.run k).1.primeCount = 0 → ∀ i, i < k → w.confirmed i = false) ∧
      (1 ≤ (w.run k).1.primeCount →
        ∃ j, j < k ∧ w.confirmed j = true ∧ (∀ i, i < j → w.confirmed i = false) ∧
          w.firstPrime k = w.candidate j) := by
  induction k with
  | zero =>
    refine ⟨fun _ i hi => absurd hi (by omega), fun h => ?_⟩
    exact absurd h (show ¬ 1 ≤ 0 by decide)
  | succ k ih =>
    obtain ⟨i0, i1⟩ := ih
    have hpc : (w.run (k + 1)).1.primeCount =
        (w.run k).1.primeCount + (if w.confirmed k = true then 1 else 0) := by
      rw [run_primeCount, run_primeCount]
      rfl
    have hlast : (w.run (k + 1)).1.lastPrime =
        if w.confirmed k = true then w.candidate k else (w.run k).1.lastPrime := by
      have := (loopBody_effect w (w.run k).1).2.2.2.1
      rw [run_current] at this
      exact this
    have hfirst : w.firstPrime (k + 1) =
        if 0 < (w.run k).1.primeCount then w.firstPrime k
        else (w.run (k + 1)).1.lastPrime := rfl
    rw [hpc]
    constructor
    · intro h i hi
      have hz : (w.run k).1.primeCount = 0 := by omega
      rcases Nat.eq_or_lt_of_le (by omega : i ≤ k) with e | l
      · rw [e]
        cases hc : w.confirmed k with
        | false => rfl
        | true =>
          rw [hc] at h
          simp at h
      · exact i0 hz i l
    · intro h
      rcases Nat.eq_zero_or_pos (w.run k).1.primeCount with hz | hz
      · have hc : w.confirmed k = true := by
          cases hx : w.confirmed k with
          | true => rfl
          | false =>
            rw [hx, hz] at h
            simp at h
        have hz' : ¬ 0 < (w.run k).1.primeCount := by omega
        refine ⟨k, by omega, hc, i0 hz, ?_⟩
        rw [hfirst, if_neg hz', hlast, if_pos hc]
      · obtain ⟨j, hj, c1, c2, c3⟩ := i1 hz
        refine ⟨j, by omega, c1, c2, ?_⟩
        rw [hfirst, if_pos hz, c3]

/-- The value `firstTwin` is the lower member recorded by the first iteration that
records a twin. -/
theorem firstTwin_spec (w : Worker) (k : Nat) :
    ((w.run k).1.twinCount = 0 → ∀ i, i < k → ¬ w.twinAt (w.run i).1) ∧
      (1 ≤ (w.run k).1.twinCount →
        ∃ j, j < k ∧ w.twinAt (w.run j).1 ∧ (∀ i, i < j → ¬ w.twinAt (w.run i).1) ∧
          w.firstTwin k = (w.run j).1.lastPrime) := by
  induction k with
  | zero =>
    refine ⟨fun _ i hi => absurd hi (by omega), fun h => ?_⟩
    exact absurd h (show ¬ 1 ≤ 0 by decide)
  | succ k ih =>
    obtain ⟨i0, i1⟩ := ih
    have hfirst : w.firstTwin (k + 1) =
        if 0 < (w.run k).1.twinCount then w.firstTwin k
        else (w.loopBody (w.run k).1).1.lastTwinP := rfl
    rw [run_succ]
    show ((w.loopBody (w.run k).1).1.twinCount = 0 →
        ∀ i, i < k + 1 → ¬ w.twinAt (w.run i).1) ∧
      (1 ≤ (w.loopBody (w.run k).1).1.twinCount →
        ∃ j, j < k + 1 ∧ w.twinAt (w.run j).1 ∧ (∀ i, i < j → ¬ w.twinAt (w.run i).1) ∧
          w.firstTwin (k + 1) = (w.run j).1.lastPrime)
    by_cases ht : w.twinAt (w.run k).1
    · obtain ⟨a1, a2, _⟩ := (loopBody_twin w _).1 ht
      rw [a1]
      refine ⟨fun h => absurd h (by omega), fun _ => ?_⟩
      rcases Nat.eq_zero_or_pos (w.run k).1.twinCount with hz | hz
      · have hz' : ¬ 0 < (w.run k).1.twinCount := by omega
        refine ⟨k, by omega, ht, i0 hz, ?_⟩
        rw [hfirst, if_neg hz', a2]
      · obtain ⟨j, hj, c1, c2, c3⟩ := i1 hz
        refine ⟨j, by omega, c1, c2, ?_⟩
        rw [hfirst, if_pos hz, c3]
    · obtain ⟨a1, _, _⟩ := (loopBody_twin w _).2 ht
      rw [a1]
      constructor
      · intro h i hi
        rcases Nat.eq_or_lt_of_le (by omega : i ≤ k) with e | l
        · rw [e]
          exact ht
        · exact i0 h i l
      · intro h
        have hz : 0 < (w.run k).1.twinCount := by omega
        obtain ⟨j, hj, c1, c2, c3⟩ := i1 h
        refine ⟨j, by omega, c1, c2, ?_⟩
        rw [hfirst, if_pos hz, c3]

/-- The average prime gap of a snapshot, as computed from `sumPrimeGaps`. -/
theorem snapshot_avgPrimeGap (w : Worker) (j : Nat) (st : Stats)
    (hst : (w.loopBody (w.run j).1).2 = some st) :
    1 < st.primeCount ∧ st.primeCount = (w.run (j + 1)).1.primeCount ∧
      st.currentN = (w.run (j + 1)).1.lastPrime ∧
      st.avgPrimeGap =
        ((w.run (j + 1)).1.sumPrimeGaps : ℚ) / (((st.primeCount - 1 : Nat) : ℚ)) := by
  have hem := (emits_iff w j).mp (by rw [hst]; rfl)
  obtain ⟨e1, e2, _⟩ := (loopBody_effect w (w.run j).1).2.2.2.2.2 st hst
  have hpc : (w.run (j + 1)).1.primeCount = (w.run j).1.primeCount + 1 := by
    rw [run_succ]
    have := (loopBody_effect w (w.run j).1).2.1
    rw [run_current] at this
    unfold confirmed at hem
    rw [if_pos hem.1] at this
    exact this
  have hlast : (w.run (j + 1)).1.lastPrime = (w.run j).1.wheel.current := by
    rw [run_succ]
    have := (loopBody_effect w (w.run j).1).2.2.2.1
    unfold confirmed at hem
    rw [run_current] at this ⊢
    rw [if_pos hem.1] at this
    exact this
  have hgt : 1 < st.primeCount := by
    rw [e2, run_primeCount]
    have := hem.2
    omega
  refine ⟨hgt, by rw [e2, hpc], by rw [e1, hlast], ?_⟩
  obtain ⟨s1, _⟩ := loopBody_snapshot w _ st hst
  have hpc' : st.primeCount = (w.loopBody (w.run j).1).1.primeCount := by
    rw [e2]
    exact hpc.symm
  have hgt' : (w.loopBody (w.run j).1).1.primeCount > 1 := by
    rw [← hpc']
    exact hgt
  rw [hpc']
  conv_lhs => rw [s1]
  unfold updateStats
  dsimp only
  rw [if_pos hgt']
  rfl

end Worker

/-- C26, amended. The gap sums telescope in every run of `Worker::process` that stays
clear of 64-bit wraparound: after `k` loop steps with `primeCount >= 1`, `sumPrimeGaps`
equals `lastPrime` minus the first prime confirmed in the run, and with
`twinCount >= 1`, `sumTwinGaps` equals `lastTwinP` minus the first twin lower member
recorded in the run; so every snapshot emitted has
`avgPrimeGap = (currentN - firstPrime) / (primeCount - 1)` in exact arithmetic. Here
`firstPrime` is the candidate of the first confirmed iteration and `firstTwin` the
previous prime of the first iteration that records a twin. -/
theorem gap_sums_telescope (w : Worker) (k : Nat)
    (hk : w.m_startN / 210 * 210 + 210 * (k / 48 + 2) ≤ 2 ^ 64) :
    (1 ≤ (w.run k).1.primeCount →
      ((w.run k).1.sumPrimeGaps : Int) =
        ((w.run k).1.lastPrime : Int) - (w.firstPrime k : Int) ∧
      ∃ j, j < k ∧ w.confirmed j = true ∧ (∀ i, i < j → w.confirmed i = false) ∧
        w.firstPrime k = w.candidate j) ∧
    (1 ≤ (w.run k).1.twinCount →
      ((w.run k).1.sumTwinGaps : Int) =
        ((w.run k).1.lastTwinP : Int) - (w.firstTwin k : Int) ∧
      ∃ j, j < k ∧ w.twinAt (w.run j).1 ∧ (∀ i, i < j → ¬ w.twinAt (w.run i).1) ∧
        w.firstTwin k = (w.run j).1.lastPrime) ∧
    (∀ j st, j < k → (w.loopBody (w.run j).1).2 = some st →
      st.avgPrimeGap =
        ((st.currentN : ℚ) - (w.firstPrime (j + 1) : ℚ)) / ((st.primeCount : ℚ) - 1)) := by
  have hk : WheelIterator.NoWrap w.m_startN k := hk
  refine ⟨fun h => ⟨?_, (Worker.firstPrime_spec w k).2 h⟩,
    fun h => ⟨?_, (Worker.firstTwin_spec w k).2 h⟩, ?_⟩
  · have := ((Worker.run_prime_telescope w k hk).2 h).2
    omega
  · have := (Worker.run_twin_telescope w k hk).2 h
    omega
  · intro j st hj hst
    have hj' : WheelIterator.NoWrap w.m_startN (j + 1) := by
      unfold WheelIterator.NoWrap at hk ⊢
      have : (j + 1) / 48 ≤ k / 48 := Nat.div_le_div_right (by omega)
      omega
    obtain ⟨h1, h2, h3, h4⟩ := Worker.snapshot_avgPrimeGap w j st hst
    have ht := ((Worker.run_prime_telescope w (j + 1) hj').2 (by omega)).2
    rw [h4, h3]
    have hq : ((w.run (j + 1)).1.sumPrimeGaps : ℚ) =
        ((w.run (j + 1)).1.lastPrime : ℚ) - (w.firstPrime (j + 1) : ℚ) := by
      have : ((w.run (j + 1)).1.sumPrimeGaps : ℚ) + (w.firstPrime (j + 1) : ℚ) =
          ((w.run (j + 1)).1.lastPrime : ℚ) := by exact_mod_cast ht
      linarith
    rw [hq, Nat.cast_sub (by omega), Nat.cast_one]

theorem gap_sums_telescope_witness :
    (Worker.new.configure 3 AnalysisMode.Both false).m_startN / 210 * 210 +
        210 * (2 / 48 + 2) ≤ 2 ^ 64 ∧
      (1 ≤ ((Worker.new.configure 3 AnalysisMode.Both false).run 2).1.primeCount →
        (((Worker.new.configure 3 AnalysisMode.Both false).run 2).1.sumPrimeGaps : Int) =
          (((Worker.new.configure 3 AnalysisMode.Both false).run 2).1.lastPrime : Int) -
            ((Worker.new.configure 3 AnalysisMode.Both false).firstPrime 2 : Int) ∧
        ∃ j, j < 2 ∧ (Worker.new.configure 3 AnalysisMode.Both false).confirmed j = true ∧
          (∀ i, i < j → (Worker.new.configure 3 AnalysisMode.Both false).confirmed i = false) ∧
          (Worker.new.configure 3 AnalysisMode.Both false).firstPrime 2 =
            (Worker.new.configure 3 AnalysisMode.Both false).candidate j) :=
  ⟨by decide,
    (gap_sums_telescope (Worker.new.configure 3 AnalysisMode.Both false) 2 (by decide)).1⟩

/-! ## The wheel across wraparound -/

namespace WheelIterator

/-- The state after `j` calls of `next`, from a state at slot `q` of the stream:
the index is the slot modulo 48 and the base is the block, modulo `2^64`. -/
theorem advance_closed (x : WheelIterator) (q : Nat) (hi : x.m_idx = q % 48)
    (hb : x.m_base = 210 * (q / 48) % U64) :
    ∀ j, (x.advance j).m_idx = (q + j) % 48 ∧
      (x.advance j).m_base = 210 * ((q + j) / 48) % U64 := by
  intro j
  induction j with
  | zero => exact ⟨hi, hb⟩
  | succ j ih =>
    obtain ⟨h1, h2⟩ := ih
    show ((x.advance j).next).m_idx = _ ∧ ((x.advance j).next).m_base = _
    unfold next
    have hlt : (q + j) % 48 < 48 := Nat.mod_lt _ (by norm_num)
    by_cases hc : (x.advance j).m_idx + 1 ≥ Constants.WHEEL_SIZE
    · rw [if_pos hc]
      have h47 : (q + j) % 48 = 47 := by
        unfold Constants.WHEEL_SIZE at hc
        omega
      refine ⟨by show 0 = (q + (j + 1)) % 48; omega, ?_⟩
      show ((x.advance j).m_base + 210) % U64 = 210 * ((q + (j + 1)) / 48) % U64
      rw [h2, Nat.mod_add_mod]
      congr 1
      omega
    · rw [if_neg hc]
      have h47 : (q + j) % 48 < 47 := by
        unfold Constants.WHEEL_SIZE at hc
        omega
      refine ⟨by show (x.advance j).m_idx + 1 = (q + (j + 1)) % 48; omega, ?_⟩
      show (x.advance j).m_base = 210 * ((q + (j + 1)) / 48) % U64
      rw [h2]
      congr 2
      omega

end WheelIterator

namespace Worker

/-- The constructed wheel sits at slot `slot0` of the stream. -/
theorem new_closed (w : Worker) :
    (WheelIterator.new w.m_startN).m_idx = w.slot0 % 48 ∧
      (WheelIterator.new w.m_startN).m_base = 210 * (w.slot0 / 48) % U64 := by
  unfold WheelIterator.new slot0
  rcases WheelIterator.findOffset_spec (w.m_startN / 210 * 210) w.m_startN
      Constants.WHEEL_OFFSETS 0 with ⟨k, hk, hf, hge, _⟩ | ⟨hf, _⟩
  · simp only [hf]
    have hk48 : k < 48 := hk
    have hlt : (w.m_startN / 210 * 210 + Constants.WHEEL_OFFSETS.getD k 0) % U64 < U64 :=
      Nat.mod_lt _ (by unfold U64; norm_num)
    have hQ : w.m_startN / 210 * 210 < U64 := by
      have := Nat.div_mul_le_self w.m_startN 210
      omega
    refine ⟨by omega, ?_⟩
    have : (w.m_startN / 210 * 48 + (0 + k)) / 48 = w.m_startN / 210 := by omega
    rw [this, Nat.mul_comm 210, Nat.mod_eq_of_lt hQ]
  · simp only [hf]
    refine ⟨by omega, ?_⟩
    have : (w.m_startN / 210 + 1) * 48 / 48 = w.m_startN / 210 + 1 := by omega
    rw [this]
    congr 1
    ring

/-- In every iteration, wrapped or not, the candidate is the wheel slot `j` positions
after the first one, reduced modulo `2^64`. -/
theorem candidate_closed (w : Worker) (j : Nat) :
    w.candidate j = w.slot j % U64 := by
  obtain ⟨h1, h2⟩ := new_closed w
  obtain ⟨a1, a2⟩ := WheelIterator.advance_closed _ _ h1 h2 j
  unfold candidate WheelIterator.current slot slotValue
  rw [a1, a2, Nat.mod_add_mod]

end Worker

/-! ## Twins across wraparound -/

theorem slotValue_succ_le (p : Nat) : slotValue (p + 1) ≤ slotValue p + 10 := by
  have key : ∀ r, r < 47 →
      Constants.WHEEL_OFFSETS.getD (r + 1) 0 ≤ Constants.WHEEL_OFFSETS.getD r 0 + 10 := by
    decide
  have h0 : Constants.WHEEL_OFFSETS.getD 0 0 = 1 := rfl
  have h47 : Constants.WHEEL_OFFSETS.getD 47 0 = 209 := rfl
  unfold slotValue
  have hr : p % 48 < 48 := Nat.mod_lt _ (by norm_num)
  by_cases h : p % 48 = 47
  · have h1 : (p + 1) / 48 = p / 48 + 1 := by omega
    have h2 : (p + 1) % 48 = 0 := by omega
    rw [h1, h2, h, h0, h47]
    omega
  · have h1 : (p + 1) / 48 = p / 48 := by omega
    have h2 : (p + 1) % 48 = p % 48 + 1 := by omega
    rw [h1, h2]
    have := key (p % 48) (by omega)
    omega

set_option maxRecDepth 100000 in
theorem small_coprime_table :
    ∀ r, r < 210 → ∃ c, c < 13 ∧ 2 ≤ c ∧ Nat.Coprime ((r + c) % 210) 210 := by
  unfold Nat.Coprime
  decide

/-- Each window `[X + 2, X + 12]` holds a number coprime to 210. -/
theorem exists_small_coprime (X : Nat) : ∃ c, 2 ≤ c ∧ c ≤ 12 ∧ Nat.Coprime (X + c) 210 := by
  obtain ⟨c, h1, h2, h3⟩ := small_coprime_table (X % 210) (Nat.mod_lt X (by norm_num))
  refine ⟨c, h2, by omega, ?_⟩
  rw [coprime_210_mod]
  have : (X + c) % 210 = (X % 210 + c) % 210 := by omega
  rw [this]
  exact h3

namespace Worker

theorem slot_strictMono (w : Worker) : StrictMono w.slot := by
  intro i j h
  exact slotValue_strictMono _ _ (by omega)

theorem slot_odd (w : Worker) (j : Nat) : w.slot j % 2 = 1 := by
  have := ((coprime_210_iff _).mp (slotValue_coprime (w.slot0 + j))).1
  unfold slot
  omega

theorem slot_succ_le (w : Worker) (j : Nat) :
    w.slot j + 2 ≤ w.slot (j + 1) ∧ w.slot (j + 1) ≤ w.slot j + 10 := by
  have h1 := slot_strictMono w (show j < j + 1 by omega)
  have h2 := slot_odd w j
  have h3 := slot_odd w (j + 1)
  have h4 : w.slot (j + 1) ≤ w.slot j + 10 := slotValue_succ_le (w.slot0 + j)
  omega

/-- Every number coprime to 210 from the first candidate on is drawn in some iteration. -/
theorem slot_exists (w : Worker) (U : Nat) (hc : Nat.Coprime U 210) (hge : w.slot 0 ≤ U) :
    ∃ j, w.slot j = U := by
  obtain ⟨p, hp⟩ := slotValue_surjective U hc
  have hle : w.slot0 ≤ p := by
    by_contra hlt
    push_neg at hlt
    have := slotValue_strictMono _ _ hlt
    unfold slot at hge
    simp only [Nat.add_zero] at hge
    omega
  refine ⟨p - w.slot0, ?_⟩
  unfold slot
  rw [Nat.add_sub_cancel' hle]
  exact hp

/-- Two numbers coprime to 210 that are two apart are drawn in consecutive iterations. -/
theorem slot_succ_of_twin (w : Worker) (j : Nat) (h2 : Nat.Coprime (w.slot j + 2) 210) :
    w.slot (j + 1) = w.slot j + 2 := by
  obtain ⟨i, hi⟩ := slot_exists w _ h2
    (le_trans ((slot_strictMono w).monotone (Nat.zero_le j)) (Nat.le_add_right _ _))
  have hji : j < i := by
    rw [← (slot_strictMono w).lt_iff_lt, hi]
    omega
  have hle : w.slot (j + 1) ≤ w.slot i := (slot_strictMono w).monotone hji
  have := (slot_succ_le w j).1
  omega

theorem candidate_lt (w : Worker) (j : Nat) : w.candidate j < U64 := by
  rw [candidate_closed w]
  exact Nat.mod_lt _ (by unfold U64; norm_num)

theorem candidate_odd (w : Worker) (j : Nat) :
    w.candidate j % 2 = 1 := by
  rw [candidate_closed w]
  have := slot_odd w j
  unfold U64
  omega

theorem confirmed_small (w : Worker) (j : Nat) (h1 : 1 < w.candidate j)
    (h : w.candidate j < 121) : w.confirmed j = true := by
  unfold confirmed PrimeSieve.isPrimeFromWheel
  rw [if_pos h]
  exact decide_eq_true h1

theorem not_confirmed_one (w : Worker) (j : Nat) (h : w.candidate j = 1) :
    w.confirmed j = false := by
  unfold confirmed PrimeSieve.isPrimeFromWheel
  rw [h]
  rfl

/-- The previous prime is the candidate of the last confirmed iteration, if any. -/
theorem run_lastPrime_idx (w : Worker) (k : Nat) :
    ((w.run k).1.lastPrime = 0 ∧ ∀ i, i < k → w.confirmed i = false) ∨
      ∃ p, p < k ∧ (w.run k).1.lastPrime = w.candidate p ∧ w.confirmed p = true ∧
        ∀ i, p < i → i < k → w.confirmed i = false := by
  induction k with
  | zero =>
    left
    exact ⟨rfl, fun i hi => absurd hi (Nat.not_lt_zero i)⟩
  | succ k ih =>
    rw [run_succ]
    simp only [(loopBody_effect w (w.run k).1).2.2.2.1, run_current]
    by_cases hc : w.m_sieve.isPrimeFromWheel (w.candidate k) = true
    · right
      exact ⟨k, by omega, by simp [hc], hc, fun i h1 h2 => by omega⟩
    · have hcf : w.confirmed k = false := by
        unfold confirmed
        simpa using hc
      simp only [hc]
      rcases ih with ⟨h, hall⟩ | ⟨p, hp, h, hcp, hall⟩
      · left
        refine ⟨by simpa using h, fun i hi => ?_⟩
        by_cases hik : i = k
        · rw [hik]
          exact hcf
        · exact hall i (by omega)
      · right
        refine ⟨p, by omega, by simpa using h, hcp, fun i h1 h2 => ?_⟩
        by_cases hik : i = k
        · rw [hik]
          exact hcf
        · exact hall i h1 (by omega)

/-- An iteration that records a twin follows directly on the iteration that
confirmed the lower member, and the two candidates are two apart without wraparound. -/
theorem twinShape_of_twinAt (w : Worker) (k : Nat)
    (h : w.twinAt (w.run k).1) :
    ∃ p, p + 1 = k ∧ w.TwinShape p ∧ (w.run k).1.lastPrime = w.candidate p := by
  obtain ⟨hconf, hne, hgap, hcls⟩ := h
  rw [run_current] at hconf hgap
  rcases run_lastPrime_idx w k with ⟨h0, _⟩ | ⟨p, hpk, hlp, hcp, hnone⟩
  · exact absurd h0 hne
  rw [hlp] at hgap hcls
  have hvk := candidate_lt w k
  have hvp := candidate_lt w p
  have hok := candidate_odd w k
  have hop := candidate_odd w p
  have hgap2 : w.candidate k = w.candidate p + 2 ∨ w.candidate k + U64 = w.candidate p + 2 := by
    unfold subU64 at hgap
    rw [Nat.mod_eq_of_lt hvp] at hgap
    have h1 : w.candidate k + U64 - w.candidate p < 2 * U64 := by omega
    have h2 : w.candidate k + U64 - w.candidate p =
        U64 * ((w.candidate k + U64 - w.candidate p) / U64) + 2 := by
      have := Nat.div_add_mod (w.candidate k + U64 - w.candidate p) U64
      omega
    have h3 : (w.candidate k + U64 - w.candidate p) / U64 < 2 :=
      Nat.div_lt_of_lt_mul h1
    have hU : 3 ≤ U64 := by unfold U64; norm_num
    interval_cases hq : (w.candidate k + U64 - w.candidate p) / U64 <;> omega
  have hnowrap : w.candidate k = w.candidate p + 2 := by
    rcases hgap2 with h | h
    · exact h
    · exfalso
      have h1 : w.candidate k = 1 := by omega
      have := not_confirmed_one w k h1
      unfold confirmed at this
      rw [this] at hconf
      exact Bool.noConfusion hconf
  by_cases hpk1 : p + 1 = k
  · refine ⟨p, hpk1, ⟨hcp, ?_, ?_, hcls⟩, hlp⟩
    · rw [hpk1]
      exact hconf
    · rw [hpk1]
      exact hnowrap
  · exfalso
    have hp1 : p + 1 < k := by omega
    have hsl := slot_succ_le w p
    have hmono : w.slot (p + 1) < w.slot k := slot_strictMono w hp1
    have cp := candidate_closed w p
    have ck := candidate_closed w k
    have cp1 := candidate_closed w (p + 1)
    have dp := Nat.div_add_mod (w.slot p) U64
    have dk := Nat.div_add_mod (w.slot k) U64
    have hU : U64 = 18446744073709551616 := by unfold U64; norm_num
    by_cases hsmall : w.candidate p < 111
    · obtain ⟨δ, hδ⟩ : ∃ δ, w.slot (p + 1) = w.slot p + δ := ⟨w.slot (p + 1) - w.slot p, by omega⟩
      have hc1 : w.candidate (p + 1) = w.candidate p + δ := by
        rw [cp1, hδ, Nat.add_mod, ← cp, Nat.mod_eq_of_lt (show δ < U64 by omega)]
        exact Nat.mod_eq_of_lt (by omega)
      have := hnone (p + 1) (by omega) hp1
      rw [confirmed_small w (p + 1) (by omega) (by omega)] at this
      exact Bool.noConfusion this
    · have hE : w.slot p / U64 < w.slot k / U64 := by
        by_contra hge
        push_neg at hge
        have hle : w.slot k / U64 = w.slot p / U64 := by
          have := Nat.div_le_div_right (c := U64) (le_of_lt (slot_strictMono w hpk))
          omega
        rw [hle, ← ck] at dk
        rw [← cp] at dp
        omega
      obtain ⟨c, hc2, hc12, hcop⟩ := exists_small_coprime (U64 * (w.slot p / U64 + 1))
      obtain ⟨i, hi⟩ := slot_exists w _ hcop (by
        have := (slot_strictMono w).monotone (Nat.zero_le p)
        have : w.slot p < U64 * (w.slot p / U64 + 1) := by
          rw [Nat.mul_add, Nat.mul_one]
          have := Nat.mod_lt (w.slot p) (by omega : U64 > 0)
          omega
        omega)
      have hpi : p < i := by
        rw [← (slot_strictMono w).lt_iff_lt, hi]
        have := Nat.mod_lt (w.slot p) (by omega : U64 > 0)
        rw [Nat.mul_add, Nat.mul_one]
        omega
      have hik : i < k := by
        rw [← (slot_strictMono w).lt_iff_lt, hi]
        have hmul : U64 * (w.slot p / U64 + 1) ≤ U64 * (w.slot k / U64) :=
          Nat.mul_le_mul_left _ hE
        rw [← ck] at dk
        omega
      have hci : w.candidate i = c := by
        rw [candidate_closed w, hi, Nat.mul_add_mod]
        exact Nat.mod_eq_of_lt (by omega)
      have := hnone i hpi hik
      rw [confirmed_small w i (by omega) (by omega)] at this
      exact Bool.noConfusion this

/-- After the upper member of a twin shape has been confirmed, a twin is recorded. -/
theorem twinAt_of_twinShape (w : Worker) (k : Nat)
    (h : w.TwinShape k) : w.twinAt (w.run (k + 1)).1 ∧
      (w.run (k + 1)).1.lastPrime = w.candidate k := by
  obtain ⟨h1, h2, h3, h4⟩ := h
  have hlp : (w.run (k + 1)).1.lastPrime = w.candidate k := by
    rw [run_succ]
    simp only [(loopBody_effect w (w.run k).1).2.2.2.1, run_current]
    unfold confirmed at h1
    rw [if_pos h1]
  refine ⟨⟨?_, ?_, ?_, ?_⟩, hlp⟩
  · rw [run_current]
    exact h2
  · rw [hlp]
    have := candidate_odd w k
    omega
  · rw [run_current, hlp, h3]
    have := candidate_lt w (k + 1)
    rw [h3] at this
    unfold subU64
    rw [Nat.mod_eq_of_lt (show w.candidate k < U64 by omega)]
    have h5 : w.candidate k + 2 + U64 - w.candidate k = U64 + 2 := by omega
    rw [h5]
    unfold U64
    norm_num
  · rw [hlp]
    exact h4

/-- The previous twin is the lower member of the last twin shape completed so far. -/
theorem run_lastTwin_idx (w : Worker) (k : Nat) :
    (w.run k).1.lastTwinP = 0 ∨
      ∃ t, t + 1 < k ∧ w.TwinShape t ∧ (w.run k).1.lastTwinP = w.candidate t ∧
        (w.run k).1.lastTwinClass = classIndex (w.candidate t) ∧
        ∀ l, w.TwinShape l → l + 1 < k → l ≤ t := by
  induction k with
  | zero =>
    left
    rfl
  | succ k ih =>
    rw [run_succ]
    show (w.loopBody (w.run k).1).1.lastTwinP = 0 ∨
      ∃ t, t + 1 < k + 1 ∧ w.TwinShape t ∧
        (w.loopBody (w.run k).1).1.lastTwinP = w.candidate t ∧
        (w.loopBody (w.run k).1).1.lastTwinClass = classIndex (w.candidate t) ∧
        ∀ l, w.TwinShape l → l + 1 < k + 1 → l ≤ t
    by_cases ht : w.twinAt (w.run k).1
    · obtain ⟨_, b2, b3⟩ := (loopBody_twin w _).1 ht
      obtain ⟨p, hp, hshape, hlp⟩ := twinShape_of_twinAt w k ht
      right
      refine ⟨p, by omega, hshape, ?_, ?_, fun l _ hl => by omega⟩
      · rw [b2, hlp]
      · rw [b3, hlp]
    · obtain ⟨_, b2, b3⟩ := (loopBody_twin w _).2 ht
      rw [b2, b3]
      rcases ih with h0 | ⟨t, htk, hshape, h1, h2, hall⟩
      · left
        exact h0
      · right
        refine ⟨t, by omega, hshape, h1, h2, fun l hl hlk => ?_⟩
        by_cases hlast : l + 1 = k
        · exfalso
          apply ht
          rw [← hlast]
          exact (twinAt_of_twinShape w l hl).1
        · exact hall l hl (by omega)

end Worker

/-! ## Primality certificates -/

/-- A Lucas certificate checked by modular powers: `a` has order `p - 1` modulo `p`. -/
theorem prime_of_certificate (p a : Nat) (fs : List Nat) (hp : 1 < p) (h64 : p < 2 ^ 64)
    (hprod : fs.prod = p - 1) (hprime : ∀ q, q ∈ fs → Nat.Prime q)
    (h1 : powMod a p 64 (p - 1) = 1)
    (h2 : ∀ q, q ∈ fs → powMod a p 64 ((p - 1) / q) ≠ 1) : Nat.Prime p := by
  have hpow : ∀ e, e < 2 ^ 64 → (((a : ℕ) : ZMod p) ^ e = 1 ↔ powMod a p 64 e = 1) := by
    intro e he
    rw [powMod_spec a p 64 e he, ← Nat.cast_pow, ← Nat.cast_one, ZMod.natCast_eq_natCast_iff',
      Nat.mod_eq_of_lt hp]
  apply lucas_primality p ((a : ℕ) : ZMod p)
  · rw [hpow _ (by omega)]
    exact h1
  · intro q hq hdvd
    rw [← hprod] at hdvd
    obtain ⟨r, hr, hqr⟩ := (Prime.dvd_prod_iff (Nat.prime_iff.mp hq)).mp hdvd
    have hqr' : q = r := (Nat.prime_dvd_prime_iff_eq hq (hprime r hr)).mp hqr
    subst hqr'
    rw [Ne, hpow _ (lt_of_le_of_lt (Nat.div_le_self _ _) (by omega))]
    exact h2 q hr

theorem prime_261313933 : Nat.Prime 261313933 := by
  apply prime_of_certificate 261313933 6 [2, 2, 3, 11, 811, 2441]
  · norm_num
  · norm_num
  · norm_num
  · intro q hq
    simp only [List.mem_cons, List.mem_singleton, List.not_mem_nil, or_false] at hq
    rcases hq with rfl | rfl | rfl | rfl | rfl | rfl
    · norm_num
    · norm_num
    · norm_num
    · norm_num
    · norm_num
    · norm_num
  · decide
  · decide

theorem prime_9223372036855568771 : Nat.Prime 9223372036855568771 := by
  apply prime_of_certificate 9223372036855568771 2 [2, 5, 101, 5783, 6043, 261313933]
  · norm_num
  · norm_num
  · norm_num
  · intro q hq
    simp only [List.mem_cons, List.mem_singleton, List.not_mem_nil, or_false] at hq
    rcases hq with rfl | rfl | rfl | rfl | rfl | rfl
    · norm_num
    · norm_num
    · norm_num
    · norm_num
    · norm_num
    · exact prime_261313933
  · decide
  · decide

theorem prime_595261 : Nat.Prime 595261 := by
  apply prime_of_certificate 595261 2 [2, 2, 3, 3, 5, 3307]
  · norm_num
  · norm_num
  · norm_num
  · intro q hq
    simp only [List.mem_cons, List.mem_singleton, List.not_mem_nil, or_false] at hq
    rcases hq with rfl | rfl | rfl | rfl | rfl | rfl
    · norm_num
    · norm_num
    · norm_num
    · norm_num
    · norm_num
    · norm_num
  · decide
  · decide

theorem prime_63097667 : Nat.Prime 63097667 := by
  apply prime_of_certificate 63097667 2 [2, 53, 595261]
  · norm_num
  · norm_num
  · norm_num
  · intro q hq
    simp only [List.mem_cons, List.mem_singleton, List.not_mem_nil, or_false] at hq
    rcases hq with rfl | rfl | rfl
    · norm_num
    · norm_num
    · exact prime_595261
  · decide
  · decide

theorem prime_9223372036855568773 : Nat.Prime 9223372036855568773 := by
  apply prime_of_certificate 9223372036855568773 2 [2, 2, 3, 3, 3, 3, 3, 29, 43, 83, 1453, 63097667]
  · norm_num
  · norm_num
  · norm_num
  · intro q hq
    simp only [List.mem_cons, List.mem_singleton, List.not_mem_nil, or_false] at hq
    rcases hq with rfl | rfl | rfl | rfl | rfl | rfl | rfl | rfl | rfl | rfl | rfl | rfl
    · norm_num
    · norm_num
    · norm_num
    · norm_num
    · norm_num
    · norm_num
    · norm_num
    · norm_num
    · norm_num
    · norm_num
    · norm_num
    · exact prime_63097667
  · decide
  · decide

theorem prime_687521 : Nat.Prime 687521 := by
  apply prime_of_certificate 687521 3 [2, 2, 2, 2, 2, 5, 4297]
  · norm_num
  · norm_num
  · norm_num
  · intro q hq
    simp only [List.mem_cons, List.mem_singleton, List.not_mem_nil, or_false] at hq
    rcases hq with rfl | rfl | rfl | rfl | rfl | rfl | rfl
    · norm_num
    · norm_num
    · norm_num
    · norm_num
    · norm_num
    · norm_num
    · norm_num
  · decide
  · decide

theorem prime_1375043 : Nat.Prime 1375043 := by
  apply prime_of_certificate 1375043 2 [2, 687521]
  · norm_num
  · norm_num
  · norm_num
  · intro q hq
    simp only [List.mem_cons, List.mem_singleton, List.not_mem_nil, or_false] at hq
    rcases hq with rfl | rfl
    · norm_num
    · exact prime_687521
  · decide
  · decide

theorem prime_1022773 : Nat.Prime 1022773 := by
  apply prime_of_certificate 1022773 2 [2, 2, 3, 29, 2939]
  · norm_num
  · norm_num
  · norm_num
  · intro q hq
    simp only [List.mem_cons, List.mem_singleton, List.not_mem_nil, or_false] at hq
    rcases hq with rfl | rfl | rfl | rfl | rfl
    · norm_num
    · norm_num
    · norm_num
    · norm_num
    · norm_num
  · decide
  · decide

theorem prime_9223372036857220217 : Nat.Prime 9223372036857220217 := by
  apply prime_of_certificate 9223372036857220217 3 [2, 2, 2, 13, 19, 3319, 1022773, 1375043]
  · norm_num
  · norm_num
  · norm_num
  · intro q hq
    simp only [List.mem_cons, List.mem_singleton, List.not_mem_nil, or_false] at hq
    rcases hq with rfl | rfl | rfl | rfl | rfl | rfl | rfl | rfl
    · norm_num
    · norm_num
    · norm_num
    · norm_num
    · norm_num
    · norm_num
    · exact prime_1022773
    · exact prime_1375043
  · decide
  · decide

theorem prime_2379077 : Nat.Prime 2379077 := by
  apply prime_of_certificate 2379077 2 [2, 2, 7, 84967]
  · norm_num
  · norm_num
  · norm_num
  · intro q hq
    simp only [List.mem_cons, List.mem_singleton, List.not_mem_nil, or_false] at hq
    rcases hq with rfl | rfl | rfl | rfl
    · norm_num
    · norm_num
    · norm_num
    · norm_num
  · decide
  · decide

theorem prime_6568717 : Nat.Prime 6568717 := by
  apply prime_of_certificate 6568717 2 [2, 2, 3, 7, 11, 7109]
  · norm_num
  · norm_num
  · norm_num
  · intro q hq
    simp only [List.mem_cons, List.mem_singleton, List.not_mem_nil, or_false] at hq
    rcases hq with rfl | rfl | rfl | rfl | rfl | rfl
    · norm_num
    · norm_num
    · norm_num
    · norm_num
    · norm_num
    · norm_num
  · decide
  · decide

theorem prime_9223372036857220219 : Nat.Prime 9223372036857220219 := by
  apply prime_of_certificate 9223372036857220219 2 [2, 3, 3, 32789, 2379077, 6568717]
  · norm_num
  · norm_num
  · norm_num
  · intro q hq
    simp only [List.mem_cons, List.mem_singleton, List.not_mem_nil, or_false] at hq
    rcases hq with rfl | rfl | rfl | rfl | rfl | rfl
    · norm_num
    · norm_num
    · norm_num
    · norm_num
    · exact prime_2379077
    · exact prime_6568717
  · decide
  · decide

theorem prime_1375373 : Nat.Prime 1375373 := by
  apply prime_of_certificate 1375373 2 [2, 2, 19, 18097]
  · norm_num
  · norm_num
  · norm_num
  · intro q hq
    simp only [List.mem_cons, List.mem_singleton, List.not_mem_nil, or_false] at hq
    rcases hq with rfl | rfl | rfl | rfl
    · norm_num
    · norm_num
    · norm_num
    · norm_num
  · decide
  · decide

theorem prime_9223372036855928141 : Nat.Prime 9223372036855928141 := by
  apply prime_of_certificate 9223372036855928141 2 [2, 2, 5, 7, 7, 7, 19, 19, 29, 93377, 1375373]
  · norm_num
  · norm_num
  · norm_num
  · intro q hq
    simp only [List.mem_cons, List.mem_singleton, List.not_mem_nil, or_false] at hq
    rcases hq with rfl | rfl | rfl | rfl | rfl | rfl | rfl | rfl | rfl | rfl | rfl
    · norm_num
    · norm_num
    · norm_num
    · norm_num
    · norm_num
    · norm_num
    · norm_num
    · norm_num
    · norm_num
    · norm_num
    · exact prime_1375373
  · decide
  · decide

theorem prime_112626251 : Nat.Prime 112626251 := by
  apply prime_of_certificate 112626251 6 [2, 5, 5, 5, 5, 11, 8191]
  · norm_num
  · norm_num
  · norm_num
  · intro q hq
    simp only [List.mem_cons, List.mem_singleton, List.not_mem_nil, or_false] at hq
    rcases hq with rfl | rfl | rfl | rfl | rfl | rfl | rfl
    · norm_num
    · norm_num
    · norm_num
    · norm_num
    · norm_num
    · norm_num
    · norm_num
  · decide
  · decide

theorem prime_9223372036855928143 : Nat.Prime 9223372036855928143 := by
  apply prime_of_certificate 9223372036855928143 3 [2, 3, 3, 3, 12289, 123407, 112626251]
  · norm_num
  · norm_num
  · norm_num
  · intro q hq
    simp only [List.mem_cons, List.mem_singleton, List.not_mem_nil, or_false] at hq
    rcases hq with rfl | rfl | rfl | rfl | rfl | rfl | rfl
    · norm_num
    · norm_num
    · norm_num
    · norm_num
    · norm_num
    · norm_num
    · exact prime_112626251
  · decide
  · decide

theorem prime_16530427 : Nat.Prime 16530427 := by
  apply prime_of_certificate 16530427 2 [2, 3, 3, 3, 11, 17, 1637]
  · norm_num
  · norm_num
  · norm_num
  · intro q hq
    simp only [List.mem_cons, List.mem_singleton, List.not_mem_nil, or_false] at hq
    rcases hq with rfl | rfl | rfl | rfl | rfl | rfl | rfl
    · norm_num
    · norm_num
    · norm_num
    · norm_num
    · norm_num
    · norm_num
    · norm_num
  · decide
  · decide

theorem prime_9223372036856441837 : Nat.Prime 9223372036856441837 := by
  apply prime_of_certificate 9223372036856441837 2 [2, 2, 313, 8353, 53353, 16530427]
  · norm_num
  · norm_num
  · norm_num
  · intro q hq
    simp only [List.mem_cons, List.mem_singleton, List.not_mem_nil, or_false] at hq
    rcases hq with rfl | rfl | rfl | rfl | rfl | rfl
    · norm_num
    · norm_num
    · norm_num
    · norm_num
    · norm_num
    · exact prime_16530427
  · decide
  · decide

theorem prime_898063 : Nat.Prime 898063 := by
  apply prime_of_certificate 898063 6 [2, 3, 11, 11, 1237]
  · norm_num
  · norm_num
  · norm_num
  · intro q hq
    simp only [List.mem_cons, List.mem_singleton, List.not_mem_nil, or_false] at hq
    rcases hq with rfl | rfl | rfl | rfl | rfl
    · norm_num
    · norm_num
    · norm_num
    · norm_num
    · norm_num
  · decide
  · decide

theorem prime_7164719 : Nat.Prime 7164719 := by
  apply prime_of_certificate 7164719 7 [2, 11, 17, 19157]
  · norm_num
  · norm_num
  · norm_num
  · intro q hq
    simp only [List.mem_cons, List.mem_singleton, List.not_mem_nil, or_false] at hq
    rcases hq with rfl | rfl | rfl | rfl
    · norm_num
    · norm_num
    · norm_num
    · norm_num
  · decide
  · decide

theorem prime_9223372036856441839 : Nat.Prime 9223372036856441839 := by
  apply prime_of_certificate 9223372036856441839 6 [2, 3, 11, 37, 587, 898063, 7164719]
  · norm_num
  · norm_num
  · norm_num
  · intro q hq
    simp only [List.mem_cons, List.mem_singleton, List.not_mem_nil, or_false] at hq
    rcases hq with rfl | rfl | rfl | rfl | rfl | rfl | rfl
    · norm_num
    · norm_num
    · norm_num
    · norm_num
    · norm_num
    · exact prime_898063
    · exact prime_7164719
  · decide
  · decide

/-! ## Landmark twins -/

/-- A prime passes the wheel test, whatever the sieve limit below the wrapping range. -/
theorem PrimeSieve.confirms_prime (L n : Nat) (hfit : L < (2 ^ 32 - 1) ^ 2)
    (hp : Nat.Prime n) : (PrimeSieve.new L).isPrimeFromWheel n = true := by
  by_cases h121 : n < 121
  · unfold PrimeSieve.isPrimeFromWheel
    rw [if_pos h121]
    exact decide_eq_true hp.one_lt
  · apply PrimeSieve.isPrimeFromWheel_of_no_divisor L n hfit (by omega)
    intro p h11 hle hdvd
    have hs : Nat.sqrt n < n - 1 := by
      rw [Nat.sqrt_lt']
      obtain ⟨k, rfl⟩ : ∃ k, n = k + 121 := ⟨n - 121, by omega⟩
      have : k + 121 - 1 = k + 120 := by omega
      rw [this]
      nlinarith
    rcases (Nat.dvd_prime hp).mp hdvd with h | h
    · omega
    · omega

/-- With a sieve limit of at least 11 the value `2^64 - 5` does not pass the test:
11 divides it. -/
theorem PrimeSieve.rejects_wrap5 (L : Nat) (hL : 11 ≤ L) (hfit : L < (2 ^ 32 - 1) ^ 2) :
    (PrimeSieve.new L).isPrimeFromWheel (2 ^ 64 - 5) = false := by
  have h11 : 11 ∈ (PrimeSieve.generateBasePrimes L).getD [] :=
    (PrimeSieve.mem_generateBasePrimes L 11 hfit).mpr ⟨by norm_num, hL, by norm_num⟩
  cases hx : (PrimeSieve.new L).isPrimeFromWheel (2 ^ 64 - 5) with
  | false => rfl
  | true =>
    exfalso
    unfold PrimeSieve.isPrimeFromWheel at hx
    rw [if_neg (by norm_num)] at hx
    simp only [PrimeSieve.new] at hx
    rw [PrimeSieve.trialLoop_spec _ _ _ (PrimeSieve.sorted_generateBasePrimes L hfit),
      floorSqrt_eq_sqrt] at hx
    have hs : 11 ≤ Nat.sqrt (2 ^ 64 - 5) + 1 := by
      have : 16 ≤ Nat.sqrt (2 ^ 64 - 5) := Nat.le_sqrt.mpr (by norm_num)
      omega
    exact hx 11 h11 hs (by norm_num)

set_option maxRecDepth 100000 in
theorem era_class_table :
    ∀ e, e < 105 → e % 3 = 0 →
      ∃ r, r ∈ [11, 17, 71, 107] ∧
        ((16 * e + r) % 2 ≠ 0 ∧ (16 * e + r) % 3 ≠ 0 ∧ (16 * e + r) % 5 ≠ 0 ∧
          (16 * e + r) % 7 ≠ 0) ∧
        ((16 * e + r + 2) % 2 ≠ 0 ∧ (16 * e + r + 2) % 3 ≠ 0 ∧ (16 * e + r + 2) % 5 ≠ 0 ∧
          (16 * e + r + 2) % 7 ≠ 0) := by
  decide

theorem mod_shift (n q E x r : Nat) (hn : n = 210 * q + 16 * E + x) (hx : x % 210 = r) :
    n % 2 = (16 * (E % 105) + r) % 2 ∧ n % 3 = (16 * (E % 105) + r) % 3 ∧
      n % 5 = (16 * (E % 105) + r) % 5 ∧ n % 7 = (16 * (E % 105) + r) % 7 := by
  refine ⟨?_, ?_, ?_, ?_⟩ <;> omega

/-- In a block of `2^64` numbers whose index is a multiple of 3, the pairs `x`, `x + 2`
of one of the residues 11, 17, 71, 107 modulo 210 are coprime to 210 after the shift
by the block. -/
theorem era_class (E : Nat) (h3 : E % 3 = 0) :
    ∃ r, (r = 11 ∨ r = 17 ∨ r = 71 ∨ r = 107) ∧
      ∀ x, x % 210 = r →
        Nat.Coprime (18446744073709551616 * E + x) 210 ∧
          Nat.Coprime (18446744073709551616 * E + x + 2) 210 := by
  obtain ⟨r, hr, ⟨a2, a3, a5, a7⟩, ⟨b2, b3, b5, b7⟩⟩ :=
    era_class_table (E % 105) (Nat.mod_lt E (by norm_num)) (by omega)
  have hr' : r = 11 ∨ r = 17 ∨ r = 71 ∨ r = 107 := by simpa using hr
  refine ⟨r, hr', fun x hx => ?_⟩
  have hx2 : (x + 2) % 210 = r + 2 := by
    rcases hr' with rfl | rfl | rfl | rfl <;> omega
  have e1 : 18446744073709551616 * E + x = 210 * (87841638446235960 * E) + 16 * E + x := by
    ring
  have e2 : 18446744073709551616 * E + x + 2 =
      210 * (87841638446235960 * E) + 16 * E + (x + 2) := by
    ring
  obtain ⟨m2, m3, m5, m7⟩ := mod_shift _ _ E x r e1 hx
  obtain ⟨n2, n3, n5, n7⟩ := mod_shift _ _ E (x + 2) (r + 2) e2 hx2
  constructor
  · rw [coprime_210_iff, m2, m3, m5, m7]
    exact ⟨a2, a3, a5, a7⟩
  · rw [coprime_210_iff, n2, n3, n5, n7]
    exact ⟨b2, b3, b5, b7⟩

/-- The landmark twins of a residue class: the residue itself, a twin prime pair at
most `2^63`, and one just above `2^63`, less than `2^63 + 6` above the former. -/
theorem landmark_twins (r : Nat) (hr : r = 11 ∨ r = 17 ∨ r = 71 ∨ r = 107) :
    Nat.Prime r ∧ Nat.Prime (r + 2) ∧ r ≤ 107 ∧
      ∃ M T, M % 210 = r ∧ T % 210 = r ∧ Nat.Prime M ∧ Nat.Prime (M + 2) ∧
        Nat.Prime T ∧ Nat.Prime (T + 2) ∧ M ≤ 2 ^ 63 ∧ 2 ^ 63 + 102 ≤ T ∧
        T ≤ M + 2 ^ 63 + 5 ∧ T + 2 < 2 ^ 64 := by
  rcases hr with rfl | rfl | rfl | rfl
  · exact ⟨by norm_num, by norm_num, by norm_num, 797591, 9223372036855568771, by norm_num,
      by norm_num, by norm_num, by norm_num, prime_9223372036855568771,
      prime_9223372036855568773, by norm_num, by norm_num, by norm_num, by norm_num⟩
  · exact ⟨by norm_num, by norm_num, by norm_num, 2446097, 9223372036857220217, by norm_num,
      by norm_num, by norm_num, by norm_num, prime_9223372036857220217,
      prime_9223372036857220219, by norm_num, by norm_num, by norm_num, by norm_num⟩
  · exact ⟨by norm_num, by norm_num, by norm_num, 1152761, 9223372036855928141, by norm_num,
      by norm_num, by norm_num, by norm_num, prime_9223372036855928141,
      prime_9223372036855928143, by norm_num, by norm_num, by norm_num, by norm_num⟩
  · exact ⟨by norm_num, by norm_num, by norm_num, 1666037, 9223372036856441837, by norm_num,
      by norm_num, by norm_num, by norm_num, prime_9223372036856441837,
      prime_9223372036856441839, by norm_num, by norm_num, by norm_num, by norm_num⟩

theorem classIndex_of_mod210 (x r : Nat) (hr : r = 11 ∨ r = 17 ∨ r = 71 ∨ r = 107)
    (hx : x % 210 = r) : 0 ≤ classIndex x := by
  have h30 : x % 210 % 30 = x % 30 := Nat.mod_mod_of_dvd x (by norm_num)
  have : x % 30 = 11 ∨ x % 30 = 17 ∨ x % 30 = 29 := by
    rcases hr with rfl | rfl | rfl | rfl <;> omega
  rcases classIndex_of_residue x this with h | h | h <;> omega

theorem class_mod3 (v : Nat) (h : 0 ≤ classIndex v) : v % 3 = 2 := by
  have h30 : v % 30 % 3 = v % 3 := Nat.mod_mod_of_dvd _ (by norm_num)
  rcases classIndex_cases _ h with ⟨r, _⟩ | ⟨r, _⟩ | ⟨r, _⟩ <;> omega

theorem era_mod3 (s E v q : Nat) (h : s = 3 * q + E + v) (h1 : s % 3 ≠ 0)
    (h2 : (s + 2) % 3 ≠ 0) (hv : v % 3 = 2) : E % 3 = 0 := by
  omega

namespace Worker

/-- A pair of primes two apart that the wheel reaches is a twin shape of the run. -/
theorem twinShape_of_landmark (w : Worker) (L : Nat)
    (hsieve : w.m_sieve = PrimeSieve.new L) (hfit : L < (2 ^ 32 - 1) ^ 2)
    (E x : Nat) (hx : x + 2 < 2 ^ 64)
    (hc1 : Nat.Coprime (18446744073709551616 * E + x) 210)
    (hc2 : Nat.Coprime (18446744073709551616 * E + x + 2) 210)
    (hp1 : Nat.Prime x) (hp2 : Nat.Prime (x + 2)) (hcls : 0 ≤ classIndex x)
    (hge : w.slot 0 ≤ 18446744073709551616 * E + x) :
    ∃ l, w.slot l = 18446744073709551616 * E + x ∧ w.TwinShape l := by
  obtain ⟨l, hl⟩ := slot_exists w _ hc1 hge
  have hl2 : w.slot (l + 1) = 18446744073709551616 * E + x + 2 := by
    rw [slot_succ_of_twin w l (by rw [hl]; exact hc2), hl]
  have hU : U64 = 18446744073709551616 := by unfold U64; norm_num
  have c1 : w.candidate l = x := by
    rw [candidate_closed w, hl, hU, Nat.mul_add_mod]
    exact Nat.mod_eq_of_lt (by omega)
  have c2 : w.candidate (l + 1) = x + 2 := by
    rw [candidate_closed w, hl2, hU, Nat.add_assoc, Nat.mul_add_mod]
    exact Nat.mod_eq_of_lt (by omega)
  refine ⟨l, hl, ?_, ?_, ?_, ?_⟩
  · unfold confirmed
    rw [c1, hsieve]
    exact PrimeSieve.confirms_prime L x hfit hp1
  · unfold confirmed
    rw [c2, hsieve]
    exact PrimeSieve.confirms_prime L (x + 2) hfit hp2
  · rw [c1, c2]
  · rw [c1]
    exact hcls

/-- A twin shape lies in a block of `2^64` numbers whose index is a multiple of 3,
and its upper member stays in the block. -/
theorem twinShape_era (w : Worker) (j : Nat) (h : w.TwinShape j) :
    (w.slot j / 18446744073709551616) % 3 = 0 ∧
      w.slot j = 18446744073709551616 * (w.slot j / 18446744073709551616) + w.candidate j ∧
      w.candidate j + 2 < 2 ^ 64 := by
  obtain ⟨_, _, h3, h4⟩ := h
  have hU : U64 = 18446744073709551616 := by unfold U64; norm_num
  have c1 := candidate_closed w j
  have c2 := candidate_closed w (j + 1)
  have l2 := candidate_lt w (j + 1)
  rw [hU] at c1 c2 l2
  have d1 := Nat.div_add_mod (w.slot j) 18446744073709551616
  have d2 := Nat.div_add_mod (w.slot (j + 1)) 18446744073709551616
  have hsl := slot_succ_le w j
  rw [← c1] at d1
  rw [← c2, h3] at d2
  have hsucc : w.slot (j + 1) = w.slot j + 2 := by omega
  have k1 := (coprime_210_iff _).mp (slotValue_coprime (w.slot0 + j))
  have k2 := (coprime_210_iff _).mp (slotValue_coprime (w.slot0 + (j + 1)))
  have e1 : w.slot j = slotValue (w.slot0 + j) := rfl
  have e2 : w.slot (j + 1) = slotValue (w.slot0 + (j + 1)) := rfl
  rw [← e1] at k1
  rw [← e2, hsucc] at k2
  have hv := class_mod3 _ h4
  refine ⟨?_, d1.symm, by rw [h3] at l2; omega⟩
  have hq : 18446744073709551616 * (w.slot j / 18446744073709551616) =
      3 * (6148914691236517205 * (w.slot j / 18446744073709551616)) +
        w.slot j / 18446744073709551616 := by ring
  exact era_mod3 _ _ _ _ (by rw [← hq]; exact d1.symm) k1.2.1 k2.2.1 hv

end Worker

/-! ## The gap between consecutive recorded twins -/

theorem gapMin_ge_six (a b : Nat) (ha : 0 ≤ classIndex a) (hb : 0 ≤ classIndex b) :
    6 ≤ (Constants.GAP_MIN.getD (classIndex a).toNat []).getD (classIndex b).toNat 0 := by
  rcases classIndex_cases a ha with ⟨_, ca⟩ | ⟨_, ca⟩ | ⟨_, ca⟩ <;>
    rcases classIndex_cases b hb with ⟨_, cb⟩ | ⟨_, cb⟩ | ⟨_, cb⟩ <;>
    rw [ca, cb] <;> simp [Constants.GAP_MIN]

theorem same_era_gap (a b M T : Nat) (hM : M ≤ a ∨ b ≤ M) (hT : T ≤ a ∨ b ≤ T)
    (hb : b < 2 ^ 64) (hM63 : M ≤ 2 ^ 63) (hT63 : 2 ^ 63 + 102 ≤ T)
    (hTM : T ≤ M + 2 ^ 63 + 5) : b - a ≤ 2 ^ 63 + 5 := by
  omega

/-- Two twins in one block of `2^64` numbers, less than `2^63 + 6` apart: the gap
reaches the table entry and the excess fits `int64_t`. -/
theorem gap_same (a b : Nat) (hab : a < b) (hb64 : b < 2 ^ 64) (ha : 0 ≤ classIndex a)
    (hb : 0 ≤ classIndex b) (hd : b - a ≤ 2 ^ 63 + 5) :
    (Constants.GAP_MIN.getD (classIndex a).toNat []).getD (classIndex b).toNat 0 ≤
        subU64 b a ∧
      subU64 b a -
        (Constants.GAP_MIN.getD (classIndex a).toNat []).getD (classIndex b).toNat 0 < 2 ^ 63 ∧
      0 < subU64 b a ∧ subU64 b a < 2 ^ 64 := by
  have h1 := (gapMin_le_gap a b hab ha hb).1
  have h6 := gapMin_ge_six a b ha hb
  have hbU : b < U64 := hb64
  rw [subU64_of_le b a (by omega) hbU]
  omega

/-- The last twin of one block and the first of a later block: the gap, taken modulo
`2^64`, reaches the table entry and the excess fits `int64_t`. -/
theorem gap_cross (a b : Nat) (ha : 0 ≤ classIndex a) (hb : 0 ≤ classIndex b)
    (hlow : 2 ^ 63 + 102 ≤ a) (ha2 : a + 2 < 2 ^ 64) (hb107 : b ≤ 107)
    (hne : a ≠ 2 ^ 64 - 5) :
    (Constants.GAP_MIN.getD (classIndex a).toNat []).getD (classIndex b).toNat 0 ≤
        subU64 b a ∧
      subU64 b a -
        (Constants.GAP_MIN.getD (classIndex a).toNat []).getD (classIndex b).toNat 0 < 2 ^ 63 ∧
      0 < subU64 b a ∧ subU64 b a < 2 ^ 64 := by
  have hsub : subU64 b a = b + 2 ^ 64 - a := by
    unfold subU64
    have hU : U64 = 2 ^ 64 := rfl
    rw [hU, Nat.mod_eq_of_lt (show a < 2 ^ 64 by omega)]
    exact Nat.mod_eq_of_lt (by omega)
  rw [hsub]
  rcases classIndex_cases a ha with ⟨ra, ca⟩ | ⟨ra, ca⟩ | ⟨ra, ca⟩ <;>
    rcases classIndex_cases b hb with ⟨rb, cb⟩ | ⟨rb, cb⟩ | ⟨rb, cb⟩ <;>
    rw [ca, cb] <;> simp [Constants.GAP_MIN] <;> omega

namespace Worker

/-- A landmark twin lies outside the open stretch between two consecutive twin
shapes of a run. -/
theorem landmark_split (w : Worker) (L : Nat)
    (hsieve : w.m_sieve = PrimeSieve.new L) (hfit : L < (2 ^ 32 - 1) ^ 2)
    (t p : Nat) (hall : ∀ l, w.TwinShape l → l ≤ t ∨ p ≤ l)
    (E x : Nat) (hx : x + 2 < 2 ^ 64)
    (hc : Nat.Coprime (18446744073709551616 * E + x) 210 ∧
      Nat.Coprime (18446744073709551616 * E + x + 2) 210)
    (hp1 : Nat.Prime x) (hp2 : Nat.Prime (x + 2)) (hcls : 0 ≤ classIndex x) :
    18446744073709551616 * E + x ≤ w.slot t ∨ w.slot p ≤ 18446744073709551616 * E + x := by
  by_cases hge : w.slot 0 ≤ 18446744073709551616 * E + x
  · obtain ⟨l, hl, hshape⟩ :=
      twinShape_of_landmark w L hsieve hfit E x hx hc.1 hc.2 hp1 hp2 hcls hge
    rcases hall l hshape with h | h
    · left
      rw [← hl]
      exact (slot_strictMono w).monotone h
    · right
      rw [← hl]
      exact (slot_strictMono w).monotone h
  · left
    have := (slot_strictMono w).monotone (Nat.zero_le t)
    omega

/-- Between two consecutive twin shapes of a run of the analyzer the gap of the lower
members, taken modulo `2^64`, is at least the `GAP_MIN` entry of their classes and
exceeds it by less than `2^63`. -/
theorem twin_gap_bounds (w : Worker) (L : Nat)
    (hsieve : w.m_sieve = PrimeSieve.new L) (hfit : L < (2 ^ 32 - 1) ^ 2) (h11 : 11 ≤ L)
    (t p : Nat) (htp : t < p) (ht : w.TwinShape t) (hp : w.TwinShape p)
    (hall : ∀ l, w.TwinShape l → l ≤ t ∨ p ≤ l) :
    (Constants.GAP_MIN.getD (classIndex (w.candidate t)).toNat []).getD
        (classIndex (w.candidate p)).toNat 0 ≤ subU64 (w.candidate p) (w.candidate t) ∧
      subU64 (w.candidate p) (w.candidate t) -
        (Constants.GAP_MIN.getD (classIndex (w.candidate t)).toNat []).getD
          (classIndex (w.candidate p)).toNat 0 < 2 ^ 63 ∧
      0 < subU64 (w.candidate p) (w.candidate t) ∧
      subU64 (w.candidate p) (w.candidate t) < 2 ^ 64 := by
  obtain ⟨et3, est, ea2⟩ := twinShape_era w t ht
  obtain ⟨ep3, esp, eb2⟩ := twinShape_era w p hp
  have hlt := slot_strictMono w htp
  have hca := ht.2.2.2
  have hcb := hp.2.2.2
  obtain ⟨rt, hrt, hct⟩ := era_class _ et3
  obtain ⟨rp, hrp, hcp⟩ := era_class _ ep3
  obtain ⟨_, _, _, M, T, hM210, hT210, pM, pM2, pT, pT2, hM63, hT63, hTM, hT64⟩ :=
    landmark_twins rt hrt
  obtain ⟨prp, prp2, hrp107, _⟩ := landmark_twins rp hrp
  have dM := landmark_split w L hsieve hfit t p hall _ M (by omega) (hct M hM210) pM pM2
    (classIndex_of_mod210 M rt hrt hM210)
  have dT := landmark_split w L hsieve hfit t p hall _ T hT64 (hct T hT210) pT pT2
    (classIndex_of_mod210 T rt hrt hT210)
  have dR := landmark_split w L hsieve hfit t p hall _ rp (by omega)
    (hcp rp (by rcases hrp with rfl | rfl | rfl | rfl <;> rfl)) prp prp2
    (classIndex_of_mod210 rp rp hrp (by rcases hrp with rfl | rfl | rfl | rfl <;> rfl))
  by_cases hera : w.slot t / 18446744073709551616 = w.slot p / 18446744073709551616
  · rw [← hera] at esp
    generalize 18446744073709551616 * (w.slot t / 18446744073709551616) = X at est esp dM dT
    have hab : w.candidate t < w.candidate p := by omega
    have hM' : M ≤ w.candidate t ∨ w.candidate p ≤ M := by omega
    have hT' : T ≤ w.candidate t ∨ w.candidate p ≤ T := by omega
    exact gap_same _ _ hab (by omega) hca hcb
      (same_era_gap _ _ M T hM' hT' (by omega) hM63 hT63 hTM)
  · have hE : w.slot t / 18446744073709551616 + 1 ≤ w.slot p / 18446744073709551616 := by
      have := Nat.div_le_div_right (c := 18446744073709551616) (le_of_lt hlt)
      omega
    have hmul := Nat.mul_le_mul_left 18446744073709551616 hE
    rw [Nat.mul_add, Nat.mul_one] at hmul
    generalize 18446744073709551616 * (w.slot t / 18446744073709551616) = X at est dM dT hmul
    generalize 18446744073709551616 * (w.slot p / 18446744073709551616) = Y at esp dR hmul
    have hT' : T ≤ w.candidate t := by omega
    have hR' : w.candidate p ≤ 107 := by omega
    have hne : w.candidate t ≠ 2 ^ 64 - 5 := by
      intro h5
      have hc := ht.1
      unfold confirmed at hc
      rw [h5, hsieve, PrimeSieve.rejects_wrap5 L h11 hfit] at hc
      exact Bool.noConfusion hc
    exact gap_cross _ _ hca hcb (by omega) ea2 hR' hne

/-- In every run of the analyzer, a recorded transition has a twin gap of at least the
`GAP_MIN` entry, and adds an excess that is not negative. -/
theorem run_transition_bounds (w : Worker) (L : Nat)
    (hsieve : w.m_sieve = PrimeSieve.new L) (hfit : L < (2 ^ 32 - 1) ^ 2) (h11 : 11 ≤ L)
    (k : Nat) (ht : w.transitionAt (w.run k).1) :
    0 ≤ excessAt (w.run k).1 ∧
      (Constants.GAP_MIN.getD (w.run k).1.lastTwinClass.toNat []).getD
        (classIndex (w.run k).1.lastPrime).toNat 0 ≤ twinGapAt (w.run k).1 ∧
      0 < twinGapAt (w.run k).1 ∧ twinGapAt (w.run k).1 % 2 = 0 ∧
      (w.run k).1.lastTwinClass = classIndex (w.run k).1.lastTwinP ∧
      0 ≤ classIndex (w.run k).1.lastTwinP := by
  obtain ⟨htw, hne, _⟩ := ht
  obtain ⟨p, hpk, hshape, hlp⟩ := twinShape_of_twinAt w k htw
  rcases run_lastTwin_idx w k with h0 | ⟨t, htk, htshape, hlt, hlc, hall⟩
  · exact absurd h0 hne
  have hall' : ∀ l, w.TwinShape l → l ≤ t ∨ p ≤ l := by
    intro l hl
    by_cases hlk : l + 1 < k
    · exact Or.inl (hall l hl hlk)
    · exact Or.inr (by omega)
  obtain ⟨b1, b2, b3, b4⟩ :=
    twin_gap_bounds w L hsieve hfit h11 t p (by omega) htshape hshape hall'
  have hoa := candidate_odd w t
  have hob := candidate_odd w p
  have hla := candidate_lt w t
  have hlb := candidate_lt w p
  unfold excessAt twinGapAt
  rw [hlp, hlt, hlc]
  refine ⟨?_, b1, b3, ?_, rfl, htshape.2.2.2⟩
  · rw [subU64_of_le _ _ b1 (by unfold U64; omega)]
    exact toInt64_nonneg _ b2
  · unfold subU64
    rw [Nat.mod_eq_of_lt hla]
    unfold U64 at hla hlb ⊢
    omega

end Worker

/-! ## The accumulators and histograms in every run -/

namespace Worker

/-- In every run of the analyzer the buckets of `v2GapHistogram` add up to the
paired sample count: every twin to twin gap is positive and even. -/
theorem run_v2GapHistogram_all (w : Worker) (L : Nat)
    (hsieve : w.m_sieve = PrimeSieve.new L) (hfit : L < (2 ^ 32 - 1) ^ 2) (h11 : 11 ≤ L)
    (k : Nat) : (w.run k).1.v2GapHistogram.sum = (w.run k).1.countV2Gap := by
  induction k with
  | zero => rfl
  | succ k ih =>
    have hlen := (run_v2GapHistogram w k).1
    rw [run_succ]
    show (w.loopBody (w.run k).1).1.v2GapHistogram.sum =
      (w.loopBody (w.run k).1).1.countV2Gap
    by_cases ht : w.transitionAt (w.run k).1
    · obtain ⟨b1, _, b3, _⟩ := (loopBody_transition w _).1 ht
      obtain ⟨_, _, hpos, heven, _⟩ := run_transition_bounds w L hsieve hfit h11 k ht
      rw [b1, b3, sum_bumpHistogram _ _ hlen (v2_of_pos _ hpos heven), ih]
    · obtain ⟨b1, _, b3, _⟩ := (loopBody_transition w _).2 ht
      rw [b1, b3]
      exact ih

end Worker

/-- C18. All accumulators of `Worker::process` start at zero, and every loop step is
monotone on them. Each count (`primeCount`, `twinCount`, `asymptoticCount`, `countV2`,
`countV2Gap`, every histogram bucket, every transition count, every decade count) and
each running sum of unsigned terms (`sumPrimeGaps`, `sumTwinGaps`, `sumV2`, `sumV2Gap`,
the three correlation sums, every transition `sumGap`) is, after a step of any worker
entered in any state `s`, at least its value before the step (`AccLe`). The running
sums of the signed `excess` (`sumTwinExcess`, `sumAsymptoticExcess`, every decade
`sumExcess`) are, after iteration `k` of the run of the worker built by `Worker()` and
`configure`, at least their value before it (`SignedLe`), for every start value and
every `k`, before and after the wheel wraps: the excess added by a transition is never
negative. -/
theorem accumulators_monotone (startValue : Nat) (mode : AnalysisMode) (multiThread : Bool)
    (k : Nat) :
    ((Worker.new.configure startValue mode multiThread).initState.primeCount = 0 ∧
      (Worker.new.configure startValue mode multiThread).initState.twinCount = 0 ∧
      (Worker.new.configure startValue mode multiThread).initState.asymptoticCount = 0 ∧
      (Worker.new.configure startValue mode multiThread).initState.countV2 = 0 ∧
      (Worker.new.configure startValue mode multiThread).initState.countV2Gap = 0 ∧
      (Worker.new.configure startValue mode multiThread).initState.sumPrimeGaps = 0 ∧
      (Worker.new.configure startValue mode multiThread).initState.sumTwinGaps = 0 ∧
      (Worker.new.configure startValue mode multiThread).initState.sumTwinExcess = 0 ∧
      (Worker.new.configure startValue mode multiThread).initState.sumAsymptoticExcess = 0 ∧
      (Worker.new.configure startValue mode multiThread).initState.sumV2 = 0 ∧
      (Worker.new.configure startValue mode multiThread).initState.sumV2Gap = 0 ∧
      (Worker.new.configure startValue mode multiThread).initState.sumV2Product = 0 ∧
      (Worker.new.configure startValue mode multiThread).initState.sumV2Sq = 0 ∧
      (Worker.new.configure startValue mode multiThread).initState.sumV2GapSq = 0 ∧
      (Worker.new.configure startValue mode multiThread).initState.v2Histogram =
        [0, 0, 0, 0, 0, 0, 0, 0] ∧
      (Worker.new.configure startValue mode multiThread).initState.v2GapHistogram =
        [0, 0, 0, 0, 0, 0, 0, 0] ∧
      (Worker.new.configure startValue mode multiThread).initState.transitions.count =
        [[0, 0, 0], [0, 0, 0], [0, 0, 0]] ∧
      (Worker.new.configure startValue mode multiThread).initState.transitions.sumGap =
        [[0, 0, 0], [0, 0, 0], [0, 0, 0]] ∧
      (Worker.new.configure startValue mode multiThread).initState.decades =
        List.replicate 8 ⟨0, 0⟩) ∧
    (∀ (w : Worker) (s : LoopState), AccLe s (w.loopBody s).1) ∧
    AccLe ((Worker.new.configure startValue mode multiThread).run k).1
      ((Worker.new.configure startValue mode multiThread).run (k + 1)).1 ∧
    SignedLe ((Worker.new.configure startValue mode multiThread).run k).1
      ((Worker.new.configure startValue mode multiThread).run (k + 1)).1 ∧
    ((Worker.new.configure startValue mode multiThread).transitionAt
        ((Worker.new.configure startValue mode multiThread).run k).1 →
      0 ≤ Worker.excessAt ((Worker.new.configure startValue mode multiThread).run k).1) :=
  ⟨⟨rfl, rfl, rfl, rfl, rfl, rfl, rfl, rfl, rfl, rfl, rfl, rfl, rfl, rfl, rfl, rfl, rfl, rfl,
      rfl⟩,
    fun w s => Worker.accLe_loopBody w s,
    Worker.accLe_loopBody _ _,
    Worker.signedLe_loopBody _ _ fun ht =>
      (Worker.run_transition_bounds (Worker.new.configure startValue mode multiThread)
        10000000 rfl (by norm_num) (by norm_num) k ht).1,
    fun ht => (Worker.run_transition_bounds (Worker.new.configure startValue mode multiThread)
        10000000 rfl (by norm_num) (by norm_num) k ht).1⟩

/-- C28. The histograms lose no sample. For the worker built by `Worker()` and
`configure`, with any start value, after any number `k` of loop steps, before and after
the wheel wraps: the eight buckets of `v2Histogram` add up to `primeCount`, because
every confirmed candidate is odd and is not `2^64 - 1`, so `v2(p + 1) >= 1`; and the
eight buckets of `v2GapHistogram` add up to `countV2Gap`, because every twin to twin
gap is positive and even, so `v2(gap) >= 1`. The unbucketed case `k == 0` does not
occur in either histogram. -/
theorem histograms_complete (startValue : Nat) (mode : AnalysisMode) (multiThread : Bool)
    (k : Nat) :
    ((Worker.new.configure startValue mode multiThread).run k).1.v2Histogram.length = 8 ∧
      ((Worker.new.configure startValue mode multiThread).run k).1.v2Histogram.sum =
        ((Worker.new.configure startValue mode multiThread).run k).1.primeCount ∧
      ((Worker.new.configure startValue mode multiThread).run k).1.v2GapHistogram.length
        = 8 ∧
      ((Worker.new.configure startValue mode multiThread).run k).1.v2GapHistogram.sum =
        ((Worker.new.configure startValue mode multiThread).run k).1.countV2Gap ∧
      (∀ j, (Worker.new.configure startValue mode multiThread).confirmed j = true →
        1 ≤ v2_of (((Worker.new.configure startValue mode multiThread).candidate j + 1)
          % U64)) ∧
      ((Worker.new.configure startValue mode multiThread).transitionAt
          ((Worker.new.configure startValue mode multiThread).run k).1 →
        0 < Worker.twinGapAt ((Worker.new.configure startValue mode multiThread).run k).1 ∧
          Worker.twinGapAt ((Worker.new.configure startValue mode multiThread).run k).1 % 2
            = 0 ∧
          1 ≤ v2_of
            (Worker.twinGapAt ((Worker.new.configure startValue mode multiThread).run k).1))
    := by
  have hmax : (Worker.new.configure startValue mode multiThread).m_sieve.isPrimeFromWheel
      (2 ^ 64 - 1) = false := PrimeSieve.rejects_max 10000000 (by norm_num) (by norm_num)
  refine ⟨Worker.run_v2Histogram_length _ k, (Worker.run_v2Histogram_sum _ hmax k).1,
    (Worker.run_v2GapHistogram _ k).1,
    Worker.run_v2GapHistogram_all (Worker.new.configure startValue mode multiThread)
      10000000 rfl (by norm_num) (by norm_num) k, ?_, ?_⟩
  · intro j hj
    have hodd := WheelIterator.current_odd
      (Worker.new.configure startValue mode multiThread).m_startN j
    have hne : (Worker.new.configure startValue mode multiThread).candidate j ≠ 2 ^ 64 - 1 := by
      intro he
      unfold Worker.confirmed at hj
      rw [he, hmax] at hj
      exact absurd hj (by simp)
    have hlt : (Worker.new.configure startValue mode multiThread).candidate j + 1 < U64 := by
      have := hodd.2
      unfold Worker.candidate U64 at *
      omega
    rw [Nat.mod_eq_of_lt hlt]
    exact v2_of_pos _ (by omega) (by
      have := hodd.1
      unfold Worker.candidate
      omega)
  · intro ht
    obtain ⟨_, _, hpos, heven, _⟩ :=
      Worker.run_transition_bounds (Worker.new.configure startValue mode multiThread)
        10000000 rfl (by norm_num) (by norm_num) k ht
    exact ⟨hpos, heven, v2_of_pos _ hpos heven⟩

/-- C25, amended. For any two integers `a < b` with `classIndex(a) = i >= 0` and
`classIndex(b) = j >= 0`: `b - a >= GAP_MIN[i][j]` and `b - a - GAP_MIN[i][j]` is a
multiple of 30; for 64-bit `b` the unsigned subtraction `twinGap - gapMin` does not
wrap, and the signed `excess` is not negative exactly when `b - a - GAP_MIN[i][j]` is
below `2^63`, in which case it is that difference. In the loop of the worker built by
`Worker()` and `configure`, for every start value and every twin transition, before
and after the wheel wraps: the recorded class is the class of `lastTwinP`, the gap
`twinGap` (taken modulo `2^64`) is at least `gapMin`, so `twinGap - gapMin` does not
wrap, and `excess >= 0`. Before the wheel wraps, `lastTwinP < twinP` and `twinGap` is
their difference. -/
theorem excess_never_negative (a b : Nat) (hab : a < b) (ha : 0 ≤ classIndex a)
    (hb : 0 ≤ classIndex b) :
    ((Constants.GAP_MIN.getD (classIndex a).toNat []).getD (classIndex b).toNat 0 ≤ b - a ∧
      30 ∣ b - a - (Constants.GAP_MIN.getD (classIndex a).toNat []).getD
        (classIndex b).toNat 0) ∧
    (b < 2 ^ 64 →
      subU64 (subU64 b a)
          ((Constants.GAP_MIN.getD (classIndex a).toNat []).getD (classIndex b).toNat 0) =
        b - a - (Constants.GAP_MIN.getD (classIndex a).toNat []).getD
          (classIndex b).toNat 0) ∧
    (b < 2 ^ 64 →
      (0 ≤ toInt64 (subU64 (subU64 b a)
          ((Constants.GAP_MIN.getD (classIndex a).toNat []).getD
            (classIndex b).toNat 0)) ↔
        b - a - (Constants.GAP_MIN.getD (classIndex a).toNat []).getD (classIndex b).toNat 0
          < 2 ^ 63)) ∧
    (b < 2 ^ 64 →
      b - a - (Constants.GAP_MIN.getD (classIndex a).toNat []).getD (classIndex b).toNat 0
        < 2 ^ 63 →
      toInt64 (subU64 (subU64 b a)
          ((Constants.GAP_MIN.getD (classIndex a).toNat []).getD (classIndex b).toNat 0)) =
        ((b - a - (Constants.GAP_MIN.getD (classIndex a).toNat []).getD
          (classIndex b).toNat 0 : Nat) : Int) ∧
      0 ≤ toInt64 (subU64 (subU64 b a)
          ((Constants.GAP_MIN.getD (classIndex a).toNat []).getD
            (classIndex b).toNat 0))) ∧
    (∀ (startValue : Nat) (mode : AnalysisMode) (multiThread : Bool) (k : Nat),
      (Worker.new.configure startValue mode multiThread).transitionAt
          ((Worker.new.configure startValue mode multiThread).run k).1 →
        ((Worker.new.configure startValue mode multiThread).run k).1.lastTwinClass =
          classIndex ((Worker.new.configure startValue mode multiThread).run k).1.lastTwinP ∧
        0 ≤ classIndex
          ((Worker.new.configure startValue mode multiThread).run k).1.lastTwinP ∧
        0 ≤ classIndex
          ((Worker.new.configure startValue mode multiThread).run k).1.lastPrime ∧
        (Constants.GAP_MIN.getD
            ((Worker.new.configure startValue mode multiThread).run k).1.lastTwinClass.toNat
            []).getD
          (classIndex
            ((Worker.new.configure startValue mode multiThread).run k).1.lastPrime).toNat 0 ≤
          Worker.twinGapAt ((Worker.new.configure startValue mode multiThread).run k).1 ∧
        0 ≤ Worker.excessAt ((Worker.new.configure startValue mode multiThread).run k).1) ∧
    (∀ (w : Worker) (k : Nat),
      w.m_startN / 210 * 210 + 210 * (k / 48 + 2) ≤ 2 ^ 64 →
      w.transitionAt (w.run k).1 →
      (w.run k).1.lastTwinP < (w.run k).1.lastPrime ∧
        Worker.twinGapAt (w.run k).1 = (w.run k).1.lastPrime - (w.run k).1.lastTwinP) := by
  have key : ∀ a b : Nat, a < b → b < 2 ^ 64 → 0 ≤ classIndex a → 0 ≤ classIndex b →
      subU64 (subU64 b a)
          ((Constants.GAP_MIN.getD (classIndex a).toNat []).getD (classIndex b).toNat 0) =
        b - a - (Constants.GAP_MIN.getD (classIndex a).toNat []).getD
          (classIndex b).toNat 0 := by
    intro a b hab h64 ha hb
    have hg := (gapMin_le_gap a b hab ha hb).1
    have hbU : b < U64 := h64
    rw [subU64_of_le b a (by omega) hbU]
    exact subU64_of_le _ _ hg (by omega)
  obtain ⟨hg, hmod⟩ := gapMin_le_gap a b hab ha hb
  refine ⟨⟨hg, Nat.dvd_of_mod_eq_zero hmod⟩, fun h64 => key a b hab h64 ha hb, ?_, ?_, ?_, ?_⟩
  · intro h64
    rw [key a b hab h64 ha hb]
    constructor
    · intro h0
      by_contra hge
      have := toInt64_of_ge _ (not_lt.mp hge) (by omega)
      omega
    · intro hfit
      exact toInt64_nonneg _ hfit
  · intro h64 hfit
    rw [key a b hab h64 ha hb, toInt64_of_lt _ hfit]
    exact ⟨rfl, Int.natCast_nonneg _⟩
  · intro startValue mode multiThread k ht
    obtain ⟨h1, h2, _, _, h5, h6⟩ :=
      Worker.run_transition_bounds (Worker.new.configure startValue mode multiThread)
        10000000 rfl (by norm_num) (by norm_num) k ht
    exact ⟨h5, h6, ht.1.2.2.2, h2, h1⟩
  · intro w k hk ht
    have hk' : WheelIterator.NoWrap w.m_startN k := hk
    obtain ⟨hlt, hinv⟩ := Worker.run_twin_order w k hk'
    have hcand := (Worker.candidate_order w k hk').2.1
    rcases hinv with h0 | ⟨i1, _, _⟩
    · exact absurd h0 ht.2.1
    · refine ⟨i1, ?_⟩
      unfold Worker.twinGapAt
      exact subU64_of_le _ _ (by omega) (by omega)

theorem excess_never_negative_witness :
    11 < 17 ∧ 0 ≤ classIndex 11 ∧ 0 ≤ classIndex 17 ∧
      ((Constants.GAP_MIN.getD (classIndex 11).toNat []).getD (classIndex 17).toNat 0
          ≤ 17 - 11 ∧
        30 ∣ 17 - 11 - (Constants.GAP_MIN.getD (classIndex 11).toNat []).getD
          (classIndex 17).toNat 0) :=
  ⟨by decide, by decide, by decide,
    (excess_never_negative 11 17 (by decide) (by decide) (by decide)).1⟩
